import Mathlib

/-!
# QtOrm metadata resolution engine

A shallow embedding of `src/orm/qormmetadatacache.cpp` (annotation parser, property
mapping descriptor builder, metadata cache) together with the parts of
`qormmetadata.cpp` and `qormpropertymapping.cpp` it relies on.

Modelling conventions

* `QString`, `QByteArray` and `const char*` are lists of characters; conversions between
  them (`fromUtf8`, `toUtf8`) are the identity.  `QChar::isUpper`, `QString::toLower`
  and `qstricmp` are the ASCII functions of `Char`.
* The Qt meta-object system is input data: `QMetaObject`, `QMetaProperty`, `QMetaMethod`
  and `QMetaClassInfo` are records holding what the accessors used by the code return,
  and the `QMetaType` database is a finite list of registered types.
* `qFatal` terminates the process; it is the result `Res.fatal`.  The exception thrown by
  `std::unordered_map::at` is `Fatal.outOfRange`.  `Q_ASSERT` is not part of the control
  flow (release semantics).
* References and pointers into `m_cache` (a `std::unordered_map`, whose elements never move
  and are never erased) are the keys of the entries they point to.
* `QHash`, `QSet` and `std::unordered_map` are lists in insertion order.  Their iteration
  order, unspecified in Qt, only decides which of several fatal errors
  `validateCrossReferences` reports first.
* Recursion of `get` through `initialize` and `mappingDescriptor` is bounded by a fuel
  argument; running out of fuel is the separate result `Res.outOfFuel`.  The keyword loops
  of the parsers carry a fuel argument as well.
-/

namespace QtOrm

abbrev QString := List Char
abbrev QByteArray := List Char

/-- The keys of `QOrmUserMetadata` (`QOrm::Keyword`). -/
inductive Keyword where
  | Table | Schema | Column | Identity | Transient | Autogenerated | Property
  deriving DecidableEq, Repr

/-- The two kinds of `QVariant` the engine stores, plus the invalid variant. -/
inductive QVariant where
  | invalid
  | string (s : QString)
  | bool (b : Bool)
  deriving DecidableEq, Repr

def QVariant.toString : QVariant → QString
  | .invalid => []
  | .string s => s
  | .bool true => "true".toList
  | .bool false => "false".toList

def QVariant.toBool : QVariant → Bool
  | .invalid => false
  | .bool b => b
  | .string s =>
    !(s.isEmpty || s.map Char.toLower == "false".toList || s == "0".toList)

/-- `QOrmUserMetadata` is `QHash<QOrm::Keyword, QVariant>`: one optional value per keyword. -/
structure QOrmUserMetadata where
  table : Option QVariant := none
  schema : Option QVariant := none
  column : Option QVariant := none
  identity : Option QVariant := none
  transient : Option QVariant := none
  autogenerated : Option QVariant := none
  property : Option QVariant := none
  deriving DecidableEq, Repr

namespace QOrmUserMetadata

def find (m : QOrmUserMetadata) : Keyword → Option QVariant
  | .Table => m.table
  | .Schema => m.schema
  | .Column => m.column
  | .Identity => m.identity
  | .Transient => m.transient
  | .Autogenerated => m.autogenerated
  | .Property => m.property

def insert (m : QOrmUserMetadata) (k : Keyword) (v : QVariant) : QOrmUserMetadata :=
  match k with
  | .Table => { m with table := some v }
  | .Schema => { m with schema := some v }
  | .Column => { m with column := some v }
  | .Identity => { m with identity := some v }
  | .Transient => { m with transient := some v }
  | .Autogenerated => { m with autogenerated := some v }
  | .Property => { m with property := some v }

def contains (m : QOrmUserMetadata) (k : Keyword) : Bool := (m.find k).isSome

def value (m : QOrmUserMetadata) (k : Keyword) (dflt : QVariant) : QVariant :=
  (m.find k).getD dflt

def isEmpty (m : QOrmUserMetadata) : Bool :=
  m.table.isNone && m.schema.isNone && m.column.isNone && m.identity.isNone &&
    m.transient.isNone && m.autogenerated.isNone && m.property.isNone

end QOrmUserMetadata

/-- `QHash<K, V>` and `std::unordered_map<K, V>` as association lists with unique keys. -/
abbrev QHash (K V : Type) := List (K × V)

namespace QHash

variable {K V : Type} [DecidableEq K]

def find (k : K) : QHash K V → Option V
  | [] => none
  | (k', v) :: rest => if k' = k then some v else find k rest

def contains (h : QHash K V) (k : K) : Bool := (find k h).isSome

/-- `QHash::insert`: replaces the value of an existing key. -/
def insert (k : K) (v : V) : QHash K V → QHash K V
  | [] => [(k, v)]
  | (k', v') :: rest => if k' = k then (k, v) :: rest else (k', v') :: insert k v rest

/-- `std::unordered_map::emplace`: does nothing when the key is present. -/
def emplace (k : K) (v : V) (h : QHash K V) : QHash K V :=
  if h.contains k then h else h ++ [(k, v)]

def value (h : QHash K V) (k : K) (dflt : V) : V := (find k h).getD dflt

def keys (h : QHash K V) : List K := h.map Prod.fst

/-- A write through a pointer to the value stored under `k`. -/
def modify (k : K) (f : V → V) : QHash K V → QHash K V
  | [] => []
  | (k', v) :: rest => if k' = k then (k', f v) :: rest else (k', v) :: modify k f rest

end QHash

/-- `QSet<T>` as a list without duplicates. -/
abbrev QSet (T : Type) := List T

namespace QSet

variable {T : Type} [DecidableEq T]

def insert (x : T) (s : QSet T) : QSet T := if x ∈ s then s else s ++ [x]

def remove (x : T) (s : QSet T) : QSet T := s.filter (fun y => y ≠ x)

def empty (s : QSet T) : Bool := s.isEmpty

end QSet

/-! ## The introspection surface (Qt meta-object system) -/

/-- Values of `QVariant::Type` used by the engine. -/
abbrev QVariantType := Nat
def QVariantType.Invalid : QVariantType := 0
def QVariantType.Int : QVariantType := 2
def QVariantType.UserType : QVariantType := 1024

/-- The id `QMetaType::UnknownType`. -/
def QMetaType.UnknownType : Nat := 0

structure QMetaProperty where
  name : QByteArray
  typeName : QByteArray
  type : QVariantType
  userType : Nat
  isStored : Bool := true
  isReadable : Bool := true
  isWritable : Bool := true
  hasNotifySignal : Bool := true
  notifySignalIsValid : Bool := true
  /-- Whether `enclosingMetaObject() == &QObject::staticMetaObject`. -/
  enclosedByQObject : Bool := false
  deriving DecidableEq, Repr

inductive Access where
  | Private | Protected | Public
  deriving DecidableEq, Repr

structure QMetaMethod where
  access : Access
  parameterTypes : List QByteArray
  deriving DecidableEq, Repr

def QMetaMethod.parameterCount (m : QMetaMethod) : Nat := m.parameterTypes.length

structure QMetaClassInfo where
  name : QByteArray
  value : QByteArray
  deriving DecidableEq, Repr

structure QMetaObject where
  className : QByteArray
  classInfos : List QMetaClassInfo := []
  properties : List QMetaProperty := []
  constructors : List QMetaMethod := []
  deriving DecidableEq, Repr

/-- The two `QMetaType::TypeFlag`s the engine tests. -/
structure TypeFlags where
  pointerToQObject : Bool := false
  isEnumeration : Bool := false
  deriving DecidableEq, Repr

/-- One registered meta type: its name, flags, and meta object (for pointers to
`QObject` subclasses). -/
structure MetaTypeInfo where
  typeName : QByteArray
  flags : TypeFlags := {}
  metaObject : Option QMetaObject := none
  deriving DecidableEq, Repr

/-- The `QMetaType` database: the registered types; the id of a type is its position
plus one, `0` being `QMetaType::UnknownType`. -/
abbrev MetaTypeRegistry := List MetaTypeInfo

/-- `QMetaType::type(typeName)`. -/
def QMetaType.type : MetaTypeRegistry → QByteArray → Nat
  | [], _ => QMetaType.UnknownType
  | e :: es, n =>
    if e.typeName = n then 1
    else match QMetaType.type es n with
      | 0 => 0
      | i + 1 => i + 2

/-- `QMetaType::typeFlags(id)`. -/
def QMetaType.typeFlags (reg : MetaTypeRegistry) : Nat → TypeFlags
  | 0 => {}
  | i + 1 => match reg.get? i with
    | some e => e.flags
    | none => {}

/-- `QMetaType::metaObjectForType(id)`. -/
def QMetaType.metaObjectForType (reg : MetaTypeRegistry) : Nat → Option QMetaObject
  | 0 => none
  | i + 1 => match reg.get? i with
    | some e => e.metaObject
    | none => none

/-! ## Results -/

/-- The `qFatal` sites of the engine (and the `std::out_of_range` of `m_cache.at`). -/
inductive Fatal where
  | classMustBeginWithKeyword
  | tableRequiresString
  | schemaRequiresString
  | noKeywordInProperty
  | noCorrespondingProperty
  | columnRequiresString
  | syntaxAfterIdentity
  | syntaxAfterTransient
  | syntaxAfterAutogenerated
  | duplicateClassInfo
  | undefinedPropertyName
  | duplicatePropertyInfo
  | missingReadWriteNotify
  | transientAndIdentity
  | autogeneratedWithoutIdentity
  | unregisteredType
  | cannotDeduceEntity
  | invalidConstructor
  | missingBackReference
  | missingObjectId
  | outOfRange
  deriving DecidableEq, Repr

inductive Res (α : Type) where
  | ok (a : α)
  | fatal (e : Fatal)
  | outOfFuel
  deriving DecidableEq, Repr

/-! ## Annotation parser -/

structure KeywordDescriptor where
  id : Keyword
  token : QString
  deriving DecidableEq, Repr

/-- A `KeywordPosition` is either `{-1, nullptr}` (`none`) or a position with the keyword
found there. -/
abbrev KeywordPosition := Option (Nat × KeywordDescriptor)

def ClassKeywords : List KeywordDescriptor :=
  [⟨.Table, "TABLE".toList⟩, ⟨.Schema, "SCHEMA".toList⟩]

def PropertyKeywords : List KeywordDescriptor :=
  [⟨.Column, "COLUMN".toList⟩, ⟨.Identity, "IDENTITY".toList⟩,
   ⟨.Transient, "TRANSIENT".toList⟩, ⟨.Autogenerated, "AUTOGENERATED".toList⟩]

/-- `QString::mid(pos, len)`. -/
def mid (data : QString) (pos len : Nat) : QString := (data.drop pos).take len

/-- The loop of `findNextKeyword`; `rest` is `data` from index `i` on, so that
`data.midRef(i, n)` is `rest.take n`. -/
def findNextKeywordFrom (keywordDescriptors : List KeywordDescriptor) :
    QString → Nat → KeywordPosition
  | [], _ => none
  | c :: rest, i =>
    if c.isUpper then
      match keywordDescriptors.find? (fun it => (c :: rest).take it.token.length == it.token) with
      | some it => some (i, it)
      | none => findNextKeywordFrom keywordDescriptors rest (i + 1)
    else findNextKeywordFrom keywordDescriptors rest (i + 1)

def findNextKeyword (data : QString) (startFrom : Nat)
    (keywordDescriptors : List KeywordDescriptor) : KeywordPosition :=
  findNextKeywordFrom keywordDescriptors (data.drop startFrom) startFrom

structure ExtractResult (T : Type) where
  value : T
  nextKeyword : KeywordPosition

def extractString (data : QString) (pos : Nat) (keywordDescriptors : List KeywordDescriptor) :
    ExtractResult QString :=
  let nextKeyword := findNextKeyword data pos keywordDescriptors
  let len := match nextKeyword with
    | none => data.length - pos
    | some (p, _) => p - pos
  ⟨mid data pos len, nextKeyword⟩

def extractBoolean (data : QString) (pos : Nat) (keywordDescriptors : List KeywordDescriptor) :
    Option (ExtractResult (Option Bool)) :=
  let r := extractString data pos keywordDescriptors
  if r.value = "true".toList then some ⟨some true, r.nextKeyword⟩
  else if r.value = "false".toList then some ⟨some false, r.nextKeyword⟩
  else if r.value.isEmpty then some ⟨none, r.nextKeyword⟩
  else none

/-- The `while (keywordPosition.pos != -1)` loop of `extractClassInfo`. -/
def extractClassInfoLoop (data : QString) :
    Nat → KeywordPosition → QOrmUserMetadata → Res QOrmUserMetadata
  | _, none, ormClassInfo => .ok ormClassInfo
  | 0, some _, _ => .outOfFuel
  | fuel + 1, some (kpos, keyword), ormClassInfo =>
    let pos := kpos + keyword.token.length
    if keyword.id = Keyword.Table then
      let extractResult := extractString data pos ClassKeywords
      let tableName := extractResult.value
      if !tableName.isEmpty then
        extractClassInfoLoop data fuel extractResult.nextKeyword
          (ormClassInfo.insert .Table (.string tableName))
      else .fatal .tableRequiresString
    else if keyword.id = Keyword.Schema then
      let extractResult := extractString data pos ClassKeywords
      let schemaMode := extractResult.value
      if !schemaMode.isEmpty then
        extractClassInfoLoop data fuel extractResult.nextKeyword
          (ormClassInfo.insert .Schema (.string schemaMode))
      else .fatal .schemaRequiresString
    else extractClassInfoLoop data fuel (some (kpos, keyword)) ormClassInfo

def extractClassInfo (_qMetaObject : QMetaObject) (data : QString) : Res QOrmUserMetadata :=
  let keywordPosition := findNextKeyword data 0 ClassKeywords
  match keywordPosition with
  | some (0, _) => extractClassInfoLoop data (data.length + 1) keywordPosition {}
  | _ => .fatal .classMustBeginWithKeyword

/-- The `while (keywordPosition.pos != -1)` loop of `extractPropertyInfo`. -/
def extractPropertyInfoLoop (data : QString) :
    Nat → KeywordPosition → QOrmUserMetadata → Res QOrmUserMetadata
  | _, none, ormPropertyInfo => .ok ormPropertyInfo
  | 0, some _, _ => .outOfFuel
  | fuel + 1, some (kpos, keyword), ormPropertyInfo =>
    let pos := kpos + keyword.token.length
    if keyword.id = Keyword.Column then
      let extractResult := extractString data pos PropertyKeywords
      let columnName := extractResult.value
      if !columnName.isEmpty then
        extractPropertyInfoLoop data fuel extractResult.nextKeyword
          (ormPropertyInfo.insert .Column (.string columnName))
      else .fatal .columnRequiresString
    else if keyword.id = Keyword.Identity then
      match extractBoolean data pos PropertyKeywords with
      | none => .fatal .syntaxAfterIdentity
      | some extractResult =>
        extractPropertyInfoLoop data fuel extractResult.nextKeyword
          (ormPropertyInfo.insert .Identity (.bool (extractResult.value.getD true)))
    else if keyword.id = Keyword.Transient then
      match extractBoolean data pos PropertyKeywords with
      | none => .fatal .syntaxAfterTransient
      | some extractResult =>
        extractPropertyInfoLoop data fuel extractResult.nextKeyword
          (ormPropertyInfo.insert .Transient (.bool (extractResult.value.getD true)))
    else if keyword.id = Keyword.Autogenerated then
      match extractBoolean data pos PropertyKeywords with
      | none => .fatal .syntaxAfterAutogenerated
      | some extractResult =>
        extractPropertyInfoLoop data fuel extractResult.nextKeyword
          (ormPropertyInfo.insert .Autogenerated (.bool (extractResult.value.getD true)))
    else extractPropertyInfoLoop data fuel (some (kpos, keyword)) ormPropertyInfo

def extractPropertyInfo (qMetaObject : QMetaObject) (data : QString) : Res QOrmUserMetadata :=
  match findNextKeyword data 0 PropertyKeywords with
  | none => .fatal .noKeywordInProperty
  | some (kpos, keyword) =>
    let propertyName := mid data 0 kpos
    let ormPropertyInfo := ({} : QOrmUserMetadata).insert .Property (.string propertyName)
    if qMetaObject.properties.all (fun p => p.name ≠ propertyName) then
      .fatal .noCorrespondingProperty
    else
      extractPropertyInfoLoop data (data.length + 1) (some (kpos, keyword)) ormPropertyInfo

/-! ## Metadata records -/

/-- The members of `QOrmPropertyMappingPrivate`; the enclosing and the referenced entity
are the keys of their records in the cache. -/
structure QOrmPropertyMapping where
  enclosingEntity : QByteArray
  qMetaProperty : QMetaProperty
  classPropertyName : QString
  tableFieldName : QString
  isObjectId : Bool
  isAutogenerated : Bool
  dataType : QVariantType
  referencedEntity : Option QByteArray
  isTransient : Bool
  userMetadata : QOrmUserMetadata
  deriving DecidableEq, Repr

def QOrmPropertyMapping.isReference (m : QOrmPropertyMapping) : Bool :=
  m.referencedEntity.isSome

/-- The members of `QOrmMetadataPrivate` as `initialize` uses them. -/
structure QOrmMetadataPrivate where
  m_qMetaObject : QMetaObject
  m_className : QString
  m_tableName : QString
  m_propertyMappings : List QOrmPropertyMapping
  m_userMetadata : QOrmUserMetadata
  m_objectIdPropertyMappingIdx : Int
  m_classPropertyMappingIndex : QHash QString Int
  m_tableFieldMappingIndex : QHash QString Int
  deriving DecidableEq, Repr

/-- Modelled from the spec: the one-argument constructor `QOrmMetadataPrivate{qMetaObject}`
declared in `qormmetadata_p.h`, which builds the placeholder record inserted into the cache
before the properties are resolved: it keeps the meta object, every other member has its
default value and the identity index is `-1`. -/
def QOrmMetadataPrivate.placeholder (qMetaObject : QMetaObject) : QOrmMetadataPrivate :=
  { m_qMetaObject := qMetaObject
    m_className := []
    m_tableName := []
    m_propertyMappings := []
    m_userMetadata := {}
    m_objectIdPropertyMappingIdx := -1
    m_classPropertyMappingIndex := []
    m_tableFieldMappingIndex := [] }

/-- `QOrmMetadata::objectIdMapping`; `none` is the null pointer. -/
def QOrmMetadataPrivate.objectIdMapping (d : QOrmMetadataPrivate) : Option QOrmPropertyMapping :=
  if d.m_objectIdPropertyMappingIdx = -1 then none
  else d.m_propertyMappings.get? d.m_objectIdPropertyMappingIdx.toNat

/-- `QOrmMetadata::classPropertyMapping`. -/
def QOrmMetadataPrivate.classPropertyMapping (d : QOrmMetadataPrivate) (classProperty : QString) :
    Option QOrmPropertyMapping :=
  match QHash.find classProperty d.m_classPropertyMappingIndex with
  | none => none
  | some idx => d.m_propertyMappings.get? idx.toNat

/-- `QOrmMetadata::tableFieldMapping`. -/
def QOrmMetadataPrivate.tableFieldMapping (d : QOrmMetadataPrivate) (fieldName : QString) :
    Option QOrmPropertyMapping :=
  match QHash.find fieldName d.m_tableFieldMappingIndex with
  | none => none
  | some idx => d.m_propertyMappings.get? idx.toNat

/-! ## Metadata cache -/

structure MappingDescriptor where
  classPropertyName : QString := []
  tableFieldName : QString := []
  isObjectId : Bool := false
  isAutogenerated : Bool := false
  referencedEntity : Option QByteArray := none
  isTransient : Bool := false
  isEnumeration : Bool := false
  dataType : QVariantType := QVariantType.Invalid
  deriving DecidableEq, Repr

structure QOrmMetadataCachePrivate where
  m_cache : QHash QByteArray QOrmMetadataPrivate := []
  m_underConstruction : QSet QByteArray := []
  m_constructed : QSet QByteArray := []
  deriving DecidableEq, Repr

/-- The signature of `get`, through which `mappingDescriptor` recurses: the returned
reference is the key of the record. -/
abbrev Getter := QOrmMetadataCachePrivate → QMetaObject → Res (QByteArray × QOrmMetadataCachePrivate)

def aggregatePrefixes : List QByteArray := ["QVector<".toList, "QSet<".toList]

/-- The loop over `aggregatePrefixes`: strips the first prefix that `typeName` starts with. -/
def stripAggregate : List QByteArray → QByteArray → QByteArray
  | [], typeName => typeName
  | pre :: rest, typeName =>
    if pre.isPrefixOf typeName then typeName.drop pre.length
    else stripAggregate rest typeName

/-- `QByteArray::chop(n)`. -/
def chop (s : QByteArray) (n : Nat) : QByteArray := s.take (s.length - n)

/-- `qstricmp(a, b) == 0`. -/
def qstricmpEq (a b : QByteArray) : Bool := a.map Char.toLower == b.map Char.toLower

def toLower (s : QString) : QString := s.map Char.toLower

/-- The first part of `mappingDescriptor` (the defaults, their overrides by the user
metadata, and the initialisation of `descriptor`). -/
def baseDescriptor (property : QMetaProperty) (userPropertyMetadata : QOrmUserMetadata) :
    MappingDescriptor :=
  let tableFieldName0 := toLower property.name
  let isObjectId0 := qstricmpEq property.name "id".toList
  let isAutogenerated0 := isObjectId0
  let isTransient0 := !property.isStored
  let tableFieldName :=
    if userPropertyMetadata.contains .Column then
      (userPropertyMetadata.value .Column .invalid).toString
    else tableFieldName0
  let isObjectId :=
    if userPropertyMetadata.contains .Identity then
      (userPropertyMetadata.value .Identity .invalid).toBool
    else isObjectId0
  let isAutogenerated :=
    if userPropertyMetadata.contains .Autogenerated then
      (userPropertyMetadata.value .Autogenerated .invalid).toBool
    else isAutogenerated0
  let isTransient :=
    if userPropertyMetadata.contains .Transient then
      (userPropertyMetadata.value .Transient .invalid).toBool
    else isTransient0
  { classPropertyName := property.name
    tableFieldName := tableFieldName
    isObjectId := isObjectId
    isAutogenerated := isAutogenerated
    isTransient := isTransient
    dataType := property.type }

/-- Whether `typeName`, after the aggregate prefix is stripped, ends with `*>`. -/
def endsWithPointerBracket (property : QMetaProperty) : Bool :=
  "*>".toList.isSuffixOf (stripAggregate aggregatePrefixes property.typeName)

/-- The local `typeName` of `mappingDescriptor` when the unregistered-type check is reached:
the aggregate prefix is stripped and a closing `>` after `*` is chopped. -/
def referencedTypeName (property : QMetaProperty) : QByteArray :=
  if endsWithPointerBracket property then
    chop (stripAggregate aggregatePrefixes property.typeName) 1
  else stripAggregate aggregatePrefixes property.typeName

/-- The effect of the `if (typeName.endsWith("*>"))` statement on `descriptor`. -/
def containerDescriptor (property : QMetaProperty) (descriptor : MappingDescriptor) :
    MappingDescriptor :=
  if endsWithPointerBracket property then
    { descriptor with tableFieldName := [], isTransient := true }
  else { descriptor with isTransient := false }

/-- The effect of the `_id` statement on `descriptor`. -/
def withIdSuffix (userPropertyMetadata : QOrmUserMetadata) (descriptor : MappingDescriptor) :
    MappingDescriptor :=
  if !userPropertyMetadata.contains .Column && !descriptor.isTransient then
    { descriptor with tableFieldName := descriptor.tableFieldName ++ "_id".toList }
  else descriptor

def QOrmMetadataCachePrivate.mappingDescriptor (reg : MetaTypeRegistry) (get : Getter)
    (self : QOrmMetadataCachePrivate) (_qMetaObject : QMetaObject) (property : QMetaProperty)
    (userPropertyMetadata : QOrmUserMetadata) : Res (MappingDescriptor × QOrmMetadataCachePrivate) :=
  let descriptor := baseDescriptor property userPropertyMetadata
  if property.type = QVariantType.UserType then
    let typeName := referencedTypeName property
    let descriptor1 := containerDescriptor property descriptor
    if property.userType = QMetaType.UnknownType then .fatal .unregisteredType
    else
      let flags := QMetaType.typeFlags reg (QMetaType.type reg typeName)
      if flags.pointerToQObject then
        match QMetaType.metaObjectForType reg (QMetaType.type reg typeName) with
        | none => .fatal .cannotDeduceEntity
        | some referencedMeta =>
          match get self referencedMeta with
          | .fatal e => .fatal e
          | .outOfFuel => .outOfFuel
          | .ok (ref, self1) =>
            .ok ({ withIdSuffix userPropertyMetadata descriptor1 with
                   referencedEntity := some ref }, self1)
      else if flags.isEnumeration then
        .ok ({ descriptor1 with isEnumeration := true, dataType := QVariantType.Int }, self)
      else .ok (descriptor1, self)
  else .ok (descriptor, self)

/-- The loop body of `validateConstructor`, run while `!hasError`. -/
def validateConstructorLoop : List QMetaMethod → Bool
  | [] => false
  | ctor :: rest =>
    let hasError := (ctor.access != Access.Public) || (ctor.parameterCount > 1) ||
      (ctor.parameterCount == 1 && ctor.parameterTypes.head? != some "QObject*".toList)
    if hasError then true else validateConstructorLoop rest

def QOrmMetadataCachePrivate.validateConstructor (qMetaObject : QMetaObject) : Res Unit :=
  let hasError :=
    if qMetaObject.constructors.length = 0 then true
    else validateConstructorLoop qMetaObject.constructors
  if hasError then .fatal .invalidConstructor else .ok ()

/-- The first loop of `initialize`, over the class-info entries of the meta object. -/
def initializeClassInfos (qMetaObject : QMetaObject) :
    List QMetaClassInfo → QOrmUserMetadata → QHash QString QOrmUserMetadata →
      Res (QOrmUserMetadata × QHash QString QOrmUserMetadata)
  | [], ormClassInfo, ormPropertyInfo => .ok (ormClassInfo, ormPropertyInfo)
  | qtClassInfo :: rest, ormClassInfo, ormPropertyInfo =>
    if qtClassInfo.name = "QtOrmClassInfo".toList then
      if !ormClassInfo.isEmpty then .fatal .duplicateClassInfo
      else
        match extractClassInfo qMetaObject qtClassInfo.value with
        | .fatal e => .fatal e
        | .outOfFuel => .outOfFuel
        | .ok ormClassInfo1 => initializeClassInfos qMetaObject rest ormClassInfo1 ormPropertyInfo
    else if qtClassInfo.name = "QtOrmPropertyInfo".toList then
      match extractPropertyInfo qMetaObject qtClassInfo.value with
      | .fatal e => .fatal e
      | .outOfFuel => .outOfFuel
      | .ok propertyInfo =>
        let propertyName := (propertyInfo.value .Property (.string [])).toString
        if propertyName.isEmpty then .fatal .undefinedPropertyName
        else if QHash.contains ormPropertyInfo propertyName then .fatal .duplicatePropertyInfo
        else
          initializeClassInfos qMetaObject rest ormClassInfo
            (QHash.insert propertyName propertyInfo ormPropertyInfo)
    else initializeClassInfos qMetaObject rest ormClassInfo ormPropertyInfo

/-- The `QOrmPropertyMapping` constructed by the `emplace_back` of `initialize`. -/
def newMapping (className : QByteArray) (property : QMetaProperty)
    (descriptor : MappingDescriptor) (userPropertyMetadata : QOrmUserMetadata) :
    QOrmPropertyMapping :=
  { enclosingEntity := className
    qMetaProperty := property
    classPropertyName := descriptor.classPropertyName
    tableFieldName := descriptor.tableFieldName
    isObjectId := descriptor.isObjectId
    isAutogenerated := descriptor.isAutogenerated
    dataType := descriptor.dataType
    referencedEntity := descriptor.referencedEntity
    isTransient := descriptor.isTransient
    userMetadata := userPropertyMetadata }

/-- The `emplace_back` of `initialize` with the index updates that follow it, as a write to
the record `data`. -/
def appendMapping (data : QOrmMetadataPrivate) (className : QByteArray)
    (property : QMetaProperty) (descriptor : MappingDescriptor)
    (userPropertyMetadata : QOrmUserMetadata) : QOrmMetadataPrivate :=
  let mappings :=
    data.m_propertyMappings ++ [newMapping className property descriptor userPropertyMetadata]
  let idx : Int := (mappings.length : Int) - 1
  { data with
    m_propertyMappings := mappings
    m_classPropertyMappingIndex :=
      QHash.insert descriptor.classPropertyName idx data.m_classPropertyMappingIndex
    m_tableFieldMappingIndex :=
      QHash.insert descriptor.tableFieldName idx data.m_tableFieldMappingIndex
    m_objectIdPropertyMappingIdx :=
      if descriptor.isObjectId then idx else data.m_objectIdPropertyMappingIdx }

/-- The state after the `emplace_back` and the index updates: `*data` is the record that the
cache holds for `className`. -/
def mappingAppended (self : QOrmMetadataCachePrivate) (className : QByteArray)
    (property : QMetaProperty) (descriptor : MappingDescriptor)
    (userPropertyMetadata : QOrmUserMetadata) : QOrmMetadataCachePrivate :=
  { self with
    m_cache := QHash.modify className
      (fun data => appendMapping data className property descriptor userPropertyMetadata)
      self.m_cache }

/-- The second loop of `initialize`, over the properties of the meta object.  The record
`*data` is the entry of `className` in the cache. -/
def initializeProperties (reg : MetaTypeRegistry) (get : Getter) (className : QByteArray)
    (qMetaObject : QMetaObject) (ormPropertyInfo : QHash QString QOrmUserMetadata) :
    List QMetaProperty → QOrmMetadataCachePrivate → Res QOrmMetadataCachePrivate
  | [], self => .ok self
  | property :: rest, self =>
    if property.enclosedByQObject then
      initializeProperties reg get className qMetaObject ormPropertyInfo rest self
    else
      let propertyName := property.name
      let userPropertyMetadata := QHash.value ormPropertyInfo propertyName {}
      match QOrmMetadataCachePrivate.mappingDescriptor reg get self qMetaObject property
          userPropertyMetadata with
      | .fatal e => .fatal e
      | .outOfFuel => .outOfFuel
      | .ok (descriptor, self1) =>
        if !descriptor.isTransient &&
            (!property.isReadable || !property.isWritable || !property.hasNotifySignal ||
              !property.notifySignalIsValid) then
          .fatal .missingReadWriteNotify
        else if descriptor.isTransient && descriptor.isObjectId then
          .fatal .transientAndIdentity
        else if descriptor.isAutogenerated && !descriptor.isObjectId then
          .fatal .autogeneratedWithoutIdentity
        else
          match QHash.find className self1.m_cache with
          | none => .fatal .outOfRange
          | some _ =>
            let self2 := mappingAppended self1 className property descriptor userPropertyMetadata
            initializeProperties reg get className qMetaObject ormPropertyInfo rest self2

/-- The body of the inner loop of `validateCrossReferences` for one mapping.
`objectIdMapping() == nullptr` holds exactly when the identity index is `-1`. -/
def validateMapping (self : QOrmMetadataCachePrivate) (entityClassName : QByteArray)
    (mapping : QOrmPropertyMapping) : Res Unit :=
  match mapping.referencedEntity with
  | none => .ok ()
  | some ref =>
    match QHash.find ref self.m_cache with
    | none => .fatal .outOfRange
    | some referenced =>
      if mapping.isTransient then
        if referenced.m_propertyMappings.any (fun m =>
            match m.referencedEntity with
            | none => false
            | some r =>
              match QHash.find r self.m_cache with
              | none => false
              | some target => target.m_className == entityClassName) then .ok ()
        else .fatal .missingBackReference
      else if referenced.m_objectIdPropertyMappingIdx = -1 then .fatal .missingObjectId
      else .ok ()

def validateMappings (self : QOrmMetadataCachePrivate) (entityClassName : QByteArray) :
    List QOrmPropertyMapping → Res Unit
  | [] => .ok ()
  | mapping :: rest =>
    match validateMapping self entityClassName mapping with
    | .ok () => validateMappings self entityClassName rest
    | r => r

def QOrmMetadataCachePrivate.validateCrossReferences (self : QOrmMetadataCachePrivate) :
    List QByteArray → Res Unit
  | [] => .ok ()
  | entityClassName :: rest =>
    match QHash.find entityClassName self.m_cache with
    | none => .fatal .outOfRange
    | some entity =>
      match validateMappings self entityClassName entity.m_propertyMappings with
      | .ok () => QOrmMetadataCachePrivate.validateCrossReferences self rest
      | r => r

/-- The state of `initialize` once the placeholder is cached: `className` is under
construction and `m_cache.emplace(className, QOrmMetadata{data})` has run. -/
def placeholderCached (self : QOrmMetadataCachePrivate) (className : QByteArray)
    (qMetaObject : QMetaObject) : QOrmMetadataCachePrivate :=
  { self with
    m_underConstruction := QSet.insert className self.m_underConstruction
    m_cache := QHash.emplace className (QOrmMetadataPrivate.placeholder qMetaObject) self.m_cache }

/-- The writes to `data->m_className`, `data->m_tableName` and `data->m_userMetadata`. -/
def classDataSet (self : QOrmMetadataCachePrivate) (className : QByteArray)
    (qMetaObject : QMetaObject) (ormClassInfo : QOrmUserMetadata) : QOrmMetadataCachePrivate :=
  { self with
    m_cache := QHash.modify className
      (fun data => { data with
        m_className := qMetaObject.className
        m_tableName := (ormClassInfo.value .Table (.string qMetaObject.className)).toString
        m_userMetadata := ormClassInfo })
      self.m_cache }

/-- The two set updates at the end of `initialize`. -/
def markConstructed (self : QOrmMetadataCachePrivate) (className : QByteArray) :
    QOrmMetadataCachePrivate :=
  { self with
    m_underConstruction := QSet.remove className self.m_underConstruction
    m_constructed := QSet.insert className self.m_constructed }

/-- `QOrmMetadataCachePrivate::initialize`.  In the source `className` is inserted into
`m_underConstruction` before `validateConstructor` runs; a fatal error leaves no state
behind, so the insertion is part of `placeholderCached` here. -/
def QOrmMetadataCachePrivate.initialize (reg : MetaTypeRegistry) (get : Getter)
    (self : QOrmMetadataCachePrivate) (className : QByteArray) (qMetaObject : QMetaObject) :
    Res QOrmMetadataCachePrivate :=
  match QOrmMetadataCachePrivate.validateConstructor qMetaObject with
  | .fatal e => .fatal e
  | .outOfFuel => .outOfFuel
  | .ok () =>
    let self2 := placeholderCached self className qMetaObject
    match initializeClassInfos qMetaObject qMetaObject.classInfos {} [] with
    | .fatal e => .fatal e
    | .outOfFuel => .outOfFuel
    | .ok (ormClassInfo, ormPropertyInfo) =>
      let self3 := classDataSet self2 className qMetaObject ormClassInfo
      match initializeProperties reg get className qMetaObject ormPropertyInfo
          qMetaObject.properties self3 with
      | .fatal e => .fatal e
      | .outOfFuel => .outOfFuel
      | .ok self4 =>
        let self5 := markConstructed self4 className
        if QSet.empty self5.m_underConstruction then
          match QOrmMetadataCachePrivate.validateCrossReferences self5 self5.m_constructed with
          | .ok () => .ok self5
          | .fatal e => .fatal e
          | .outOfFuel => .outOfFuel
        else .ok self5

/-- `QOrmMetadataCachePrivate::get`, which `QOrmMetadataCache::operator[]` forwards to.
A cache hit needs no fuel; each level of construction uses one unit. -/
def QOrmMetadataCachePrivate.get (reg : MetaTypeRegistry) :
    Nat → QOrmMetadataCachePrivate → QMetaObject → Res (QByteArray × QOrmMetadataCachePrivate)
  | fuel, self, qMetaObject =>
    let className := qMetaObject.className
    if QHash.contains self.m_cache className then .ok (className, self)
    else
      match fuel with
      | 0 => .outOfFuel
      | fuel1 + 1 =>
        match QOrmMetadataCachePrivate.initialize reg
            ( QOrmMetadataCachePrivate.get reg fuel1) self className qMetaObject with
        | .fatal e => .fatal e
        | .outOfFuel => .outOfFuel
        | .ok self1 =>
          if QHash.contains self1.m_cache className then .ok (className, self1)
          else .fatal .outOfRange

/-! ## Predicates on cache states -/

/-- Every entity under construction has its (placeholder) record in the cache. -/
def UcSub (st : QOrmMetadataCachePrivate) : Prop :=
  ∀ x ∈ st.m_underConstruction, QHash.contains st.m_cache x = true

/-- The identity index of a record is `-1` or the position of a mapping that is marked as
the identity. -/
def RecInv (d : QOrmMetadataPrivate) : Prop :=
  d.m_objectIdPropertyMappingIdx = -1 ∨
    (0 ≤ d.m_objectIdPropertyMappingIdx ∧
      ∃ m, d.m_propertyMappings.get? d.m_objectIdPropertyMappingIdx.toNat = some m ∧
        m.isObjectId = true)

def AllRecInv (st : QOrmMetadataCachePrivate) : Prop :=
  ∀ T d, QHash.find T st.m_cache = some d → RecInv d

/-- What a run of the property loop for the entity `c` may change: the record of `c` and
records of entities that were not in the cache. -/
structure Ext (c : QByteArray) (st st' : QOrmMetadataCachePrivate) : Prop where
  frame : ∀ T d, T ≠ c → QHash.find T st.m_cache = some d → QHash.find T st'.m_cache = some d
  keeps : ∀ T, QHash.contains st.m_cache T = true → QHash.contains st'.m_cache T = true
  uc : UcSub st → st'.m_underConstruction = st.m_underConstruction
  inv : AllRecInv st → AllRecInv st'
  con : ∀ x, x ∈ st.m_constructed → x ∈ st'.m_constructed

/-- What a successful call of `get` guarantees about the state it returns. -/
structure GetPost (st : QOrmMetadataCachePrivate) (mo : QMetaObject) (k : QByteArray)
    (st' : QOrmMetadataCachePrivate) : Prop where
  key : k = mo.className
  present : QHash.contains st'.m_cache k = true
  frame : ∀ T d, QHash.find T st.m_cache = some d → QHash.find T st'.m_cache = some d
  uc : UcSub st → st'.m_underConstruction = st.m_underConstruction
  inv : AllRecInv st → AllRecInv st'
  con : ∀ x, x ∈ st.m_constructed → x ∈ st'.m_constructed

def GetterSpec (g : Getter) : Prop :=
  ∀ st mo k st', g st mo = .ok (k, st') → GetPost st mo k st'

/-- The cache states reached from the empty cache by successful top-level calls of `get`
(that is, of `QOrmMetadataCache::operator[]`). -/
inductive Reachable (reg : MetaTypeRegistry) : QOrmMetadataCachePrivate → Prop where
  | empty : Reachable reg {}
  | resolve {st st' : QOrmMetadataCachePrivate} {fuel : Nat} {mo : QMetaObject} {k : QByteArray} :
      Reachable reg st → QOrmMetadataCachePrivate.get reg fuel st mo = .ok (k, st') →
      Reachable reg st'

/-- The cross-reference rules, for every mapping of every fully constructed entity: the
target of a transient reference has a reference mapping whose target is the owner's type,
and the target of a non-transient reference has an identity mapping. -/
def CrossRefsOk (st : QOrmMetadataCachePrivate) : Prop :=
  ∀ e ∈ st.m_constructed, ∃ entity, QHash.find e st.m_cache = some entity ∧
    ∀ m ∈ entity.m_propertyMappings, ∀ r, m.referencedEntity = some r →
      ∃ referenced, QHash.find r st.m_cache = some referenced ∧
        (m.isTransient = true →
          ∃ back ∈ referenced.m_propertyMappings, ∃ r' target,
            back.referencedEntity = some r' ∧ QHash.find r' st.m_cache = some target ∧
              target.m_className = e) ∧
        (m.isTransient = false →
          ∃ idm, referenced.objectIdMapping = some idm ∧ idm.isObjectId = true)

/-- The registered entity types whose record is not in the cache yet: the measure that
bounds the nesting depth of `get`. -/
def pending (reg : MetaTypeRegistry) (st : QOrmMetadataCachePrivate) : Nat :=
  (reg.filter (fun e =>
    match e.metaObject with
    | some mo => !QHash.contains st.m_cache mo.className
    | none => false)).length

/-- The meta objects that `QMetaType::metaObjectForType` can return. -/
def InRegistry (reg : MetaTypeRegistry) (mo : QMetaObject) : Prop :=
  ∃ e ∈ reg, e.metaObject = some mo

/-- A getter that never runs out of fuel on registered entities while at most `n` of them
are pending. -/
def GetterTotal (reg : MetaTypeRegistry) (n : Nat) (g : Getter) : Prop :=
  ∀ st mo, InRegistry reg mo → pending reg st ≤ n → g st mo ≠ .outOfFuel

/-- The getter `g'` agrees with `g` wherever `g` does not run out of fuel. -/
def Refines (g g' : Getter) : Prop :=
  ∀ st mo, g st mo ≠ .outOfFuel → g' st mo = g st mo

/-- The properties for which the property loop of `initialize` builds a mapping. -/
def ownProperties (mo : QMetaObject) : List QMetaProperty :=
  mo.properties.filter (fun p => !p.enclosedByQObject)

/-- The mapping `m` of the entity `c` was built for the property `p`: some call of
`mappingDescriptor` with the user metadata of `p` returned a descriptor that passed the
three checks of `initialize`, and `m` was constructed from it; whatever was cached when the
descriptor was returned is cached in `st'`. -/
def MappingFor (reg : MetaTypeRegistry) (c : QByteArray) (mo : QMetaObject)
    (pi : QHash QString QOrmUserMetadata) (st' : QOrmMetadataCachePrivate)
    (p : QMetaProperty) (m : QOrmPropertyMapping) : Prop :=
  ∃ (g : Getter) (st st1 : QOrmMetadataCachePrivate) (d : MappingDescriptor),
    GetterSpec g ∧
    QOrmMetadataCachePrivate.mappingDescriptor reg g st mo p (QHash.value pi p.name {})
      = .ok (d, st1) ∧
    (d.isTransient = false → p.isReadable = true ∧ p.isWritable = true ∧
      p.hasNotifySignal = true ∧ p.notifySignalIsValid = true) ∧
    ¬ (d.isTransient = true ∧ d.isObjectId = true) ∧
    (d.isAutogenerated = true → d.isObjectId = true) ∧
    m = newMapping c p d (QHash.value pi p.name {}) ∧
    (∀ T, QHash.contains st1.m_cache T = true → QHash.contains st'.m_cache T = true)

/-- A stored property of a built-in type with READ, WRITE and NOTIFY declarations. -/
def PlainProperty (p : QMetaProperty) : Prop :=
  p.type ≠ QVariantType.UserType ∧ p.isStored = true ∧ p.isReadable = true ∧
    p.isWritable = true ∧ p.hasNotifySignal = true ∧ p.notifySignalIsValid = true

/-- The state `st'` differs from `st` at most in the record of `c`. -/
structure SameBut (c : QByteArray) (st st' : QOrmMetadataCachePrivate) : Prop where
  uc : st'.m_underConstruction = st.m_underConstruction
  con : st'.m_constructed = st.m_constructed
  frame : ∀ T, T ≠ c → QHash.find T st'.m_cache = QHash.find T st.m_cache
  keeps : QHash.contains st.m_cache c = true → QHash.contains st'.m_cache c = true

/-- Two otherwise valid entity types `A` and `B` without property-level declarations, where
the property `coll` of `A` has the type `QVector<B*>` and the property `ptr` of `B` has the
type `A*`: the constructors are usable, every other property is a base-class property or a
plain property with full capability, `A` has a plain identity property, and the pointer
types `tA` (`A*`) and `tB` (`B*`) are registered with the meta objects of `A` and `B`. -/
structure CyclicPair (reg : MetaTypeRegistry) (A B : QMetaObject) (coll ptr : QMetaProperty)
    (tA sB : QByteArray) : Prop where
  distinct : A.className ≠ B.className
  ctorA : QOrmMetadataCachePrivate.validateConstructor A = .ok ()
  ctorB : QOrmMetadataCachePrivate.validateConstructor B = .ok ()
  infoA : ∃ ci, initializeClassInfos A A.classInfos {} [] = .ok (ci, [])
  infoB : ∃ ci, initializeClassInfos B B.classInfos {} [] = .ok (ci, [])
  propsA : ∃ pre post, A.properties = pre ++ coll :: post ∧
    ∀ p, p ∈ pre ∨ p ∈ post → p.enclosedByQObject = true ∨ PlainProperty p
  propsB : ∃ pre post, B.properties = pre ++ ptr :: post ∧
    ∀ p, p ∈ pre ∨ p ∈ post → p.enclosedByQObject = true ∨ PlainProperty p
  identityA : ∃ p ∈ ownProperties A, PlainProperty p ∧ qstricmpEq p.name "id".toList = true
  collOwn : coll.enclosedByQObject = false
  collType : coll.type = QVariantType.UserType
  collRegistered : coll.userType ≠ QMetaType.UnknownType
  collName : coll.typeName = "QVector<".toList ++ (sB ++ ['*']) ++ ">".toList
  collNotId : qstricmpEq coll.name "id".toList = false
  ptrOwn : ptr.enclosedByQObject = false
  ptrType : ptr.type = QVariantType.UserType
  ptrRegistered : ptr.userType ≠ QMetaType.UnknownType
  ptrName : ptr.typeName = tA
  ptrDirect : '<' ∉ tA ∧ '>' ∉ tA
  ptrCapable : ptr.isReadable = true ∧ ptr.isWritable = true ∧ ptr.hasNotifySignal = true ∧
    ptr.notifySignalIsValid = true
  registeredA : (QMetaType.typeFlags reg (QMetaType.type reg tA)).pointerToQObject = true ∧
    QMetaType.metaObjectForType reg (QMetaType.type reg tA) = some A
  registeredB :
    (QMetaType.typeFlags reg (QMetaType.type reg (sB ++ ['*']))).pointerToQObject = true ∧
    QMetaType.metaObjectForType reg (QMetaType.type reg (sB ++ ['*'])) = some B

/-! ## Sample entities -/

def Res.toOption {α : Type} : Res α → Option α
  | .ok a => some a
  | _ => none

/-- The state a call of `get` returned (the empty cache if it did not return). -/
def resultState (r : Res (QByteArray × QOrmMetadataCachePrivate)) : QOrmMetadataCachePrivate :=
  match r with
  | .ok (_, st) => st
  | _ => {}

/-- `Q_INVOKABLE explicit T(QObject* parent = nullptr)`. -/
def invokableConstructor : QMetaMethod :=
  { access := .Public, parameterTypes := ["QObject*".toList] }

/-- `Q_PROPERTY(int <name> READ ... WRITE ... NOTIFY ...)`. -/
def intProperty (name : QByteArray) : QMetaProperty :=
  { name := name, typeName := "int".toList, type := QVariantType.Int, userType := 2 }

/-- `Q_PROPERTY(QString <name> READ ... WRITE ... NOTIFY ...)`. -/
def stringProperty (name : QByteArray) : QMetaProperty :=
  { name := name, typeName := "QString".toList, type := 10, userType := 10 }

/-- `Q_PROPERTY(<typeName> <name> READ ... WRITE ... NOTIFY ...)` for a registered user type. -/
def userProperty (name typeName : QByteArray) : QMetaProperty :=
  { name := name, typeName := typeName, type := QVariantType.UserType, userType := 1024 }

/-- The `objectName` property every `QObject` has. -/
def objectNameProperty : QMetaProperty :=
  { name := "objectName".toList, typeName := "QString".toList, type := 10, userType := 10,
    enclosedByQObject := true }

/-- The entity `Province` of `examples/orm/navigationdb/domain/province.h`. -/
def Province : QMetaObject :=
  { className := "Province".toList
    constructors := [invokableConstructor]
    properties := [objectNameProperty, intProperty "id".toList, stringProperty "name".toList] }

/-- An entity with a many-to-one reference to `Province`. -/
def Town : QMetaObject :=
  { className := "Town".toList
    constructors := [invokableConstructor]
    properties := [objectNameProperty, intProperty "id".toList,
      stringProperty "firstName".toList, userProperty "province".toList "Province*".toList] }

/-- An entity `A` with a collection of `B`. -/
def sampleA : QMetaObject :=
  { className := "A".toList
    constructors := [invokableConstructor]
    properties := [objectNameProperty, intProperty "id".toList,
      userProperty "bs".toList "QVector<B*>".toList] }

/-- An entity `B` with a back-reference to `A`. -/
def sampleB : QMetaObject :=
  { className := "B".toList
    constructors := [invokableConstructor]
    properties := [objectNameProperty, intProperty "id".toList,
      userProperty "a".toList "A*".toList] }

def pointerFlags : TypeFlags := { pointerToQObject := true }

/-- The registered pointer types of the sample entities (`qRegisterOrmEntity`). -/
def sampleRegistry : MetaTypeRegistry :=
  [{ typeName := "A*".toList, flags := pointerFlags, metaObject := some sampleA },
   { typeName := "B*".toList, flags := pointerFlags, metaObject := some sampleB },
   { typeName := "Province*".toList, flags := pointerFlags, metaObject := some Province },
   { typeName := "Town*".toList, flags := pointerFlags, metaObject := some Town },
   { typeName := "QVector<B*>".toList },
   { typeName := "QVector<int*>".toList }]

/-- An entity whose identity property is spelled `ID`. -/
def Account : QMetaObject :=
  { className := "Account".toList
    constructors := [invokableConstructor]
    properties := [objectNameProperty, intProperty "ID".toList, stringProperty "name".toList] }

/-- An entity with `Q_ORM_PROPERTY(id IDENTITY false)`. -/
def Tag : QMetaObject :=
  { className := "Tag".toList
    classInfos := [{ name := "QtOrmPropertyInfo".toList, value := "idIDENTITYfalse".toList }]
    constructors := [invokableConstructor]
    properties := [objectNameProperty, intProperty "id".toList, stringProperty "name".toList] }

/-- An entity with `Q_ORM_PROPERTY(id IDENTITY false AUTOGENERATED false)`. -/
def Label : QMetaObject :=
  { className := "Label".toList
    classInfos := [{ name := "QtOrmPropertyInfo".toList,
                     value := "idIDENTITYfalseAUTOGENERATEDfalse".toList }]
    constructors := [invokableConstructor]
    properties := [objectNameProperty, intProperty "id".toList, stringProperty "name".toList] }

/-- The parsed property-level declaration of `Label`. -/
def labelPropertyInfo : QHash QString QOrmUserMetadata :=
  [("id".toList,
    { identity := some (.bool false), autogenerated := some (.bool false),
      property := some (.string "id".toList) })]

/-- An entity with a property of the registered type `QVector<int*>`, a container that
holds no entity references, declared with `Q_ORM_PROPERTY(tags COLUMN tag_list)`. -/
def Gallery : QMetaObject :=
  { className := "Gallery".toList
    classInfos := [{ name := "QtOrmPropertyInfo".toList, value := "tagsCOLUMNtag_list".toList }]
    constructors := [invokableConstructor]
    properties := [objectNameProperty, intProperty "id".toList,
      userProperty "tags".toList "QVector<int*>".toList,
      userProperty "marks".toList "QVector<int*>".toList] }

/-- The parsed property-level declaration of `Gallery`. -/
def galleryPropertyInfo : QHash QString QOrmUserMetadata :=
  [("tags".toList,
    { column := some (.string "tag_list".toList), property := some (.string "tags".toList) })]

/-- An entity with `Q_ORM_PROPERTY(firstName COLUMN given_name)`. -/
def Person : QMetaObject :=
  { className := "Person".toList
    classInfos := [{ name := "QtOrmPropertyInfo".toList,
                     value := "firstNameCOLUMNgiven_name".toList }]
    constructors := [invokableConstructor]
    properties := [objectNameProperty, intProperty "id".toList,
      stringProperty "firstName".toList, stringProperty "lastName".toList] }

/-- The parsed property-level declaration of `Person`. -/
def personPropertyInfo : QHash QString QOrmUserMetadata :=
  [("firstName".toList,
    { column := some (.string "given_name".toList),
      property := some (.string "firstName".toList) })]

/-- The cache after `A` has been resolved on the empty cache. -/
def sampleCache : QOrmMetadataCachePrivate :=
  resultState (QOrmMetadataCachePrivate.get sampleRegistry 2 {} sampleA)

/-- The record of `B` in `sampleCache`. -/
def sampleRecordB : QOrmMetadataPrivate :=
  (QHash.find "B".toList sampleCache.m_cache).getD (QOrmMetadataPrivate.placeholder sampleB)

/-- Every record of the cache satisfies `P`. -/
def AllRecords (P : QOrmMetadataPrivate → Prop) (st : QOrmMetadataCachePrivate) : Prop :=
  ∀ T d, QHash.find T st.m_cache = some d → P d

/-- The property `P` of records holds of the record that `initialize` starts the property
loop with, and is kept by every `emplace_back` (with its index updates) of a descriptor that
passed the checks of `initialize`. -/
structure RecordInvariant (P : QOrmMetadataPrivate → Prop) : Prop where
  start : ∀ (mo : QMetaObject) (ci : QOrmUserMetadata),
    P { QOrmMetadataPrivate.placeholder mo with
        m_className := mo.className
        m_tableName := (ci.value .Table (.string mo.className)).toString
        m_userMetadata := ci }
  step : ∀ (data : QOrmMetadataPrivate) (c : QByteArray) (p : QMetaProperty)
    (d : MappingDescriptor) (umd : QOrmUserMetadata), P data →
    ¬ (d.isTransient = true ∧ d.isObjectId = true) →
    (d.isAutogenerated = true → d.isObjectId = true) →
    P (appendMapping data c p d umd)

/-- A getter that keeps the property `P` of all records. -/
def GetterKeeps (P : QOrmMetadataPrivate → Prop) (g : Getter) : Prop :=
  ∀ st mo k st', g st mo = .ok (k, st') → AllRecords P st → AllRecords P st'

/-- The flag rules of a mapping: autogenerated only with identity, never transient and
identity. -/
def FlagsOk (m : QOrmPropertyMapping) : Prop :=
  (m.isAutogenerated = true → m.isObjectId = true) ∧
    ¬ (m.isTransient = true ∧ m.isObjectId = true)

/-- The mappings of a record that are marked as the identity, in the order of the list. -/
def identityMappings (d : QOrmMetadataPrivate) : List QOrmPropertyMapping :=
  d.m_propertyMappings.filter (fun m => m.isObjectId)

/-- The identity index of a record is `-1` when no mapping is marked as the identity, and
otherwise the position of the last mapping that is. -/
def LastIdentity (d : QOrmMetadataPrivate) : Prop :=
  (d.m_objectIdPropertyMappingIdx = -1 ∧ identityMappings d = []) ∨
    (0 ≤ d.m_objectIdPropertyMappingIdx ∧
      d.m_objectIdPropertyMappingIdx.toNat < d.m_propertyMappings.length ∧
      d.m_propertyMappings.get? d.m_objectIdPropertyMappingIdx.toNat
        = (identityMappings d).getLast?)

/-- An entity with two properties that are both declared as the identity:
`Q_ORM_PROPERTY(code IDENTITY)` and `Q_ORM_PROPERTY(year IDENTITY)`. -/
def Ledger : QMetaObject :=
  { className := "Ledger".toList
    classInfos := [{ name := "QtOrmPropertyInfo".toList, value := "codeIDENTITY".toList },
                   { name := "QtOrmPropertyInfo".toList, value := "yearIDENTITY".toList }]
    constructors := [invokableConstructor]
    properties := [objectNameProperty, stringProperty "code".toList,
      intProperty "year".toList, stringProperty "title".toList] }

/-- The cache after `Ledger` has been resolved on the empty cache. -/
def ledgerCache : QOrmMetadataCachePrivate :=
  resultState (QOrmMetadataCachePrivate.get sampleRegistry 1 {} Ledger)

/-- The record of `Ledger` in `ledgerCache`. -/
def ledgerRecord : QOrmMetadataPrivate :=
  (QHash.find "Ledger".toList ledgerCache.m_cache).getD (QOrmMetadataPrivate.placeholder Ledger)

def enumerationFlags : TypeFlags := { isEnumeration := true }

/-- The sample registry with the enumeration `Shape::Kind` registered as well
(`qRegisterOrmEnum`). -/
def shapeRegistry : MetaTypeRegistry :=
  sampleRegistry ++ [{ typeName := "Shape::Kind".toList, flags := enumerationFlags }]

/-- `Q_PROPERTY(Shape::Kind kind READ ... WRITE ... NOTIFY ...)`. -/
def kindProperty : QMetaProperty := userProperty "kind".toList "Shape::Kind".toList

/-- An entity with a property of an enumeration type, declared `Q_ORM_PROPERTY(kind TRANSIENT)`. -/
def Shape : QMetaObject :=
  { className := "Shape".toList
    classInfos := [{ name := "QtOrmPropertyInfo".toList, value := "kindTRANSIENT".toList }]
    constructors := [invokableConstructor]
    properties := [objectNameProperty, intProperty "id".toList, kindProperty] }

/-- The parsed property-level declaration of `Shape`. -/
def shapePropertyInfo : QHash QString QOrmUserMetadata :=
  [("kind".toList, { transient := some (.bool true), property := some (.string "kind".toList) })]

/-- The cache after `Shape` has been resolved on the empty cache. -/
def shapeCache : QOrmMetadataCachePrivate :=
  resultState (QOrmMetadataCachePrivate.get shapeRegistry 1 {} Shape)

/-- An entity with a property of an enumeration type, declared
`Q_ORM_PROPERTY(kind IDENTITY TRANSIENT)`. -/
def Badge : QMetaObject :=
  { className := "Badge".toList
    classInfos := [{ name := "QtOrmPropertyInfo".toList,
                     value := "kindIDENTITYTRANSIENT".toList }]
    constructors := [invokableConstructor]
    properties := [objectNameProperty, kindProperty, stringProperty "title".toList] }

/-- The parsed property-level declaration of `Badge`. -/
def badgePropertyInfo : QHash QString QOrmUserMetadata :=
  [("kind".toList,
    { identity := some (.bool true), transient := some (.bool true),
      property := some (.string "kind".toList) })]

/-- The cache after `Badge` has been resolved on the empty cache. -/
def badgeCache : QOrmMetadataCachePrivate :=
  resultState (QOrmMetadataCachePrivate.get shapeRegistry 1 {} Badge)

/-- An entity whose property `serial`, of a built-in type, is declared
`Q_ORM_PROPERTY(serial IDENTITY TRANSIENT)`. -/
def Ticket : QMetaObject :=
  { className := "Ticket".toList
    classInfos := [{ name := "QtOrmPropertyInfo".toList,
                     value := "serialIDENTITYTRANSIENT".toList }]
    constructors := [invokableConstructor]
    properties := [objectNameProperty, stringProperty "title".toList,
      intProperty "serial".toList] }

/-- The parsed property-level declaration of `Ticket`. -/
def ticketPropertyInfo : QHash QString QOrmUserMetadata :=
  [("serial".toList,
    { identity := some (.bool true), transient := some (.bool true),
      property := some (.string "serial".toList) })]

/-- The keyword that the inner loop of `findNextKeyword` finds at one index, `rest` being
`data` from that index on: the first descriptor of the table whose token `rest` starts
with. -/
def keywordAt (keywordDescriptors : List KeywordDescriptor) (rest : QString) :
    Option KeywordDescriptor :=
  keywordDescriptors.find? (fun it => rest.take it.token.length == it.token)

/-- Every token of the table starts with an upper-case letter. -/
def UpperTokens (keywordDescriptors : List KeywordDescriptor) : Prop :=
  ∀ it ∈ keywordDescriptors, ∃ c rest, it.token = c :: rest ∧ c.isUpper = true

/-- The loop of `findNextKeyword` with the test `data[i].isUpper()` left out: the inner loop
over the table runs at every index. -/
def findNextKeywordUncheckedFrom (keywordDescriptors : List KeywordDescriptor) :
    QString → Nat → KeywordPosition
  | [], _ => none
  | c :: rest, i =>
    match keywordDescriptors.find? (fun it => (c :: rest).take it.token.length == it.token) with
    | some it => some (i, it)
    | none => findNextKeywordUncheckedFrom keywordDescriptors rest (i + 1)

/-- The function `findNextKeyword` without the upper-case pre-check. -/
def findNextKeywordUnchecked (data : QString) (startFrom : Nat)
    (keywordDescriptors : List KeywordDescriptor) : KeywordPosition :=
  findNextKeywordUncheckedFrom keywordDescriptors (data.drop startFrom) startFrom

/-- A constructor that `validateConstructor` accepts: public, without parameters or with the
one parameter `QObject*`. -/
def UsableConstructor (ctor : QMetaMethod) : Prop :=
  ctor.access = Access.Public ∧
    (ctor.parameterTypes = [] ∨ ctor.parameterTypes = ["QObject*".toList])

/-- An entity whose only invokable constructor is `Q_INVOKABLE explicit Counter(int start)`. -/
def Counter : QMetaObject :=
  { className := "Counter".toList
    constructors := [{ access := .Public, parameterTypes := ["int".toList] }]
    properties := [objectNameProperty, intProperty "id".toList] }

/-- An entity with a property `summary` that is not stored and has no `WRITE` and `NOTIFY`
declarations, and no property-level declarations. -/
def Note : QMetaObject :=
  { className := "Note".toList
    constructors := [invokableConstructor]
    properties := [objectNameProperty, intProperty "id".toList,
      { name := "summary".toList, typeName := "QString".toList, type := 10, userType := 10,
        isStored := false, isWritable := false, hasNotifySignal := false,
        notifySignalIsValid := false }] }

/-- An entity with a stored property `total` that has no `NOTIFY` declaration. -/
def Invoice : QMetaObject :=
  { className := "Invoice".toList
    constructors := [invokableConstructor]
    properties := [objectNameProperty, intProperty "id".toList,
      { name := "total".toList, typeName := "int".toList, type := QVariantType.Int,
        userType := 2, hasNotifySignal := false, notifySignalIsValid := false }] }

/-- An entity with two class-level declarations: `Q_ORM_CLASS(TABLE depot)` and
`Q_ORM_CLASS(SCHEMA update)`. -/
def Depot : QMetaObject :=
  { className := "Depot".toList
    classInfos := [{ name := "QtOrmClassInfo".toList, value := "TABLEdepot".toList },
                   { name := "QtOrmClassInfo".toList, value := "SCHEMAupdate".toList }]
    constructors := [invokableConstructor]
    properties := [objectNameProperty, intProperty "id".toList] }

/-- An entity with two property-level declarations for the property `name`:
`Q_ORM_PROPERTY(name COLUMN title)` and `Q_ORM_PROPERTY(name TRANSIENT)`. -/
def Shelf : QMetaObject :=
  { className := "Shelf".toList
    classInfos := [{ name := "QtOrmPropertyInfo".toList, value := "nameCOLUMNtitle".toList },
                   { name := "QtOrmClassInfo".toList, value := "TABLEshelf".toList },
                   { name := "QtOrmPropertyInfo".toList, value := "nameTRANSIENT".toList }]
    constructors := [invokableConstructor]
    properties := [objectNameProperty, intProperty "id".toList, stringProperty "name".toList] }

/-- An index of a record is sound for the list of mappings `ms`: a key without an entry is
the key of no mapping, and the entry of a key is a position of the list at which a mapping
with that key stands. -/
def IndexSound (index : QHash QString Int) (key : QOrmPropertyMapping → QString)
    (ms : List QOrmPropertyMapping) : Prop :=
  ∀ n, (QHash.find n index = none → ∀ m ∈ ms, key m ≠ n) ∧
    (∀ i, QHash.find n index = some i →
      0 ≤ i ∧ i.toNat < ms.length ∧ ∃ m, ms.get? i.toNat = some m ∧ key m = n)

/-- Both indexes of a record are sound for its list of mappings. -/
def IndexesSound (d : QOrmMetadataPrivate) : Prop :=
  IndexSound d.m_classPropertyMappingIndex (fun m => m.classPropertyName) d.m_propertyMappings ∧
  IndexSound d.m_tableFieldMappingIndex (fun m => m.tableFieldName) d.m_propertyMappings

/-- The bookkeeping of a cache state is consistent: no name is both under construction and
constructed, and every name in either set is a key of the cache. -/
structure StateInv (st : QOrmMetadataCachePrivate) : Prop where
  disjoint : ∀ x ∈ st.m_underConstruction, x ∉ st.m_constructed
  ucCached : ∀ x ∈ st.m_underConstruction, QHash.contains st.m_cache x = true
  conCached : ∀ x ∈ st.m_constructed, QHash.contains st.m_cache x = true

/-- Every entity that a mapping of a cached record references has a record in the cache:
the pointers `referencedEntity` are valid. -/
def RefsCached (st : QOrmMetadataCachePrivate) : Prop :=
  ∀ T d, QHash.find T st.m_cache = some d → ∀ m ∈ d.m_propertyMappings, ∀ r,
    m.referencedEntity = some r → QHash.contains st.m_cache r = true

/-- The names that are constructed in `st'` and were not in `st` had no record in `st`. -/
def ConFresh (st st' : QOrmMetadataCachePrivate) : Prop :=
  ∀ x ∈ st'.m_constructed, x ∈ st.m_constructed ∨
    (QHash.contains st.m_cache x = false ∧ QHash.contains st'.m_cache x = true)

/-- A getter whose successful calls construct only names that had no record, and keep the
references of the mappings valid. -/
def GetterKeepsInv (g : Getter) : Prop :=
  ∀ st mo k st', g st mo = .ok (k, st') → ConFresh st st' ∧ (RefsCached st → RefsCached st')

/-- A getter that does not miss a cache lookup on a consistent state. -/
def GetterSafe (g : Getter) : Prop :=
  ∀ st mo, StateInv st → RefsCached st → g st mo ≠ .fatal .outOfRange

/-- The calls of `get`: `Entered reg st mo` holds when `get` is entered with the meta object
`mo` on the state `st`, either by a top-level call on a state reached from the empty cache,
or by the call that `mappingDescriptor` makes for a property `p` of pointer type while an
entered call constructs the entity of `p` (the state is the one the property loop has
reached after the properties before `p`). -/
inductive Entered (reg : MetaTypeRegistry) : QOrmMetadataCachePrivate → QMetaObject → Prop where
  | top {st : QOrmMetadataCachePrivate} (mo : QMetaObject) : Reachable reg st → Entered reg st mo
  | nested {st s : QOrmMetadataCachePrivate} {mo refMeta : QMetaObject} {ci : QOrmUserMetadata}
      {pi : QHash QString QOrmUserMetadata} {before after : List QMetaProperty}
      {p : QMetaProperty} {fuel : Nat} :
      Entered reg st mo →
      QHash.find mo.className st.m_cache = none →
      QOrmMetadataCachePrivate.validateConstructor mo = .ok () →
      initializeClassInfos mo mo.classInfos {} [] = .ok (ci, pi) →
      mo.properties = before ++ p :: after →
      initializeProperties reg ( QOrmMetadataCachePrivate.get reg fuel) mo.className mo pi before
        (classDataSet (placeholderCached st mo.className mo) mo.className mo ci) = .ok s →
      p.enclosedByQObject = false →
      p.type = QVariantType.UserType →
      p.userType ≠ QMetaType.UnknownType →
      (QMetaType.typeFlags reg (QMetaType.type reg (referencedTypeName p))).pointerToQObject
        = true →
      QMetaType.metaObjectForType reg (QMetaType.type reg (referencedTypeName p))
        = some refMeta →
      Entered reg s refMeta

/-- The state in which `mappingDescriptor` calls `get` for `B` while `A` is resolved on the
empty cache: the placeholder of `A` is cached and the mapping of `id` is built. -/
def nestedEntryState : QOrmMetadataCachePrivate :=
  mappingAppended
    (classDataSet (placeholderCached {} "A".toList sampleA) "A".toList sampleA {})
    "A".toList (intProperty "id".toList) (baseDescriptor (intProperty "id".toList) {}) {}

/-- A violation of the cross-reference rules in a state: some constructed entity `e` has a
reference mapping `m` to an entity `r` such that either `m` is transient and no mapping of
`r` references an entity whose class name is `e`, or `m` is not transient and no mapping
of `r` is marked as the identity. -/
def CrossRefViolation (st : QOrmMetadataCachePrivate) : Prop :=
  ∃ e ∈ st.m_constructed, ∃ entity, QHash.find e st.m_cache = some entity ∧
    ∃ m ∈ entity.m_propertyMappings, ∃ r referenced, m.referencedEntity = some r ∧
      QHash.find r st.m_cache = some referenced ∧
      ((m.isTransient = true ∧
          ∀ back ∈ referenced.m_propertyMappings, ∀ r' target,
            back.referencedEntity = some r' → QHash.find r' st.m_cache = some target →
              target.m_className ≠ e) ∨
        (m.isTransient = false ∧ ∀ idm ∈ referenced.m_propertyMappings, idm.isObjectId = false))

/-- An entity without an identity property. -/
def Region : QMetaObject :=
  { className := "Region".toList
    constructors := [invokableConstructor]
    properties := [objectNameProperty, stringProperty "name".toList] }

/-- An entity with a many-to-one reference to `Region`. -/
def Village : QMetaObject :=
  { className := "Village".toList
    constructors := [invokableConstructor]
    properties := [objectNameProperty, intProperty "id".toList,
      userProperty "region".toList "Region*".toList] }

/-- An entity without a reference back to `Album`. -/
def Track : QMetaObject :=
  { className := "Track".toList
    constructors := [invokableConstructor]
    properties := [objectNameProperty, intProperty "id".toList] }

/-- An entity with a collection of `Track`. -/
def Album : QMetaObject :=
  { className := "Album".toList
    constructors := [invokableConstructor]
    properties := [objectNameProperty, intProperty "id".toList,
      userProperty "tracks".toList "QVector<Track*>".toList] }

/-- The registered pointer types of `Region`, `Village`, `Track` and `Album`. -/
def relationRegistry : MetaTypeRegistry :=
  [{ typeName := "Region*".toList, flags := pointerFlags, metaObject := some Region },
   { typeName := "Village*".toList, flags := pointerFlags, metaObject := some Village },
   { typeName := "Track*".toList, flags := pointerFlags, metaObject := some Track },
   { typeName := "Album*".toList, flags := pointerFlags, metaObject := some Album },
   { typeName := "QVector<Track*>".toList }]

/-- The state (the empty cache if there is none) in which the property loop of `initialize`
ends when `get` is called for `mo` on the empty cache. -/
def constructionEnd (reg : MetaTypeRegistry) (fuel : Nat) (mo : QMetaObject) :
    QOrmMetadataCachePrivate :=
  match initializeClassInfos mo mo.classInfos {} [] with
  | .ok (ci, pi) =>
    match initializeProperties reg ( QOrmMetadataCachePrivate.get reg fuel) mo.className mo pi
        mo.properties (classDataSet (placeholderCached {} mo.className mo) mo.className mo ci) with
    | .ok st4 => st4
    | _ => {}
  | _ => {}

/-- The keyword occurrences that the keyword loops of `extractClassInfo` and
`extractPropertyInfo` pass through, in order: the loop variable `keywordPosition` and, after
each of them, the result of the search that starts behind its token. -/
def keywordOccurrences (keywordDescriptors : List KeywordDescriptor) (data : QString) :
    Nat → KeywordPosition → List (Nat × KeywordDescriptor)
  | _, none => []
  | 0, some _ => []
  | fuel + 1, some (kpos, keyword) =>
    (kpos, keyword) :: keywordOccurrences keywordDescriptors data fuel
      (findNextKeyword data (kpos + keyword.token.length) keywordDescriptors)

/-- The text between the token of a keyword at `kpos` and the next keyword or the end of
the string: the string that `extractString` returns for the position behind the token. -/
def valueText (keywordDescriptors : List KeywordDescriptor) (data : QString) (kpos : Nat)
    (keyword : KeywordDescriptor) : QString :=
  (extractString data (kpos + keyword.token.length) keywordDescriptors).value

/-- The three texts a boolean keyword accepts, with the value they stand for. -/
def decodeBoolean (v : QString) : Option Bool :=
  if v = "true".toList then some true
  else if v = "false".toList then some false
  else if v.isEmpty then some true
  else none

/-- The value that the keyword loops record for a keyword with the text `v`; `none` where
they stop with a fatal error. -/
def recordedValue (id : Keyword) (v : QString) : Option QVariant :=
  match id with
  | .Table => if v.isEmpty then none else some (.string v)
  | .Schema => if v.isEmpty then none else some (.string v)
  | .Column => if v.isEmpty then none else some (.string v)
  | .Identity => (decodeBoolean v).map QVariant.bool
  | .Transient => (decodeBoolean v).map QVariant.bool
  | .Autogenerated => (decodeBoolean v).map QVariant.bool
  | .Property => none

/-- The declaration after the values of a list of keyword occurrences are recorded in
order; `none` if one of them has no valid value. -/
def recordAll (keywordDescriptors : List KeywordDescriptor) (data : QString) :
    List (Nat × KeywordDescriptor) → QOrmUserMetadata → Option QOrmUserMetadata
  | [], info => some info
  | occ :: rest, info =>
    match recordedValue occ.2.id (valueText keywordDescriptors data occ.1 occ.2) with
    | none => none
    | some v => recordAll keywordDescriptors data rest (info.insert occ.2.id v)

/-- Every key of the cache is the name of an entity that is under construction or
constructed. -/
def KeysCovered (st : QOrmMetadataCachePrivate) : Prop :=
  ∀ T, QHash.contains st.m_cache T = true →
    T ∈ st.m_underConstruction ∨ T ∈ st.m_constructed

/-- A getter whose successful calls on a consistent state keep every key of the cache in one
of the two sets. -/
def GetterCovers (g : Getter) : Prop :=
  ∀ st mo k st', g st mo = .ok (k, st') → StateInv st → KeysCovered st → KeysCovered st'

/-- An entity whose property `items`, of the registered container type `QVector<int*>`, is
declared `Q_ORM_PROPERTY(items IDENTITY TRANSIENT)`. -/
def Crate : QMetaObject :=
  { className := "Crate".toList
    classInfos := [{ name := "QtOrmPropertyInfo".toList,
                     value := "itemsIDENTITYTRANSIENT".toList }]
    constructors := [invokableConstructor]
    properties := [objectNameProperty, stringProperty "title".toList,
      userProperty "items".toList "QVector<int*>".toList] }

/-- The parsed property-level declaration of `Crate`. -/
def cratePropertyInfo : QHash QString QOrmUserMetadata :=
  [("items".toList,
    { identity := some (.bool true), transient := some (.bool true),
      property := some (.string "items".toList) })]

/-- An entity without declarations that has a property of the built-in type `int` and a
property of the enumeration type `Shape::Kind`. -/
def Gauge : QMetaObject :=
  { className := "Gauge".toList
    constructors := [invokableConstructor]
    properties := [objectNameProperty, intProperty "level".toList, kindProperty] }

/-- The cache after `Gauge` has been resolved on the empty cache. -/
def gaugeCache : QOrmMetadataCachePrivate :=
  resultState (QOrmMetadataCachePrivate.get shapeRegistry 1 {} Gauge)

/-! ## Association lists and sets -/

section Containers

variable {K V : Type} [DecidableEq K]

theorem QHash.contains_iff (h : QHash K V) (k : K) :
    QHash.contains h k = true ↔ ∃ v, QHash.find k h = some v := by
  unfold QHash.contains
  cases QHash.find k h <;> simp

theorem QHash.contains_eq_false (h : QHash K V) (k : K) :
    QHash.contains h k = false ↔ QHash.find k h = none := by
  unfold QHash.contains
  cases QHash.find k h <;> simp

theorem QHash.find_append (k : K) (h1 h2 : QHash K V) :
    QHash.find k (h1 ++ h2) = (QHash.find k h1).orElse (fun _ => QHash.find k h2) := by
  induction h1 with
  | nil => simp [QHash.find]
  | cons x xs ih =>
    obtain ⟨k', v⟩ := x
    by_cases hk : k' = k <;> simp [QHash.find, hk, ih]

theorem QHash.find_emplace_of_some (k k' : K) (v v' : V) (h : QHash K V)
    (hf : QHash.find k h = some v) : QHash.find k (QHash.emplace k' v' h) = some v := by
  unfold QHash.emplace
  split
  · exact hf
  · rw [QHash.find_append, hf]; rfl

theorem QHash.find_emplace_self (k : K) (v : V) (h : QHash K V)
    (hf : QHash.find k h = none) : QHash.find k (QHash.emplace k v h) = some v := by
  have hc : QHash.contains h k = false := (QHash.contains_eq_false h k).2 hf
  simp [QHash.emplace, hc, QHash.find_append, hf, QHash.find]

theorem QHash.find_emplace_ne (k k' : K) (v' : V) (h : QHash K V) (hne : k' ≠ k) :
    QHash.find k (QHash.emplace k' v' h) = QHash.find k h := by
  unfold QHash.emplace
  split
  · rfl
  · rw [QHash.find_append]
    cases QHash.find k h <;> simp [QHash.find, hne]

theorem QHash.find_modify_self (k : K) (f : V → V) (h : QHash K V) :
    QHash.find k (QHash.modify k f h) = (QHash.find k h).map f := by
  induction h with
  | nil => rfl
  | cons x xs ih =>
    obtain ⟨k', v⟩ := x
    by_cases hk : k' = k <;> simp [QHash.find, QHash.modify, hk, ih]

theorem QHash.find_modify_ne (k k' : K) (f : V → V) (h : QHash K V) (hne : k' ≠ k) :
    QHash.find k (QHash.modify k' f h) = QHash.find k h := by
  induction h with
  | nil => rfl
  | cons x xs ih =>
    obtain ⟨k'', v⟩ := x
    by_cases hk : k'' = k'
    · subst hk; simp [QHash.find, QHash.modify, hne]
    · by_cases hk2 : k'' = k
      · subst hk2; simp [QHash.find, QHash.modify, hk]
      · simp [QHash.find, QHash.modify, hk, hk2, ih]

theorem QHash.contains_modify (k k' : K) (f : V → V) (h : QHash K V) :
    QHash.contains (QHash.modify k' f h) k = QHash.contains h k := by
  unfold QHash.contains
  by_cases hne : k' = k
  · subst hne; rw [QHash.find_modify_self]; cases QHash.find k' h <;> rfl
  · rw [QHash.find_modify_ne k k' f h hne]

theorem QSet.remove_insert_of_not_mem {T : Type} [DecidableEq T] (x : T) (s : QSet T)
    (hx : x ∉ s) : QSet.remove x (QSet.insert x s) = s := by
  unfold QSet.remove QSet.insert
  rw [if_neg hx, List.filter_append]
  have h1 : s.filter (fun y => decide (y ≠ x)) = s := by
    apply List.filter_eq_self.2
    intro a ha
    have : a ≠ x := fun h => hx (h ▸ ha)
    simpa using this
  rw [h1]
  simp

end Containers

/-! ## The state changes of `get` -/

theorem Ext.refl (c : QByteArray) (st : QOrmMetadataCachePrivate) : Ext c st st :=
  ⟨fun _ _ _ h => h, fun _ h => h, fun _ => rfl, fun h => h, fun _ h => h⟩

theorem UcSub.of_ext {c : QByteArray} {st st' : QOrmMetadataCachePrivate} (h : Ext c st st')
    (hu : UcSub st) : UcSub st' := by
  intro x hx
  rw [h.uc hu] at hx
  exact h.keeps x (hu x hx)

theorem Ext.trans {c : QByteArray} {st1 st2 st3 : QOrmMetadataCachePrivate}
    (h12 : Ext c st1 st2) (h23 : Ext c st2 st3) : Ext c st1 st3 where
  frame := fun T d hT h => h23.frame T d hT (h12.frame T d hT h)
  keeps := fun T h => h23.keeps T (h12.keeps T h)
  uc := fun hu => by rw [h23.uc (UcSub.of_ext h12 hu), h12.uc hu]
  inv := fun h => h23.inv (h12.inv h)
  con := fun x h => h23.con x (h12.con x h)

theorem GetPost.ext {st st' : QOrmMetadataCachePrivate} {mo : QMetaObject} {k : QByteArray}
    (h : GetPost st mo k st') (c : QByteArray) : Ext c st st' where
  frame := fun T d _ hf => h.frame T d hf
  keeps := fun T hT => by
    obtain ⟨v, hv⟩ := (QHash.contains_iff _ _).1 hT
    exact (QHash.contains_iff _ _).2 ⟨v, h.frame T v hv⟩
  uc := h.uc
  inv := h.inv
  con := h.con

/-- The four ways in which `mappingDescriptor` returns a descriptor. -/
theorem mappingDescriptor_ok {reg : MetaTypeRegistry} {g : Getter}
    {st st1 : QOrmMetadataCachePrivate} {mo : QMetaObject} {p : QMetaProperty}
    {umd : QOrmUserMetadata} {d : MappingDescriptor}
    (h : QOrmMetadataCachePrivate.mappingDescriptor reg g st mo p umd = .ok (d, st1)) :
    (p.type ≠ QVariantType.UserType ∧ d = baseDescriptor p umd ∧ st1 = st) ∨
    (p.type = QVariantType.UserType ∧ p.userType ≠ QMetaType.UnknownType ∧
      (QMetaType.typeFlags reg (QMetaType.type reg (referencedTypeName p))).pointerToQObject
        = false ∧
      (QMetaType.typeFlags reg (QMetaType.type reg (referencedTypeName p))).isEnumeration
        = false ∧
      d = containerDescriptor p (baseDescriptor p umd) ∧ st1 = st) ∨
    (p.type = QVariantType.UserType ∧ p.userType ≠ QMetaType.UnknownType ∧
      (QMetaType.typeFlags reg (QMetaType.type reg (referencedTypeName p))).pointerToQObject
        = false ∧
      (QMetaType.typeFlags reg (QMetaType.type reg (referencedTypeName p))).isEnumeration
        = true ∧
      d = { containerDescriptor p (baseDescriptor p umd) with
            isEnumeration := true, dataType := QVariantType.Int } ∧ st1 = st) ∨
    (p.type = QVariantType.UserType ∧ p.userType ≠ QMetaType.UnknownType ∧
      (QMetaType.typeFlags reg (QMetaType.type reg (referencedTypeName p))).pointerToQObject
        = true ∧
      ∃ refMeta k,
        QMetaType.metaObjectForType reg (QMetaType.type reg (referencedTypeName p))
          = some refMeta ∧
        g st refMeta = .ok (k, st1) ∧
        d = { withIdSuffix umd (containerDescriptor p (baseDescriptor p umd)) with
              referencedEntity := some k }) := by
  unfold QOrmMetadataCachePrivate.mappingDescriptor at h
  dsimp only at h
  by_cases hT : p.type = QVariantType.UserType
  · rw [if_pos hT] at h
    by_cases hU : p.userType = QMetaType.UnknownType
    · rw [if_pos hU] at h; cases h
    · rw [if_neg hU] at h
      by_cases hP : (QMetaType.typeFlags reg
          (QMetaType.type reg (referencedTypeName p))).pointerToQObject = true
      · rw [if_pos hP] at h
        right; right; right
        refine ⟨hT, hU, hP, ?_⟩
        cases hM : QMetaType.metaObjectForType reg (QMetaType.type reg (referencedTypeName p)) with
        | none => rw [hM] at h; cases h
        | some refMeta =>
          rw [hM] at h
          dsimp only at h
          cases hG : g st refMeta with
          | fatal e => rw [hG] at h; cases h
          | outOfFuel => rw [hG] at h; cases h
          | ok r =>
            obtain ⟨k, st2⟩ := r
            rw [hG] at h
            dsimp only at h
            injection h with h
            injection h with h1 h2
            subst h2
            exact ⟨refMeta, k, rfl, hG, h1.symm⟩
      · rw [if_neg hP] at h
        have hP' : (QMetaType.typeFlags reg
            (QMetaType.type reg (referencedTypeName p))).pointerToQObject = false := by
          simpa using hP
        by_cases hE : (QMetaType.typeFlags reg
            (QMetaType.type reg (referencedTypeName p))).isEnumeration = true
        · rw [if_pos hE] at h
          injection h with h
          injection h with h1 h2
          right; right; left
          exact ⟨hT, hU, hP', hE, h1.symm, h2.symm⟩
        · rw [if_neg hE] at h
          have hE' : (QMetaType.typeFlags reg
              (QMetaType.type reg (referencedTypeName p))).isEnumeration = false := by
            simpa using hE
          injection h with h
          injection h with h1 h2
          right; left
          exact ⟨hT, hU, hP', hE', h1.symm, h2.symm⟩
  · rw [if_neg hT] at h
    injection h with h
    injection h with h1 h2
    left
    exact ⟨hT, h1.symm, h2.symm⟩

/-- The state returned by `mappingDescriptor` is the given one or the one returned by the
recursive call of `get`. -/
theorem mappingDescriptor_state {reg : MetaTypeRegistry} {g : Getter}
    {st st1 : QOrmMetadataCachePrivate} {mo : QMetaObject} {p : QMetaProperty}
    {umd : QOrmUserMetadata} {d : MappingDescriptor}
    (h : QOrmMetadataCachePrivate.mappingDescriptor reg g st mo p umd = .ok (d, st1)) :
    st1 = st ∨ ∃ refMeta k, g st refMeta = .ok (k, st1) := by
  rcases mappingDescriptor_ok h with h1 | h1 | h1 | h1
  · exact Or.inl h1.2.2
  · exact Or.inl h1.2.2.2.2.2
  · exact Or.inl h1.2.2.2.2.2
  · obtain ⟨_, _, _, refMeta, k, _, hg, _⟩ := h1
    exact Or.inr ⟨refMeta, k, hg⟩

theorem mappingDescriptor_ext {reg : MetaTypeRegistry} {g : Getter} (hg : GetterSpec g)
    {st st1 : QOrmMetadataCachePrivate} {mo : QMetaObject} {p : QMetaProperty}
    {umd : QOrmUserMetadata} {d : MappingDescriptor} (c : QByteArray)
    (h : QOrmMetadataCachePrivate.mappingDescriptor reg g st mo p umd = .ok (d, st1)) :
    Ext c st st1 := by
  rcases mappingDescriptor_state h with h1 | ⟨refMeta, k, h1⟩
  · subst h1; exact Ext.refl c _
  · exact (hg _ _ _ _ h1).ext c

/-- One iteration of the property loop of `initialize`. -/
theorem initializeProperties_cons {reg : MetaTypeRegistry} {g : Getter} {c : QByteArray}
    {mo : QMetaObject} {pi : QHash QString QOrmUserMetadata} {p : QMetaProperty}
    {rest : List QMetaProperty} {st st' : QOrmMetadataCachePrivate}
    (h : initializeProperties reg g c mo pi (p :: rest) st = .ok st') :
    (p.enclosedByQObject = true ∧ initializeProperties reg g c mo pi rest st = .ok st') ∨
    (p.enclosedByQObject = false ∧ ∃ d st1,
      QOrmMetadataCachePrivate.mappingDescriptor reg g st mo p (QHash.value pi p.name {})
        = .ok (d, st1) ∧
      (d.isTransient = false → p.isReadable = true ∧ p.isWritable = true ∧
        p.hasNotifySignal = true ∧ p.notifySignalIsValid = true) ∧
      ¬ (d.isTransient = true ∧ d.isObjectId = true) ∧
      (d.isAutogenerated = true → d.isObjectId = true) ∧
      QHash.contains st1.m_cache c = true ∧
      initializeProperties reg g c mo pi rest
        (mappingAppended st1 c p d (QHash.value pi p.name {})) = .ok st') := by
  unfold initializeProperties at h
  by_cases hb : p.enclosedByQObject = true
  · rw [if_pos hb] at h
    exact Or.inl ⟨hb, h⟩
  · rw [if_neg hb] at h
    right
    refine ⟨by simpa using hb, ?_⟩
    dsimp only at h
    cases hm : QOrmMetadataCachePrivate.mappingDescriptor reg g st mo p
        (QHash.value pi p.name {}) with
    | fatal e => rw [hm] at h; cases h
    | outOfFuel => rw [hm] at h; cases h
    | ok r =>
      obtain ⟨d, st1⟩ := r
      rw [hm] at h
      dsimp only at h
      split at h
      · cases h
      · rename_i h1
        split at h
        · cases h
        · rename_i h2
          split at h
          · cases h
          · rename_i h3
            cases hf : QHash.find c st1.m_cache with
            | none => rw [hf] at h; cases h
            | some v =>
              rw [hf] at h
              refine ⟨d, st1, rfl, ?_, ?_, ?_, ?_, h⟩
              · intro ht
                simp only [ht, Bool.not_false, Bool.true_and, Bool.or_eq_true,
                  Bool.not_eq_true', not_or, Bool.not_eq_false] at h1
                exact ⟨h1.1.1.1, h1.1.1.2, h1.1.2, h1.2⟩
              · simpa using h2
              · intro ha
                simpa [ha] using h3
              · exact (QHash.contains_iff _ _).2 ⟨v, hf⟩

theorem RecInv.appendMapping {data : QOrmMetadataPrivate} (h : RecInv data) (c : QByteArray)
    (p : QMetaProperty) (d : MappingDescriptor) (umd : QOrmUserMetadata) :
    RecInv (appendMapping data c p d umd) := by
  unfold RecInv QtOrm.appendMapping
  dsimp only
  by_cases hd : d.isObjectId = true
  · right
    rw [if_pos hd]
    refine ⟨by simp, newMapping c p d umd, ?_, hd⟩
    have : ((↑(data.m_propertyMappings ++ [newMapping c p d umd]).length : Int) - 1).toNat
        = data.m_propertyMappings.length := by simp
    rw [this]
    simp
  · rw [if_neg hd]
    rcases h with h | ⟨h0, m, hm, hid⟩
    · exact Or.inl h
    · right
      refine ⟨h0, m, ?_, hid⟩
      have hlt := (List.get?_eq_some.1 hm).1
      rw [List.get?_eq_getElem?] at hm ⊢
      rw [List.getElem?_append_left hlt]
      exact hm

theorem ext_appendMapping (c : QByteArray) (st : QOrmMetadataCachePrivate)
    (p : QMetaProperty) (d : MappingDescriptor) (umd : QOrmUserMetadata) :
    Ext c st (mappingAppended st c p d umd) where
  frame := fun T v hT hf => by
    dsimp only [mappingAppended]
    rw [QHash.find_modify_ne T c _ _ (Ne.symm hT)]
    exact hf
  keeps := fun T hT => by
    dsimp only [mappingAppended]
    rw [QHash.contains_modify]
    exact hT
  uc := fun _ => rfl
  inv := fun h T v hf => by
    dsimp only [mappingAppended] at hf
    by_cases hT : c = T
    · subst hT
      rw [QHash.find_modify_self] at hf
      cases hf0 : QHash.find c st.m_cache with
      | none => rw [hf0] at hf; cases hf
      | some v0 =>
        rw [hf0] at hf
        simp only [Option.map_some', Option.some.injEq] at hf
        rw [← hf]
        exact (h c v0 hf0).appendMapping c p d umd
    · rw [QHash.find_modify_ne T c _ _ hT] at hf
      exact h T v hf
  con := fun _ h => h

/-- The property loop changes only the record of its entity and adds records. -/
theorem initializeProperties_ext {reg : MetaTypeRegistry} {g : Getter} (hg : GetterSpec g)
    (c : QByteArray) (mo : QMetaObject) (pi : QHash QString QOrmUserMetadata) :
    ∀ (ps : List QMetaProperty) (st st' : QOrmMetadataCachePrivate),
      initializeProperties reg g c mo pi ps st = .ok st' → Ext c st st' := by
  intro ps
  induction ps with
  | nil =>
    intro st st' h
    unfold initializeProperties at h
    cases h
    exact Ext.refl c st
  | cons p rest ih =>
    intro st st' h
    rcases initializeProperties_cons h with ⟨_, h1⟩ | ⟨_, d, st1, hm, _, _, _, _, h1⟩
    · exact ih st st' h1
    · exact ((mappingDescriptor_ext hg c hm).trans (ext_appendMapping c st1 p d _)).trans
        (ih _ _ h1)

/-- The steps of a successful run of `initialize`. -/
theorem initialize_ok {reg : MetaTypeRegistry} {g : Getter} {st st' : QOrmMetadataCachePrivate}
    {c : QByteArray} {mo : QMetaObject}
    (h : QOrmMetadataCachePrivate.initialize reg g st c mo = .ok st') :
    QOrmMetadataCachePrivate.validateConstructor mo = .ok () ∧
    ∃ ci pi st4,
      initializeClassInfos mo mo.classInfos {} [] = .ok (ci, pi) ∧
      initializeProperties reg g c mo pi mo.properties
        (classDataSet (placeholderCached st c mo) c mo ci) = .ok st4 ∧
      st' = markConstructed st4 c ∧
      (QSet.empty st'.m_underConstruction = true →
        QOrmMetadataCachePrivate.validateCrossReferences st' st'.m_constructed = .ok ()) := by
  unfold QOrmMetadataCachePrivate.initialize at h
  cases hv : QOrmMetadataCachePrivate.validateConstructor mo with
  | fatal e => rw [hv] at h; cases h
  | outOfFuel => rw [hv] at h; cases h
  | ok u =>
    rw [hv] at h
    dsimp only at h
    refine ⟨rfl, ?_⟩
    cases hc : initializeClassInfos mo mo.classInfos {} [] with
    | fatal e => rw [hc] at h; cases h
    | outOfFuel => rw [hc] at h; cases h
    | ok r =>
      obtain ⟨ci, pi⟩ := r
      rw [hc] at h
      dsimp only at h
      cases hp : initializeProperties reg g c mo pi mo.properties
          (classDataSet (placeholderCached st c mo) c mo ci) with
      | fatal e => rw [hp] at h; cases h
      | outOfFuel => rw [hp] at h; cases h
      | ok st4 =>
        rw [hp] at h
        dsimp only at h
        refine ⟨ci, pi, st4, rfl, hp, ?_⟩
        by_cases he : QSet.empty (markConstructed st4 c).m_underConstruction = true
        · rw [if_pos he] at h
          cases hx : QOrmMetadataCachePrivate.validateCrossReferences (markConstructed st4 c)
              (markConstructed st4 c).m_constructed with
          | fatal e => rw [hx] at h; cases h
          | outOfFuel => rw [hx] at h; cases h
          | ok u =>
            rw [hx] at h
            injection h with h
            subst h
            exact ⟨rfl, fun _ => hx⟩
        · rw [if_neg he] at h
          injection h with h
          subst h
          exact ⟨rfl, fun h' => absurd h' he⟩

theorem RecInv.placeholder (mo : QMetaObject) : RecInv (QOrmMetadataPrivate.placeholder mo) :=
  Or.inl rfl

/-- Caching the placeholder and setting the class data, for an entity that is not in the
cache yet. -/
theorem classDataSet_placeholderCached_find (st : QOrmMetadataCachePrivate) (c : QByteArray)
    (mo : QMetaObject) (ci : QOrmUserMetadata) (hc : QHash.find c st.m_cache = none) :
    (∀ T, T ≠ c → QHash.find T (classDataSet (placeholderCached st c mo) c mo ci).m_cache
      = QHash.find T st.m_cache) ∧
    QHash.find c (classDataSet (placeholderCached st c mo) c mo ci).m_cache =
      some { QOrmMetadataPrivate.placeholder mo with
        m_className := mo.className
        m_tableName := (ci.value .Table (.string mo.className)).toString
        m_userMetadata := ci } := by
  constructor
  · intro T hT
    dsimp only [classDataSet, placeholderCached]
    rw [QHash.find_modify_ne T c _ _ (Ne.symm hT), QHash.find_emplace_ne T c _ _ (Ne.symm hT)]
  · dsimp only [classDataSet, placeholderCached]
    rw [QHash.find_modify_self, QHash.find_emplace_self c _ _ hc]
    rfl

/-- What `initialize` guarantees for an entity that is not in the cache yet. -/
theorem initialize_post {reg : MetaTypeRegistry} {g : Getter} (hg : GetterSpec g)
    {st st' : QOrmMetadataCachePrivate} {c : QByteArray} {mo : QMetaObject}
    (hc : QHash.find c st.m_cache = none)
    (h : QOrmMetadataCachePrivate.initialize reg g st c mo = .ok st') :
    QHash.contains st'.m_cache c = true ∧
    (∀ T d, QHash.find T st.m_cache = some d → QHash.find T st'.m_cache = some d) ∧
    (UcSub st → st'.m_underConstruction = st.m_underConstruction) ∧
    (AllRecInv st → AllRecInv st') ∧
    (∀ x, x ∈ st.m_constructed → x ∈ st'.m_constructed) := by
  obtain ⟨_, ci, pi, st4, _, hp, hst, _⟩ := initialize_ok h
  have hext := initializeProperties_ext hg c mo pi _ _ _ hp
  obtain ⟨hne, hself⟩ := classDataSet_placeholderCached_find st c mo ci hc
  have h3c : QHash.contains (classDataSet (placeholderCached st c mo) c mo ci).m_cache c = true :=
    (QHash.contains_iff _ _).2 ⟨_, hself⟩
  subst hst
  refine ⟨hext.keeps c h3c, ?_, ?_, ?_, ?_⟩
  · intro T d hf
    have hT : T ≠ c := by
      intro hT; subst hT; rw [hc] at hf; cases hf
    exact hext.frame T d hT (by rw [hne T hT]; exact hf)
  · intro hu
    have hcu : c ∉ st.m_underConstruction := by
      intro hmem
      have := hu c hmem
      rw [(QHash.contains_eq_false _ _).2 hc] at this
      cases this
    have hu3 : UcSub (classDataSet (placeholderCached st c mo) c mo ci) := by
      intro x hx
      have hx' : x ∈ QSet.insert c st.m_underConstruction := hx
      unfold QSet.insert at hx'
      rw [if_neg hcu] at hx'
      rcases List.mem_append.1 hx' with hx1 | hx1
      · have hxc : x ≠ c := fun e => hcu (e ▸ hx1)
        unfold QHash.contains
        rw [hne x hxc]
        exact hu x hx1
      · have : x = c := by simpa using hx1
        subst this
        exact h3c
    have h4 := hext.uc hu3
    show QSet.remove c st4.m_underConstruction = st.m_underConstruction
    rw [h4]
    exact QSet.remove_insert_of_not_mem c _ hcu
  · intro hinv
    apply hext.inv
    intro T d hf
    by_cases hT : T = c
    · subst hT
      rw [hself] at hf
      injection hf with hf
      subst hf
      exact Or.inl rfl
    · rw [hne T hT] at hf
      exact hinv T d hf
  · intro x hx
    have h1 : x ∈ st4.m_constructed := hext.con x hx
    show x ∈ QSet.insert c st4.m_constructed
    unfold QSet.insert
    split
    · exact h1
    · exact List.mem_append_left _ h1

/-- Every fuel level of `get` meets the specification of getters. -/
theorem get_spec (reg : MetaTypeRegistry) :
    ∀ fuel, GetterSpec (QOrmMetadataCachePrivate.get reg fuel) := by
  intro fuel
  induction fuel with
  | zero =>
    intro st mo k st' h
    unfold QOrmMetadataCachePrivate.get at h
    dsimp only at h
    split at h
    · rename_i hc
      injection h with h
      injection h with h1 h2
      subst h1 h2
      exact ⟨rfl, hc, fun _ _ h => h, fun _ => rfl, fun h => h, fun _ h => h⟩
    · cases h
  | succ n ih =>
    intro st mo k st' h
    unfold QOrmMetadataCachePrivate.get at h
    dsimp only at h
    split at h
    · rename_i hc
      injection h with h
      injection h with h1 h2
      subst h1 h2
      exact ⟨rfl, hc, fun _ _ h => h, fun _ => rfl, fun h => h, fun _ h => h⟩
    · rename_i hc
      have hc' : QHash.find mo.className st.m_cache = none :=
        (QHash.contains_eq_false _ _).1 (by simpa using hc)
      cases hi : QOrmMetadataCachePrivate.initialize reg
          ( QOrmMetadataCachePrivate.get reg n) st mo.className mo with
      | fatal e => rw [hi] at h; cases h
      | outOfFuel => rw [hi] at h; cases h
      | ok st1 =>
        rw [hi] at h
        dsimp only at h
        split at h
        · injection h with h
          injection h with h1 h2
          subst h1 h2
          obtain ⟨hp, hf, hu, hv, hcon⟩ := initialize_post ih hc' hi
          exact ⟨rfl, hp, hf, hu, hv, hcon⟩
        · cases h

/-- The two ways in which `get` returns: a cache hit, or a run of `initialize` for an entity
that was not in the cache. -/
theorem get_ok {reg : MetaTypeRegistry} {fuel : Nat} {st st' : QOrmMetadataCachePrivate}
    {mo : QMetaObject} {k : QByteArray}
    (h : QOrmMetadataCachePrivate.get reg fuel st mo = .ok (k, st')) :
    k = mo.className ∧
    ((QHash.contains st.m_cache mo.className = true ∧ st' = st) ∨
     (QHash.find mo.className st.m_cache = none ∧ ∃ n, fuel = n + 1 ∧
        QOrmMetadataCachePrivate.initialize reg ( QOrmMetadataCachePrivate.get reg n) st
          mo.className mo = .ok st')) := by
  cases fuel with
  | zero =>
    unfold QOrmMetadataCachePrivate.get at h
    dsimp only at h
    split at h
    · rename_i hc
      injection h with h
      injection h with h1 h2
      exact ⟨h1.symm, Or.inl ⟨hc, h2.symm⟩⟩
    · cases h
  | succ n =>
    unfold QOrmMetadataCachePrivate.get at h
    dsimp only at h
    split at h
    · rename_i hc
      injection h with h
      injection h with h1 h2
      exact ⟨h1.symm, Or.inl ⟨hc, h2.symm⟩⟩
    · rename_i hc
      have hc' : QHash.find mo.className st.m_cache = none :=
        (QHash.contains_eq_false _ _).1 (by simpa using hc)
      cases hi : QOrmMetadataCachePrivate.initialize reg
          ( QOrmMetadataCachePrivate.get reg n) st mo.className mo with
      | fatal e => rw [hi] at h; cases h
      | outOfFuel => rw [hi] at h; cases h
      | ok st1 =>
        rw [hi] at h
        dsimp only at h
        split at h
        · injection h with h
          injection h with h1 h2
          subst h2
          exact ⟨h1.symm, Or.inr ⟨hc', n, rfl, hi⟩⟩
        · cases h

/-- A cache hit returns the cached record whatever the fuel. -/
theorem get_hit (reg : MetaTypeRegistry) (fuel : Nat) (st : QOrmMetadataCachePrivate)
    (mo : QMetaObject) (hc : QHash.contains st.m_cache mo.className = true) :
    QOrmMetadataCachePrivate.get reg fuel st mo = .ok (mo.className, st) := by
  cases fuel <;>
  · unfold QOrmMetadataCachePrivate.get
    dsimp only
    rw [if_pos hc]

theorem validateMappings_ok {st : QOrmMetadataCachePrivate} {e : QByteArray} :
    ∀ {ms : List QOrmPropertyMapping}, validateMappings st e ms = .ok () →
      ∀ m ∈ ms, validateMapping st e m = .ok () := by
  intro ms
  induction ms with
  | nil => intro _ m hm; cases hm
  | cons a rest ih =>
    intro h m hm
    unfold validateMappings at h
    cases ha : validateMapping st e a with
    | fatal x => rw [ha] at h; cases h
    | outOfFuel => rw [ha] at h; cases h
    | ok u =>
      rw [ha] at h
      rcases List.mem_cons.1 hm with rfl | hm'
      · exact ha
      · exact ih h m hm'

theorem validateCrossReferences_ok {st : QOrmMetadataCachePrivate} :
    ∀ {names : List QByteArray},
      QOrmMetadataCachePrivate.validateCrossReferences st names = .ok () →
      ∀ e ∈ names, ∃ entity, QHash.find e st.m_cache = some entity ∧
        ∀ m ∈ entity.m_propertyMappings, validateMapping st e m = .ok () := by
  intro names
  induction names with
  | nil => intro _ e he; cases he
  | cons a rest ih =>
    intro h e he
    unfold QOrmMetadataCachePrivate.validateCrossReferences at h
    cases hf : QHash.find a st.m_cache with
    | none => rw [hf] at h; cases h
    | some entity =>
      rw [hf] at h
      dsimp only at h
      cases hv : validateMappings st a entity.m_propertyMappings with
      | fatal x => rw [hv] at h; cases h
      | outOfFuel => rw [hv] at h; cases h
      | ok u =>
        rw [hv] at h
        rcases List.mem_cons.1 he with rfl | he'
        · exact ⟨entity, hf, validateMappings_ok hv⟩
        · exact ih h e he'

theorem RecInv.objectIdMapping {d : QOrmMetadataPrivate} (h : RecInv d)
    (hne : d.m_objectIdPropertyMappingIdx ≠ -1) :
    ∃ idm, d.objectIdMapping = some idm ∧ idm.isObjectId = true := by
  rcases h with h | ⟨_, m, hm, hid⟩
  · exact absurd h hne
  · refine ⟨m, ?_, hid⟩
    unfold QOrmMetadataPrivate.objectIdMapping
    rw [if_neg hne]
    exact hm

/-- What a mapping that passes `validateMapping` satisfies. -/
theorem validateMapping_ok {st : QOrmMetadataCachePrivate} (hinv : AllRecInv st)
    {e : QByteArray} {m : QOrmPropertyMapping} (h : validateMapping st e m = .ok ())
    {r : QByteArray} (hr : m.referencedEntity = some r) :
    ∃ referenced, QHash.find r st.m_cache = some referenced ∧
      (m.isTransient = true →
        ∃ back ∈ referenced.m_propertyMappings, ∃ r' target,
          back.referencedEntity = some r' ∧ QHash.find r' st.m_cache = some target ∧
            target.m_className = e) ∧
      (m.isTransient = false →
        ∃ idm, referenced.objectIdMapping = some idm ∧ idm.isObjectId = true) := by
  unfold validateMapping at h
  rw [hr] at h
  dsimp only at h
  cases hf : QHash.find r st.m_cache with
  | none => rw [hf] at h; cases h
  | some referenced =>
    rw [hf] at h
    dsimp only at h
    refine ⟨referenced, rfl, ?_, ?_⟩
    · intro ht
      rw [if_pos ht] at h
      split at h
      · rename_i hany
        obtain ⟨back, hback, hb⟩ := List.any_eq_true.1 hany
        refine ⟨back, hback, ?_⟩
        cases hbr : back.referencedEntity with
        | none => rw [hbr] at hb; cases hb
        | some r' =>
          rw [hbr] at hb
          dsimp only at hb
          cases hft : QHash.find r' st.m_cache with
          | none => rw [hft] at hb; cases hb
          | some target =>
            rw [hft] at hb
            exact ⟨r', target, rfl, hft, by simpa using hb⟩
      · cases h
    · intro ht
      rw [if_neg (by simp [ht])] at h
      split at h
      · cases h
      · rename_i hne
        exact (hinv r referenced hf).objectIdMapping hne

theorem crossRefsOk_of_validate {st : QOrmMetadataCachePrivate} (hinv : AllRecInv st)
    (h : QOrmMetadataCachePrivate.validateCrossReferences st st.m_constructed = .ok ()) :
    CrossRefsOk st := by
  intro e he
  obtain ⟨entity, hf, hm⟩ := validateCrossReferences_ok h e he
  exact ⟨entity, hf, fun m hmem r hr => validateMapping_ok hinv (hm m hmem) hr⟩

/-- A successful top-level call, entered with nothing under construction and a validated
cache, returns with nothing under construction and a validated cache. -/
theorem get_toplevel {reg : MetaTypeRegistry} {fuel : Nat} {st st' : QOrmMetadataCachePrivate}
    {mo : QMetaObject} {k : QByteArray}
    (h : QOrmMetadataCachePrivate.get reg fuel st mo = .ok (k, st'))
    (hu : st.m_underConstruction = [])
    (hv : QOrmMetadataCachePrivate.validateCrossReferences st st.m_constructed = .ok ()) :
    st'.m_underConstruction = [] ∧
      QOrmMetadataCachePrivate.validateCrossReferences st' st'.m_constructed = .ok () := by
  obtain ⟨_, ⟨_, hst⟩ | ⟨hc, n, _, hi⟩⟩ := get_ok h
  · subst hst; exact ⟨hu, hv⟩
  · have hsub : UcSub st := by
      intro x hx; rw [hu] at hx; cases hx
    have huc := (initialize_post (get_spec reg n) hc hi).2.2.1 hsub
    rw [hu] at huc
    obtain ⟨_, _, _, _, _, _, _, hval⟩ := initialize_ok hi
    refine ⟨huc, hval ?_⟩
    rw [huc]; rfl

theorem reachable_inv {reg : MetaTypeRegistry} {st : QOrmMetadataCachePrivate}
    (hr : Reachable reg st) :
    st.m_underConstruction = [] ∧ AllRecInv st ∧
      QOrmMetadataCachePrivate.validateCrossReferences st st.m_constructed = .ok () := by
  induction hr with
  | empty => exact ⟨rfl, (fun T d h => nomatch h), rfl⟩
  | resolve _ hg ih =>
    obtain ⟨hu, hinv, hv⟩ := ih
    obtain ⟨hu', hv'⟩ := get_toplevel hg hu hv
    exact ⟨hu', (get_spec reg _ _ _ _ _ hg).inv hinv, hv'⟩

/-! ## Termination of the parsers -/

theorem findNextKeywordFrom_some {kws : List KeywordDescriptor} :
    ∀ {rest : QString} {i p : Nat} {kw : KeywordDescriptor},
      findNextKeywordFrom kws rest i = some (p, kw) →
      i ≤ p ∧ p < i + rest.length ∧ kw ∈ kws := by
  intro rest
  induction rest with
  | nil => intro i p kw h; cases h
  | cons c rest ih =>
    intro i p kw h
    unfold findNextKeywordFrom at h
    have hrec : ∀ {q : Nat} {kw' : KeywordDescriptor},
        findNextKeywordFrom kws rest (i + 1) = some (q, kw') →
        i ≤ q ∧ q < i + (c :: rest).length ∧ kw' ∈ kws := by
      intro q kw' h'
      obtain ⟨h1, h2, h3⟩ := ih h'
      refine ⟨by omega, ?_, h3⟩
      simp only [List.length_cons]
      omega
    split at h
    · split at h
      · rename_i it hfind
        injection h with h
        injection h with h1 h2
        subst h1 h2
        refine ⟨le_refl _, ?_, List.mem_of_find?_eq_some hfind⟩
        simp only [List.length_cons]
        omega
      · exact hrec h
    · exact hrec h

theorem findNextKeyword_some {data : QString} {s p : Nat} {kws : List KeywordDescriptor}
    {kw : KeywordDescriptor} (h : findNextKeyword data s kws = some (p, kw)) :
    s ≤ p ∧ p < data.length ∧ kw ∈ kws := by
  unfold findNextKeyword at h
  obtain ⟨h1, h2, h3⟩ := findNextKeywordFrom_some h
  refine ⟨h1, ?_, h3⟩
  rw [List.length_drop] at h2
  omega

theorem classKeyword_cases {kw : KeywordDescriptor} (h : kw ∈ ClassKeywords) :
    (kw.id = Keyword.Table ∨ kw.id = Keyword.Schema) ∧ 0 < kw.token.length := by
  simp only [ClassKeywords, List.mem_cons, List.mem_singleton, List.not_mem_nil, or_false] at h
  rcases h with rfl | rfl <;> exact ⟨by simp, by decide⟩

theorem propertyKeyword_cases {kw : KeywordDescriptor} (h : kw ∈ PropertyKeywords) :
    (kw.id = Keyword.Column ∨ kw.id = Keyword.Identity ∨ kw.id = Keyword.Transient ∨
      kw.id = Keyword.Autogenerated) ∧ 0 < kw.token.length := by
  simp only [PropertyKeywords, List.mem_cons, List.mem_singleton, List.not_mem_nil,
    or_false] at h
  rcases h with rfl | rfl | rfl | rfl <;> exact ⟨by simp, by decide⟩

/-- The keyword loop of `extractClassInfo` ends before its fuel does: each iteration moves
to a strictly later keyword position. -/
theorem extractClassInfoLoop_fuel (data : QString) :
    ∀ (fuel kpos : Nat) (kw : KeywordDescriptor) (info : QOrmUserMetadata),
      kw ∈ ClassKeywords → kpos < data.length → data.length - kpos ≤ fuel →
      extractClassInfoLoop data fuel (some (kpos, kw)) info ≠ .outOfFuel := by
  intro fuel
  induction fuel with
  | zero => intro kpos kw info _ h1 h2; omega
  | succ n ih =>
    intro kpos kw info hkw h1 h2
    have step : ∀ info', extractClassInfoLoop data n
        (extractString data (kpos + kw.token.length) ClassKeywords).nextKeyword info'
          ≠ .outOfFuel := by
      intro info'
      cases hn : (extractString data (kpos + kw.token.length) ClassKeywords).nextKeyword with
      | none => unfold extractClassInfoLoop; simp
      | some r =>
        obtain ⟨q, kw'⟩ := r
        have hn' : findNextKeyword data (kpos + kw.token.length) ClassKeywords
            = some (q, kw') := hn
        obtain ⟨h3, h4, h5⟩ := findNextKeyword_some hn'
        have := (classKeyword_cases hkw).2
        exact ih q kw' info' h5 h4 (by omega)
    unfold extractClassInfoLoop
    dsimp only
    rcases (classKeyword_cases hkw).1 with hid | hid
    · rw [if_pos hid]
      split
      · exact step _
      · simp
    · have hnt : kw.id ≠ Keyword.Table := by rw [hid]; decide
      rw [if_neg hnt, if_pos hid]
      split
      · exact step _
      · simp

theorem extractClassInfo_fuel (mo : QMetaObject) (data : QString) :
    extractClassInfo mo data ≠ .outOfFuel := by
  unfold extractClassInfo
  dsimp only
  split
  · rename_i kw hk
    obtain ⟨_, h2, h3⟩ := findNextKeyword_some hk
    rw [hk]
    exact extractClassInfoLoop_fuel data (data.length + 1) 0 kw _ h3 h2 (by omega)
  · simp

theorem extractBoolean_next {data : QString} {pos : Nat} {kws : List KeywordDescriptor}
    {r : ExtractResult (Option Bool)} (h : extractBoolean data pos kws = some r) :
    r.nextKeyword = findNextKeyword data pos kws := by
  unfold extractBoolean at h
  dsimp only at h
  split at h
  · injection h with h; rw [← h]; rfl
  · split at h
    · injection h with h; rw [← h]; rfl
    · split at h
      · injection h with h; rw [← h]; rfl
      · cases h

/-- The keyword loop of `extractPropertyInfo` ends before its fuel does. -/
theorem extractPropertyInfoLoop_fuel (data : QString) :
    ∀ (fuel kpos : Nat) (kw : KeywordDescriptor) (info : QOrmUserMetadata),
      kw ∈ PropertyKeywords → kpos < data.length → data.length - kpos ≤ fuel →
      extractPropertyInfoLoop data fuel (some (kpos, kw)) info ≠ .outOfFuel := by
  intro fuel
  induction fuel with
  | zero => intro kpos kw info _ h1 h2; omega
  | succ n ih =>
    intro kpos kw info hkw h1 h2
    have step : ∀ (next : KeywordPosition) info',
        next = findNextKeyword data (kpos + kw.token.length) PropertyKeywords →
        extractPropertyInfoLoop data n next info' ≠ .outOfFuel := by
      intro next info' hnext
      cases hn : next with
      | none => unfold extractPropertyInfoLoop; simp
      | some r =>
        obtain ⟨q, kw'⟩ := r
        rw [hn] at hnext
        obtain ⟨h3, h4, h5⟩ := findNextKeyword_some hnext.symm
        have := (propertyKeyword_cases hkw).2
        exact ih q kw' info' h5 h4 (by omega)
    have stepB : ∀ (f : Fatal) (k : Keyword),
        (match extractBoolean data (kpos + kw.token.length) PropertyKeywords with
          | none => Res.fatal f
          | some extractResult =>
            extractPropertyInfoLoop data n extractResult.nextKeyword
              (info.insert k (.bool (extractResult.value.getD true)))) ≠ .outOfFuel := by
      intro f k
      cases hb : extractBoolean data (kpos + kw.token.length) PropertyKeywords with
      | none => simp
      | some r => exact step _ _ (extractBoolean_next hb)
    unfold extractPropertyInfoLoop
    dsimp only
    rcases (propertyKeyword_cases hkw).1 with hid | hid | hid | hid
    · rw [if_pos hid]
      split
      · exact step _ _ rfl
      · simp
    · have h1 : kw.id ≠ Keyword.Column := by rw [hid]; decide
      rw [if_neg h1, if_pos hid]
      exact stepB _ _
    · have h1 : kw.id ≠ Keyword.Column := by rw [hid]; decide
      have h2 : kw.id ≠ Keyword.Identity := by rw [hid]; decide
      rw [if_neg h1, if_neg h2, if_pos hid]
      exact stepB _ _
    · have h1 : kw.id ≠ Keyword.Column := by rw [hid]; decide
      have h2 : kw.id ≠ Keyword.Identity := by rw [hid]; decide
      have h3 : kw.id ≠ Keyword.Transient := by rw [hid]; decide
      rw [if_neg h1, if_neg h2, if_neg h3, if_pos hid]
      exact stepB _ _

theorem extractPropertyInfo_fuel (mo : QMetaObject) (data : QString) :
    extractPropertyInfo mo data ≠ .outOfFuel := by
  unfold extractPropertyInfo
  cases hk : findNextKeyword data 0 PropertyKeywords with
  | none => simp
  | some r =>
    obtain ⟨kpos, kw⟩ := r
    dsimp only
    obtain ⟨_, h2, h3⟩ := findNextKeyword_some hk
    split
    · simp
    · exact extractPropertyInfoLoop_fuel data (data.length + 1) kpos kw _ h3 h2 (by omega)

theorem initializeClassInfos_fuel (mo : QMetaObject) :
    ∀ (cis : List QMetaClassInfo) (ci : QOrmUserMetadata) (pi : QHash QString QOrmUserMetadata),
      initializeClassInfos mo cis ci pi ≠ .outOfFuel := by
  intro cis
  induction cis with
  | nil => intro ci pi; unfold initializeClassInfos; simp
  | cons x rest ih =>
    intro ci pi
    unfold initializeClassInfos
    split
    · split
      · simp
      · cases hc : extractClassInfo mo x.value with
        | fatal e => simp
        | outOfFuel => exact absurd hc (extractClassInfo_fuel mo x.value)
        | ok r => exact ih _ _
    · split
      · cases hc : extractPropertyInfo mo x.value with
        | fatal e => simp
        | outOfFuel => exact absurd hc (extractPropertyInfo_fuel mo x.value)
        | ok r =>
          dsimp only
          split
          · simp
          · split
            · simp
            · exact ih _ _
      · exact ih _ _

/-! ## Termination of `get` -/

theorem filter_length_le {α : Type} (p q : α → Bool) :
    ∀ (l : List α), (∀ x ∈ l, q x = true → p x = true) →
      (l.filter q).length ≤ (l.filter p).length := by
  intro l
  induction l with
  | nil => intro _; simp
  | cons a rest ih =>
    intro h
    have ih' := ih (fun x hx => h x (List.mem_cons_of_mem a hx))
    have ha := h a (List.mem_cons_self a rest)
    cases hq : q a with
    | false =>
      rw [List.filter_cons_of_neg (by simp [hq])]
      cases hp : p a with
      | false => rw [List.filter_cons_of_neg (by simp [hp])]; exact ih'
      | true => rw [List.filter_cons_of_pos hp]; simp only [List.length_cons]; omega
    | true =>
      rw [List.filter_cons_of_pos hq, List.filter_cons_of_pos (ha hq)]
      simp only [List.length_cons]; omega

theorem filter_length_lt {α : Type} (p q : α → Bool) :
    ∀ (l : List α), (∀ x ∈ l, q x = true → p x = true) →
      (∃ x ∈ l, p x = true ∧ q x = false) →
      (l.filter q).length < (l.filter p).length := by
  intro l
  induction l with
  | nil => intro _ ⟨x, hx, _⟩; cases hx
  | cons a rest ih =>
    intro h ⟨x, hx, hpx, hqx⟩
    have hrest : ∀ y ∈ rest, q y = true → p y = true :=
      fun y hy => h y (List.mem_cons_of_mem a hy)
    have hle := filter_length_le p q rest hrest
    have ha := h a (List.mem_cons_self a rest)
    rcases List.mem_cons.1 hx with rfl | hx'
    · rw [List.filter_cons_of_neg (by simp [hqx]), List.filter_cons_of_pos hpx]
      simp only [List.length_cons]; omega
    · have ih' := ih hrest ⟨x, hx', hpx, hqx⟩
      cases hq : q a with
      | false =>
        rw [List.filter_cons_of_neg (by simp [hq])]
        cases hp : p a with
        | false => rw [List.filter_cons_of_neg (by simp [hp])]; exact ih'
        | true => rw [List.filter_cons_of_pos hp]; simp only [List.length_cons]; omega
      | true =>
        rw [List.filter_cons_of_pos hq, List.filter_cons_of_pos (ha hq)]
        simp only [List.length_cons]; omega

theorem pending_le_length (reg : MetaTypeRegistry) (st : QOrmMetadataCachePrivate) :
    pending reg st ≤ reg.length :=
  List.length_filter_le _ _

theorem pending_mono (reg : MetaTypeRegistry) {st st' : QOrmMetadataCachePrivate}
    (h : ∀ T, QHash.contains st.m_cache T = true → QHash.contains st'.m_cache T = true) :
    pending reg st' ≤ pending reg st := by
  unfold pending
  apply filter_length_le
  intro e _ he
  cases hm : e.metaObject with
  | none => rw [hm] at he; cases he
  | some mo =>
    rw [hm] at he
    dsimp only at he ⊢
    cases hc : QHash.contains st.m_cache mo.className with
    | false => rfl
    | true => rw [h _ hc] at he; cases he

theorem pending_lt (reg : MetaTypeRegistry) {st st' : QOrmMetadataCachePrivate}
    (h : ∀ T, QHash.contains st.m_cache T = true → QHash.contains st'.m_cache T = true)
    {mo : QMetaObject} (hreg : InRegistry reg mo)
    (h1 : QHash.contains st.m_cache mo.className = false)
    (h2 : QHash.contains st'.m_cache mo.className = true) :
    pending reg st' < pending reg st := by
  unfold pending
  apply filter_length_lt
  · intro e _ he
    cases hm : e.metaObject with
    | none => rw [hm] at he; cases he
    | some mo' =>
      rw [hm] at he
      dsimp only at he ⊢
      cases hc : QHash.contains st.m_cache mo'.className with
      | false => rfl
      | true => rw [h _ hc] at he; cases he
  · obtain ⟨e, he, hm⟩ := hreg
    refine ⟨e, he, ?_, ?_⟩
    · rw [hm]; dsimp only; rw [h1]; rfl
    · rw [hm]; dsimp only; rw [h2]; rfl

theorem metaObjectForType_inRegistry {reg : MetaTypeRegistry} {i : Nat} {mo : QMetaObject}
    (h : QMetaType.metaObjectForType reg i = some mo) : InRegistry reg mo := by
  cases i with
  | zero => cases h
  | succ j =>
    change (match reg.get? j with | some e => e.metaObject | none => none) = some mo at h
    cases he : reg.get? j with
    | none => rw [he] at h; cases h
    | some e =>
      rw [he] at h
      exact ⟨e, List.get?_mem he, h⟩

/-- The function `mappingDescriptor` runs out of fuel only if its recursive call does. -/
theorem mappingDescriptor_outOfFuel {reg : MetaTypeRegistry} {g : Getter}
    {st : QOrmMetadataCachePrivate} {mo : QMetaObject} {p : QMetaProperty}
    {umd : QOrmUserMetadata}
    (h : QOrmMetadataCachePrivate.mappingDescriptor reg g st mo p umd = .outOfFuel) :
    ∃ refMeta, InRegistry reg refMeta ∧ g st refMeta = .outOfFuel := by
  unfold QOrmMetadataCachePrivate.mappingDescriptor at h
  dsimp only at h
  split at h
  · split at h
    · cases h
    · split at h
      · cases hM : QMetaType.metaObjectForType reg (QMetaType.type reg (referencedTypeName p)) with
        | none => rw [hM] at h; cases h
        | some refMeta =>
          rw [hM] at h
          dsimp only at h
          cases hG : g st refMeta with
          | fatal e => rw [hG] at h; cases h
          | outOfFuel => exact ⟨refMeta, metaObjectForType_inRegistry hM, hG⟩
          | ok r => rw [hG] at h; cases h
      · split at h <;> cases h
  · cases h

theorem initializeProperties_fuel {reg : MetaTypeRegistry} {g : Getter} (hg : GetterSpec g)
    {n : Nat} (ht : GetterTotal reg n g) (c : QByteArray) (mo : QMetaObject)
    (pi : QHash QString QOrmUserMetadata) :
    ∀ (ps : List QMetaProperty) (st : QOrmMetadataCachePrivate), pending reg st ≤ n →
      initializeProperties reg g c mo pi ps st ≠ .outOfFuel := by
  intro ps
  induction ps with
  | nil => intro st _; unfold initializeProperties; simp
  | cons p rest ih =>
    intro st hpen
    unfold initializeProperties
    split
    · exact ih st hpen
    · dsimp only
      cases hm : QOrmMetadataCachePrivate.mappingDescriptor reg g st mo p
          (QHash.value pi p.name {}) with
      | fatal e => simp
      | outOfFuel =>
        obtain ⟨refMeta, hreg, hout⟩ := mappingDescriptor_outOfFuel hm
        exact absurd hout (ht st refMeta hreg hpen)
      | ok r =>
        obtain ⟨d, st1⟩ := r
        dsimp only
        split
        · simp
        · split
          · simp
          · split
            · simp
            · split
              · simp
              · apply ih
                have e1 := mappingDescriptor_ext hg c hm
                have e2 := ext_appendMapping c st1 p d (QHash.value pi p.name {})
                exact le_trans (pending_mono reg (e1.trans e2).keeps) hpen

theorem validateMappings_fuel (st : QOrmMetadataCachePrivate) (e : QByteArray) :
    ∀ ms : List QOrmPropertyMapping, validateMappings st e ms ≠ .outOfFuel := by
  intro ms
  induction ms with
  | nil => unfold validateMappings; simp
  | cons m rest ih =>
    unfold validateMappings
    cases hv : validateMapping st e m with
    | ok u => exact ih
    | fatal x => simp
    | outOfFuel =>
      exfalso
      unfold validateMapping at hv
      split at hv
      · cases hv
      · split at hv
        · cases hv
        · split at hv
          · split at hv <;> cases hv
          · split at hv <;> cases hv

theorem validateCrossReferences_fuel (st : QOrmMetadataCachePrivate) :
    ∀ names : List QByteArray,
      QOrmMetadataCachePrivate.validateCrossReferences st names ≠ .outOfFuel := by
  intro names
  induction names with
  | nil => unfold QOrmMetadataCachePrivate.validateCrossReferences; simp
  | cons e rest ih =>
    unfold QOrmMetadataCachePrivate.validateCrossReferences
    split
    · simp
    · rename_i entity _
      cases hv : validateMappings st e entity.m_propertyMappings with
      | ok u => exact ih
      | fatal x => simp
      | outOfFuel => exact absurd hv (validateMappings_fuel st e _)

theorem placeholderCached_keeps (st : QOrmMetadataCachePrivate) (c : QByteArray)
    (mo : QMetaObject) (ci : QOrmUserMetadata) :
    (∀ T, QHash.contains st.m_cache T = true →
      QHash.contains (classDataSet (placeholderCached st c mo) c mo ci).m_cache T = true) ∧
    QHash.contains (classDataSet (placeholderCached st c mo) c mo ci).m_cache c = true := by
  constructor
  · intro T hT
    dsimp only [classDataSet, placeholderCached]
    rw [QHash.contains_modify]
    obtain ⟨v, hv⟩ := (QHash.contains_iff _ _).1 hT
    exact (QHash.contains_iff _ _).2 ⟨v, QHash.find_emplace_of_some T c v _ _ hv⟩
  · dsimp only [classDataSet, placeholderCached]
    rw [QHash.contains_modify]
    cases hf : QHash.find c st.m_cache with
    | none => exact (QHash.contains_iff _ _).2 ⟨_, QHash.find_emplace_self c _ _ hf⟩
    | some v => exact (QHash.contains_iff _ _).2 ⟨v, QHash.find_emplace_of_some c c v _ _ hf⟩

theorem validateConstructor_fuel (mo : QMetaObject) :
    QOrmMetadataCachePrivate.validateConstructor mo ≠ .outOfFuel := by
  unfold QOrmMetadataCachePrivate.validateConstructor
  dsimp only
  split
  · simp
  · split <;> simp

theorem initialize_fuel {reg : MetaTypeRegistry} {g : Getter} (hg : GetterSpec g)
    {n : Nat} (ht : GetterTotal reg n g) (st : QOrmMetadataCachePrivate) (c : QByteArray)
    (mo : QMetaObject)
    (hpen : ∀ ci, pending reg (classDataSet (placeholderCached st c mo) c mo ci) ≤ n) :
    QOrmMetadataCachePrivate.initialize reg g st c mo ≠ .outOfFuel := by
  unfold QOrmMetadataCachePrivate.initialize
  cases hv : QOrmMetadataCachePrivate.validateConstructor mo with
  | fatal e => simp
  | outOfFuel => exact absurd hv (validateConstructor_fuel mo)
  | ok u =>
    dsimp only
    cases hc : initializeClassInfos mo mo.classInfos {} [] with
    | fatal e => simp
    | outOfFuel => exact absurd hc (initializeClassInfos_fuel mo _ _ _)
    | ok r =>
      obtain ⟨ci, pi⟩ := r
      dsimp only
      cases hp : initializeProperties reg g c mo pi mo.properties
          (classDataSet (placeholderCached st c mo) c mo ci) with
      | fatal e => simp
      | outOfFuel => exact absurd hp (initializeProperties_fuel hg ht c mo pi _ _ (hpen ci))
      | ok st4 =>
        dsimp only
        split
        · cases hx : QOrmMetadataCachePrivate.validateCrossReferences (markConstructed st4 c)
              (markConstructed st4 c).m_constructed with
          | fatal e => simp
          | outOfFuel => exact absurd hx (validateCrossReferences_fuel _ _)
          | ok u => simp
        · simp

/-- With `n` units of fuel `get` does not run out of fuel on a registered entity while at
most `n` registered entities are pending. -/
theorem get_total (reg : MetaTypeRegistry) :
    ∀ n, GetterTotal reg n (QOrmMetadataCachePrivate.get reg n) := by
  intro n
  induction n with
  | zero =>
    intro st mo hreg hpen
    unfold QOrmMetadataCachePrivate.get
    dsimp only
    split
    · simp
    · rename_i hc
      exfalso
      have hc' : QHash.contains st.m_cache mo.className = false := by simpa using hc
      have h0 : 0 < pending reg st := by
        unfold pending
        apply List.length_pos_of_mem (a := (hreg.choose))
        obtain ⟨he, hm⟩ := hreg.choose_spec
        apply List.mem_filter.2
        refine ⟨he, ?_⟩
        rw [hm]; dsimp only; rw [hc']; rfl
      omega
  | succ m ih =>
    intro st mo hreg hpen
    unfold QOrmMetadataCachePrivate.get
    dsimp only
    split
    · simp
    · rename_i hc
      have hc' : QHash.contains st.m_cache mo.className = false := by simpa using hc
      have hi : QOrmMetadataCachePrivate.initialize reg ( QOrmMetadataCachePrivate.get reg m)
          st mo.className mo ≠ .outOfFuel := by
        apply initialize_fuel (get_spec reg m) ih
        intro ci
        obtain ⟨hk, hself⟩ := placeholderCached_keeps st mo.className mo ci
        have := pending_lt reg hk hreg hc' hself
        omega
      cases hr : QOrmMetadataCachePrivate.initialize reg ( QOrmMetadataCachePrivate.get reg m)
          st mo.className mo with
      | fatal e => simp
      | outOfFuel => exact absurd hr hi
      | ok st1 => dsimp only; split <;> simp

/-- One unit of fuel more than the number of pending registered entities suffices for any
entity, registered or not. -/
theorem get_toplevel_total (reg : MetaTypeRegistry) (fuel : Nat)
    (st : QOrmMetadataCachePrivate) (mo : QMetaObject) (hf : pending reg st + 1 ≤ fuel) :
    QOrmMetadataCachePrivate.get reg fuel st mo ≠ .outOfFuel := by
  cases fuel with
  | zero => omega
  | succ m =>
    unfold QOrmMetadataCachePrivate.get
    dsimp only
    split
    · simp
    · have hi : QOrmMetadataCachePrivate.initialize reg ( QOrmMetadataCachePrivate.get reg m)
          st mo.className mo ≠ .outOfFuel := by
        apply initialize_fuel (get_spec reg m) (get_total reg m)
        intro ci
        have := pending_mono reg (placeholderCached_keeps st mo.className mo ci).1
        omega
      cases hr : QOrmMetadataCachePrivate.initialize reg ( QOrmMetadataCachePrivate.get reg m)
          st mo.className mo with
      | fatal e => simp
      | outOfFuel => exact absurd hr hi
      | ok st1 => dsimp only; split <;> simp

/-! ## Independence of the fuel -/

theorem mappingDescriptor_refines {reg : MetaTypeRegistry} {g g' : Getter} (hgg : Refines g g')
    {st : QOrmMetadataCachePrivate} {mo : QMetaObject} {p : QMetaProperty}
    {umd : QOrmUserMetadata}
    (h : QOrmMetadataCachePrivate.mappingDescriptor reg g st mo p umd ≠ .outOfFuel) :
    QOrmMetadataCachePrivate.mappingDescriptor reg g' st mo p umd =
      QOrmMetadataCachePrivate.mappingDescriptor reg g st mo p umd := by
  unfold QOrmMetadataCachePrivate.mappingDescriptor at h ⊢
  dsimp only at h ⊢
  by_cases hT : p.type = QVariantType.UserType
  · simp only [if_pos hT] at h ⊢
    by_cases hU : p.userType = QMetaType.UnknownType
    · simp only [if_pos hU]
    · simp only [if_neg hU] at h ⊢
      by_cases hP : (QMetaType.typeFlags reg
          (QMetaType.type reg (referencedTypeName p))).pointerToQObject = true
      · simp only [if_pos hP] at h ⊢
        cases hM : QMetaType.metaObjectForType reg (QMetaType.type reg (referencedTypeName p)) with
        | none => rfl
        | some refMeta =>
          rw [hM] at h
          dsimp only at h ⊢
          have hne : g st refMeta ≠ .outOfFuel := by
            intro hout
            rw [hout] at h
            exact h rfl
          rw [hgg st refMeta hne]
      · simp only [if_neg hP]
  · simp only [if_neg hT]

theorem initializeProperties_refines {reg : MetaTypeRegistry} {g g' : Getter}
    (hgg : Refines g g') (c : QByteArray) (mo : QMetaObject)
    (pi : QHash QString QOrmUserMetadata) :
    ∀ (ps : List QMetaProperty) (st : QOrmMetadataCachePrivate),
      initializeProperties reg g c mo pi ps st ≠ .outOfFuel →
      initializeProperties reg g' c mo pi ps st = initializeProperties reg g c mo pi ps st := by
  intro ps
  induction ps with
  | nil => intro st _; unfold initializeProperties; rfl
  | cons p rest ih =>
    intro st h
    unfold initializeProperties at h ⊢
    by_cases hb : p.enclosedByQObject = true
    · simp only [if_pos hb] at h ⊢
      exact ih st h
    · simp only [if_neg hb] at h ⊢
      have hne : QOrmMetadataCachePrivate.mappingDescriptor reg g st mo p
          (QHash.value pi p.name {}) ≠ .outOfFuel := by
        intro hout
        rw [hout] at h
        exact h rfl
      rw [mappingDescriptor_refines hgg hne]
      cases hm : QOrmMetadataCachePrivate.mappingDescriptor reg g st mo p
          (QHash.value pi p.name {}) with
      | fatal e => rfl
      | outOfFuel => rfl
      | ok r =>
        obtain ⟨d, st1⟩ := r
        rw [hm] at h
        dsimp only at h ⊢
        split
        · rfl
        · rename_i h1
          rw [if_neg h1] at h
          split
          · rfl
          · rename_i h2
            rw [if_neg h2] at h
            split
            · rfl
            · rename_i h3
              rw [if_neg h3] at h
              cases hf : QHash.find c st1.m_cache with
              | none => rfl
              | some v =>
                rw [hf] at h
                exact ih _ h

theorem initialize_refines {reg : MetaTypeRegistry} {g g' : Getter} (hgg : Refines g g')
    (st : QOrmMetadataCachePrivate) (c : QByteArray) (mo : QMetaObject)
    (h : QOrmMetadataCachePrivate.initialize reg g st c mo ≠ .outOfFuel) :
    QOrmMetadataCachePrivate.initialize reg g' st c mo =
      QOrmMetadataCachePrivate.initialize reg g st c mo := by
  unfold QOrmMetadataCachePrivate.initialize at h ⊢
  cases hv : QOrmMetadataCachePrivate.validateConstructor mo with
  | fatal e => rfl
  | outOfFuel => rfl
  | ok u =>
    rw [hv] at h
    dsimp only at h ⊢
    cases hc : initializeClassInfos mo mo.classInfos {} [] with
    | fatal e => rfl
    | outOfFuel => rfl
    | ok r =>
      obtain ⟨ci, pi⟩ := r
      rw [hc] at h
      dsimp only at h ⊢
      have hne : initializeProperties reg g c mo pi mo.properties
          (classDataSet (placeholderCached st c mo) c mo ci) ≠ .outOfFuel := by
        intro hout
        rw [hout] at h
        exact h rfl
      rw [initializeProperties_refines hgg c mo pi _ _ hne]

/-- More fuel does not change a result that was reached. -/
theorem get_succ_refines (reg : MetaTypeRegistry) :
    ∀ n, Refines (QOrmMetadataCachePrivate.get reg n) (QOrmMetadataCachePrivate.get reg (n + 1)) := by
  intro n
  induction n with
  | zero =>
    intro st mo h
    unfold QOrmMetadataCachePrivate.get at h ⊢
    dsimp only at h ⊢
    by_cases hc : QHash.contains st.m_cache mo.className = true
    · rw [if_pos hc]; rw [if_pos hc]
    · rw [if_neg hc] at h
      exact absurd rfl h
  | succ m ih =>
    intro st mo h
    rw [QOrmMetadataCachePrivate.get.eq_def] at h ⊢
    dsimp only at h ⊢
    by_cases hc : QHash.contains st.m_cache mo.className = true
    · rw [if_pos hc]
      conv_rhs => rw [QOrmMetadataCachePrivate.get.eq_def]
      dsimp only
      rw [if_pos hc]
    · rw [if_neg hc] at h ⊢
      conv_rhs => rw [QOrmMetadataCachePrivate.get.eq_def]
      dsimp only
      rw [if_neg hc]
      have hne : QOrmMetadataCachePrivate.initialize reg ( QOrmMetadataCachePrivate.get reg m)
          st mo.className mo ≠ .outOfFuel := by
        intro hout
        rw [hout] at h
        exact h rfl
      rw [initialize_refines ih st mo.className mo hne]

theorem get_fuel_mono (reg : MetaTypeRegistry) (st : QOrmMetadataCachePrivate)
    (mo : QMetaObject) (n : Nat)
    (h : QOrmMetadataCachePrivate.get reg n st mo ≠ .outOfFuel) :
    ∀ m, n ≤ m → QOrmMetadataCachePrivate.get reg m st mo =
      QOrmMetadataCachePrivate.get reg n st mo := by
  intro m hm
  induction m with
  | zero =>
    have : n = 0 := by omega
    subst this; rfl
  | succ k ih =>
    by_cases hk : n = k + 1
    · subst hk; rfl
    · have hle : n ≤ k := by omega
      have e := ih hle
      rw [← e] at h
      rw [get_succ_refines reg k st mo h, e]

/-! ## The record built by `initialize` -/

theorem mappingDescriptor_frame {reg : MetaTypeRegistry} {g : Getter} (hg : GetterSpec g)
    {st st1 : QOrmMetadataCachePrivate} {mo : QMetaObject} {p : QMetaProperty}
    {umd : QOrmUserMetadata} {d : MappingDescriptor}
    (h : QOrmMetadataCachePrivate.mappingDescriptor reg g st mo p umd = .ok (d, st1)) :
    ∀ T d0, QHash.find T st.m_cache = some d0 → QHash.find T st1.m_cache = some d0 := by
  rcases mappingDescriptor_state h with h1 | ⟨refMeta, k, h1⟩
  · subst h1; exact fun _ _ h => h
  · exact (hg _ _ _ _ h1).frame

theorem MappingFor.mono {reg : MetaTypeRegistry} {c : QByteArray} {mo : QMetaObject}
    {pi : QHash QString QOrmUserMetadata} {st' st'' : QOrmMetadataCachePrivate}
    (hk : ∀ T, QHash.contains st'.m_cache T = true → QHash.contains st''.m_cache T = true)
    {p : QMetaProperty} {m : QOrmPropertyMapping} (h : MappingFor reg c mo pi st' p m) :
    MappingFor reg c mo pi st'' p m := by
  obtain ⟨g, st, st1, d, h1, h2, h3, h4, h5, h6, h7⟩ := h
  exact ⟨g, st, st1, d, h1, h2, h3, h4, h5, h6, fun T hT => hk T (h7 T hT)⟩

theorem appendMapping_objectId {data : QOrmMetadataPrivate} (c : QByteArray)
    (p : QMetaProperty) (d : MappingDescriptor) (umd : QOrmUserMetadata)
    (h : data.m_objectIdPropertyMappingIdx ≠ -1 ∨ d.isObjectId = true) :
    (appendMapping data c p d umd).m_objectIdPropertyMappingIdx ≠ -1 := by
  unfold appendMapping
  dsimp only
  split
  · simp only [List.length_append, List.length_singleton, Nat.cast_add, Nat.cast_one,
      add_sub_cancel_right]
    omega
  · rename_i hd
    rcases h with h | h
    · exact h
    · exact absurd h hd

/-- The property loop appends one mapping per own property, in order, to the record of its
entity and leaves the other members of the record alone; the identity index is set once a
mapping is marked as the identity. -/
theorem initializeProperties_record {reg : MetaTypeRegistry} {g : Getter} (hg : GetterSpec g)
    (c : QByteArray) (mo : QMetaObject) (pi : QHash QString QOrmUserMetadata) :
    ∀ (ps : List QMetaProperty) (st st' : QOrmMetadataCachePrivate) (data0 : QOrmMetadataPrivate),
      QHash.find c st.m_cache = some data0 →
      initializeProperties reg g c mo pi ps st = .ok st' →
      ∃ data ms, QHash.find c st'.m_cache = some data ∧
        data.m_propertyMappings = data0.m_propertyMappings ++ ms ∧
        List.Forall₂ (MappingFor reg c mo pi st') (ps.filter (fun p => !p.enclosedByQObject)) ms ∧
        data.m_className = data0.m_className ∧ data.m_tableName = data0.m_tableName ∧
        data.m_userMetadata = data0.m_userMetadata ∧
        data.m_qMetaObject = data0.m_qMetaObject ∧
        ((data0.m_objectIdPropertyMappingIdx ≠ -1 ∨ ∃ m ∈ ms, m.isObjectId = true) →
          data.m_objectIdPropertyMappingIdx ≠ -1) := by
  intro ps
  induction ps with
  | nil =>
    intro st st' data0 hf h
    unfold initializeProperties at h
    cases h
    refine ⟨data0, [], hf, by simp, List.Forall₂.nil, rfl, rfl, rfl, rfl, ?_⟩
    rintro (h0 | ⟨m, hm, _⟩)
    · exact h0
    · cases hm
  | cons p rest ih =>
    intro st st' data0 hf h
    rcases initializeProperties_cons h with ⟨hb, h1⟩ | ⟨hb, d, st1, hm, hc1, hc2, hc3, _, h1⟩
    · obtain ⟨data, ms, r1, r2, r3, r4⟩ := ih st st' data0 hf h1
      refine ⟨data, ms, r1, r2, ?_, r4⟩
      rw [List.filter_cons_of_neg (by simp [hb])]
      exact r3
    · have hf1 : QHash.find c st1.m_cache = some data0 := mappingDescriptor_frame hg hm c data0 hf
      have hf2 : QHash.find c (mappingAppended st1 c p d (QHash.value pi p.name {})).m_cache
          = some (appendMapping data0 c p d (QHash.value pi p.name {})) := by
        dsimp only [mappingAppended]
        rw [QHash.find_modify_self, hf1]
        rfl
      obtain ⟨data, ms, r1, r2, r3, r4, r5, r6, r7, r8⟩ := ih _ st' _ hf2 h1
      have hrest := initializeProperties_ext hg c mo pi _ _ _ h1
      refine ⟨data, newMapping c p d (QHash.value pi p.name {}) :: ms, r1, ?_, ?_, r4, r5, r6, r7,
        ?_⟩
      · rw [r2]
        simp [appendMapping]
      · rw [List.filter_cons_of_pos (by simp [hb])]
        refine List.Forall₂.cons ?_ r3
        refine ⟨g, st, st1, d, hg, hm, hc1, hc2, hc3, rfl, ?_⟩
        intro T hT
        exact hrest.keeps T ((ext_appendMapping c st1 p d _).keeps T hT)
      · intro hid
        apply r8
        rcases hid with h0 | ⟨m, hmem, hmid⟩
        · exact Or.inl (appendMapping_objectId c p d _ (Or.inl h0))
        · rcases List.mem_cons.1 hmem with rfl | hmem'
          · exact Or.inl (appendMapping_objectId c p d _ (Or.inr hmid))
          · exact Or.inr ⟨m, hmem', hmid⟩

/-- The record that a successful `get` builds for an entity that was not in the cache:
class name, table name and class-level metadata come from the class-level declaration, and
the mappings are those of the own properties, in order. -/
theorem get_record {reg : MetaTypeRegistry} {fuel : Nat} {st st' : QOrmMetadataCachePrivate}
    {mo : QMetaObject} {k : QByteArray}
    (h : QOrmMetadataCachePrivate.get reg fuel st mo = .ok (k, st'))
    (hfresh : QHash.find mo.className st.m_cache = none) :
    ∃ ci pi data,
      initializeClassInfos mo mo.classInfos {} [] = .ok (ci, pi) ∧
      QHash.find k st'.m_cache = some data ∧
      data.m_className = mo.className ∧
      data.m_tableName = (ci.value .Table (.string mo.className)).toString ∧
      data.m_userMetadata = ci ∧
      data.m_qMetaObject = mo ∧
      List.Forall₂ (MappingFor reg k mo pi st') (ownProperties mo) data.m_propertyMappings := by
  obtain ⟨hk, ⟨hc, _⟩ | ⟨_, n, _, hi⟩⟩ := get_ok h
  · rw [(QHash.contains_eq_false _ _).2 hfresh] at hc; cases hc
  · subst hk
    obtain ⟨_, ci, pi, st4, hci, hp, hst, _⟩ := initialize_ok hi
    obtain ⟨_, hself⟩ := classDataSet_placeholderCached_find st mo.className mo ci hfresh
    obtain ⟨data, ms, r1, r2, r3, r4, r5, r6, r7, _⟩ :=
      initializeProperties_record (get_spec reg n) mo.className mo pi _ _ _ _ hself hp
    subst hst
    refine ⟨ci, pi, data, hci, r1, r4, r5, r6, r7, ?_⟩
    have : data.m_propertyMappings = ms := by rw [r2]; rfl
    rw [this]
    exact r3

/-- The descriptor fields that `mappingDescriptor` takes over from the defaults and the
user metadata whatever the type of the property. -/
theorem mappingDescriptor_flags {reg : MetaTypeRegistry} {g : Getter}
    {st st1 : QOrmMetadataCachePrivate} {mo : QMetaObject} {p : QMetaProperty}
    {umd : QOrmUserMetadata} {d : MappingDescriptor}
    (h : QOrmMetadataCachePrivate.mappingDescriptor reg g st mo p umd = .ok (d, st1)) :
    d.classPropertyName = p.name ∧ d.isObjectId = (baseDescriptor p umd).isObjectId ∧
      d.isAutogenerated = (baseDescriptor p umd).isAutogenerated := by
  have hc : ∀ b : MappingDescriptor,
      (containerDescriptor p b).classPropertyName = b.classPropertyName ∧
      (containerDescriptor p b).isObjectId = b.isObjectId ∧
      (containerDescriptor p b).isAutogenerated = b.isAutogenerated := by
    intro b; unfold containerDescriptor; split <;> exact ⟨rfl, rfl, rfl⟩
  have hw : ∀ b : MappingDescriptor,
      (withIdSuffix umd b).classPropertyName = b.classPropertyName ∧
      (withIdSuffix umd b).isObjectId = b.isObjectId ∧
      (withIdSuffix umd b).isAutogenerated = b.isAutogenerated := by
    intro b; unfold withIdSuffix; split <;> exact ⟨rfl, rfl, rfl⟩
  have hb : (baseDescriptor p umd).classPropertyName = p.name := rfl
  rcases mappingDescriptor_ok h with ⟨_, hd, _⟩ | ⟨_, _, _, _, hd, _⟩ | ⟨_, _, _, _, hd, _⟩ |
    ⟨_, _, _, refMeta, k, _, _, hd⟩
  · subst hd; exact ⟨rfl, rfl, rfl⟩
  · subst hd; exact ⟨(hc _).1.trans hb, (hc _).2.1, (hc _).2.2⟩
  · subst hd; exact ⟨(hc _).1.trans hb, (hc _).2.1, (hc _).2.2⟩
  · subst hd
    exact ⟨((hw _).1.trans (hc _).1).trans hb, (hw _).2.1.trans (hc _).2.1,
      (hw _).2.2.trans (hc _).2.2⟩

theorem forall₂_mem_left {α β : Type} {R : α → β → Prop} :
    ∀ {l1 : List α} {l2 : List β}, List.Forall₂ R l1 l2 → ∀ a ∈ l1, ∃ b ∈ l2, R a b := by
  intro l1 l2 h
  induction h with
  | nil => intro a ha; cases ha
  | cons hab _ ih =>
    intro a ha
    rcases List.mem_cons.1 ha with rfl | ha'
    · exact ⟨_, List.mem_cons_self _ _, hab⟩
    · obtain ⟨b, hb, hr⟩ := ih a ha'
      exact ⟨b, List.mem_cons_of_mem _ hb, hr⟩

/-- The identity flags of a mapping built for a property are those of `baseDescriptor`. -/
theorem MappingFor.flags {reg : MetaTypeRegistry} {c : QByteArray} {mo : QMetaObject}
    {pi : QHash QString QOrmUserMetadata} {st' : QOrmMetadataCachePrivate}
    {p : QMetaProperty} {m : QOrmPropertyMapping} (h : MappingFor reg c mo pi st' p m) :
    m.qMetaProperty = p ∧ m.classPropertyName = p.name ∧
    m.isObjectId = (baseDescriptor p (QHash.value pi p.name {})).isObjectId ∧
    m.isAutogenerated = (baseDescriptor p (QHash.value pi p.name {})).isAutogenerated ∧
    (m.isAutogenerated = true → m.isObjectId = true) := by
  obtain ⟨g, st, st1, d, _, hm, _, _, h5, h6, _⟩ := h
  obtain ⟨f1, f2, f3⟩ := mappingDescriptor_flags hm
  subst h6
  exact ⟨rfl, f1, f2, f3, h5⟩

theorem baseDescriptor_isObjectId (p : QMetaProperty) (umd : QOrmUserMetadata) :
    (baseDescriptor p umd).isObjectId =
      if umd.contains .Identity then (umd.value .Identity .invalid).toBool
      else qstricmpEq p.name "id".toList := rfl

theorem baseDescriptor_isAutogenerated (p : QMetaProperty) (umd : QOrmUserMetadata) :
    (baseDescriptor p umd).isAutogenerated =
      if umd.contains .Autogenerated then (umd.value .Autogenerated .invalid).toBool
      else qstricmpEq p.name "id".toList := rfl

theorem baseDescriptor_tableFieldName (p : QMetaProperty) (umd : QOrmUserMetadata) :
    (baseDescriptor p umd).tableFieldName =
      if umd.contains .Column then (umd.value .Column .invalid).toString
      else toLower p.name := rfl

theorem baseDescriptor_isTransient (p : QMetaProperty) (umd : QOrmUserMetadata) :
    (baseDescriptor p umd).isTransient =
      if umd.contains .Transient then (umd.value .Transient .invalid).toBool
      else !p.isStored := rfl

theorem value_of_find_none (pi : QHash QString QOrmUserMetadata) (n : QString)
    (h : QHash.find n pi = none) : QHash.value pi n {} = {} := by
  unfold QHash.value
  rw [h]; rfl

theorem mem_of_isPrefixOf {pre t : List Char} (h : pre.isPrefixOf t = true) :
    ∀ c ∈ pre, c ∈ t :=
  fun _ hc => (List.isPrefixOf_iff_prefix.1 h).subset hc

theorem mem_of_isSuffixOf {suf t : List Char} (h : suf.isSuffixOf t = true) :
    ∀ c ∈ suf, c ∈ t :=
  fun _ hc => (List.isSuffixOf_iff_suffix.1 h).subset hc

/-- A type name without angle brackets is looked up as it is. -/
theorem referencedTypeName_plain {p : QMetaProperty} (h1 : '<' ∉ p.typeName)
    (h2 : '>' ∉ p.typeName) :
    endsWithPointerBracket p = false ∧ referencedTypeName p = p.typeName := by
  have hs : stripAggregate aggregatePrefixes p.typeName = p.typeName := by
    unfold aggregatePrefixes stripAggregate
    split
    · rename_i hpre
      exact absurd (mem_of_isPrefixOf hpre '<' (by decide)) h1
    · unfold stripAggregate
      split
      · rename_i hpre
        exact absurd (mem_of_isPrefixOf hpre '<' (by decide)) h1
      · rfl
  have he : endsWithPointerBracket p = false := by
    unfold endsWithPointerBracket
    rw [hs]
    cases hsuf : "*>".toList.isSuffixOf p.typeName with
    | false => rfl
    | true => exact absurd (mem_of_isSuffixOf hsuf '>' (by decide)) h2
  refine ⟨he, ?_⟩
  unfold referencedTypeName
  rw [he]
  exact hs

theorem find_of_contains_false {umd : QOrmUserMetadata} {k : Keyword}
    (h : umd.find k = none) : umd.contains k = false := by
  unfold QOrmUserMetadata.contains; rw [h]; rfl

theorem value_of_find_some {umd : QOrmUserMetadata} {k : Keyword} {v : QVariant}
    (h : umd.find k = some v) : umd.contains k = true ∧ umd.value k .invalid = v := by
  unfold QOrmUserMetadata.contains QOrmUserMetadata.value; rw [h]; exact ⟨rfl, rfl⟩

/-- The table-field name and the transient flag of a mapping, by the kind of type of its
property. -/
theorem MappingFor.field {reg : MetaTypeRegistry} {c : QByteArray} {mo : QMetaObject}
    {pi : QHash QString QOrmUserMetadata} {st' : QOrmMetadataCachePrivate}
    {p : QMetaProperty} {m : QOrmPropertyMapping} (h : MappingFor reg c mo pi st' p m) :
    (p.type ≠ QVariantType.UserType ∧
      m.tableFieldName = (baseDescriptor p (QHash.value pi p.name {})).tableFieldName ∧
      m.isTransient = (baseDescriptor p (QHash.value pi p.name {})).isTransient ∧
      m.referencedEntity = none) ∨
    (p.type = QVariantType.UserType ∧
      (QMetaType.typeFlags reg (QMetaType.type reg (referencedTypeName p))).pointerToQObject
        = false ∧
      m.tableFieldName =
        (containerDescriptor p (baseDescriptor p (QHash.value pi p.name {}))).tableFieldName ∧
      m.isTransient =
        (containerDescriptor p (baseDescriptor p (QHash.value pi p.name {}))).isTransient ∧
      m.referencedEntity = none) ∨
    (p.type = QVariantType.UserType ∧
      (QMetaType.typeFlags reg (QMetaType.type reg (referencedTypeName p))).pointerToQObject
        = true ∧
      m.tableFieldName =
        (withIdSuffix (QHash.value pi p.name {})
          (containerDescriptor p (baseDescriptor p (QHash.value pi p.name {})))).tableFieldName ∧
      m.isTransient =
        (withIdSuffix (QHash.value pi p.name {})
          (containerDescriptor p (baseDescriptor p (QHash.value pi p.name {})))).isTransient ∧
      ∃ refMeta,
        QMetaType.metaObjectForType reg (QMetaType.type reg (referencedTypeName p))
          = some refMeta ∧
        m.referencedEntity = some refMeta.className ∧
        QHash.contains st'.m_cache refMeta.className = true) := by
  obtain ⟨g, st, st1, d, hg, hm, _, _, _, h6, h7⟩ := h
  have hbr : (baseDescriptor p (QHash.value pi p.name {})).referencedEntity = none := rfl
  have hcr : (containerDescriptor p (baseDescriptor p (QHash.value pi p.name {}))).referencedEntity
      = none := by
    unfold containerDescriptor; split <;> rfl
  rcases mappingDescriptor_ok hm with ⟨hT, hd, _⟩ | ⟨hT, _, hP, _, hd, _⟩ | ⟨hT, _, hP, _, hd, _⟩ |
    ⟨hT, _, hP, refMeta, k, hM, hG, hd⟩
  · subst hd h6; exact Or.inl ⟨hT, rfl, rfl, rfl⟩
  · subst hd h6; exact Or.inr (Or.inl ⟨hT, hP, rfl, rfl, hcr⟩)
  · subst hd h6; exact Or.inr (Or.inl ⟨hT, hP, rfl, rfl, hcr⟩)
  · subst hd h6
    have hpost := hg _ _ _ _ hG
    have hk := hpost.key
    subst hk
    exact Or.inr (Or.inr ⟨hT, hP, rfl, rfl, refMeta, hM, rfl, h7 _ hpost.present⟩)

/-! ## Running the property loop forwards -/

theorem sameBut_refl (c : QByteArray) (st : QOrmMetadataCachePrivate) : SameBut c st st :=
  ⟨rfl, rfl, fun _ _ => rfl, fun h => h⟩

theorem sameBut_trans {c : QByteArray} {st1 st2 st3 : QOrmMetadataCachePrivate}
    (h12 : SameBut c st1 st2) (h23 : SameBut c st2 st3) : SameBut c st1 st3 :=
  ⟨h23.uc.trans h12.uc, h23.con.trans h12.con,
    fun T hT => (h23.frame T hT).trans (h12.frame T hT), fun h => h23.keeps (h12.keeps h)⟩

theorem sameBut_mappingAppended (c : QByteArray) (st : QOrmMetadataCachePrivate)
    (p : QMetaProperty) (d : MappingDescriptor) (umd : QOrmUserMetadata) :
    SameBut c st (mappingAppended st c p d umd) :=
  ⟨rfl, rfl, fun T hT => QHash.find_modify_ne T c _ _ (Ne.symm hT),
    fun h => by dsimp only [mappingAppended]; rw [QHash.contains_modify]; exact h⟩

theorem initializeProperties_skip (reg : MetaTypeRegistry) (g : Getter) (c : QByteArray)
    (mo : QMetaObject) (pi : QHash QString QOrmUserMetadata) {p : QMetaProperty}
    (rest : List QMetaProperty) (st : QOrmMetadataCachePrivate)
    (hb : p.enclosedByQObject = true) :
    initializeProperties reg g c mo pi (p :: rest) st =
      initializeProperties reg g c mo pi rest st := by
  rw [initializeProperties.eq_def]
  dsimp only
  rw [if_pos hb]

/-- One iteration of the property loop whose descriptor is known and passes the checks. -/
theorem initializeProperties_step (reg : MetaTypeRegistry) (g : Getter) (c : QByteArray)
    (mo : QMetaObject) (pi : QHash QString QOrmUserMetadata) {p : QMetaProperty}
    (rest : List QMetaProperty) {st st1 : QOrmMetadataCachePrivate} {d : MappingDescriptor}
    (hb : p.enclosedByQObject = false)
    (hm : QOrmMetadataCachePrivate.mappingDescriptor reg g st mo p (QHash.value pi p.name {})
      = .ok (d, st1))
    (h1 : d.isTransient = false → p.isReadable = true ∧ p.isWritable = true ∧
      p.hasNotifySignal = true ∧ p.notifySignalIsValid = true)
    (h2 : ¬ (d.isTransient = true ∧ d.isObjectId = true))
    (h3 : d.isAutogenerated = true → d.isObjectId = true)
    (hc : QHash.contains st1.m_cache c = true) :
    initializeProperties reg g c mo pi (p :: rest) st =
      initializeProperties reg g c mo pi rest
        (mappingAppended st1 c p d (QHash.value pi p.name {})) := by
  rw [initializeProperties.eq_def]
  dsimp only
  rw [if_neg (by simp [hb]), hm]
  dsimp only
  have c1 : ¬ ((!d.isTransient &&
      (!p.isReadable || !p.isWritable || !p.hasNotifySignal || !p.notifySignalIsValid)) = true) := by
    cases ht : d.isTransient with
    | true => simp
    | false =>
      obtain ⟨a1, a2, a3, a4⟩ := h1 ht
      simp [a1, a2, a3, a4]
  have c2 : ¬ ((d.isTransient && d.isObjectId) = true) := by
    simpa using h2
  have c3 : ¬ ((d.isAutogenerated && !d.isObjectId) = true) := by
    cases ha : d.isAutogenerated with
    | false => simp
    | true => simp [h3 ha]
  rw [if_neg c1, if_neg c2, if_neg c3]
  obtain ⟨v, hv⟩ := (QHash.contains_iff _ _).1 hc
  rw [hv]

theorem mappingDescriptor_plain (reg : MetaTypeRegistry) (g : Getter)
    (st : QOrmMetadataCachePrivate) (mo : QMetaObject) {p : QMetaProperty}
    (umd : QOrmUserMetadata) (hT : p.type ≠ QVariantType.UserType) :
    QOrmMetadataCachePrivate.mappingDescriptor reg g st mo p umd
      = .ok (baseDescriptor p umd, st) := by
  unfold QOrmMetadataCachePrivate.mappingDescriptor
  dsimp only
  rw [if_neg hT]

/-- The property loop succeeds on base-class properties and plain properties without
declarations, and changes only the record of its entity. -/
theorem initializeProperties_plain (reg : MetaTypeRegistry) (g : Getter) (c : QByteArray)
    (mo : QMetaObject) :
    ∀ (ps : List QMetaProperty) (st : QOrmMetadataCachePrivate),
      (∀ p ∈ ps, p.enclosedByQObject = true ∨ PlainProperty p) →
      QHash.contains st.m_cache c = true →
      ∃ st', initializeProperties reg g c mo [] ps st = .ok st' ∧ SameBut c st st' := by
  intro ps
  induction ps with
  | nil =>
    intro st _ _
    exact ⟨st, by unfold initializeProperties; rfl, sameBut_refl c st⟩
  | cons p rest ih =>
    intro st hps hc
    have hrest : ∀ q ∈ rest, q.enclosedByQObject = true ∨ PlainProperty q :=
      fun q hq => hps q (List.mem_cons_of_mem p hq)
    cases hb : p.enclosedByQObject with
    | true =>
      obtain ⟨st', h1, h2⟩ := ih st hrest hc
      exact ⟨st', by rw [initializeProperties_skip reg g c mo [] rest st hb]; exact h1, h2⟩
    | false =>
      have hplain : PlainProperty p := by
        rcases hps p (List.mem_cons_self p rest) with h | h
        · rw [hb] at h; cases h
        · exact h
      obtain ⟨hT, hs, hr, hw, hn, hv⟩ := hplain
      have hm := mappingDescriptor_plain reg g st mo (QHash.value ([] : QHash QString
        QOrmUserMetadata) p.name {}) hT
      have hval : QHash.value ([] : QHash QString QOrmUserMetadata) p.name {} = {} := rfl
      have hstep := initializeProperties_step reg g c mo [] rest hb hm
        (fun _ => ⟨hr, hw, hn, hv⟩)
        (by rw [hval, baseDescriptor_isTransient]; simp [QOrmUserMetadata.contains,
              QOrmUserMetadata.find, hs])
        (by rw [hval, baseDescriptor_isAutogenerated, baseDescriptor_isObjectId]
            simp [QOrmUserMetadata.contains, QOrmUserMetadata.find])
        hc
      have sb := sameBut_mappingAppended c st p
        (baseDescriptor p (QHash.value ([] : QHash QString QOrmUserMetadata) p.name {}))
        (QHash.value ([] : QHash QString QOrmUserMetadata) p.name {})
      obtain ⟨st', h1, h2⟩ := ih _ hrest (sb.keeps hc)
      exact ⟨st', by rw [hstep]; exact h1, sameBut_trans sb h2⟩

theorem initializeProperties_append (reg : MetaTypeRegistry) (g : Getter) (c : QByteArray)
    (mo : QMetaObject) (pi : QHash QString QOrmUserMetadata) :
    ∀ (xs ys : List QMetaProperty) (st st1 : QOrmMetadataCachePrivate),
      initializeProperties reg g c mo pi xs st = .ok st1 →
      initializeProperties reg g c mo pi (xs ++ ys) st =
        initializeProperties reg g c mo pi ys st1 := by
  intro xs
  induction xs with
  | nil =>
    intro ys st st1 h
    unfold initializeProperties at h
    injection h with h
    subst h
    rfl
  | cons p rest ih =>
    intro ys st st1 h
    rcases initializeProperties_cons h with ⟨hb, h1⟩ | ⟨hb, d, st2, hm, c1, c2, c3, c4, h1⟩
    · rw [List.cons_append, initializeProperties_skip reg g c mo pi _ st hb]
      exact ih ys st st1 h1
    · rw [List.cons_append, initializeProperties_step reg g c mo pi _ hb hm c1 c2 c3 c4]
      exact ih ys _ st1 h1

/-- The descriptor of a property whose type is registered as a pointer to a `QObject` with a
meta object, when the recursive call of `get` returns. -/
theorem mappingDescriptor_pointer (reg : MetaTypeRegistry) {g : Getter}
    {st st1 : QOrmMetadataCachePrivate} (mo : QMetaObject) {p : QMetaProperty}
    (umd : QOrmUserMetadata) {refMeta : QMetaObject} {k : QByteArray}
    (hT : p.type = QVariantType.UserType) (hU : p.userType ≠ QMetaType.UnknownType)
    (hP : (QMetaType.typeFlags reg (QMetaType.type reg (referencedTypeName p))).pointerToQObject
      = true)
    (hM : QMetaType.metaObjectForType reg (QMetaType.type reg (referencedTypeName p))
      = some refMeta)
    (hG : g st refMeta = .ok (k, st1)) :
    QOrmMetadataCachePrivate.mappingDescriptor reg g st mo p umd
      = .ok ({ withIdSuffix umd (containerDescriptor p (baseDescriptor p umd)) with
               referencedEntity := some k }, st1) := by
  unfold QOrmMetadataCachePrivate.mappingDescriptor
  dsimp only
  rw [if_pos hT, if_neg hU, if_pos hP, hM]
  dsimp only
  rw [hG]

/-- The type name `QVector<T*>` is a container of pointers, looked up as `T*`. -/
theorem referencedTypeName_vector {p : QMetaProperty} (s : QByteArray)
    (h : p.typeName = "QVector<".toList ++ (s ++ ['*']) ++ ">".toList) :
    endsWithPointerBracket p = true ∧ referencedTypeName p = s ++ ['*'] := by
  have hs : stripAggregate aggregatePrefixes p.typeName = (s ++ ['*']) ++ ['>'] := by
    rw [h]
    unfold aggregatePrefixes stripAggregate
    have hpre : ("QVector<".toList).isPrefixOf ("QVector<".toList ++ (s ++ ['*']) ++ ">".toList)
        = true := by
      rw [List.isPrefixOf_iff_prefix, List.append_assoc]
      exact List.prefix_append _ _
    rw [if_pos hpre, List.append_assoc, List.drop_left]
    rfl
  have he : endsWithPointerBracket p = true := by
    unfold endsWithPointerBracket
    rw [hs, List.isSuffixOf_iff_suffix]
    exact ⟨s, by simp⟩
  refine ⟨he, ?_⟩
  unfold referencedTypeName
  rw [if_pos he, hs]
  unfold chop
  have hl : ((s ++ ['*']) ++ ['>']).length - 1 = (s ++ ['*']).length := by simp
  rw [hl, List.take_left]

/-- The result of `initialize` once the constructor is valid, the declarations are parsed
and the property loop has returned. -/
theorem initialize_run (reg : MetaTypeRegistry) (g : Getter) (st : QOrmMetadataCachePrivate)
    (c : QByteArray) (mo : QMetaObject) {ci : QOrmUserMetadata}
    {pi : QHash QString QOrmUserMetadata} {st4 : QOrmMetadataCachePrivate}
    (hv : QOrmMetadataCachePrivate.validateConstructor mo = .ok ())
    (hci : initializeClassInfos mo mo.classInfos {} [] = .ok (ci, pi))
    (hp : initializeProperties reg g c mo pi mo.properties
      (classDataSet (placeholderCached st c mo) c mo ci) = .ok st4) :
    QOrmMetadataCachePrivate.initialize reg g st c mo =
      if QSet.empty (markConstructed st4 c).m_underConstruction then
        match QOrmMetadataCachePrivate.validateCrossReferences (markConstructed st4 c)
            (markConstructed st4 c).m_constructed with
        | .ok () => .ok (markConstructed st4 c)
        | .fatal e => .fatal e
        | .outOfFuel => .outOfFuel
      else .ok (markConstructed st4 c) := by
  unfold QOrmMetadataCachePrivate.initialize
  rw [hv]
  dsimp only
  rw [hci]
  dsimp only
  rw [hp]

theorem validateMappings_of_forall (st : QOrmMetadataCachePrivate) (e : QByteArray) :
    ∀ ms : List QOrmPropertyMapping, (∀ m ∈ ms, validateMapping st e m = .ok ()) →
      validateMappings st e ms = .ok () := by
  intro ms
  induction ms with
  | nil => intro _; rfl
  | cons m rest ih =>
    intro h
    unfold validateMappings
    rw [h m (List.mem_cons_self m rest)]
    exact ih (fun x hx => h x (List.mem_cons_of_mem m hx))

theorem validateCrossReferences_of_forall (st : QOrmMetadataCachePrivate) :
    ∀ names : List QByteArray,
      (∀ e ∈ names, ∃ entity, QHash.find e st.m_cache = some entity ∧
        ∀ m ∈ entity.m_propertyMappings, validateMapping st e m = .ok ()) →
      QOrmMetadataCachePrivate.validateCrossReferences st names = .ok () := by
  intro names
  induction names with
  | nil => intro _; rfl
  | cons e rest ih =>
    intro h
    obtain ⟨entity, hf, hm⟩ := h e (List.mem_cons_self e rest)
    unfold QOrmMetadataCachePrivate.validateCrossReferences
    rw [hf]
    dsimp only
    rw [validateMappings_of_forall st e _ hm]
    exact ih (fun x hx => h x (List.mem_cons_of_mem e hx))

theorem validateMapping_of_none (st : QOrmMetadataCachePrivate) (e : QByteArray)
    {m : QOrmPropertyMapping} (h : m.referencedEntity = none) :
    validateMapping st e m = .ok () := by
  unfold validateMapping
  rw [h]

theorem validateMapping_of_identity (st : QOrmMetadataCachePrivate) (e : QByteArray)
    {m : QOrmPropertyMapping} {r : QByteArray} {referenced : QOrmMetadataPrivate}
    (h : m.referencedEntity = some r) (ht : m.isTransient = false)
    (hf : QHash.find r st.m_cache = some referenced)
    (hid : referenced.m_objectIdPropertyMappingIdx ≠ -1) :
    validateMapping st e m = .ok () := by
  unfold validateMapping
  rw [h]
  dsimp only
  rw [hf]
  dsimp only
  rw [if_neg (by simp [ht]), if_neg hid]

theorem validateMapping_of_back (st : QOrmMetadataCachePrivate) (e : QByteArray)
    {m back : QOrmPropertyMapping} {r : QByteArray} {referenced target : QOrmMetadataPrivate}
    (h : m.referencedEntity = some r) (ht : m.isTransient = true)
    (hf : QHash.find r st.m_cache = some referenced)
    (hb : back ∈ referenced.m_propertyMappings) (hbr : back.referencedEntity = some e)
    (hfe : QHash.find e st.m_cache = some target) (hcls : target.m_className = e) :
    validateMapping st e m = .ok () := by
  unfold validateMapping
  rw [h]
  dsimp only
  rw [hf]
  dsimp only
  rw [if_pos ht]
  have hany : referenced.m_propertyMappings.any (fun m =>
      match m.referencedEntity with
      | none => false
      | some r =>
        match QHash.find r st.m_cache with
        | none => false
        | some target => target.m_className == e) = true := by
    apply List.any_eq_true.2
    refine ⟨back, hb, ?_⟩
    rw [hbr]
    dsimp only
    rw [hfe]
    simp [hcls]
  rw [if_pos hany]

theorem forall₂_mem_right {α β : Type} {R : α → β → Prop} :
    ∀ {l1 : List α} {l2 : List β}, List.Forall₂ R l1 l2 → ∀ b ∈ l2, ∃ a ∈ l1, R a b := by
  intro l1 l2 h
  induction h with
  | nil => intro b hb; cases hb
  | cons hab _ ih =>
    intro b hb
    rcases List.mem_cons.1 hb with rfl | hb'
    · exact ⟨_, List.mem_cons_self _ _, hab⟩
    · obtain ⟨a, ha, hr⟩ := ih b hb'
      exact ⟨a, List.mem_cons_of_mem _ ha, hr⟩

theorem withIdSuffix_flags (umd : QOrmUserMetadata) (d : MappingDescriptor) :
    (withIdSuffix umd d).isTransient = d.isTransient ∧
    (withIdSuffix umd d).isObjectId = d.isObjectId ∧
    (withIdSuffix umd d).isAutogenerated = d.isAutogenerated := by
  unfold withIdSuffix
  split <;> exact ⟨rfl, rfl, rfl⟩

theorem containerDescriptor_flags (p : QMetaProperty) (d : MappingDescriptor) :
    (containerDescriptor p d).isTransient = endsWithPointerBracket p ∧
    (containerDescriptor p d).isObjectId = d.isObjectId ∧
    (containerDescriptor p d).isAutogenerated = d.isAutogenerated := by
  unfold containerDescriptor
  split
  · rename_i h; exact ⟨h.symm, rfl, rfl⟩
  · rename_i h
    have h' : endsWithPointerBracket p = false := by simpa using h
    exact ⟨h'.symm, rfl, rfl⟩

/-- The mapping of a property that is not of a user type references no entity. -/
theorem MappingFor.noReference {reg : MetaTypeRegistry} {c : QByteArray} {mo : QMetaObject}
    {pi : QHash QString QOrmUserMetadata} {st' : QOrmMetadataCachePrivate}
    {p : QMetaProperty} {m : QOrmPropertyMapping} (h : MappingFor reg c mo pi st' p m)
    (hT : p.type ≠ QVariantType.UserType) : m.referencedEntity = none := by
  rcases h.field with ⟨_, _, _, hr⟩ | ⟨hT', _⟩ | ⟨hT', _⟩
  · exact hr
  · exact absurd hT' hT
  · exact absurd hT' hT

/-- The mapping of a property whose type is registered as a pointer to the entity `E`
references the record of `E`, and is transient exactly when the type name ends in `*>`. -/
theorem MappingFor.reference {reg : MetaTypeRegistry} {c : QByteArray} {mo : QMetaObject}
    {pi : QHash QString QOrmUserMetadata} {st' : QOrmMetadataCachePrivate}
    {p : QMetaProperty} {m : QOrmPropertyMapping} (h : MappingFor reg c mo pi st' p m)
    {E : QMetaObject} (hT : p.type = QVariantType.UserType)
    (hP : (QMetaType.typeFlags reg (QMetaType.type reg (referencedTypeName p))).pointerToQObject
      = true)
    (hM : QMetaType.metaObjectForType reg (QMetaType.type reg (referencedTypeName p)) = some E) :
    m.referencedEntity = some E.className ∧ m.isTransient = endsWithPointerBracket p := by
  rcases h.field with ⟨hT', _⟩ | ⟨_, hP', _⟩ | ⟨_, _, _, htrans, refMeta, hM', href, _⟩
  · exact absurd hT hT'
  · rw [hP] at hP'; cases hP'
  · rw [hM] at hM'
    injection hM' with hM'
    subst hM'
    refine ⟨href, ?_⟩
    rw [htrans, (withIdSuffix_flags _ _).1, (containerDescriptor_flags _ _).1]

/-- A cache miss followed by a successful run of `initialize`. -/
theorem get_miss (reg : MetaTypeRegistry) (n : Nat) {st st1 : QOrmMetadataCachePrivate}
    {mo : QMetaObject} (hc : QHash.find mo.className st.m_cache = none)
    (hi : QOrmMetadataCachePrivate.initialize reg ( QOrmMetadataCachePrivate.get reg n) st
      mo.className mo = .ok st1)
    (h1 : QHash.contains st1.m_cache mo.className = true) :
    QOrmMetadataCachePrivate.get reg (n + 1) st mo = .ok (mo.className, st1) := by
  rw [QOrmMetadataCachePrivate.get.eq_def]
  dsimp only
  rw [if_neg (by rw [(QHash.contains_eq_false _ _).2 hc]; simp), hi]
  dsimp only
  rw [if_pos h1]

theorem mem_ownProperties {mo : QMetaObject} {p : QMetaProperty} :
    p ∈ ownProperties mo ↔ p ∈ mo.properties ∧ p.enclosedByQObject = false := by
  unfold ownProperties
  rw [List.mem_filter]
  simp

/-- The nested call of `get` for `B` while `A` is under construction. -/
theorem get_backReference {reg : MetaTypeRegistry} {A B : QMetaObject}
    {coll ptr : QMetaProperty} {tA sB : QByteArray} (hp : CyclicPair reg A B coll ptr tA sB)
    (n : Nat) (s : QOrmMetadataCachePrivate)
    (hsA : QHash.contains s.m_cache A.className = true)
    (hsB : QHash.find B.className s.m_cache = none)
    (huc : s.m_underConstruction = [A.className]) (hcon : s.m_constructed = []) :
    ∃ s', QOrmMetadataCachePrivate.get reg (n + 1) s B = .ok (B.className, s') ∧
      s'.m_underConstruction = [A.className] ∧ s'.m_constructed = [B.className] ∧
      ∀ T, T ≠ B.className → QHash.find T s'.m_cache = QHash.find T s.m_cache := by
  obtain ⟨ci, hci⟩ := hp.infoB
  obtain ⟨pre, post, hprops, hplain⟩ := hp.propsB
  obtain ⟨hne3, hself3⟩ := classDataSet_placeholderCached_find s B.className B ci hsB
  have hc3 : QHash.contains (classDataSet (placeholderCached s B.className B) B.className B
      ci).m_cache B.className = true := (QHash.contains_iff _ _).2 ⟨_, hself3⟩
  -- the plain properties before the pointer
  obtain ⟨s1, hrun1, sb1⟩ := initializeProperties_plain reg
    ( QOrmMetadataCachePrivate.get reg n) B.className B pre _
    (fun p hp' => hplain p (Or.inl hp')) hc3
  have hA1 : QHash.contains s1.m_cache A.className = true := by
    unfold QHash.contains
    rw [sb1.frame _ hp.distinct, hne3 _ hp.distinct]
    exact hsA
  -- the pointer to A
  have hname := referencedTypeName_plain (p := ptr) (by rw [hp.ptrName]; exact hp.ptrDirect.1)
    (by rw [hp.ptrName]; exact hp.ptrDirect.2)
  have hm := mappingDescriptor_pointer reg (g := QOrmMetadataCachePrivate.get reg n) B
    (QHash.value ([] : QHash QString QOrmUserMetadata) ptr.name {}) hp.ptrType
    hp.ptrRegistered
    (by rw [hname.2, hp.ptrName]; exact hp.registeredA.1)
    (by rw [hname.2, hp.ptrName]; exact hp.registeredA.2)
    (get_hit reg n s1 A hA1)
  have hval : QHash.value ([] : QHash QString QOrmUserMetadata) ptr.name {} = {} := rfl
  have hstep := initializeProperties_step reg ( QOrmMetadataCachePrivate.get reg n)
    B.className B [] post hp.ptrOwn hm (fun _ => hp.ptrCapable)
    (by
      intro hh
      have : (withIdSuffix (QHash.value ([] : QHash QString QOrmUserMetadata) ptr.name {})
          (containerDescriptor ptr (baseDescriptor ptr
            (QHash.value ([] : QHash QString QOrmUserMetadata) ptr.name {})))).isTransient
          = false := by
        rw [(withIdSuffix_flags _ _).1, (containerDescriptor_flags _ _).1]
        exact hname.1
      have h1 := hh.1
      rw [show ({ withIdSuffix (QHash.value ([] : QHash QString QOrmUserMetadata) ptr.name {})
          (containerDescriptor ptr (baseDescriptor ptr
            (QHash.value ([] : QHash QString QOrmUserMetadata) ptr.name {}))) with
          referencedEntity := some A.className } : MappingDescriptor).isTransient
          = false from this] at h1
      cases h1)
    (by
      intro hh
      have hh' : (withIdSuffix (QHash.value ([] : QHash QString QOrmUserMetadata) ptr.name {})
          (containerDescriptor ptr (baseDescriptor ptr
            (QHash.value ([] : QHash QString QOrmUserMetadata) ptr.name {})))).isAutogenerated
          = true := hh
      show (withIdSuffix (QHash.value ([] : QHash QString QOrmUserMetadata) ptr.name {})
          (containerDescriptor ptr (baseDescriptor ptr
            (QHash.value ([] : QHash QString QOrmUserMetadata) ptr.name {})))).isObjectId = true
      rw [(withIdSuffix_flags _ _).2.2, (containerDescriptor_flags _ _).2.2] at hh'
      rw [(withIdSuffix_flags _ _).2.1, (containerDescriptor_flags _ _).2.1]
      rw [hval] at hh' ⊢
      exact hh')
    (sb1.keeps hc3)
  -- the plain properties after the pointer
  have sbm := sameBut_mappingAppended B.className s1 ptr
    { withIdSuffix (QHash.value ([] : QHash QString QOrmUserMetadata) ptr.name {})
        (containerDescriptor ptr (baseDescriptor ptr
          (QHash.value ([] : QHash QString QOrmUserMetadata) ptr.name {}))) with
      referencedEntity := some A.className }
    (QHash.value ([] : QHash QString QOrmUserMetadata) ptr.name {})
  obtain ⟨s4, hrun2, sb2⟩ := initializeProperties_plain reg
    ( QOrmMetadataCachePrivate.get reg n) B.className B post _
    (fun p hp' => hplain p (Or.inr hp')) (sbm.keeps (sb1.keeps hc3))
  have hloop : initializeProperties reg ( QOrmMetadataCachePrivate.get reg n) B.className B []
      B.properties (classDataSet (placeholderCached s B.className B) B.className B ci)
      = .ok s4 := by
    rw [hprops, initializeProperties_append reg _ B.className B [] pre _ _ _ hrun1, hstep]
    exact hrun2
  have sb := sameBut_trans (sameBut_trans sb1 sbm) sb2
  have huc4 : s4.m_underConstruction = [A.className, B.className] := by
    rw [sb.uc]
    show QSet.insert B.className s.m_underConstruction = _
    rw [huc]
    unfold QSet.insert
    rw [if_neg (by simpa using (Ne.symm hp.distinct))]
    rfl
  have hcon4 : s4.m_constructed = [] := by
    rw [sb.con]; exact hcon
  have hrun := initialize_run reg ( QOrmMetadataCachePrivate.get reg n) s B.className B
    hp.ctorB hci hloop
  have hmu : (markConstructed s4 B.className).m_underConstruction = [A.className] := by
    show QSet.remove B.className s4.m_underConstruction = _
    rw [huc4]
    unfold QSet.remove
    simp [hp.distinct]
  rw [hmu] at hrun
  have hne : ¬ (QSet.empty [A.className] = true) := by simp [QSet.empty]
  rw [if_neg hne] at hrun
  refine ⟨markConstructed s4 B.className, ?_, hmu, ?_, ?_⟩
  · exact get_miss reg n hsB hrun (sb.keeps hc3)
  · show QSet.insert B.className s4.m_constructed = _
    rw [hcon4]; rfl
  · intro T hT
    show QHash.find T s4.m_cache = _
    rw [sb.frame T hT, hne3 T hT]

/-- In a cyclic pair every own property of `A` other than the collection, and every own
property of `B` other than the pointer, is plain. -/
theorem CyclicPair.cases {reg : MetaTypeRegistry} {A B : QMetaObject}
    {coll ptr : QMetaProperty} {tA sB : QByteArray} (hp : CyclicPair reg A B coll ptr tA sB) :
    (∀ p ∈ ownProperties A, p = coll ∨ PlainProperty p) ∧
    (∀ p ∈ ownProperties B, p = ptr ∨ PlainProperty p) ∧
    coll ∈ ownProperties A ∧ ptr ∈ ownProperties B := by
  obtain ⟨preA, postA, hA, hplainA⟩ := hp.propsA
  obtain ⟨preB, postB, hB, hplainB⟩ := hp.propsB
  refine ⟨?_, ?_, ?_, ?_⟩
  · intro p hmem
    obtain ⟨h1, h2⟩ := mem_ownProperties.1 hmem
    rw [hA] at h1
    rcases List.mem_append.1 h1 with h | h
    · rcases hplainA p (Or.inl h) with hb | hb
      · rw [h2] at hb; cases hb
      · exact Or.inr hb
    · rcases List.mem_cons.1 h with h | h
      · exact Or.inl h
      · rcases hplainA p (Or.inr h) with hb | hb
        · rw [h2] at hb; cases hb
        · exact Or.inr hb
  · intro p hmem
    obtain ⟨h1, h2⟩ := mem_ownProperties.1 hmem
    rw [hB] at h1
    rcases List.mem_append.1 h1 with h | h
    · rcases hplainB p (Or.inl h) with hb | hb
      · rw [h2] at hb; cases hb
      · exact Or.inr hb
    · rcases List.mem_cons.1 h with h | h
      · exact Or.inl h
      · rcases hplainB p (Or.inr h) with hb | hb
        · rw [h2] at hb; cases hb
        · exact Or.inr hb
  · exact mem_ownProperties.2 ⟨by rw [hA]; simp, hp.collOwn⟩
  · exact mem_ownProperties.2 ⟨by rw [hB]; simp, hp.ptrOwn⟩

/-- Resolving `A` of a cyclic pair on the empty cache: the run of `get`, with the records
it leaves for `A` and `B`. -/
theorem get_cyclicPair {reg : MetaTypeRegistry} {A B : QMetaObject}
    {coll ptr : QMetaProperty} {tA sB : QByteArray} (hp : CyclicPair reg A B coll ptr tA sB)
    (n : Nat) :
    ∃ st' dA dB,
      QOrmMetadataCachePrivate.get reg (n + 2) {} A = .ok (A.className, st') ∧
      st'.m_underConstruction = [] ∧ st'.m_constructed = [B.className, A.className] ∧
      QHash.find A.className st'.m_cache = some dA ∧
      QHash.find B.className st'.m_cache = some dB ∧
      List.Forall₂ (MappingFor reg A.className A [] st') (ownProperties A)
        dA.m_propertyMappings ∧
      (∃ sB', List.Forall₂ (MappingFor reg B.className B [] sB') (ownProperties B)
        dB.m_propertyMappings) := by
  obtain ⟨ci, hci⟩ := hp.infoA
  obtain ⟨pre, post, hprops, hplain⟩ := hp.propsA
  obtain ⟨hcA, hcB, hcollOwn, hptrOwn⟩ := hp.cases
  have hba : B.className ≠ A.className := Ne.symm hp.distinct
  have hfreshA : QHash.find A.className ({} : QOrmMetadataCachePrivate).m_cache = none := rfl
  obtain ⟨hne3, hself3⟩ := classDataSet_placeholderCached_find {} A.className A ci hfreshA
  have hc3 : QHash.contains (classDataSet (placeholderCached {} A.className A) A.className A
      ci).m_cache A.className = true := (QHash.contains_iff _ _).2 ⟨_, hself3⟩
  -- the plain properties before the collection
  obtain ⟨s1, hrun1, sb1⟩ := initializeProperties_plain reg
    ( QOrmMetadataCachePrivate.get reg (n + 1)) A.className A pre _
    (fun p hp' => hplain p (Or.inl hp')) hc3
  have hB1 : QHash.find B.className s1.m_cache = none := by
    rw [sb1.frame _ hba, hne3 _ hba]; rfl
  have huc1 : s1.m_underConstruction = [A.className] := by rw [sb1.uc]; rfl
  have hcon1 : s1.m_constructed = [] := by rw [sb1.con]; rfl
  -- the nested resolution of B
  obtain ⟨s2, hgB, huc2, hcon2, hframe2⟩ :=
    get_backReference hp n s1 (sb1.keeps hc3) hB1 huc1 hcon1
  have hA2 : QHash.contains s2.m_cache A.className = true := by
    unfold QHash.contains
    rw [hframe2 _ hp.distinct]
    exact sb1.keeps hc3
  -- the collection of B
  have hname := referencedTypeName_vector (p := coll) sB hp.collName
  have hval : QHash.value ([] : QHash QString QOrmUserMetadata) coll.name {} = {} := rfl
  have hm := mappingDescriptor_pointer reg (g := QOrmMetadataCachePrivate.get reg (n + 1)) A
    (QHash.value ([] : QHash QString QOrmUserMetadata) coll.name {}) hp.collType
    hp.collRegistered
    (by rw [hname.2]; exact hp.registeredB.1)
    (by rw [hname.2]; exact hp.registeredB.2)
    hgB
  have hdT : (withIdSuffix (QHash.value ([] : QHash QString QOrmUserMetadata) coll.name {})
      (containerDescriptor coll (baseDescriptor coll
        (QHash.value ([] : QHash QString QOrmUserMetadata) coll.name {})))).isTransient
      = true := by
    rw [(withIdSuffix_flags _ _).1, (containerDescriptor_flags _ _).1]
    exact hname.1
  have hdI : (withIdSuffix (QHash.value ([] : QHash QString QOrmUserMetadata) coll.name {})
      (containerDescriptor coll (baseDescriptor coll
        (QHash.value ([] : QHash QString QOrmUserMetadata) coll.name {})))).isObjectId
      = false := by
    rw [(withIdSuffix_flags _ _).2.1, (containerDescriptor_flags _ _).2.1, hval,
      baseDescriptor_isObjectId]
    exact hp.collNotId
  have hdA : (withIdSuffix (QHash.value ([] : QHash QString QOrmUserMetadata) coll.name {})
      (containerDescriptor coll (baseDescriptor coll
        (QHash.value ([] : QHash QString QOrmUserMetadata) coll.name {})))).isAutogenerated
      = false := by
    rw [(withIdSuffix_flags _ _).2.2, (containerDescriptor_flags _ _).2.2, hval,
      baseDescriptor_isAutogenerated]
    exact hp.collNotId
  have hstep := initializeProperties_step reg ( QOrmMetadataCachePrivate.get reg (n + 1))
    A.className A [] post hp.collOwn hm
    (fun hh => by
      have hh' : (withIdSuffix (QHash.value ([] : QHash QString QOrmUserMetadata) coll.name {})
        (containerDescriptor coll (baseDescriptor coll
          (QHash.value ([] : QHash QString QOrmUserMetadata) coll.name {})))).isTransient
          = false := hh
      rw [hdT] at hh'; cases hh')
    (fun hh => by
      have hh' : (withIdSuffix (QHash.value ([] : QHash QString QOrmUserMetadata) coll.name {})
        (containerDescriptor coll (baseDescriptor coll
          (QHash.value ([] : QHash QString QOrmUserMetadata) coll.name {})))).isObjectId
          = true := hh.2
      rw [hdI] at hh'; cases hh')
    (fun hh => by
      have hh' : (withIdSuffix (QHash.value ([] : QHash QString QOrmUserMetadata) coll.name {})
        (containerDescriptor coll (baseDescriptor coll
          (QHash.value ([] : QHash QString QOrmUserMetadata) coll.name {})))).isAutogenerated
          = true := hh
      rw [hdA] at hh'; cases hh')
    hA2
  -- the plain properties after the collection
  have sbm := sameBut_mappingAppended A.className s2 coll
    { withIdSuffix (QHash.value ([] : QHash QString QOrmUserMetadata) coll.name {})
        (containerDescriptor coll (baseDescriptor coll
          (QHash.value ([] : QHash QString QOrmUserMetadata) coll.name {}))) with
      referencedEntity := some B.className }
    (QHash.value ([] : QHash QString QOrmUserMetadata) coll.name {})
  obtain ⟨s4, hrun2, sb2⟩ := initializeProperties_plain reg
    ( QOrmMetadataCachePrivate.get reg (n + 1)) A.className A post _
    (fun p hp' => hplain p (Or.inr hp')) (sbm.keeps hA2)
  have hloop : initializeProperties reg ( QOrmMetadataCachePrivate.get reg (n + 1)) A.className
      A [] A.properties (classDataSet (placeholderCached {} A.className A) A.className A ci)
      = .ok s4 := by
    rw [hprops, initializeProperties_append reg _ A.className A [] pre _ _ _ hrun1, hstep]
    exact hrun2
  have sb := sameBut_trans sbm sb2
  have huc4 : s4.m_underConstruction = [A.className] := by rw [sb.uc]; exact huc2
  have hcon4 : s4.m_constructed = [B.className] := by rw [sb.con]; exact hcon2
  -- the records of A and B
  obtain ⟨dA, ms, rA1, rA2, rA3, rA4, _, _, _, rA8⟩ :=
    initializeProperties_record (get_spec reg (n + 1)) A.className A [] _ _ _ _ hself3 hloop
  have hms : dA.m_propertyMappings = ms := by rw [rA2]; rfl
  rw [← hms] at rA3 rA8
  have hclsA : dA.m_className = A.className := by rw [rA4]
  obtain ⟨ciB, piB, dB, hciB, rB1, _, _, _, _, rB3⟩ := get_record hgB hB1
  obtain ⟨ciB', hciB'⟩ := hp.infoB
  rw [hciB'] at hciB
  injection hciB with hciB
  injection hciB with _ ePi
  subst ePi
  have hfB4 : QHash.find B.className s4.m_cache = some dB := by
    rw [sb.frame _ hba]; exact rB1
  -- the identity of A
  have hidA : dA.m_objectIdPropertyMappingIdx ≠ -1 := by
    apply rA8
    right
    obtain ⟨pid, hpid, hplainId, hnameId⟩ := hp.identityA
    obtain ⟨m, hm1, hm2⟩ := forall₂_mem_left rA3 pid hpid
    refine ⟨m, hm1, ?_⟩
    obtain ⟨_, _, f3, _⟩ := hm2.flags
    rw [f3, show QHash.value ([] : QHash QString QOrmUserMetadata) pid.name {} = {} from rfl,
      baseDescriptor_isObjectId]
    exact hnameId
  -- the mapping of the pointer in B
  obtain ⟨mB, hmB1, hmB2⟩ := forall₂_mem_left rB3 ptr hptrOwn
  have hnameP := referencedTypeName_plain (p := ptr) (by rw [hp.ptrName]; exact hp.ptrDirect.1)
    (by rw [hp.ptrName]; exact hp.ptrDirect.2)
  have hrefP : ∀ {sx : QOrmMetadataCachePrivate} {m : QOrmPropertyMapping},
      MappingFor reg B.className B [] sx ptr m →
      m.referencedEntity = some A.className ∧ m.isTransient = false := by
    intro sx m hmf
    have := hmf.reference hp.ptrType (by rw [hnameP.2, hp.ptrName]; exact hp.registeredA.1)
      (by rw [hnameP.2, hp.ptrName]; exact hp.registeredA.2)
    rw [hnameP.1] at this
    exact this
  have hrefC : ∀ {sx : QOrmMetadataCachePrivate} {m : QOrmPropertyMapping},
      MappingFor reg A.className A [] sx coll m →
      m.referencedEntity = some B.className ∧ m.isTransient = true := by
    intro sx m hmf
    have := hmf.reference hp.collType (by rw [hname.2]; exact hp.registeredB.1)
      (by rw [hname.2]; exact hp.registeredB.2)
    rw [hname.1] at this
    exact this
  -- the cross-reference validation
  have hfA' : QHash.find A.className (markConstructed s4 A.className).m_cache = some dA := rA1
  have hfB' : QHash.find B.className (markConstructed s4 A.className).m_cache = some dB := hfB4
  have hvalid : QOrmMetadataCachePrivate.validateCrossReferences (markConstructed s4 A.className)
      [B.className, A.className] = .ok () := by
    apply validateCrossReferences_of_forall
    intro e he
    rcases List.mem_cons.1 he with rfl | he
    · refine ⟨dB, hfB', ?_⟩
      intro m hm
      obtain ⟨p, hpm, hmf⟩ := forall₂_mem_right rB3 m hm
      rcases hcB p hpm with rfl | hpl
      · obtain ⟨h1, h2⟩ := hrefP hmf
        exact validateMapping_of_identity _ _ h1 h2 hfA' hidA
      · exact validateMapping_of_none _ _ (hmf.noReference hpl.1)
    · have he' : e = A.className := by simpa using he
      subst he'
      refine ⟨dA, hfA', ?_⟩
      intro m hm
      obtain ⟨p, hpm, hmf⟩ := forall₂_mem_right rA3 m hm
      rcases hcA p hpm with rfl | hpl
      · obtain ⟨h1, h2⟩ := hrefC hmf
        exact validateMapping_of_back _ _ h1 h2 hfB' hmB1 (hrefP hmB2).1 hfA' hclsA
      · exact validateMapping_of_none _ _ (hmf.noReference hpl.1)
  -- the run of initialize and get
  have hrun := initialize_run reg ( QOrmMetadataCachePrivate.get reg (n + 1)) {} A.className A
    hp.ctorA hci hloop
  have hmu : (markConstructed s4 A.className).m_underConstruction = [] := by
    show QSet.remove A.className s4.m_underConstruction = _
    rw [huc4]
    unfold QSet.remove
    simp
  have hmc : (markConstructed s4 A.className).m_constructed = [B.className, A.className] := by
    show QSet.insert A.className s4.m_constructed = _
    rw [hcon4]
    unfold QSet.insert
    rw [if_neg (by simpa using hp.distinct)]
    rfl
  rw [hmu, hmc, hvalid] at hrun
  have hrun' : QOrmMetadataCachePrivate.initialize reg
      ( QOrmMetadataCachePrivate.get reg (n + 1)) {} A.className A
      = .ok (markConstructed s4 A.className) := hrun
  refine ⟨markConstructed s4 A.className, dA, dB, ?_, hmu, hmc, hfA', hfB', ?_, ⟨s2, rB3⟩⟩
  · exact get_miss reg (n + 1) hfreshA hrun' ((QHash.contains_iff _ _).2 ⟨dA, hfA'⟩)
  · exact rA3.imp (fun _ _ h => h.mono (fun _ hT => hT))

/-- A mapping built from a declaration with `IDENTITY false` is neither the identity nor
autogenerated, and for a property named `id` the declaration sets `AUTOGENERATED` too. -/
theorem MappingFor.identityFalse {reg : MetaTypeRegistry} {c : QByteArray} {mo : QMetaObject}
    {pi : QHash QString QOrmUserMetadata} {st' : QOrmMetadataCachePrivate}
    {p : QMetaProperty} {m : QOrmPropertyMapping} (hm : MappingFor reg c mo pi st' p m)
    (hid : (QHash.value pi p.name {}).find .Identity = some (.bool false)) :
    m.isObjectId = false ∧ m.isAutogenerated = false ∧
      (p.name = "id".toList → (QHash.value pi p.name {}).contains .Autogenerated = true) := by
  obtain ⟨f1, f2, f3, f4, f5⟩ := hm.flags
  have hobj : m.isObjectId = false := by
    rw [f3, baseDescriptor_isObjectId]
    simp [QOrmUserMetadata.contains, QOrmUserMetadata.value, hid, QVariant.toBool]
  have haut : m.isAutogenerated = false := by
    cases ha : m.isAutogenerated with
    | false => rfl
    | true => rw [f5 ha] at hobj; cases hobj
  refine ⟨hobj, haut, ?_⟩
  intro hn
  cases hc : (QHash.value pi p.name {}).contains .Autogenerated with
  | true => rfl
  | false =>
    exfalso
    rw [f4, baseDescriptor_isAutogenerated, hc] at haut
    simp only [Bool.false_eq_true, if_false] at haut
    rw [hn] at haut
    exact absurd haut (by decide)

/-- An entity whose property `id` is declared `IDENTITY false` without `AUTOGENERATED` is
never constructed: the autogenerated default of `id` stays `true` and `initialize` stops at
its AUTOGENERATED-without-IDENTITY check (or at an earlier error). -/
theorem identityFalse_alone_rejected (reg : MetaTypeRegistry) {mo : QMetaObject}
    {ci : QOrmUserMetadata} {pi : QHash QString QOrmUserMetadata}
    (hci : initializeClassInfos mo mo.classInfos {} [] = .ok (ci, pi))
    {p : QMetaProperty} (hp : p ∈ ownProperties mo) (hn : p.name = "id".toList)
    (hid : (QHash.value pi p.name {}).find .Identity = some (.bool false))
    (haut : (QHash.value pi p.name {}).find .Autogenerated = none)
    (fuel : Nat) (st : QOrmMetadataCachePrivate)
    (hfresh : QHash.find mo.className st.m_cache = none) (k : QByteArray)
    (st' : QOrmMetadataCachePrivate) :
    QOrmMetadataCachePrivate.get reg fuel st mo ≠ .ok (k, st') := by
  intro h
  obtain ⟨ci', pi', data, hci', _, _, _, _, _, hall⟩ := get_record h hfresh
  rw [hci] at hci'
  injection hci' with hci'
  injection hci' with e1 e2
  subst e1 e2
  obtain ⟨m, _, hm⟩ := forall₂_mem_left hall p hp
  have := (hm.identityFalse hid).2.2 hn
  rw [find_of_contains_false haut] at this
  cases this

/-! ## Containers of entity pointers -/

/-- The type names `QVector<T*>` and `QSet<T*>` are containers of pointers, looked up as
`T*`. -/
theorem referencedTypeName_container {p : QMetaProperty} {pre : QByteArray} (s : QByteArray)
    (hpre : pre ∈ aggregatePrefixes) (h : p.typeName = pre ++ (s ++ ['*']) ++ ">".toList) :
    endsWithPointerBracket p = true ∧ referencedTypeName p = s ++ ['*'] := by
  have hs : stripAggregate aggregatePrefixes p.typeName = (s ++ ['*']) ++ ['>'] := by
    rw [h]
    simp only [aggregatePrefixes, List.mem_cons, List.mem_singleton, List.not_mem_nil,
      or_false] at hpre
    rcases hpre with rfl | rfl
    · unfold aggregatePrefixes stripAggregate
      have hp1 : ("QVector<".toList).isPrefixOf ("QVector<".toList ++ (s ++ ['*']) ++ ">".toList)
          = true := by
        rw [List.isPrefixOf_iff_prefix, List.append_assoc]
        exact List.prefix_append _ _
      rw [if_pos hp1, List.append_assoc, List.drop_left]
      rfl
    · unfold aggregatePrefixes stripAggregate
      have hp0 : ("QVector<".toList).isPrefixOf ("QSet<".toList ++ (s ++ ['*']) ++ ">".toList)
          = false := rfl
      rw [hp0]
      unfold stripAggregate
      have hp1 : ("QSet<".toList).isPrefixOf ("QSet<".toList ++ (s ++ ['*']) ++ ">".toList)
          = true := by
        rw [List.isPrefixOf_iff_prefix, List.append_assoc]
        exact List.prefix_append _ _
      simp only [Bool.false_eq_true, if_false]
      rw [if_pos hp1, List.append_assoc, List.drop_left]
      rfl
  have he : endsWithPointerBracket p = true := by
    unfold endsWithPointerBracket
    rw [hs, List.isSuffixOf_iff_suffix]
    exact ⟨s, by simp⟩
  refine ⟨he, ?_⟩
  unfold referencedTypeName
  rw [if_pos he, hs]
  unfold chop
  have hl : ((s ++ ['*']) ++ ['>']).length - 1 = (s ++ ['*']).length := by simp
  rw [hl, List.take_left]

/-- The mapping of a property whose type is a container of pointers to a registered entity
is transient, has no table field and references the record of the entity. -/
theorem MappingFor.container {reg : MetaTypeRegistry} {c : QByteArray} {mo : QMetaObject}
    {pi : QHash QString QOrmUserMetadata} {st' : QOrmMetadataCachePrivate}
    {p : QMetaProperty} {m : QOrmPropertyMapping} (h : MappingFor reg c mo pi st' p m)
    {E : QMetaObject} (hT : p.type = QVariantType.UserType)
    (hC : endsWithPointerBracket p = true)
    (hP : (QMetaType.typeFlags reg (QMetaType.type reg (referencedTypeName p))).pointerToQObject
      = true)
    (hM : QMetaType.metaObjectForType reg (QMetaType.type reg (referencedTypeName p)) = some E) :
    m.isTransient = true ∧ m.tableFieldName = [] ∧ m.referencedEntity = some E.className ∧
      QHash.contains st'.m_cache E.className = true := by
  rcases h.field with ⟨hT', _⟩ | ⟨_, hP', _⟩ | ⟨_, _, hfield, htrans, refMeta, hM', href, hpres⟩
  · exact absurd hT hT'
  · rw [hP] at hP'; cases hP'
  · rw [hM] at hM'
    injection hM' with hM'
    subst hM'
    have hct : (containerDescriptor p (baseDescriptor p (QHash.value pi p.name {}))).isTransient
        = true := by
      rw [(containerDescriptor_flags _ _).1]; exact hC
    have hcf : (containerDescriptor p (baseDescriptor p (QHash.value pi p.name {}))).tableFieldName
        = [] := by
      unfold containerDescriptor; rw [if_pos hC]
    refine ⟨?_, ?_, href, hpres⟩
    · rw [htrans, (withIdSuffix_flags _ _).1]; exact hct
    · rw [hfield]
      unfold withIdSuffix
      rw [hct]
      simp only [Bool.not_true, Bool.and_false, Bool.false_eq_true, if_false]
      exact hcf

/-! ## Invariants of the records -/

theorem mappingDescriptor_keeps {P : QOrmMetadataPrivate → Prop} {reg : MetaTypeRegistry}
    {g : Getter} (hg : GetterKeeps P g) {st st1 : QOrmMetadataCachePrivate} {mo : QMetaObject}
    {p : QMetaProperty} {umd : QOrmUserMetadata} {d : MappingDescriptor}
    (h : QOrmMetadataCachePrivate.mappingDescriptor reg g st mo p umd = .ok (d, st1))
    (hst : AllRecords P st) : AllRecords P st1 := by
  rcases mappingDescriptor_state h with h1 | ⟨refMeta, k, h1⟩
  · subst h1; exact hst
  · exact hg _ _ _ _ h1 hst

theorem mappingAppended_keeps {P : QOrmMetadataPrivate → Prop} (hP : RecordInvariant P)
    {st : QOrmMetadataCachePrivate} (c : QByteArray) (p : QMetaProperty)
    {d : MappingDescriptor} (umd : QOrmUserMetadata)
    (h2 : ¬ (d.isTransient = true ∧ d.isObjectId = true))
    (h3 : d.isAutogenerated = true → d.isObjectId = true)
    (hst : AllRecords P st) : AllRecords P (mappingAppended st c p d umd) := by
  intro T v hf
  dsimp only [mappingAppended] at hf
  by_cases hT : c = T
  · subst hT
    rw [QHash.find_modify_self] at hf
    cases hf0 : QHash.find c st.m_cache with
    | none => rw [hf0] at hf; cases hf
    | some v0 =>
      rw [hf0] at hf
      simp only [Option.map_some', Option.some.injEq] at hf
      rw [← hf]
      exact hP.step v0 c p d umd (hst c v0 hf0) h2 h3
  · rw [QHash.find_modify_ne T c _ _ hT] at hf
    exact hst T v hf

theorem initializeProperties_keeps {P : QOrmMetadataPrivate → Prop} (hP : RecordInvariant P)
    {reg : MetaTypeRegistry} {g : Getter} (hg : GetterKeeps P g)
    (c : QByteArray) (mo : QMetaObject) (pi : QHash QString QOrmUserMetadata) :
    ∀ (ps : List QMetaProperty) (st st' : QOrmMetadataCachePrivate),
      initializeProperties reg g c mo pi ps st = .ok st' → AllRecords P st →
        AllRecords P st' := by
  intro ps
  induction ps with
  | nil =>
    intro st st' h hst
    unfold initializeProperties at h
    cases h
    exact hst
  | cons p rest ih =>
    intro st st' h hst
    rcases initializeProperties_cons h with ⟨_, h1⟩ | ⟨_, d, st1, hm, _, h2, h3, _, h1⟩
    · exact ih st st' h1 hst
    · exact ih _ _ h1
        (mappingAppended_keeps hP c p _ h2 h3 (mappingDescriptor_keeps hg hm hst))

theorem initialize_keeps {P : QOrmMetadataPrivate → Prop} (hP : RecordInvariant P)
    {reg : MetaTypeRegistry} {g : Getter} (hg : GetterKeeps P g)
    {st st' : QOrmMetadataCachePrivate} {c : QByteArray} {mo : QMetaObject}
    (hc : QHash.find c st.m_cache = none)
    (h : QOrmMetadataCachePrivate.initialize reg g st c mo = .ok st')
    (hst : AllRecords P st) : AllRecords P st' := by
  obtain ⟨_, ci, pi, st4, _, hp, hst', _⟩ := initialize_ok h
  obtain ⟨hne, hself⟩ := classDataSet_placeholderCached_find st c mo ci hc
  subst hst'
  have h4 : AllRecords P st4 := by
    refine initializeProperties_keeps hP hg c mo pi _ _ _ hp ?_
    intro T d hf
    by_cases hT : T = c
    · subst hT
      rw [hself] at hf
      injection hf with hf
      subst hf
      exact hP.start mo ci
    · rw [hne T hT] at hf
      exact hst T d hf
  exact h4


/-- Every fuel level of `get` keeps a record invariant. -/
theorem get_keeps {P : QOrmMetadataPrivate → Prop} (hP : RecordInvariant P)
    (reg : MetaTypeRegistry) : ∀ fuel, GetterKeeps P (QOrmMetadataCachePrivate.get reg fuel) := by
  intro fuel
  induction fuel with
  | zero =>
    intro st mo k st' h hst
    obtain ⟨_, ⟨_, h1⟩ | ⟨_, n, hn, _⟩⟩ := get_ok h
    · subst h1; exact hst
    · cases hn
  | succ n ih =>
    intro st mo k st' h hst
    obtain ⟨_, ⟨_, h1⟩ | ⟨hc, m, hm, hi⟩⟩ := get_ok h
    · subst h1; exact hst
    · have hnm : n = m := Nat.succ.inj hm
      subst hnm
      exact initialize_keeps hP ih hc hi hst

/-- A record invariant holds of every record of every cache state that is reached from the
empty cache. -/
theorem reachable_records {P : QOrmMetadataPrivate → Prop} (hP : RecordInvariant P)
    {reg : MetaTypeRegistry} {st : QOrmMetadataCachePrivate} (h : Reachable reg st) :
    AllRecords P st := by
  induction h with
  | empty => intro T d hf; cases hf
  | resolve _ hget ih => exact get_keeps hP reg _ _ _ _ _ hget ih

theorem flagsOk_invariant :
    RecordInvariant (fun d => ∀ m ∈ d.m_propertyMappings, FlagsOk m) where
  start := fun mo ci m hm => by cases hm
  step := fun data c p d umd h h2 h3 m hm => by
    unfold appendMapping at hm
    dsimp only at hm
    rcases List.mem_append.1 hm with hm | hm
    · exact h m hm
    · have : m = newMapping c p d umd := by simpa using hm
      subst this
      exact ⟨h3, h2⟩

theorem lastIdentity_invariant : RecordInvariant LastIdentity where
  start := fun mo ci => Or.inl ⟨rfl, rfl⟩
  step := fun data c p d umd h _ _ => by
    unfold LastIdentity identityMappings appendMapping
    dsimp only
    by_cases hd : d.isObjectId = true
    · right
      rw [if_pos hd]
      have hidx : ((↑(data.m_propertyMappings ++ [newMapping c p d umd]).length : Int) - 1).toNat
          = data.m_propertyMappings.length := by simp
      rw [hidx]
      refine ⟨by simp, by simp, ?_⟩
      have hn : (newMapping c p d umd).isObjectId = true := hd
      rw [List.filter_append, List.filter_cons_of_pos hn, List.filter_nil,
        List.getLast?_append, List.get?_eq_getElem?]
      simp
    · rw [if_neg hd]
      have hn : ¬ ((newMapping c p d umd).isObjectId = true) := hd
      rw [List.filter_append, List.filter_cons_of_neg hn, List.filter_nil, List.append_nil]
      rcases h with ⟨h1, h2⟩ | ⟨h0, hlt, hget⟩
      · exact Or.inl ⟨h1, h2⟩
      · right
        refine ⟨h0, by rw [List.length_append]; omega, ?_⟩
        rw [List.get?_eq_getElem?] at hget ⊢
        rw [List.getElem?_append_left hlt]
        exact hget

/-- The identity mapping of a record with `LastIdentity` is the last mapping that is marked
as the identity. -/
theorem LastIdentity.designates {d : QOrmMetadataPrivate} (h : LastIdentity d) :
    d.objectIdMapping = (identityMappings d).getLast? := by
  unfold QOrmMetadataPrivate.objectIdMapping
  rcases h with ⟨h1, h2⟩ | ⟨h0, _, hget⟩
  · rw [if_pos h1, h2]; rfl
  · have hne : d.m_objectIdPropertyMappingIdx ≠ -1 := by omega
    rw [if_neg hne]
    exact hget

/-! ## Transient flag and enumerations -/

/-- The transient flag of a mapping: the declared or default value for a property that is
not of a user type, and decided by the type name alone for a property of a user type. -/
theorem MappingFor.transient {reg : MetaTypeRegistry} {c : QByteArray} {mo : QMetaObject}
    {pi : QHash QString QOrmUserMetadata} {st' : QOrmMetadataCachePrivate}
    {p : QMetaProperty} {m : QOrmPropertyMapping} (h : MappingFor reg c mo pi st' p m) :
    (p.type ≠ QVariantType.UserType →
      m.isTransient = (baseDescriptor p (QHash.value pi p.name {})).isTransient) ∧
    (p.type = QVariantType.UserType → m.isTransient = endsWithPointerBracket p) := by
  rcases h.field with ⟨hT, _, ht, _⟩ | ⟨hT, _, _, ht, _⟩ | ⟨hT, _, _, ht, _⟩
  · exact ⟨fun _ => ht, fun hT' => absurd hT' hT⟩
  · refine ⟨fun hT' => absurd hT hT', fun _ => ?_⟩
    rw [ht]; exact (containerDescriptor_flags _ _).1
  · refine ⟨fun hT' => absurd hT hT', fun _ => ?_⟩
    rw [ht, (withIdSuffix_flags _ _).1]; exact (containerDescriptor_flags _ _).1

/-- The descriptor that `mappingDescriptor` returns for a property of a registered
enumeration type. -/
theorem mappingDescriptor_enumeration (reg : MetaTypeRegistry) (g : Getter)
    (st : QOrmMetadataCachePrivate) (mo : QMetaObject) {p : QMetaProperty}
    (umd : QOrmUserMetadata) (hT : p.type = QVariantType.UserType)
    (hU : p.userType ≠ QMetaType.UnknownType)
    (hP : (QMetaType.typeFlags reg (QMetaType.type reg (referencedTypeName p))).pointerToQObject
      = false)
    (hE : (QMetaType.typeFlags reg (QMetaType.type reg (referencedTypeName p))).isEnumeration
      = true) :
    QOrmMetadataCachePrivate.mappingDescriptor reg g st mo p umd
      = .ok ({ containerDescriptor p (baseDescriptor p umd) with
               isEnumeration := true, dataType := QVariantType.Int }, st) := by
  unfold QOrmMetadataCachePrivate.mappingDescriptor
  dsimp only
  rw [if_pos hT, if_neg hU, hP, if_pos hE]
  simp only [Bool.false_eq_true, if_false]

/-- The mapping of a property of a registered enumeration type has the data type `Int`. -/
theorem MappingFor.enumeration {reg : MetaTypeRegistry} {c : QByteArray} {mo : QMetaObject}
    {pi : QHash QString QOrmUserMetadata} {st' : QOrmMetadataCachePrivate}
    {p : QMetaProperty} {m : QOrmPropertyMapping} (h : MappingFor reg c mo pi st' p m)
    (hT : p.type = QVariantType.UserType)
    (hP : (QMetaType.typeFlags reg (QMetaType.type reg (referencedTypeName p))).pointerToQObject
      = false)
    (hE : (QMetaType.typeFlags reg (QMetaType.type reg (referencedTypeName p))).isEnumeration
      = true) :
    p.userType ≠ QMetaType.UnknownType ∧ m.dataType = QVariantType.Int := by
  obtain ⟨g, st, st1, d, _, hm, _, _, _, h6, _⟩ := h
  rcases mappingDescriptor_ok hm with ⟨hT', _⟩ | ⟨_, _, _, hE', _⟩ | ⟨_, hU, _, _, hd, _⟩ |
    ⟨_, _, hP', _⟩
  · exact absurd hT hT'
  · rw [hE] at hE'; cases hE'
  · subst hd h6; exact ⟨hU, rfl⟩
  · rw [hP] at hP'; cases hP'

/-! ## Rejection of a transient identity -/

/-- One iteration of the property loop whose descriptor is both transient and the
identity. -/
theorem initializeProperties_reject (reg : MetaTypeRegistry) (g : Getter) (c : QByteArray)
    (mo : QMetaObject) (pi : QHash QString QOrmUserMetadata) {p : QMetaProperty}
    (rest : List QMetaProperty) {st st1 : QOrmMetadataCachePrivate} {d : MappingDescriptor}
    (hb : p.enclosedByQObject = false)
    (hm : QOrmMetadataCachePrivate.mappingDescriptor reg g st mo p (QHash.value pi p.name {})
      = .ok (d, st1))
    (ht : d.isTransient = true) (hi : d.isObjectId = true) :
    initializeProperties reg g c mo pi (p :: rest) st = .fatal .transientAndIdentity := by
  rw [initializeProperties.eq_def]
  dsimp only
  rw [if_neg (by simp [hb]), hm]
  dsimp only
  have c1 : ¬ ((!d.isTransient &&
      (!p.isReadable || !p.isWritable || !p.hasNotifySignal || !p.notifySignalIsValid)) = true) := by
    simp [ht]
  have c2 : (d.isTransient && d.isObjectId) = true := by simp [ht, hi]
  rw [if_neg c1, if_pos c2]

/-- A fatal error of the property loop is the result of `initialize`. -/
theorem initialize_fatal (reg : MetaTypeRegistry) (g : Getter) (st : QOrmMetadataCachePrivate)
    (c : QByteArray) (mo : QMetaObject) {ci : QOrmUserMetadata}
    {pi : QHash QString QOrmUserMetadata} {e : Fatal}
    (hv : QOrmMetadataCachePrivate.validateConstructor mo = .ok ())
    (hci : initializeClassInfos mo mo.classInfos {} [] = .ok (ci, pi))
    (hp : initializeProperties reg g c mo pi mo.properties
      (classDataSet (placeholderCached st c mo) c mo ci) = .fatal e) :
    QOrmMetadataCachePrivate.initialize reg g st c mo = .fatal e := by
  unfold QOrmMetadataCachePrivate.initialize
  rw [hv]
  dsimp only
  rw [hci]
  dsimp only
  rw [hp]

/-- A fatal error of `initialize` for an entity that is not in the cache is the result of
`get`. -/
theorem get_fatal (reg : MetaTypeRegistry) (n : Nat) {st : QOrmMetadataCachePrivate}
    {mo : QMetaObject} {e : Fatal} (hc : QHash.find mo.className st.m_cache = none)
    (hi : QOrmMetadataCachePrivate.initialize reg ( QOrmMetadataCachePrivate.get reg n) st
      mo.className mo = .fatal e) :
    QOrmMetadataCachePrivate.get reg (n + 1) st mo = .fatal e := by
  rw [QOrmMetadataCachePrivate.get.eq_def]
  dsimp only
  rw [if_neg (by rw [(QHash.contains_eq_false _ _).2 hc]; simp), hi]

/-- No mapping is built for a property that is not of a user type and whose declaration
sets both IDENTITY and TRANSIENT. -/
theorem MappingFor.notBoth {reg : MetaTypeRegistry} {c : QByteArray} {mo : QMetaObject}
    {pi : QHash QString QOrmUserMetadata} {st' : QOrmMetadataCachePrivate}
    {p : QMetaProperty} {m : QOrmPropertyMapping} (h : MappingFor reg c mo pi st' p m)
    (hT : p.type ≠ QVariantType.UserType)
    (hI : (QHash.value pi p.name {}).find .Identity = some (.bool true))
    (hTr : (QHash.value pi p.name {}).find .Transient = some (.bool true)) : False := by
  obtain ⟨g, st, st1, d, _, hm, _, h2, _⟩ := h
  rw [mappingDescriptor_plain reg g st mo _ hT] at hm
  injection hm with hm
  injection hm with hd _
  subst hd
  apply h2
  rw [baseDescriptor_isTransient, baseDescriptor_isObjectId, (value_of_find_some hI).1,
    (value_of_find_some hI).2, (value_of_find_some hTr).1, (value_of_find_some hTr).2]
  exact ⟨rfl, rfl⟩

/-! ## The keyword search -/

theorem upperTokens_class : UpperTokens ClassKeywords := by
  intro it hit
  simp only [ClassKeywords, List.mem_cons, List.mem_singleton, List.not_mem_nil, or_false] at hit
  rcases hit with rfl | rfl
  · exact ⟨'T', "ABLE".toList, rfl, by decide⟩
  · exact ⟨'S', "CHEMA".toList, rfl, by decide⟩

theorem upperTokens_property : UpperTokens PropertyKeywords := by
  intro it hit
  simp only [PropertyKeywords, List.mem_cons, List.mem_singleton, List.not_mem_nil,
    or_false] at hit
  rcases hit with rfl | rfl | rfl | rfl
  · exact ⟨'C', "OLUMN".toList, rfl, by decide⟩
  · exact ⟨'I', "DENTITY".toList, rfl, by decide⟩
  · exact ⟨'T', "RANSIENT".toList, rfl, by decide⟩
  · exact ⟨'A', "UTOGENERATED".toList, rfl, by decide⟩

/-- A keyword is found at an index exactly when its token is a prefix there. -/
theorem keywordAt_some {kws : List KeywordDescriptor} {rest : QString} {kw : KeywordDescriptor}
    (h : keywordAt kws rest = some kw) : kw ∈ kws ∧ kw.token <+: rest := by
  unfold keywordAt at h
  refine ⟨List.mem_of_find?_eq_some h, ?_⟩
  have h2 := List.find?_some h
  have h3 : rest.take kw.token.length = kw.token := by simpa using h2
  rw [← h3]
  exact List.take_prefix _ _

theorem keywordAt_none {kws : List KeywordDescriptor} {rest : QString} :
    keywordAt kws rest = none ↔ ∀ it ∈ kws, ¬ it.token <+: rest := by
  unfold keywordAt
  rw [List.find?_eq_none]
  constructor
  · intro h it hit hpre
    apply h it hit
    have : rest.take it.token.length = it.token := List.prefix_iff_eq_take.1 hpre |>.symm
    simp [this]
  · intro h it hit hb
    apply h it hit
    have h3 : rest.take it.token.length = it.token := by simpa using hb
    rw [← h3]
    exact List.take_prefix _ _

/-- The upper-case pre-check of `findNextKeyword` does not change what is found at an
index. -/
theorem findNextKeywordFrom_cons {kws : List KeywordDescriptor} (hU : UpperTokens kws)
    (c : Char) (rest : QString) (i : Nat) :
    findNextKeywordFrom kws (c :: rest) i =
      match keywordAt kws (c :: rest) with
      | some it => some (i, it)
      | none => findNextKeywordFrom kws rest (i + 1) := by
  rw [findNextKeywordFrom.eq_def]
  dsimp only
  by_cases hc : c.isUpper = true
  · rw [if_pos hc]
    unfold keywordAt
    cases List.find? (fun it => List.take it.token.length (c :: rest) == it.token) kws <;> rfl
  · rw [if_neg hc]
    have hn : keywordAt kws (c :: rest) = none := by
      rw [keywordAt_none]
      intro it hit hpre
      obtain ⟨c', r', htok, hup⟩ := hU it hit
      rw [htok] at hpre
      obtain ⟨s, hs⟩ := hpre
      injection hs with h1 _
      subst h1
      exact hc hup
    rw [hn]

/-- The position that the keyword search returns is the leftmost one, from the start index
on, at which a token of the table occurs. -/
theorem findNextKeywordFrom_leftmost {kws : List KeywordDescriptor} (hU : UpperTokens kws) :
    ∀ (rest : QString) (i p : Nat) (kw : KeywordDescriptor),
      findNextKeywordFrom kws rest i = some (p, kw) →
      i ≤ p ∧ keywordAt kws (rest.drop (p - i)) = some kw ∧
      ∀ j, j < p - i → keywordAt kws (rest.drop j) = none := by
  intro rest
  induction rest with
  | nil => intro i p kw h; cases h
  | cons c rest ih =>
    intro i p kw h
    rw [findNextKeywordFrom_cons hU] at h
    cases hk : keywordAt kws (c :: rest) with
    | some it =>
      rw [hk] at h
      injection h with h
      injection h with h1 h2
      subst h1 h2
      refine ⟨le_refl _, ?_, ?_⟩
      · rw [Nat.sub_self]; exact hk
      · intro j hj; omega
    | none =>
      rw [hk] at h
      obtain ⟨h1, h2, h3⟩ := ih (i + 1) p kw h
      have hp : p - i = (p - (i + 1)) + 1 := by omega
      refine ⟨by omega, ?_, ?_⟩
      · rw [hp, List.drop_succ_cons]; exact h2
      · intro j hj
        cases j with
        | zero => exact hk
        | succ j =>
          rw [List.drop_succ_cons]
          exact h3 j (by omega)

theorem findNextKeyword_leftmost {kws : List KeywordDescriptor} (hU : UpperTokens kws)
    {data : QString} {s p : Nat} {kw : KeywordDescriptor}
    (h : findNextKeyword data s kws = some (p, kw)) :
    s ≤ p ∧ keywordAt kws (data.drop p) = some kw ∧
    ∀ j, s ≤ j → j < p → keywordAt kws (data.drop j) = none := by
  unfold findNextKeyword at h
  obtain ⟨h1, h2, h3⟩ := findNextKeywordFrom_leftmost hU _ _ _ _ h
  refine ⟨h1, ?_, ?_⟩
  · rw [List.drop_drop] at h2
    have : s + (p - s) = p := by omega
    rw [this] at h2
    exact h2
  · intro j hs hj
    have := h3 (j - s) (by omega)
    rw [List.drop_drop] at this
    have e : s + (j - s) = j := by omega
    rw [e] at this
    exact this

/-- The keyword search from index 0 returns index 0 when a token is found there. -/
theorem findNextKeyword_zero {kws : List KeywordDescriptor} (hU : UpperTokens kws)
    {data : QString} {kw : KeywordDescriptor} (h : keywordAt kws data = some kw) :
    findNextKeyword data 0 kws = some (0, kw) := by
  unfold findNextKeyword
  rw [List.drop_zero]
  cases data with
  | nil =>
    obtain ⟨hmem, hpre⟩ := keywordAt_some h
    obtain ⟨c, r, htok, _⟩ := hU kw hmem
    rw [htok] at hpre
    obtain ⟨s, hs⟩ := hpre
    cases hs
  | cons c rest =>
    rw [findNextKeywordFrom_cons hU, h]

/-- The keyword loop of `extractClassInfo` never reports a missing leading keyword. -/
theorem extractClassInfoLoop_error (data : QString) :
    ∀ (fuel : Nat) (kp : KeywordPosition) (info : QOrmUserMetadata),
      extractClassInfoLoop data fuel kp info ≠ .fatal .classMustBeginWithKeyword := by
  intro fuel
  induction fuel with
  | zero =>
    intro kp info
    cases kp with
    | none => unfold extractClassInfoLoop; simp
    | some r => unfold extractClassInfoLoop; simp
  | succ n ih =>
    intro kp info
    cases kp with
    | none => unfold extractClassInfoLoop; simp
    | some r =>
      obtain ⟨kpos, kw⟩ := r
      unfold extractClassInfoLoop
      dsimp only
      split
      · split
        · exact ih _ _
        · simp
      · split
        · split
          · exact ih _ _
          · simp
        · exact ih _ _

/-- The keyword loop of `extractPropertyInfo` leaves the Property entry as it is. -/
theorem extractPropertyInfoLoop_property (data : QString) :
    ∀ (fuel : Nat) (kp : KeywordPosition) (info info' : QOrmUserMetadata),
      extractPropertyInfoLoop data fuel kp info = .ok info' →
      info'.find .Property = info.find .Property := by
  intro fuel
  induction fuel with
  | zero =>
    intro kp info info' h
    cases kp with
    | none =>
      unfold extractPropertyInfoLoop at h
      injection h with h
      rw [h]
    | some r => unfold extractPropertyInfoLoop at h; cases h
  | succ n ih =>
    intro kp info info' h
    cases kp with
    | none =>
      unfold extractPropertyInfoLoop at h
      injection h with h
      rw [h]
    | some r =>
      obtain ⟨kpos, kw⟩ := r
      unfold extractPropertyInfoLoop at h
      dsimp only at h
      split at h
      · split at h
        · exact (ih _ _ _ h).trans rfl
        · cases h
      · split at h
        · split at h
          · cases h
          · exact (ih _ _ _ h).trans rfl
        · split at h
          · split at h
            · cases h
            · exact (ih _ _ _ h).trans rfl
          · split at h
            · split at h
              · cases h
              · exact (ih _ _ _ h).trans rfl
            · exact (ih _ _ _ h).trans rfl

/-! ## Parsing a class-level declaration with both keywords -/

/-- No token is found at an index inside `t` when no token occurs in `t` and no token
continues into what follows `t`. -/
theorem keywordAt_straddle {kws : List KeywordDescriptor} {t v : QString} {j : Nat}
    (hj : j < t.length) (hno : ∀ it ∈ kws, ¬ it.token <:+: t)
    (hv : ∀ b ∈ v.head?, ∀ it ∈ kws, b ∉ it.token.tail) :
    keywordAt kws (t.drop j ++ v) = none := by
  rw [keywordAt_none]
  intro it hit hpre
  have hw : t.drop j <+: t.drop j ++ v := List.prefix_append _ _
  by_cases hl : it.token.length ≤ (t.drop j).length
  · have h1 : it.token <+: t.drop j := List.prefix_of_prefix_length_le hpre hw hl
    exact hno it hit (h1.isInfix.trans (List.drop_suffix j t).isInfix)
  · have h1 : t.drop j <+: it.token :=
      List.prefix_of_prefix_length_le hw hpre (by omega)
    obtain ⟨r, hr⟩ := h1
    rw [← hr] at hpre
    have h2 : r <+: v := (List.prefix_append_right_inj _).1 hpre
    cases r with
    | nil =>
      rw [List.append_nil] at hr
      rw [← hr] at hl
      exact hl (le_refl _)
    | cons b r' =>
      obtain ⟨v', hv'⟩ := h2
      have hb : b ∈ v.head? := by rw [← hv']; simp
      cases hd : t.drop j with
      | nil =>
        have := congrArg List.length hd
        rw [List.length_drop] at this
        simp at this
        omega
      | cons c w' =>
        rw [hd] at hr
        apply hv b hb it hit
        rw [← hr]
        simp

/-- The keyword search passes over a stretch in which no token is found. -/
theorem findNextKeywordFrom_skip {kws : List KeywordDescriptor} (hU : UpperTokens kws) :
    ∀ (u v : QString) (i : Nat),
      (∀ j, j < u.length → keywordAt kws (u.drop j ++ v) = none) →
      findNextKeywordFrom kws (u ++ v) i = findNextKeywordFrom kws v (i + u.length) := by
  intro u
  induction u with
  | nil => intro v i _; rfl
  | cons c u ih =>
    intro v i h
    have h0 : keywordAt kws (c :: (u ++ v)) = none := h 0 (by simp)
    rw [List.cons_append, findNextKeywordFrom_cons hU, h0]
    dsimp only
    rw [ih v (i + 1) (fun j hj => h (j + 1) (by simp only [List.length_cons]; omega))]
    simp only [List.length_cons]
    congr 1
    omega

theorem extractString_some {data : QString} {pos p : Nat} {kws : List KeywordDescriptor}
    {kw : KeywordDescriptor} (h : findNextKeyword data pos kws = some (p, kw)) :
    (extractString data pos kws).nextKeyword = some (p, kw) ∧
    (extractString data pos kws).value = mid data pos (p - pos) := by
  unfold extractString
  dsimp only
  rw [h]
  exact ⟨rfl, rfl⟩

theorem extractString_none {data : QString} {pos : Nat} {kws : List KeywordDescriptor}
    (h : findNextKeyword data pos kws = none) :
    (extractString data pos kws).nextKeyword = none ∧
    (extractString data pos kws).value = mid data pos (data.length - pos) := by
  unfold extractString
  dsimp only
  rw [h]
  exact ⟨rfl, rfl⟩

/-- One iteration of the keyword loop of `extractClassInfo` whose value is not empty. -/
theorem extractClassInfoLoop_step (data : QString) {fuel : Nat} (kpos : Nat)
    {kw : KeywordDescriptor} (info : QOrmUserMetadata) (hf : 0 < fuel)
    (hkw : kw ∈ ClassKeywords)
    (hv : (extractString data (kpos + kw.token.length) ClassKeywords).value ≠ []) :
    extractClassInfoLoop data fuel (some (kpos, kw)) info =
      extractClassInfoLoop data (fuel - 1)
        (extractString data (kpos + kw.token.length) ClassKeywords).nextKeyword
        (info.insert kw.id
          (.string (extractString data (kpos + kw.token.length) ClassKeywords).value)) := by
  have hne : (!(extractString data (kpos + kw.token.length) ClassKeywords).value.isEmpty)
      = true := by
    cases hx : (extractString data (kpos + kw.token.length) ClassKeywords).value with
    | nil => exact absurd hx hv
    | cons a l => rfl
  cases fuel with
  | zero => omega
  | succ n =>
    rw [Nat.add_sub_cancel]
    simp only [ClassKeywords, List.mem_cons, List.mem_singleton, List.not_mem_nil,
      or_false] at hkw
    rcases hkw with rfl | rfl
    · rw [extractClassInfoLoop]
      dsimp only at hne ⊢
      rw [if_pos rfl, if_pos hne]
    · rw [extractClassInfoLoop]
      dsimp only at hne ⊢
      rw [if_neg (by decide), if_pos rfl, if_pos hne]

theorem extractClassInfoLoop_done (data : QString) (fuel : Nat) (info : QOrmUserMetadata) :
    extractClassInfoLoop data fuel none info = .ok info := by
  cases fuel <;> rfl

/-- The keyword search returns its start index when a token is found there. -/
theorem findNextKeywordFrom_head {kws : List KeywordDescriptor} (hU : UpperTokens kws)
    {rest : QString} {kw : KeywordDescriptor} (i : Nat) (h : keywordAt kws rest = some kw) :
    findNextKeywordFrom kws rest i = some (i, kw) := by
  cases rest with
  | nil =>
    obtain ⟨hmem, hpre⟩ := keywordAt_some h
    obtain ⟨c, r, htok, _⟩ := hU kw hmem
    rw [htok] at hpre
    obtain ⟨s, hs⟩ := hpre
    cases hs
  | cons c rest =>
    rw [findNextKeywordFrom_cons hU, h]

/-- The result of `extractClassInfo` on a declaration of two keywords with their values,
when the search finds the keywords where they stand and nowhere inside the values. -/
theorem extractClassInfo_pair (mo : QMetaObject) {kw1 kw2 : KeywordDescriptor}
    (h1 : kw1 ∈ ClassKeywords) (h2 : kw2 ∈ ClassKeywords) {a b : QString}
    (ha : a ≠ []) (hb : b ≠ [])
    (hfirst : keywordAt ClassKeywords (kw1.token ++ (a ++ (kw2.token ++ b))) = some kw1)
    (hsecond : keywordAt ClassKeywords (kw2.token ++ b) = some kw2)
    (hskipa : ∀ j, j < a.length → keywordAt ClassKeywords (a.drop j ++ (kw2.token ++ b)) = none)
    (hskipb : ∀ j, j < b.length → keywordAt ClassKeywords (b.drop j ++ []) = none) :
    extractClassInfo mo (kw1.token ++ (a ++ (kw2.token ++ b)))
      = .ok ((({} : QOrmUserMetadata).insert kw1.id (.string a)).insert kw2.id (.string b)) := by
  have hU := upperTokens_class
  have hk0 := findNextKeyword_zero hU hfirst
  have hk1 : findNextKeyword (kw1.token ++ (a ++ (kw2.token ++ b))) (0 + kw1.token.length)
      ClassKeywords = some (kw1.token.length + a.length, kw2) := by
    unfold findNextKeyword
    rw [Nat.zero_add, List.drop_left, findNextKeywordFrom_skip hU a _ _ hskipa]
    exact findNextKeywordFrom_head hU _ hsecond
  have hv1 : mid (kw1.token ++ (a ++ (kw2.token ++ b))) (0 + kw1.token.length)
      (kw1.token.length + a.length - (0 + kw1.token.length)) = a := by
    unfold mid
    rw [Nat.zero_add, List.drop_left, Nat.add_sub_cancel_left, List.take_left]
  have hdrop : (kw1.token ++ (a ++ (kw2.token ++ b))).drop
      (kw1.token.length + a.length + kw2.token.length) = b := by
    have e1 : kw1.token ++ (a ++ (kw2.token ++ b)) = (kw1.token ++ a ++ kw2.token) ++ b := by
      simp only [List.append_assoc]
    have e2 : kw1.token.length + a.length + kw2.token.length
        = (kw1.token ++ a ++ kw2.token).length := by
      simp only [List.length_append]
    rw [e1, e2, List.drop_left]
  have hk2 : findNextKeyword (kw1.token ++ (a ++ (kw2.token ++ b)))
      (kw1.token.length + a.length + kw2.token.length) ClassKeywords = none := by
    unfold findNextKeyword
    rw [hdrop]
    have := findNextKeywordFrom_skip hU b []
      (kw1.token.length + a.length + kw2.token.length) hskipb
    rw [List.append_nil] at this
    rw [this]
    rfl
  have hv2 : mid (kw1.token ++ (a ++ (kw2.token ++ b)))
      (kw1.token.length + a.length + kw2.token.length)
      ((kw1.token ++ (a ++ (kw2.token ++ b))).length
        - (kw1.token.length + a.length + kw2.token.length)) = b := by
    unfold mid
    rw [hdrop]
    have : (kw1.token ++ (a ++ (kw2.token ++ b))).length
        - (kw1.token.length + a.length + kw2.token.length) = b.length := by
      simp only [List.length_append]
      omega
    rw [this, List.take_length]
  have hlen : 0 < (kw1.token ++ (a ++ (kw2.token ++ b))).length := by
    have : 0 < a.length := List.length_pos.2 ha
    simp only [List.length_append]
    omega
  unfold extractClassInfo
  dsimp only
  rw [hk0]
  dsimp only
  obtain ⟨n1, v1⟩ := extractString_some hk1
  obtain ⟨n2, v2⟩ := extractString_none hk2
  rw [extractClassInfoLoop_step _ 0 _ (Nat.succ_pos _) h1 (by rw [v1, hv1]; exact ha),
    n1, v1, hv1, Nat.succ_sub_one,
    extractClassInfoLoop_step _ _ _ hlen h2 (by rw [v2, hv2]; exact hb),
    n2, v2, hv2, extractClassInfoLoop_done]

/-! ## Completeness of the keyword search -/

theorem keywordAt_nil {kws : List KeywordDescriptor} (hU : UpperTokens kws) :
    keywordAt kws [] = none := by
  rw [keywordAt_none]
  intro it hit hpre
  obtain ⟨c, r, htok, _⟩ := hU it hit
  rw [htok] at hpre
  obtain ⟨s, hs⟩ := hpre
  cases hs

/-- The keyword search finds nothing exactly when no token is found at any index. -/
theorem findNextKeywordFrom_none {kws : List KeywordDescriptor} (hU : UpperTokens kws) :
    ∀ (rest : QString) (i : Nat),
      findNextKeywordFrom kws rest i = none ↔ ∀ j, keywordAt kws (rest.drop j) = none := by
  intro rest
  induction rest with
  | nil =>
    intro i
    constructor
    · intro _ j
      rw [List.drop_nil]
      exact keywordAt_nil hU
    · intro _; rfl
  | cons c rest ih =>
    intro i
    rw [findNextKeywordFrom_cons hU]
    cases hk : keywordAt kws (c :: rest) with
    | some it =>
      constructor
      · intro h; cases h
      · intro h
        have := h 0
        rw [List.drop_zero, hk] at this
        cases this
    | none =>
      dsimp only
      rw [ih (i + 1)]
      constructor
      · intro h j
        cases j with
        | zero => exact hk
        | succ j => rw [List.drop_succ_cons]; exact h j
      · intro h j
        have := h (j + 1)
        rw [List.drop_succ_cons] at this
        exact this

theorem findNextKeyword_none {kws : List KeywordDescriptor} (hU : UpperTokens kws)
    (data : QString) (s : Nat) :
    findNextKeyword data s kws = none ↔ ∀ j, s ≤ j → keywordAt kws (data.drop j) = none := by
  unfold findNextKeyword
  rw [findNextKeywordFrom_none hU]
  constructor
  · intro h j hj
    have := h (j - s)
    rw [List.drop_drop] at this
    have e : s + (j - s) = j := by omega
    rw [e] at this
    exact this
  · intro h j
    rw [List.drop_drop]
    exact h (s + j) (by omega)

/-- The upper-case pre-check does not change the result of the keyword search. -/
theorem findNextKeywordUncheckedFrom_eq {kws : List KeywordDescriptor} (hU : UpperTokens kws) :
    ∀ (rest : QString) (i : Nat),
      findNextKeywordUncheckedFrom kws rest i = findNextKeywordFrom kws rest i := by
  intro rest
  induction rest with
  | nil => intro i; rfl
  | cons c rest ih =>
    intro i
    rw [findNextKeywordFrom_cons hU, findNextKeywordUncheckedFrom]
    unfold keywordAt
    cases List.find? (fun it => List.take it.token.length (c :: rest) == it.token) kws with
    | some it => rfl
    | none => exact ih (i + 1)

/-- Two tokens of a keyword table that occur at the same index belong to the same entry. -/
theorem token_unique {kws : List KeywordDescriptor}
    (hK : kws = ClassKeywords ∨ kws = PropertyKeywords) {a b : KeywordDescriptor}
    (ha : a ∈ kws) (hb : b ∈ kws) {l : QString} (hal : a.token <+: l) (hbl : b.token <+: l) :
    a = b := by
  obtain ⟨s1, h1⟩ := hal
  obtain ⟨s2, h2⟩ := hbl
  rw [← h1] at h2
  rcases hK with rfl | rfl
  · simp only [ClassKeywords, List.mem_cons, List.mem_singleton, List.not_mem_nil,
      or_false] at ha hb
    rcases ha with rfl | rfl <;> rcases hb with rfl | rfl <;>
      first | rfl | (exfalso; revert h2; simp)
  · simp only [PropertyKeywords, List.mem_cons, List.mem_singleton, List.not_mem_nil,
      or_false] at ha hb
    rcases ha with rfl | rfl | rfl | rfl <;> rcases hb with rfl | rfl | rfl | rfl <;>
      first | rfl | (exfalso; revert h2; simp)

theorem upperTokens_of_table {kws : List KeywordDescriptor}
    (hK : kws = ClassKeywords ∨ kws = PropertyKeywords) : UpperTokens kws := by
  rcases hK with rfl | rfl
  · exact upperTokens_class
  · exact upperTokens_property

/-! ## Constructor and capability checks -/

theorem validateConstructorLoop_false :
    ∀ ctors : List QMetaMethod, (∀ ctor ∈ ctors, UsableConstructor ctor) →
      validateConstructorLoop ctors = false := by
  intro ctors
  induction ctors with
  | nil => intro _; rfl
  | cons ctor rest ih =>
    intro h
    unfold validateConstructorLoop
    obtain ⟨ha, hp⟩ := h ctor (List.mem_cons_self _ _)
    have hne : ((ctor.access != Access.Public) || (ctor.parameterCount > 1) ||
        (ctor.parameterCount == 1 && ctor.parameterTypes.head? != some "QObject*".toList))
        = false := by
      unfold QMetaMethod.parameterCount
      rcases hp with hp | hp <;> rw [ha, hp] <;> decide
    dsimp only
    rw [hne]
    exact ih (fun c hc => h c (List.mem_cons_of_mem _ hc))

theorem validateConstructorLoop_true :
    ∀ ctors : List QMetaMethod, ctors ≠ [] → (∀ ctor ∈ ctors, ¬ UsableConstructor ctor) →
      validateConstructorLoop ctors = true := by
  intro ctors hne h
  cases ctors with
  | nil => exact absurd rfl hne
  | cons ctor rest =>
    unfold validateConstructorLoop
    have hn := h ctor (List.mem_cons_self _ _)
    have he : ((ctor.access != Access.Public) || (ctor.parameterCount > 1) ||
        (ctor.parameterCount == 1 && ctor.parameterTypes.head? != some "QObject*".toList))
        = true := by
      unfold QMetaMethod.parameterCount
      by_cases ha : ctor.access = Access.Public
      · have hp : ¬ (ctor.parameterTypes = [] ∨ ctor.parameterTypes = ["QObject*".toList]) :=
          fun hp => hn ⟨ha, hp⟩
        cases hpt : ctor.parameterTypes with
        | nil => exact absurd (Or.inl hpt) hp
        | cons t ts =>
          cases ts with
          | nil =>
            have ht : t ≠ "QObject*".toList := by
              intro ht
              exact hp (Or.inr (by rw [hpt, ht]))
            simp only [ha, List.length_singleton, List.head?_cons]
            simpa using ht
          | cons t2 ts2 => simp [ha]
      · simp [ha]
    dsimp only
    rw [he]
    rfl

/-- A fatal error of the constructor check is the result of `initialize`. -/
theorem initialize_fatal_constructor (reg : MetaTypeRegistry) (g : Getter)
    (st : QOrmMetadataCachePrivate) (c : QByteArray) (mo : QMetaObject) {e : Fatal}
    (hv : QOrmMetadataCachePrivate.validateConstructor mo = .fatal e) :
    QOrmMetadataCachePrivate.initialize reg g st c mo = .fatal e := by
  unfold QOrmMetadataCachePrivate.initialize
  rw [hv]

/-- The capability check: one iteration of the property loop whose descriptor is not
transient and whose property lacks a capability. -/
theorem initializeProperties_incapable (reg : MetaTypeRegistry) (g : Getter) (c : QByteArray)
    (mo : QMetaObject) (pi : QHash QString QOrmUserMetadata) {p : QMetaProperty}
    (rest : List QMetaProperty) {st st1 : QOrmMetadataCachePrivate} {d : MappingDescriptor}
    (hb : p.enclosedByQObject = false)
    (hm : QOrmMetadataCachePrivate.mappingDescriptor reg g st mo p (QHash.value pi p.name {})
      = .ok (d, st1))
    (ht : d.isTransient = false)
    (hcap : ¬ (p.isReadable = true ∧ p.isWritable = true ∧ p.hasNotifySignal = true ∧
      p.notifySignalIsValid = true)) :
    initializeProperties reg g c mo pi (p :: rest) st = .fatal .missingReadWriteNotify := by
  rw [initializeProperties.eq_def]
  dsimp only
  rw [if_neg (by simp [hb]), hm]
  dsimp only
  have c1 : (!d.isTransient &&
      (!p.isReadable || !p.isWritable || !p.hasNotifySignal || !p.notifySignalIsValid)) = true := by
    rw [ht]
    cases h1 : p.isReadable <;> cases h2 : p.isWritable <;> cases h3 : p.hasNotifySignal <;>
      cases h4 : p.notifySignalIsValid <;> simp_all
  rw [if_pos c1]

/-- One iteration of the property loop whose descriptor is transient: the capability check
is passed whatever the capabilities of the property. -/
theorem initializeProperties_transient (reg : MetaTypeRegistry) (g : Getter) (c : QByteArray)
    (mo : QMetaObject) (pi : QHash QString QOrmUserMetadata) {p : QMetaProperty}
    (rest : List QMetaProperty) {st st1 : QOrmMetadataCachePrivate} {d : MappingDescriptor}
    (hb : p.enclosedByQObject = false)
    (hm : QOrmMetadataCachePrivate.mappingDescriptor reg g st mo p (QHash.value pi p.name {})
      = .ok (d, st1))
    (ht : d.isTransient = true) :
    initializeProperties reg g c mo pi (p :: rest) st =
      if d.isObjectId then .fatal .transientAndIdentity
      else if d.isAutogenerated then .fatal .autogeneratedWithoutIdentity
      else match QHash.find c st1.m_cache with
        | none => .fatal .outOfRange
        | some _ =>
          initializeProperties reg g c mo pi rest
            (mappingAppended st1 c p d (QHash.value pi p.name {})) := by
  rw [initializeProperties.eq_def]
  dsimp only
  rw [if_neg (by simp [hb]), hm]
  dsimp only
  have c1 : ¬ ((!d.isTransient &&
      (!p.isReadable || !p.isWritable || !p.hasNotifySignal || !p.notifySignalIsValid)) = true) := by
    simp [ht]
  rw [if_neg c1, ht]
  cases d.isObjectId <;> cases d.isAutogenerated <;> rfl

/-- The property of a mapping that is not transient has all capabilities. -/
theorem MappingFor.capable {reg : MetaTypeRegistry} {c : QByteArray} {mo : QMetaObject}
    {pi : QHash QString QOrmUserMetadata} {st' : QOrmMetadataCachePrivate}
    {p : QMetaProperty} {m : QOrmPropertyMapping} (h : MappingFor reg c mo pi st' p m)
    (ht : m.isTransient = false) :
    p.isReadable = true ∧ p.isWritable = true ∧ p.hasNotifySignal = true ∧
      p.notifySignalIsValid = true := by
  obtain ⟨g, st, st1, d, _, _, h3, _, _, h6, _⟩ := h
  subst h6
  exact h3 ht

/-! ## Duplicate declarations -/

theorem QHash.find_insert_self {K V : Type} [DecidableEq K] (k : K) (v : V) (h : QHash K V) :
    QHash.find k (QHash.insert k v h) = some v := by
  induction h with
  | nil => simp [QHash.find, QHash.insert]
  | cons x xs ih =>
    obtain ⟨k', v'⟩ := x
    by_cases hk : k' = k <;> simp [QHash.find, QHash.insert, hk, ih]

theorem QHash.find_insert_ne {K V : Type} [DecidableEq K] (k k' : K) (v : V) (h : QHash K V)
    (hne : k' ≠ k) : QHash.find k (QHash.insert k' v h) = QHash.find k h := by
  induction h with
  | nil => simp [QHash.find, QHash.insert, hne]
  | cons x xs ih =>
    obtain ⟨k'', v'⟩ := x
    by_cases hk : k'' = k'
    · subst hk; simp [QHash.find, QHash.insert, hne]
    · by_cases hk2 : k'' = k
      · subst hk2; simp [QHash.find, QHash.insert, hk]
      · simp [QHash.find, QHash.insert, hk, hk2, ih]

theorem QHash.contains_insert {K V : Type} [DecidableEq K] (k k' : K) (v : V) (h : QHash K V)
    (hc : QHash.contains h k = true ∨ k' = k) :
    QHash.contains (QHash.insert k' v h) k = true := by
  unfold QHash.contains at hc ⊢
  by_cases hne : k' = k
  · subst hne; rw [QHash.find_insert_self]; rfl
  · rw [QHash.find_insert_ne k k' v h hne]
    rcases hc with hc | hc
    · exact hc
    · exact absurd hc hne

theorem insert_isEmpty (info : QOrmUserMetadata) (k : Keyword) (v : QVariant) :
    (info.insert k v).isEmpty = false := by
  cases k <;> simp [QOrmUserMetadata.insert, QOrmUserMetadata.isEmpty]

/-- The keyword loop of `extractClassInfo` returns a declaration that is not empty when it
starts from one or at a keyword. -/
theorem extractClassInfoLoop_isEmpty (data : QString) :
    ∀ (fuel : Nat) (kp : KeywordPosition) (info info' : QOrmUserMetadata),
      extractClassInfoLoop data fuel kp info = .ok info' →
      (info.isEmpty = false ∨ kp ≠ none) → info'.isEmpty = false := by
  intro fuel
  induction fuel with
  | zero =>
    intro kp info info' h hne
    cases kp with
    | none =>
      unfold extractClassInfoLoop at h
      injection h with h
      subst h
      rcases hne with hne | hne
      · exact hne
      · exact absurd rfl hne
    | some r => unfold extractClassInfoLoop at h; cases h
  | succ n ih =>
    intro kp info info' h hne
    cases kp with
    | none =>
      unfold extractClassInfoLoop at h
      injection h with h
      subst h
      rcases hne with hne | hne
      · exact hne
      · exact absurd rfl hne
    | some r =>
      obtain ⟨kpos, kw⟩ := r
      unfold extractClassInfoLoop at h
      dsimp only at h
      split at h
      · split at h
        · exact ih _ _ _ h (Or.inl (insert_isEmpty _ _ _))
        · cases h
      · split at h
        · split at h
          · exact ih _ _ _ h (Or.inl (insert_isEmpty _ _ _))
          · cases h
        · exact ih _ _ _ h (Or.inr (by simp))

/-- A class-level declaration that `extractClassInfo` returns is not empty. -/
theorem extractClassInfo_isEmpty {mo : QMetaObject} {data : QString} {info : QOrmUserMetadata}
    (h : extractClassInfo mo data = .ok info) : info.isEmpty = false := by
  unfold extractClassInfo at h
  dsimp only at h
  split at h
  · rename_i kw hk
    exact extractClassInfoLoop_isEmpty data _ _ _ _ h (Or.inr (by rw [hk]; simp))
  · cases h

/-- The class-info loop does not return once a class-level declaration is recorded and
another class-level entry follows. -/
theorem initializeClassInfos_second (mo : QMetaObject) :
    ∀ (cis : List QMetaClassInfo) (ci : QOrmUserMetadata) (pi : QHash QString QOrmUserMetadata),
      ci.isEmpty = false → (∃ x ∈ cis, x.name = "QtOrmClassInfo".toList) →
      ∀ r, initializeClassInfos mo cis ci pi ≠ .ok r := by
  intro cis
  induction cis with
  | nil => intro ci pi _ hx; obtain ⟨x, hx, _⟩ := hx; cases hx
  | cons x rest ih =>
    intro ci pi hci hex r
    have hrest : x.name ≠ "QtOrmClassInfo".toList →
        ∃ y ∈ rest, y.name = "QtOrmClassInfo".toList := by
      intro hx
      obtain ⟨y, hy, hyn⟩ := hex
      rcases List.mem_cons.1 hy with rfl | hy
      · exact absurd hyn hx
      · exact ⟨y, hy, hyn⟩
    unfold initializeClassInfos
    split
    · rw [hci]
      simp
    · rename_i hx
      split
      · cases hc : extractPropertyInfo mo x.value with
        | fatal e => simp
        | outOfFuel => simp
        | ok info =>
          dsimp only
          split
          · simp
          · split
            · simp
            · exact ih _ _ hci (hrest hx) r
      · exact ih _ _ hci (hrest hx) r

/-- The class-info loop does not return when two of the entries are class-level
declarations. -/
theorem initializeClassInfos_twice (mo : QMetaObject) :
    ∀ (cis : List QMetaClassInfo) (ci : QOrmUserMetadata) (pi : QHash QString QOrmUserMetadata),
      2 ≤ (cis.filter (fun x => decide (x.name = "QtOrmClassInfo".toList))).length →
      ∀ r, initializeClassInfos mo cis ci pi ≠ .ok r := by
  intro cis
  induction cis with
  | nil => intro ci pi h; simp at h
  | cons x rest ih =>
    intro ci pi h r
    unfold initializeClassInfos
    by_cases hx : x.name = "QtOrmClassInfo".toList
    · rw [if_pos hx]
      rw [List.filter_cons_of_pos (by simpa using hx)] at h
      have h1 : 1 ≤ (rest.filter (fun x => decide (x.name = "QtOrmClassInfo".toList))).length := by
        simp only [List.length_cons] at h
        omega
      have hex : ∃ y ∈ rest, y.name = "QtOrmClassInfo".toList := by
        cases hf : rest.filter (fun x => decide (x.name = "QtOrmClassInfo".toList)) with
        | nil => rw [hf] at h1; simp at h1
        | cons y ys =>
          have hy : y ∈ rest.filter (fun x => decide (x.name = "QtOrmClassInfo".toList)) := by
            rw [hf]; exact List.mem_cons_self _ _
          obtain ⟨hy1, hy2⟩ := List.mem_filter.1 hy
          exact ⟨y, hy1, by simpa using hy2⟩
      split
      · simp
      · cases hc : extractClassInfo mo x.value with
        | fatal e => simp
        | outOfFuel => simp
        | ok info =>
          dsimp only
          exact initializeClassInfos_second mo rest info pi (extractClassInfo_isEmpty hc) hex r
    · rw [if_neg hx]
      rw [List.filter_cons_of_neg (by simpa using hx)] at h
      split
      · cases hc : extractPropertyInfo mo x.value with
        | fatal e => simp
        | outOfFuel => simp
        | ok info =>
          dsimp only
          split
          · simp
          · split
            · simp
            · exact ih _ _ h r
      · exact ih _ _ h r

/-- The class-info loop does not return when a later property-level entry parses to a
property name that is recorded already. -/
theorem initializeClassInfos_recorded (mo : QMetaObject) (n : QString) :
    ∀ (cis : List QMetaClassInfo) (ci : QOrmUserMetadata) (pi : QHash QString QOrmUserMetadata),
      QHash.contains pi n = true →
      (∃ b ∈ cis, ∃ ib, b.name = "QtOrmPropertyInfo".toList ∧
        extractPropertyInfo mo b.value = .ok ib ∧
        (ib.value .Property (.string [])).toString = n) →
      ∀ r, initializeClassInfos mo cis ci pi ≠ .ok r := by
  intro cis
  induction cis with
  | nil => intro ci pi _ hx; obtain ⟨x, hx, _⟩ := hx; cases hx
  | cons x rest ih =>
    intro ci pi hpi hex r
    unfold initializeClassInfos
    split
    · rename_i hx
      have hrest : ∃ b ∈ rest, ∃ ib, b.name = "QtOrmPropertyInfo".toList ∧
          extractPropertyInfo mo b.value = .ok ib ∧
          (ib.value .Property (.string [])).toString = n := by
        obtain ⟨b, hb, ib, hbn, hbp, hbe⟩ := hex
        rcases List.mem_cons.1 hb with rfl | hb
        · rw [hx] at hbn
          exact absurd hbn (by decide)
        · exact ⟨b, hb, ib, hbn, hbp, hbe⟩
      split
      · simp
      · cases hc : extractClassInfo mo x.value with
        | fatal e => simp
        | outOfFuel => simp
        | ok info => exact ih _ _ hpi hrest r
    · split
      · cases hc : extractPropertyInfo mo x.value with
        | fatal e => simp
        | outOfFuel => simp
        | ok info =>
          dsimp only
          split
          · simp
          · split
            · simp
            · rename_i hcont
              obtain ⟨b, hb, ib, hbn, hbp, hbe⟩ := hex
              rcases List.mem_cons.1 hb with rfl | hb
              · rw [hc] at hbp
                injection hbp with hbp
                subst hbp
                rw [hbe] at hcont
                exact absurd hpi hcont
              · exact ih _ _ (QHash.contains_insert n _ _ _ (Or.inl hpi))
                  ⟨b, hb, ib, hbn, hbp, hbe⟩ r
      · rename_i hx1 hx2
        have hrest : ∃ b ∈ rest, ∃ ib, b.name = "QtOrmPropertyInfo".toList ∧
            extractPropertyInfo mo b.value = .ok ib ∧
            (ib.value .Property (.string [])).toString = n := by
          obtain ⟨b, hb, ib, hbn, hbp, hbe⟩ := hex
          rcases List.mem_cons.1 hb with rfl | hb
          · exact absurd hbn hx2
          · exact ⟨b, hb, ib, hbn, hbp, hbe⟩
        exact ih _ _ hpi hrest r

/-- The class-info loop does not return when two property-level entries parse to the same
property name. -/
theorem initializeClassInfos_same (mo : QMetaObject) {a b : QMetaClassInfo}
    {ia ib : QOrmUserMetadata} (middle post : List QMetaClassInfo)
    (han : a.name = "QtOrmPropertyInfo".toList) (hbn : b.name = "QtOrmPropertyInfo".toList)
    (hap : extractPropertyInfo mo a.value = .ok ia)
    (hbp : extractPropertyInfo mo b.value = .ok ib)
    (hsame : (ia.value .Property (.string [])).toString
      = (ib.value .Property (.string [])).toString) :
    ∀ (pre : List QMetaClassInfo) (ci : QOrmUserMetadata) (pi : QHash QString QOrmUserMetadata),
      ∀ r, initializeClassInfos mo (pre ++ a :: (middle ++ b :: post)) ci pi ≠ .ok r := by
  have hex : ∃ x ∈ middle ++ b :: post, ∃ ix, x.name = "QtOrmPropertyInfo".toList ∧
      extractPropertyInfo mo x.value = .ok ix ∧
      (ix.value .Property (.string [])).toString
        = (ia.value .Property (.string [])).toString :=
    ⟨b, by simp, ib, hbn, hbp, hsame.symm⟩
  intro pre
  induction pre with
  | nil =>
    intro ci pi r
    rw [List.nil_append]
    unfold initializeClassInfos
    rw [if_neg (by rw [han]; decide), if_pos han, hap]
    dsimp only
    split
    · simp
    · split
      · simp
      · exact initializeClassInfos_recorded mo _ _ _ _
          (QHash.contains_insert _ _ _ _ (Or.inr rfl)) hex r
  | cons x rest ih =>
    intro ci pi r
    rw [List.cons_append]
    unfold initializeClassInfos
    split
    · split
      · simp
      · cases hc : extractClassInfo mo x.value with
        | fatal e => simp
        | outOfFuel => simp
        | ok info => exact ih _ _ r
    · split
      · cases hc : extractPropertyInfo mo x.value with
        | fatal e => simp
        | outOfFuel => simp
        | ok info =>
          dsimp only
          split
          · simp
          · split
            · simp
            · exact ih _ _ r
      · exact ih _ _ r

/-- A failure of the class-info loop makes `get` fail for an entity that is not in the
cache. -/
theorem get_fatal_classInfos (reg : MetaTypeRegistry) (n : Nat)
    {st : QOrmMetadataCachePrivate} {mo : QMetaObject}
    (hfresh : QHash.find mo.className st.m_cache = none)
    (h : ∀ r, initializeClassInfos mo mo.classInfos {} [] ≠ .ok r) :
    ∃ e, QOrmMetadataCachePrivate.get reg (n + 1) st mo = .fatal e := by
  have hi : ∃ e, QOrmMetadataCachePrivate.initialize reg ( QOrmMetadataCachePrivate.get reg n) st
      mo.className mo = .fatal e := by
    unfold QOrmMetadataCachePrivate.initialize
    cases hv : QOrmMetadataCachePrivate.validateConstructor mo with
    | fatal e => exact ⟨e, rfl⟩
    | outOfFuel => exact absurd hv (validateConstructor_fuel mo)
    | ok u =>
      dsimp only
      cases hc : initializeClassInfos mo mo.classInfos {} [] with
      | fatal e => exact ⟨e, rfl⟩
      | outOfFuel => exact absurd hc (initializeClassInfos_fuel mo _ _ _)
      | ok r => exact absurd hc (h r)
  obtain ⟨e, he⟩ := hi
  exact ⟨e, get_fatal reg n hfresh he⟩

/-! ## The indexes of a record -/

/-- Appending a mapping and inserting its position under its key keeps an index sound. -/
theorem indexSound_append {index : QHash QString Int} {key : QOrmPropertyMapping → QString}
    {ms : List QOrmPropertyMapping} (h : IndexSound index key ms) (m0 : QOrmPropertyMapping) :
    IndexSound (QHash.insert (key m0) ((↑(ms ++ [m0]).length : Int) - 1) index) key
      (ms ++ [m0]) := by
  intro n
  have hidx : ((↑(ms ++ [m0]).length : Int) - 1).toNat = ms.length := by simp
  by_cases hn : key m0 = n
  · subst hn
    rw [QHash.find_insert_self]
    constructor
    · intro hc; cases hc
    · intro i hi
      injection hi with hi
      subst hi
      rw [hidx]
      refine ⟨by simp, by simp, m0, ?_, rfl⟩
      rw [List.get?_eq_getElem?]
      simp
  · rw [QHash.find_insert_ne n (key m0) _ index hn]
    obtain ⟨h1, h2⟩ := h n
    constructor
    · intro hf m hm
      rcases List.mem_append.1 hm with hm | hm
      · exact h1 hf m hm
      · have : m = m0 := by simpa using hm
        subst this
        exact hn
    · intro i hi
      obtain ⟨h0, hlt, m, hm, hk⟩ := h2 i hi
      refine ⟨h0, by rw [List.length_append]; omega, m, ?_, hk⟩
      rw [List.get?_eq_getElem?] at hm ⊢
      rw [List.getElem?_append_left hlt]
      exact hm

theorem indexesSound_invariant : RecordInvariant IndexesSound where
  start := fun mo ci =>
    ⟨fun n => ⟨fun _ m hm => absurd hm (List.not_mem_nil m), fun i hi => (by cases hi)⟩,
      fun n => ⟨fun _ m hm => absurd hm (List.not_mem_nil m), fun i hi => (by cases hi)⟩⟩
  step := fun data c p d umd h _ _ =>
    ⟨indexSound_append h.1 (newMapping c p d umd), indexSound_append h.2 (newMapping c p d umd)⟩

/-- What a lookup through a sound index returns. -/
theorem IndexSound.lookup {index : QHash QString Int} {key : QOrmPropertyMapping → QString}
    {ms : List QOrmPropertyMapping} (h : IndexSound index key ms) (n : QString) :
    ((match QHash.find n index with
      | none => none
      | some idx => ms.get? idx.toNat) = none ↔ ∀ m ∈ ms, key m ≠ n) ∧
    ∀ m, (match QHash.find n index with
      | none => none
      | some idx => ms.get? idx.toNat) = some m → m ∈ ms ∧ key m = n := by
  obtain ⟨h1, h2⟩ := h n
  cases hf : QHash.find n index with
  | none =>
    dsimp only
    exact ⟨⟨fun _ => h1 hf, fun _ => rfl⟩, fun m hm => by cases hm⟩
  | some i =>
    dsimp only
    obtain ⟨_, _, m, hm, hk⟩ := h2 i hf
    rw [hm]
    constructor
    · constructor
      · intro hc; cases hc
      · intro hall
        exact absurd hk (hall m (List.get?_mem hm))
    · intro m' hm'
      injection hm' with hm'
      subst hm'
      exact ⟨List.get?_mem hm, hk⟩

/-! ## Consistency of the bookkeeping -/

theorem QSet.mem_insert_iff {T : Type} [DecidableEq T] (x c : T) (s : QSet T) :
    x ∈ QSet.insert c s ↔ x = c ∨ x ∈ s := by
  unfold QSet.insert
  split
  · rename_i hc
    constructor
    · exact Or.inr
    · rintro (rfl | h)
      · exact hc
      · exact h
  · simp [or_comm]

theorem QSet.mem_remove_iff {T : Type} [DecidableEq T] (x c : T) (s : QSet T) :
    x ∈ QSet.remove c s ↔ x ∈ s ∧ x ≠ c := by
  unfold QSet.remove
  simp [List.mem_filter]

theorem contains_of_find {st : QOrmMetadataCachePrivate} {T : QByteArray}
    {d : QOrmMetadataPrivate} (h : QHash.find T st.m_cache = some d) :
    QHash.contains st.m_cache T = true :=
  (QHash.contains_iff _ _).2 ⟨d, h⟩

theorem conFresh_refl (st : QOrmMetadataCachePrivate) : ConFresh st st :=
  fun _ hx => Or.inl hx

theorem conFresh_trans {a b c : QOrmMetadataCachePrivate} (hab : ConFresh a b)
    (hbc : ConFresh b c)
    (kab : ∀ T, QHash.contains a.m_cache T = true → QHash.contains b.m_cache T = true)
    (kbc : ∀ T, QHash.contains b.m_cache T = true → QHash.contains c.m_cache T = true) :
    ConFresh a c := by
  intro x hx
  rcases hbc x hx with hb | ⟨hb1, hb2⟩
  · rcases hab x hb with ha | ⟨ha1, ha2⟩
    · exact Or.inl ha
    · exact Or.inr ⟨ha1, kbc x ha2⟩
  · right
    refine ⟨?_, hb2⟩
    cases hax : QHash.contains a.m_cache x with
    | false => rfl
    | true => rw [kab x hax] at hb1; cases hb1

/-- Consistency is kept along an extension that constructs only names without a record. -/
theorem stateInv_of_ext {c : QByteArray} {st st' : QOrmMetadataCachePrivate}
    (he : Ext c st st') (hf : ConFresh st st') (h : StateInv st) : StateInv st' := by
  have hu : st'.m_underConstruction = st.m_underConstruction := he.uc h.ucCached
  refine ⟨?_, ?_, ?_⟩
  · intro x hx hcon
    rw [hu] at hx
    rcases hf x hcon with h1 | ⟨h1, _⟩
    · exact h.disjoint x hx h1
    · rw [h.ucCached x hx] at h1; cases h1
  · intro x hx
    rw [hu] at hx
    exact he.keeps x (h.ucCached x hx)
  · intro x hx
    rcases hf x hx with h1 | ⟨_, h1⟩
    · exact he.keeps x (h.conCached x h1)
    · exact h1

theorem conFresh_mappingAppended (st : QOrmMetadataCachePrivate) (c : QByteArray)
    (p : QMetaProperty) (d : MappingDescriptor) (umd : QOrmUserMetadata) :
    ConFresh st (mappingAppended st c p d umd) :=
  fun _ hx => Or.inl hx

theorem mappingDescriptor_conFresh {reg : MetaTypeRegistry} {g : Getter}
    (hk : GetterKeepsInv g) {st st1 : QOrmMetadataCachePrivate} {mo : QMetaObject}
    {p : QMetaProperty} {umd : QOrmUserMetadata} {d : MappingDescriptor}
    (h : QOrmMetadataCachePrivate.mappingDescriptor reg g st mo p umd = .ok (d, st1)) :
    ConFresh st st1 ∧ (RefsCached st → RefsCached st1) := by
  rcases mappingDescriptor_state h with h1 | ⟨refMeta, k, h1⟩
  · subst h1; exact ⟨conFresh_refl _, fun h => h⟩
  · exact hk _ _ _ _ h1

/-- The entity that a descriptor references has a record in the returned state. -/
theorem mappingDescriptor_reference {reg : MetaTypeRegistry} {g : Getter} (hg : GetterSpec g)
    {st st1 : QOrmMetadataCachePrivate} {mo : QMetaObject} {p : QMetaProperty}
    {umd : QOrmUserMetadata} {d : MappingDescriptor}
    (h : QOrmMetadataCachePrivate.mappingDescriptor reg g st mo p umd = .ok (d, st1)) :
    ∀ r, d.referencedEntity = some r → QHash.contains st1.m_cache r = true := by
  have hcr : (containerDescriptor p (baseDescriptor p umd)).referencedEntity = none := by
    unfold containerDescriptor; split <;> rfl
  intro r hr
  rcases mappingDescriptor_ok h with ⟨_, hd, _⟩ | ⟨_, _, _, _, hd, _⟩ | ⟨_, _, _, _, hd, _⟩ |
    ⟨_, _, _, refMeta, k, _, hG, hd⟩
  · subst hd; cases hr
  · subst hd; rw [hcr] at hr; cases hr
  · subst hd
    have : (containerDescriptor p (baseDescriptor p umd)).referencedEntity = some r := hr
    rw [hcr] at this; cases this
  · subst hd
    have hk : some k = some r := hr
    injection hk with hk
    subst hk
    exact (hg _ _ _ _ hG).present

theorem refsCached_mappingAppended {st : QOrmMetadataCachePrivate} (c : QByteArray)
    (p : QMetaProperty) {d : MappingDescriptor} (umd : QOrmUserMetadata)
    (hd : ∀ r, d.referencedEntity = some r → QHash.contains st.m_cache r = true)
    (h : RefsCached st) : RefsCached (mappingAppended st c p d umd) := by
  intro T v hf m hm r hr
  dsimp only [mappingAppended] at hf ⊢
  rw [QHash.contains_modify]
  by_cases hT : c = T
  · subst hT
    rw [QHash.find_modify_self] at hf
    cases hf0 : QHash.find c st.m_cache with
    | none => rw [hf0] at hf; cases hf
    | some v0 =>
      rw [hf0] at hf
      simp only [Option.map_some', Option.some.injEq] at hf
      subst hf
      unfold appendMapping at hm
      dsimp only at hm
      rcases List.mem_append.1 hm with hm | hm
      · exact h c v0 hf0 m hm r hr
      · have : m = newMapping c p d umd := by simpa using hm
        subst this
        exact hd r hr
  · rw [QHash.find_modify_ne T c _ _ hT] at hf
    exact h T v hf m hm r hr

/-- The property loop constructs only names without a record and keeps the references of
the mappings valid. -/
theorem initializeProperties_keepsInv {reg : MetaTypeRegistry} {g : Getter} (hg : GetterSpec g)
    (hk : GetterKeepsInv g) (c : QByteArray) (mo : QMetaObject)
    (pi : QHash QString QOrmUserMetadata) :
    ∀ (ps : List QMetaProperty) (st st' : QOrmMetadataCachePrivate),
      initializeProperties reg g c mo pi ps st = .ok st' →
      ConFresh st st' ∧ (RefsCached st → RefsCached st') := by
  intro ps
  induction ps with
  | nil =>
    intro st st' h
    unfold initializeProperties at h
    cases h
    exact ⟨conFresh_refl _, fun h => h⟩
  | cons p rest ih =>
    intro st st' h
    rcases initializeProperties_cons h with ⟨_, h1⟩ | ⟨_, d, st1, hm, _, _, _, _, h1⟩
    · exact ih st st' h1
    · obtain ⟨f1, r1⟩ := mappingDescriptor_conFresh hk hm
      obtain ⟨f2, r2⟩ := ih _ _ h1
      have e1 := mappingDescriptor_ext hg c hm
      have e2 := ext_appendMapping c st1 p d (QHash.value pi p.name {})
      have e3 := initializeProperties_ext hg c mo pi _ _ _ h1
      refine ⟨?_, ?_⟩
      · exact conFresh_trans
          (conFresh_trans f1 (conFresh_mappingAppended _ _ _ _ _) e1.keeps e2.keeps) f2
          (e1.trans e2).keeps e3.keeps
      · intro hr
        exact r2 (refsCached_mappingAppended c p _ (mappingDescriptor_reference hg hm) (r1 hr))

/-- The state in which the property loop of `initialize` starts is consistent. -/
theorem stateInv_placeholder {st : QOrmMetadataCachePrivate} (h : StateInv st)
    (c : QByteArray) (mo : QMetaObject) (ci : QOrmUserMetadata)
    (hc : QHash.find c st.m_cache = none) :
    StateInv (classDataSet (placeholderCached st c mo) c mo ci) := by
  obtain ⟨hk, hself⟩ := placeholderCached_keeps st c mo ci
  have hcf : QHash.contains st.m_cache c = false := (QHash.contains_eq_false _ _).2 hc
  refine ⟨?_, ?_, ?_⟩
  · intro x hx hcon
    have hx' : x ∈ QSet.insert c st.m_underConstruction := hx
    have hcon' : x ∈ st.m_constructed := hcon
    rcases (QSet.mem_insert_iff x c _).1 hx' with rfl | hx'
    · rw [h.conCached x hcon'] at hcf; cases hcf
    · exact h.disjoint x hx' hcon'
  · intro x hx
    have hx' : x ∈ QSet.insert c st.m_underConstruction := hx
    rcases (QSet.mem_insert_iff x c _).1 hx' with rfl | hx'
    · exact hself
    · exact hk x (h.ucCached x hx')
  · intro x hx
    have hx' : x ∈ st.m_constructed := hx
    exact hk x (h.conCached x hx')

theorem refsCached_placeholder {st : QOrmMetadataCachePrivate} (h : RefsCached st)
    (c : QByteArray) (mo : QMetaObject) (ci : QOrmUserMetadata)
    (hc : QHash.find c st.m_cache = none) :
    RefsCached (classDataSet (placeholderCached st c mo) c mo ci) := by
  obtain ⟨hk, _⟩ := placeholderCached_keeps st c mo ci
  obtain ⟨hne, hself⟩ := classDataSet_placeholderCached_find st c mo ci hc
  intro T d hf m hm r hr
  by_cases hT : T = c
  · subst hT
    rw [hself] at hf
    injection hf with hf
    subst hf
    cases hm
  · rw [hne T hT] at hf
    exact hk r (h T d hf m hm r hr)

/-- Moving an entity from the under-construction set to the constructed set keeps the
bookkeeping consistent. -/
theorem stateInv_markConstructed {st : QOrmMetadataCachePrivate} (h : StateInv st)
    {c : QByteArray} (hc : c ∈ st.m_underConstruction) : StateInv (markConstructed st c) := by
  refine ⟨?_, ?_, ?_⟩
  · intro x hx hcon
    have hx' : x ∈ QSet.remove c st.m_underConstruction := hx
    have hcon' : x ∈ QSet.insert c st.m_constructed := hcon
    obtain ⟨hx1, hx2⟩ := (QSet.mem_remove_iff x c _).1 hx'
    rcases (QSet.mem_insert_iff x c _).1 hcon' with hxc | hcon'
    · exact hx2 hxc
    · exact h.disjoint x hx1 hcon'
  · intro x hx
    have hx' : x ∈ QSet.remove c st.m_underConstruction := hx
    exact h.ucCached x ((QSet.mem_remove_iff x c _).1 hx').1
  · intro x hx
    have hx' : x ∈ QSet.insert c st.m_constructed := hx
    rcases (QSet.mem_insert_iff x c _).1 hx' with rfl | hx'
    · exact h.ucCached x hc
    · exact h.conCached x hx'

/-- A successful run of `initialize` for an entity without a record constructs only names
without a record, keeps the references of the mappings valid and keeps the bookkeeping
consistent. -/
theorem initialize_keepsInv {reg : MetaTypeRegistry} {g : Getter} (hg : GetterSpec g)
    (hk : GetterKeepsInv g) {st st' : QOrmMetadataCachePrivate} {c : QByteArray}
    {mo : QMetaObject} (hc : QHash.find c st.m_cache = none)
    (h : QOrmMetadataCachePrivate.initialize reg g st c mo = .ok st') :
    ConFresh st st' ∧ (RefsCached st → RefsCached st') ∧ (StateInv st → StateInv st') := by
  obtain ⟨_, ci, pi, st4, _, hp, hst', _⟩ := initialize_ok h
  obtain ⟨f, r⟩ := initializeProperties_keepsInv hg hk c mo pi _ _ _ hp
  have hext := initializeProperties_ext hg c mo pi _ _ _ hp
  obtain ⟨hk2, hself⟩ := placeholderCached_keeps st c mo ci
  have hcf : QHash.contains st.m_cache c = false := (QHash.contains_eq_false _ _).2 hc
  subst hst'
  refine ⟨?_, ?_, ?_⟩
  · intro x hx
    have hx' : x ∈ QSet.insert c st4.m_constructed := hx
    rcases (QSet.mem_insert_iff x c _).1 hx' with rfl | hx'
    · exact Or.inr ⟨hcf, hext.keeps x hself⟩
    · rcases f x hx' with h1 | ⟨h1, h2⟩
      · exact Or.inl h1
      · right
        refine ⟨?_, h2⟩
        cases hax : QHash.contains st.m_cache x with
        | false => rfl
        | true => rw [hk2 x hax] at h1; cases h1
  · intro hr
    exact r (refsCached_placeholder hr c mo ci hc)
  · intro hs
    have h2 := stateInv_placeholder hs c mo ci hc
    have h4 := stateInv_of_ext hext f h2
    apply stateInv_markConstructed h4
    rw [hext.uc h2.ucCached]
    exact (QSet.mem_insert_iff c c _).2 (Or.inl rfl)

/-- Every fuel level of `get` constructs only names without a record and keeps the
references of the mappings valid. -/
theorem get_keepsInv (reg : MetaTypeRegistry) :
    ∀ fuel, GetterKeepsInv (QOrmMetadataCachePrivate.get reg fuel) := by
  intro fuel
  induction fuel with
  | zero =>
    intro st mo k st' h
    obtain ⟨_, ⟨_, h1⟩ | ⟨_, n, hn, _⟩⟩ := get_ok h
    · subst h1; exact ⟨conFresh_refl _, fun h => h⟩
    · cases hn
  | succ n ih =>
    intro st mo k st' h
    obtain ⟨_, ⟨_, h1⟩ | ⟨hc, m, hm, hi⟩⟩ := get_ok h
    · subst h1; exact ⟨conFresh_refl _, fun h => h⟩
    · have hnm : n = m := Nat.succ.inj hm
      subst hnm
      obtain ⟨h1, h2, _⟩ := initialize_keepsInv (get_spec reg n) ih hc hi
      exact ⟨h1, h2⟩

/-- A successful call of `get` keeps the bookkeeping consistent. -/
theorem get_stateInv {reg : MetaTypeRegistry} {fuel : Nat} {st st' : QOrmMetadataCachePrivate}
    {mo : QMetaObject} {k : QByteArray}
    (h : QOrmMetadataCachePrivate.get reg fuel st mo = .ok (k, st')) (hs : StateInv st) :
    StateInv st' :=
  stateInv_of_ext ((get_spec reg fuel _ _ _ _ h).ext k) (get_keepsInv reg fuel _ _ _ _ h).1 hs

theorem reachable_wellFormed {reg : MetaTypeRegistry} {st : QOrmMetadataCachePrivate}
    (h : Reachable reg st) : StateInv st ∧ RefsCached st := by
  induction h with
  | empty =>
    exact ⟨⟨(fun x hx => nomatch hx), (fun x hx => nomatch hx), (fun x hx => nomatch hx)⟩,
      (fun T d hf => nomatch hf)⟩
  | resolve _ hget ih =>
    exact ⟨get_stateInv hget ih.1, (get_keepsInv reg _ _ _ _ _ hget).2 ih.2⟩

/-- The bookkeeping is consistent, and the references of the mappings are valid, whenever
`get` is entered. -/
theorem entered_wellFormed {reg : MetaTypeRegistry} {st : QOrmMetadataCachePrivate}
    {mo : QMetaObject} (h : Entered reg st mo) : StateInv st ∧ RefsCached st := by
  induction h with
  | top mo hr => exact reachable_wellFormed hr
  | nested _ hfresh _ _ _ hbefore _ _ _ _ _ ih =>
    obtain ⟨hs, hr⟩ := ih
    obtain ⟨f, r⟩ := initializeProperties_keepsInv (get_spec reg _) (get_keepsInv reg _)
      _ _ _ _ _ _ hbefore
    have hext := initializeProperties_ext (get_spec reg _) _ _ _ _ _ _ hbefore
    exact ⟨stateInv_of_ext hext f (stateInv_placeholder hs _ _ _ hfresh),
      r (refsCached_placeholder hr _ _ _ hfresh)⟩

/-! ## The cache lookups do not miss -/

theorem extractClassInfoLoop_lookup (data : QString) :
    ∀ (fuel : Nat) (kp : KeywordPosition) (info : QOrmUserMetadata),
      extractClassInfoLoop data fuel kp info ≠ .fatal .outOfRange := by
  intro fuel
  induction fuel with
  | zero =>
    intro kp info
    cases kp with
    | none => unfold extractClassInfoLoop; simp
    | some r => unfold extractClassInfoLoop; simp
  | succ n ih =>
    intro kp info
    cases kp with
    | none => unfold extractClassInfoLoop; simp
    | some r =>
      obtain ⟨kpos, kw⟩ := r
      unfold extractClassInfoLoop
      dsimp only
      split
      · split
        · exact ih _ _
        · simp
      · split
        · split
          · exact ih _ _
          · simp
        · exact ih _ _

theorem extractPropertyInfoLoop_lookup (data : QString) :
    ∀ (fuel : Nat) (kp : KeywordPosition) (info : QOrmUserMetadata),
      extractPropertyInfoLoop data fuel kp info ≠ .fatal .outOfRange := by
  intro fuel
  induction fuel with
  | zero =>
    intro kp info
    cases kp with
    | none => unfold extractPropertyInfoLoop; simp
    | some r => unfold extractPropertyInfoLoop; simp
  | succ n ih =>
    intro kp info
    cases kp with
    | none => unfold extractPropertyInfoLoop; simp
    | some r =>
      obtain ⟨kpos, kw⟩ := r
      unfold extractPropertyInfoLoop
      dsimp only
      split
      · split
        · exact ih _ _
        · simp
      · split
        · split
          · simp
          · exact ih _ _
        · split
          · split
            · simp
            · exact ih _ _
          · split
            · split
              · simp
              · exact ih _ _
            · exact ih _ _

theorem initializeClassInfos_lookup (mo : QMetaObject) :
    ∀ (cis : List QMetaClassInfo) (ci : QOrmUserMetadata) (pi : QHash QString QOrmUserMetadata),
      initializeClassInfos mo cis ci pi ≠ .fatal .outOfRange := by
  intro cis
  induction cis with
  | nil => intro ci pi; unfold initializeClassInfos; simp
  | cons x rest ih =>
    intro ci pi
    unfold initializeClassInfos
    split
    · split
      · simp
      · cases hc : extractClassInfo mo x.value with
        | fatal e =>
          dsimp only
          intro he
          injection he with he
          subst he
          unfold extractClassInfo at hc
          dsimp only at hc
          split at hc
          · exact extractClassInfoLoop_lookup _ _ _ _ hc
          · cases hc
        | outOfFuel => simp
        | ok r => exact ih _ _
    · split
      · cases hc : extractPropertyInfo mo x.value with
        | fatal e =>
          dsimp only
          intro he
          injection he with he
          subst he
          unfold extractPropertyInfo at hc
          split at hc
          · cases hc
          · dsimp only at hc
            split at hc
            · cases hc
            · exact extractPropertyInfoLoop_lookup _ _ _ _ hc
        | outOfFuel => simp
        | ok r =>
          dsimp only
          split
          · simp
          · split
            · simp
            · exact ih _ _
      · exact ih _ _

theorem mappingDescriptor_lookup {reg : MetaTypeRegistry} {g : Getter}
    {st : QOrmMetadataCachePrivate} {mo : QMetaObject} {p : QMetaProperty}
    {umd : QOrmUserMetadata}
    (h : QOrmMetadataCachePrivate.mappingDescriptor reg g st mo p umd = .fatal .outOfRange) :
    ∃ refMeta, g st refMeta = .fatal .outOfRange := by
  unfold QOrmMetadataCachePrivate.mappingDescriptor at h
  dsimp only at h
  split at h
  · split at h
    · cases h
    · split at h
      · cases hM : QMetaType.metaObjectForType reg (QMetaType.type reg (referencedTypeName p)) with
        | none => rw [hM] at h; cases h
        | some refMeta =>
          rw [hM] at h
          dsimp only at h
          cases hG : g st refMeta with
          | fatal e =>
            rw [hG] at h
            injection h with h
            subst h
            exact ⟨refMeta, hG⟩
          | outOfFuel => rw [hG] at h; cases h
          | ok r => rw [hG] at h; cases h
      · split at h <;> cases h
  · cases h

/-- The property loop does not miss a lookup when it starts in a consistent state that has
the record of its entity. -/
theorem initializeProperties_lookup {reg : MetaTypeRegistry} {g : Getter} (hg : GetterSpec g)
    (hk : GetterKeepsInv g) (hs : GetterSafe g) (c : QByteArray) (mo : QMetaObject)
    (pi : QHash QString QOrmUserMetadata) :
    ∀ (ps : List QMetaProperty) (st : QOrmMetadataCachePrivate),
      StateInv st → RefsCached st → QHash.contains st.m_cache c = true →
      initializeProperties reg g c mo pi ps st ≠ .fatal .outOfRange := by
  intro ps
  induction ps with
  | nil => intro st _ _ _; unfold initializeProperties; simp
  | cons p rest ih =>
    intro st hst hrc hc
    unfold initializeProperties
    split
    · exact ih st hst hrc hc
    · dsimp only
      cases hm : QOrmMetadataCachePrivate.mappingDescriptor reg g st mo p
          (QHash.value pi p.name {}) with
      | fatal e =>
        dsimp only
        intro he
        injection he with he
        subst he
        obtain ⟨refMeta, hout⟩ := mappingDescriptor_lookup hm
        exact hs st refMeta hst hrc hout
      | outOfFuel => simp
      | ok r =>
        obtain ⟨d, st1⟩ := r
        dsimp only
        have e1 := mappingDescriptor_ext hg c hm
        have e2 := ext_appendMapping c st1 p d (QHash.value pi p.name {})
        obtain ⟨f1, r1⟩ := mappingDescriptor_conFresh hk hm
        have hc1 : QHash.contains st1.m_cache c = true := e1.keeps c hc
        split
        · simp
        · split
          · simp
          · split
            · simp
            · split
              · rename_i hnone
                rw [(QHash.contains_eq_false _ _).2 hnone] at hc1
                cases hc1
              · apply ih
                · exact stateInv_of_ext e2 (conFresh_mappingAppended _ _ _ _ _)
                    (stateInv_of_ext e1 f1 hst)
                · exact refsCached_mappingAppended c p _ (mappingDescriptor_reference hg hm)
                    (r1 hrc)
                · exact e2.keeps c hc1

theorem validateMapping_lookup {st : QOrmMetadataCachePrivate} {e : QByteArray}
    {m : QOrmPropertyMapping}
    (h : ∀ r, m.referencedEntity = some r → QHash.contains st.m_cache r = true) :
    validateMapping st e m ≠ .fatal .outOfRange := by
  unfold validateMapping
  split
  · simp
  · rename_i ref href
    split
    · rename_i hnone
      have := h ref href
      rw [(QHash.contains_eq_false _ _).2 hnone] at this
      cases this
    · split
      · split <;> simp
      · split <;> simp

theorem validateMappings_lookup {st : QOrmMetadataCachePrivate} (e : QByteArray) :
    ∀ ms : List QOrmPropertyMapping,
      (∀ m ∈ ms, ∀ r, m.referencedEntity = some r → QHash.contains st.m_cache r = true) →
      validateMappings st e ms ≠ .fatal .outOfRange := by
  intro ms
  induction ms with
  | nil => intro _; unfold validateMappings; simp
  | cons m rest ih =>
    intro h
    unfold validateMappings
    cases hv : validateMapping st e m with
    | ok u => exact ih (fun x hx => h x (List.mem_cons_of_mem _ hx))
    | fatal x =>
      dsimp only
      intro hx
      injection hx with hx
      subst hx
      exact validateMapping_lookup (h m (List.mem_cons_self _ _)) hv
    | outOfFuel => simp

theorem validateCrossReferences_lookup {st : QOrmMetadataCachePrivate} (hr : RefsCached st) :
    ∀ names : List QByteArray, (∀ e ∈ names, QHash.contains st.m_cache e = true) →
      QOrmMetadataCachePrivate.validateCrossReferences st names ≠ .fatal .outOfRange := by
  intro names
  induction names with
  | nil => intro _; unfold QOrmMetadataCachePrivate.validateCrossReferences; simp
  | cons e rest ih =>
    intro h
    unfold QOrmMetadataCachePrivate.validateCrossReferences
    split
    · rename_i hnone
      have := h e (List.mem_cons_self _ _)
      rw [(QHash.contains_eq_false _ _).2 hnone] at this
      cases this
    · rename_i entity hentity
      cases hv : validateMappings st e entity.m_propertyMappings with
      | ok u => exact ih (fun x hx => h x (List.mem_cons_of_mem _ hx))
      | fatal x =>
        dsimp only
        intro hx
        injection hx with hx
        subst hx
        exact validateMappings_lookup e _ (hr e entity hentity) hv
      | outOfFuel => simp

theorem validateConstructor_lookup (mo : QMetaObject) :
    QOrmMetadataCachePrivate.validateConstructor mo ≠ .fatal .outOfRange := by
  unfold QOrmMetadataCachePrivate.validateConstructor
  dsimp only
  split
  · simp
  · split <;> simp

/-- The function `initialize` does not miss a lookup when it is entered in a consistent
state for an entity without a record. -/
theorem initialize_lookup {reg : MetaTypeRegistry} {g : Getter} (hg : GetterSpec g)
    (hk : GetterKeepsInv g) (hs : GetterSafe g) {st : QOrmMetadataCachePrivate}
    (hst : StateInv st) (hrc : RefsCached st) {c : QByteArray} (mo : QMetaObject)
    (hc : QHash.find c st.m_cache = none) :
    QOrmMetadataCachePrivate.initialize reg g st c mo ≠ .fatal .outOfRange := by
  unfold QOrmMetadataCachePrivate.initialize
  cases hv : QOrmMetadataCachePrivate.validateConstructor mo with
  | fatal e =>
    dsimp only
    intro he
    injection he with he
    subst he
    exact validateConstructor_lookup mo hv
  | outOfFuel => simp
  | ok u =>
    dsimp only
    cases hci : initializeClassInfos mo mo.classInfos {} [] with
    | fatal e =>
      dsimp only
      intro he
      injection he with he
      subst he
      exact initializeClassInfos_lookup mo _ _ _ hci
    | outOfFuel => simp
    | ok r =>
      obtain ⟨ci, pi⟩ := r
      dsimp only
      have h2 := stateInv_placeholder hst c mo ci hc
      have r2 := refsCached_placeholder hrc c mo ci hc
      obtain ⟨_, hself⟩ := placeholderCached_keeps st c mo ci
      cases hp : initializeProperties reg g c mo pi mo.properties
          (classDataSet (placeholderCached st c mo) c mo ci) with
      | fatal e =>
        dsimp only
        intro he
        injection he with he
        subst he
        exact initializeProperties_lookup hg hk hs c mo pi _ _ h2 r2 hself hp
      | outOfFuel => simp
      | ok st4 =>
        dsimp only
        obtain ⟨f, r⟩ := initializeProperties_keepsInv hg hk c mo pi _ _ _ hp
        have hext := initializeProperties_ext hg c mo pi _ _ _ hp
        have h4 := stateInv_of_ext hext f h2
        have hc4 : c ∈ st4.m_underConstruction := by
          rw [hext.uc h2.ucCached]
          exact (QSet.mem_insert_iff c c _).2 (Or.inl rfl)
        have h5 := stateInv_markConstructed h4 hc4
        have r5 : RefsCached (markConstructed st4 c) := r r2
        split
        · cases hx : QOrmMetadataCachePrivate.validateCrossReferences (markConstructed st4 c)
              (markConstructed st4 c).m_constructed with
          | fatal e =>
            dsimp only
            intro he
            injection he with he
            subst he
            exact validateCrossReferences_lookup r5 _ h5.conCached hx
          | outOfFuel => simp
          | ok u => simp
        · simp

/-- No fuel level of `get` misses a cache lookup on a consistent state. -/
theorem get_safe (reg : MetaTypeRegistry) :
    ∀ fuel, GetterSafe (QOrmMetadataCachePrivate.get reg fuel) := by
  intro fuel
  induction fuel with
  | zero =>
    intro st mo _ _
    unfold QOrmMetadataCachePrivate.get
    dsimp only
    split <;> simp
  | succ n ih =>
    intro st mo hst hrc
    unfold QOrmMetadataCachePrivate.get
    dsimp only
    split
    · simp
    · rename_i hc
      have hc' : QHash.find mo.className st.m_cache = none :=
        (QHash.contains_eq_false _ _).1 (by simpa using hc)
      cases hi : QOrmMetadataCachePrivate.initialize reg
          ( QOrmMetadataCachePrivate.get reg n) st mo.className mo with
      | fatal e =>
        dsimp only
        intro he
        injection he with he
        subst he
        exact initialize_lookup (get_spec reg n) (get_keepsInv reg n) ih hst hrc mo hc' hi
      | outOfFuel => simp
      | ok st1 =>
        dsimp only
        rw [if_pos (initialize_post (get_spec reg n) hc' hi).1]
        simp

/-! ## Rejection of cross-reference violations -/

theorem recordInvariant_placeholder {P : QOrmMetadataPrivate → Prop} (hP : RecordInvariant P)
    {st : QOrmMetadataCachePrivate} (c : QByteArray) (mo : QMetaObject) (ci : QOrmUserMetadata)
    (hc : QHash.find c st.m_cache = none) (hst : AllRecords P st) :
    AllRecords P (classDataSet (placeholderCached st c mo) c mo ci) := by
  obtain ⟨hne, hself⟩ := classDataSet_placeholderCached_find st c mo ci hc
  intro T d hf
  by_cases hT : T = c
  · subst hT
    rw [hself] at hf
    injection hf with hf
    subst hf
    exact hP.start mo ci
  · rw [hne T hT] at hf
    exact hst T d hf

/-- A record without a mapping that is marked as the identity has the identity index `-1`. -/
theorem LastIdentity.noIdentity {d : QOrmMetadataPrivate} (h : LastIdentity d)
    (hno : ∀ m ∈ d.m_propertyMappings, m.isObjectId = false) :
    d.m_objectIdPropertyMappingIdx = -1 := by
  rcases h with ⟨h1, _⟩ | ⟨_, hlt, hget⟩
  · exact h1
  · exfalso
    obtain ⟨m, hm⟩ : ∃ m, d.m_propertyMappings.get? d.m_objectIdPropertyMappingIdx.toNat
        = some m := by
      rw [List.get?_eq_getElem?]
      exact ⟨_, List.getElem?_eq_getElem hlt⟩
    rw [hm] at hget
    have hmem : m ∈ identityMappings d := List.mem_of_getLast?_eq_some hget.symm
    unfold identityMappings at hmem
    obtain ⟨h1, h2⟩ := List.mem_filter.1 hmem
    rw [hno m h1] at h2
    cases h2

/-- The check of one mapping fails on a violation of the cross-reference rules. -/
theorem validateMapping_violation {st : QOrmMetadataCachePrivate} {e r : QByteArray}
    {m : QOrmPropertyMapping} {referenced : QOrmMetadataPrivate}
    (hl : LastIdentity referenced) (hr : m.referencedEntity = some r)
    (hf : QHash.find r st.m_cache = some referenced)
    (hviol : (m.isTransient = true ∧
        ∀ back ∈ referenced.m_propertyMappings, ∀ r' target,
          back.referencedEntity = some r' → QHash.find r' st.m_cache = some target →
            target.m_className ≠ e) ∨
      (m.isTransient = false ∧ ∀ idm ∈ referenced.m_propertyMappings, idm.isObjectId = false)) :
    validateMapping st e m = .fatal .missingBackReference ∨
      validateMapping st e m = .fatal .missingObjectId := by
  unfold validateMapping
  rw [hr]
  dsimp only
  rw [hf]
  dsimp only
  rcases hviol with ⟨ht, hback⟩ | ⟨ht, hid⟩
  · left
    rw [if_pos ht]
    have hany : (referenced.m_propertyMappings.any (fun m =>
        match m.referencedEntity with
        | none => false
        | some r =>
          match QHash.find r st.m_cache with
          | none => false
          | some target => target.m_className == e)) = false := by
      rw [List.any_eq_false]
      intro back hb
      cases hbr : back.referencedEntity with
      | none => simp
      | some r' =>
        dsimp only
        cases hft : QHash.find r' st.m_cache with
        | none => simp
        | some target =>
          dsimp only
          have := hback back hb r' target hbr hft
          simpa using this
    rw [hany]
    rfl
  · right
    rw [if_neg (by rw [ht]; simp), if_pos (hl.noIdentity hid)]

theorem validateMapping_errors {st : QOrmMetadataCachePrivate} {e : QByteArray}
    {m : QOrmPropertyMapping} {x : Fatal} (h : validateMapping st e m = .fatal x) :
    x = .outOfRange ∨ x = .missingBackReference ∨ x = .missingObjectId := by
  unfold validateMapping at h
  split at h
  · cases h
  · split at h
    · injection h with h; exact Or.inl h.symm
    · split at h
      · split at h
        · cases h
        · injection h with h; exact Or.inr (Or.inl h.symm)
      · split at h
        · injection h with h; exact Or.inr (Or.inr h.symm)
        · cases h

theorem validateMappings_errors {st : QOrmMetadataCachePrivate} {e : QByteArray} :
    ∀ (ms : List QOrmPropertyMapping) {x : Fatal}, validateMappings st e ms = .fatal x →
      x = .outOfRange ∨ x = .missingBackReference ∨ x = .missingObjectId := by
  intro ms
  induction ms with
  | nil => intro x h; unfold validateMappings at h; cases h
  | cons m rest ih =>
    intro x h
    unfold validateMappings at h
    cases hv : validateMapping st e m with
    | ok u => rw [hv] at h; exact ih h
    | fatal y =>
      rw [hv] at h
      injection h with h
      subst h
      exact validateMapping_errors hv
    | outOfFuel => rw [hv] at h; cases h

theorem validateCrossReferences_errors {st : QOrmMetadataCachePrivate} :
    ∀ (names : List QByteArray) {x : Fatal},
      QOrmMetadataCachePrivate.validateCrossReferences st names = .fatal x →
      x = .outOfRange ∨ x = .missingBackReference ∨ x = .missingObjectId := by
  intro names
  induction names with
  | nil => intro x h; unfold QOrmMetadataCachePrivate.validateCrossReferences at h; cases h
  | cons e rest ih =>
    intro x h
    unfold QOrmMetadataCachePrivate.validateCrossReferences at h
    split at h
    · injection h with h; exact Or.inl h.symm
    · rename_i entity _
      cases hv : validateMappings st e entity.m_propertyMappings with
      | ok u => rw [hv] at h; exact ih h
      | fatal y =>
        rw [hv] at h
        injection h with h
        subst h
        exact validateMappings_errors _ hv
      | outOfFuel => rw [hv] at h; cases h

/-- The cross-reference validation of a consistent state with a violation stops with one of
the two relationship errors. -/
theorem validateCrossReferences_violation {st : QOrmMetadataCachePrivate}
    (hs : StateInv st) (hr : RefsCached st) (hl : AllRecords LastIdentity st)
    (hviol : CrossRefViolation st) :
    QOrmMetadataCachePrivate.validateCrossReferences st st.m_constructed
        = .fatal .missingBackReference ∨
      QOrmMetadataCachePrivate.validateCrossReferences st st.m_constructed
        = .fatal .missingObjectId := by
  obtain ⟨e, he, entity, hfe, m, hm, r, referenced, hmr, hfr, hv⟩ := hviol
  have hbad := validateMapping_violation (hl r referenced hfr) hmr hfr hv
  cases hx : QOrmMetadataCachePrivate.validateCrossReferences st st.m_constructed with
  | ok u =>
    exfalso
    obtain ⟨entity', hfe', hall⟩ := validateCrossReferences_ok hx e he
    rw [hfe] at hfe'
    injection hfe' with hfe'
    subst hfe'
    have hok := hall m hm
    rcases hbad with hbad | hbad <;> rw [hbad] at hok <;> cases hok
  | outOfFuel => exact absurd hx (validateCrossReferences_fuel _ _)
  | fatal x =>
    rcases validateCrossReferences_errors _ hx with h1 | h1 | h1
    · subst h1
      exact absurd hx (validateCrossReferences_lookup hr _ hs.conCached)
    · subst h1; exact Or.inl rfl
    · subst h1; exact Or.inr rfl

/-! ## The keyword loops as a pass over the keyword occurrences -/

theorem find_insert (info : QOrmUserMetadata) (k k' : Keyword) (v : QVariant) :
    (info.insert k v).find k' = if k = k' then some v else info.find k' := by
  cases k <;> cases k' <;> rfl

theorem getLast?_cons_eq {α : Type} (a : α) (l : List α) :
    (a :: l).getLast? = match l.getLast? with
      | some x => some x
      | none => some a := by
  cases l with
  | nil => rfl
  | cons b l => rw [List.getLast?_cons_cons]; cases h : (b :: l).getLast? with
    | some x => rfl
    | none => simp at h

/-- What `recordAll` records: every occurrence has a valid value, and the entry of a keyword
is the value of its last occurrence in the list. -/
theorem recordAll_some (kws : List KeywordDescriptor) (data : QString) :
    ∀ (occs : List (Nat × KeywordDescriptor)) (info info' : QOrmUserMetadata),
      recordAll kws data occs info = some info' →
      (∀ occ ∈ occs, recordedValue occ.2.id (valueText kws data occ.1 occ.2) ≠ none) ∧
      ∀ k, info'.find k =
        match (occs.filter (fun o => decide (o.2.id = k))).getLast? with
        | some o => recordedValue k (valueText kws data o.1 o.2)
        | none => info.find k := by
  intro occs
  induction occs with
  | nil =>
    intro info info' h
    unfold recordAll at h
    injection h with h
    subst h
    exact ⟨(fun occ hocc => nomatch hocc), (fun k => rfl)⟩
  | cons occ rest ih =>
    intro info info' h
    unfold recordAll at h
    cases hv : recordedValue occ.2.id (valueText kws data occ.1 occ.2) with
    | none => rw [hv] at h; cases h
    | some v =>
      rw [hv] at h
      dsimp only at h
      obtain ⟨h1, h2⟩ := ih _ _ h
      constructor
      · intro o ho
        rcases List.mem_cons.1 ho with rfl | ho
        · rw [hv]; simp
        · exact h1 o ho
      · intro k
        rw [h2 k]
        by_cases hk : occ.2.id = k
        · rw [List.filter_cons_of_pos (by simpa using hk), getLast?_cons_eq]
          cases hl : (rest.filter (fun o => decide (o.2.id = k))).getLast? with
          | some o => rfl
          | none =>
            dsimp only
            rw [find_insert, if_pos hk, ← hk, hv]
        · rw [List.filter_cons_of_neg (by simpa using hk)]
          cases hl : (rest.filter (fun o => decide (o.2.id = k))).getLast? with
          | some o => rfl
          | none =>
            dsimp only
            rw [find_insert, if_neg hk]

/-- The pass over the occurrences succeeds when every occurrence has a valid value. -/
theorem recordAll_of_valid (kws : List KeywordDescriptor) (data : QString) :
    ∀ (occs : List (Nat × KeywordDescriptor)) (info : QOrmUserMetadata),
      (∀ occ ∈ occs, recordedValue occ.2.id (valueText kws data occ.1 occ.2) ≠ none) →
      ∃ info', recordAll kws data occs info = some info' := by
  intro occs
  induction occs with
  | nil => intro info _; exact ⟨info, rfl⟩
  | cons occ rest ih =>
    intro info h
    unfold recordAll
    cases hv : recordedValue occ.2.id (valueText kws data occ.1 occ.2) with
    | none => exact absurd hv (h occ (List.mem_cons_self _ _))
    | some v => exact ih _ (fun o ho => h o (List.mem_cons_of_mem _ ho))

/-- The keyword loop of `extractClassInfo`, when it does not run out of fuel, returns what
the pass over its keyword occurrences records, and stops with a fatal error when the pass
meets an occurrence without a valid value. -/
theorem extractClassInfoLoop_pass (data : QString) :
    ∀ (fuel : Nat) (kp : KeywordPosition) (info : QOrmUserMetadata),
      (∀ p kw, kp = some (p, kw) → kw ∈ ClassKeywords) →
      extractClassInfoLoop data fuel kp info ≠ .outOfFuel →
      (∀ i, recordAll ClassKeywords data (keywordOccurrences ClassKeywords data fuel kp) info
          = some i → extractClassInfoLoop data fuel kp info = .ok i) ∧
      (recordAll ClassKeywords data (keywordOccurrences ClassKeywords data fuel kp) info = none →
        ∃ e, extractClassInfoLoop data fuel kp info = .fatal e) := by
  intro fuel
  induction fuel with
  | zero =>
    intro kp info _ hfuel
    cases kp with
    | none =>
      refine ⟨?_, ?_⟩
      · intro i hi
        have : some info = some i := hi
        injection this with this
        subst this
        rfl
      · intro hn; cases hn
    | some r => exact absurd rfl hfuel
  | succ n ih =>
    intro kp info hkw hfuel
    cases kp with
    | none =>
      refine ⟨?_, ?_⟩
      · intro i hi
        have : some info = some i := hi
        injection this with this
        subst this
        rfl
      · intro hn; cases hn
    | some r =>
      obtain ⟨kpos, kw⟩ := r
      have hmem := hkw kpos kw rfl
      have hnext : ∀ p kw', findNextKeyword data (kpos + kw.token.length) ClassKeywords
          = some (p, kw') → kw' ∈ ClassKeywords :=
        fun p kw' h => (findNextKeyword_some h).2.2
      have hocc : keywordOccurrences ClassKeywords data (n + 1) (some (kpos, kw))
          = (kpos, kw) :: keywordOccurrences ClassKeywords data n
            (findNextKeyword data (kpos + kw.token.length) ClassKeywords) := rfl
      have hnk : (extractString data (kpos + kw.token.length) ClassKeywords).nextKeyword
          = findNextKeyword data (kpos + kw.token.length) ClassKeywords := rfl
      rw [hocc]
      simp only [ClassKeywords, List.mem_cons, List.mem_singleton, List.not_mem_nil,
        or_false] at hmem
      rcases hmem with rfl | rfl
      · rw [extractClassInfoLoop] at hfuel ⊢
        dsimp only at hfuel ⊢
        rw [if_pos rfl] at hfuel ⊢
        unfold recordAll
        dsimp only [recordedValue, valueText]
        cases hv : (extractString data (kpos + "TABLE".toList.length) ClassKeywords).value with
        | nil =>
          rw [hv] at hfuel
          refine ⟨fun i hi => ?_, fun _ => ⟨_, rfl⟩⟩
          simp at hi
        | cons c v =>
          rw [hv] at hfuel
          simp only [List.isEmpty_cons, Bool.not_false, if_true, Bool.false_eq_true,
            if_false] at hfuel ⊢
          rw [hnk] at hfuel ⊢
          exact ih _ _ hnext hfuel
      · rw [extractClassInfoLoop] at hfuel ⊢
        dsimp only at hfuel ⊢
        rw [if_neg (by decide), if_pos rfl] at hfuel ⊢
        unfold recordAll
        dsimp only [recordedValue, valueText]
        cases hv : (extractString data (kpos + "SCHEMA".toList.length) ClassKeywords).value with
        | nil =>
          rw [hv] at hfuel
          refine ⟨fun i hi => ?_, fun _ => ⟨_, rfl⟩⟩
          simp at hi
        | cons c v =>
          rw [hv] at hfuel
          simp only [List.isEmpty_cons, Bool.not_false, if_true, Bool.false_eq_true,
            if_false] at hfuel ⊢
          rw [hnk] at hfuel ⊢
          exact ih _ _ hnext hfuel

theorem extractBoolean_some {data : QString} {pos : Nat} {kws : List KeywordDescriptor}
    {b : Bool} (h : decodeBoolean (extractString data pos kws).value = some b) :
    ∃ r, extractBoolean data pos kws = some r ∧ r.value.getD true = b ∧
      r.nextKeyword = findNextKeyword data pos kws := by
  unfold decodeBoolean at h
  unfold extractBoolean
  dsimp only
  by_cases h1 : (extractString data pos kws).value = "true".toList
  · rw [if_pos h1] at h ⊢
    injection h with h
    exact ⟨_, rfl, h, rfl⟩
  · rw [if_neg h1] at h ⊢
    by_cases h2 : (extractString data pos kws).value = "false".toList
    · rw [if_pos h2] at h ⊢
      injection h with h
      exact ⟨_, rfl, h, rfl⟩
    · rw [if_neg h2] at h ⊢
      by_cases h3 : (extractString data pos kws).value.isEmpty = true
      · rw [if_pos h3] at h ⊢
        injection h with h
        exact ⟨_, rfl, h, rfl⟩
      · rw [if_neg h3] at h
        cases h

theorem extractBoolean_none {data : QString} {pos : Nat} {kws : List KeywordDescriptor}
    (h : decodeBoolean (extractString data pos kws).value = none) :
    extractBoolean data pos kws = none := by
  unfold decodeBoolean at h
  unfold extractBoolean
  dsimp only
  by_cases h1 : (extractString data pos kws).value = "true".toList
  · rw [if_pos h1] at h; cases h
  · rw [if_neg h1] at h ⊢
    by_cases h2 : (extractString data pos kws).value = "false".toList
    · rw [if_pos h2] at h; cases h
    · rw [if_neg h2] at h ⊢
      by_cases h3 : (extractString data pos kws).value.isEmpty = true
      · rw [if_pos h3] at h; cases h
      · rw [if_neg h3]

/-- The keyword loop of `extractPropertyInfo`, when it does not run out of fuel, returns
what the pass over its keyword occurrences records, and stops with a fatal error when the
pass meets an occurrence without a valid value. -/
theorem extractPropertyInfoLoop_pass (data : QString) :
    ∀ (fuel : Nat) (kp : KeywordPosition) (info : QOrmUserMetadata),
      (∀ p kw, kp = some (p, kw) → kw ∈ PropertyKeywords) →
      extractPropertyInfoLoop data fuel kp info ≠ .outOfFuel →
      (∀ i, recordAll PropertyKeywords data
          (keywordOccurrences PropertyKeywords data fuel kp) info = some i →
        extractPropertyInfoLoop data fuel kp info = .ok i) ∧
      (recordAll PropertyKeywords data
          (keywordOccurrences PropertyKeywords data fuel kp) info = none →
        ∃ e, extractPropertyInfoLoop data fuel kp info = .fatal e) := by
  intro fuel
  induction fuel with
  | zero =>
    intro kp info _ hfuel
    cases kp with
    | none =>
      refine ⟨?_, ?_⟩
      · intro i hi
        have : some info = some i := hi
        injection this with this
        subst this
        rfl
      · intro hn; cases hn
    | some r => exact absurd rfl hfuel
  | succ n ih =>
    intro kp info hkw hfuel
    cases kp with
    | none =>
      refine ⟨?_, ?_⟩
      · intro i hi
        have : some info = some i := hi
        injection this with this
        subst this
        rfl
      · intro hn; cases hn
    | some r =>
      obtain ⟨kpos, kw⟩ := r
      have hmem := hkw kpos kw rfl
      have hnext : ∀ p kw', findNextKeyword data (kpos + kw.token.length) PropertyKeywords
          = some (p, kw') → kw' ∈ PropertyKeywords :=
        fun p kw' h => (findNextKeyword_some h).2.2
      have hocc : keywordOccurrences PropertyKeywords data (n + 1) (some (kpos, kw))
          = (kpos, kw) :: keywordOccurrences PropertyKeywords data n
            (findNextKeyword data (kpos + kw.token.length) PropertyKeywords) := rfl
      have hnk : (extractString data (kpos + kw.token.length) PropertyKeywords).nextKeyword
          = findNextKeyword data (kpos + kw.token.length) PropertyKeywords := rfl
      have hbool : ∀ (step : Res QOrmUserMetadata) (id : Keyword) (e : Fatal),
          recordedValue id (valueText PropertyKeywords data kpos kw)
            = (decodeBoolean (valueText PropertyKeywords data kpos kw)).map QVariant.bool →
          step ≠ .outOfFuel →
          step = (match extractBoolean data (kpos + kw.token.length) PropertyKeywords with
            | none => .fatal e
            | some extractResult =>
              extractPropertyInfoLoop data n extractResult.nextKeyword
                (info.insert id (.bool (extractResult.value.getD true)))) →
          (∀ i, (match recordedValue id (valueText PropertyKeywords data kpos kw) with
              | none => none
              | some v => recordAll PropertyKeywords data
                  (keywordOccurrences PropertyKeywords data n
                    (findNextKeyword data (kpos + kw.token.length) PropertyKeywords))
                  (info.insert id v)) = some i → step = .ok i) ∧
          ((match recordedValue id (valueText PropertyKeywords data kpos kw) with
              | none => none
              | some v => recordAll PropertyKeywords data
                  (keywordOccurrences PropertyKeywords data n
                    (findNextKeyword data (kpos + kw.token.length) PropertyKeywords))
                  (info.insert id v)) = none → ∃ e, step = .fatal e) := by
        intro step id e hrec hstep heq
        rw [hrec]
        cases hd : decodeBoolean (valueText PropertyKeywords data kpos kw) with
        | none =>
          rw [extractBoolean_none hd] at heq
          refine ⟨fun i hi => ?_, fun _ => ⟨e, heq⟩⟩
          simp at hi
        | some b =>
          obtain ⟨r, hr, hb, hn⟩ := extractBoolean_some hd
          rw [hr] at heq
          dsimp only at heq
          rw [hn, hb] at heq
          dsimp only [Option.map]
          rw [heq] at hstep ⊢
          exact ih _ _ hnext hstep
      rw [hocc]
      simp only [PropertyKeywords, List.mem_cons, List.mem_singleton, List.not_mem_nil,
        or_false] at hmem
      rcases hmem with rfl | rfl | rfl | rfl
      · rw [extractPropertyInfoLoop] at hfuel ⊢
        dsimp only at hfuel ⊢
        rw [if_pos rfl] at hfuel ⊢
        unfold recordAll
        dsimp only [recordedValue, valueText]
        cases hv : (extractString data (kpos + "COLUMN".toList.length) PropertyKeywords).value with
        | nil =>
          rw [hv] at hfuel
          refine ⟨fun i hi => ?_, fun _ => ⟨_, rfl⟩⟩
          simp at hi
        | cons c v =>
          rw [hv] at hfuel
          simp only [List.isEmpty_cons, Bool.not_false, if_true, Bool.false_eq_true,
            if_false] at hfuel ⊢
          rw [hnk] at hfuel ⊢
          exact ih _ _ hnext hfuel
      · rw [extractPropertyInfoLoop] at hfuel ⊢
        dsimp only at hfuel ⊢
        rw [if_neg (by decide), if_pos rfl] at hfuel ⊢
        unfold recordAll
        exact hbool _ _ _ rfl hfuel rfl
      · rw [extractPropertyInfoLoop] at hfuel ⊢
        dsimp only at hfuel ⊢
        rw [if_neg (by decide), if_neg (by decide), if_pos rfl] at hfuel ⊢
        unfold recordAll
        exact hbool _ _ _ rfl hfuel rfl
      · rw [extractPropertyInfoLoop] at hfuel ⊢
        dsimp only at hfuel ⊢
        rw [if_neg (by decide), if_neg (by decide), if_neg (by decide), if_pos rfl] at hfuel ⊢
        unfold recordAll
        exact hbool _ _ _ rfl hfuel rfl

/-! ## Keyword occurrences in the text and in the pass -/

theorem keywordAt_of_token {kws : List KeywordDescriptor}
    (hK : kws = ClassKeywords ∨ kws = PropertyKeywords) {kw : KeywordDescriptor}
    (hkw : kw ∈ kws) {l : QString} (hp : kw.token <+: l) : keywordAt kws l = some kw := by
  cases hk : keywordAt kws l with
  | none => exact absurd hp (keywordAt_none.1 hk kw hkw)
  | some kw' =>
    obtain ⟨hm, hp'⟩ := keywordAt_some hk
    rw [token_unique hK hm hkw hp' hp]

theorem token_length_pos {kws : List KeywordDescriptor} (hU : UpperTokens kws)
    {kw : KeywordDescriptor} (hkw : kw ∈ kws) : 0 < kw.token.length := by
  obtain ⟨c, r, htok, _⟩ := hU kw hkw
  rw [htok]
  simp

/-- Every keyword occurrence of the pass is an occurrence of its token in the text. -/
theorem keywordOccurrences_mem {kws : List KeywordDescriptor} (hU : UpperTokens kws)
    (data : QString) :
    ∀ (fuel kpos : Nat) (kw : KeywordDescriptor),
      keywordAt kws (data.drop kpos) = some kw →
      ∀ p a, (p, a) ∈ keywordOccurrences kws data fuel (some (kpos, kw)) →
        kpos ≤ p ∧ keywordAt kws (data.drop p) = some a := by
  intro fuel
  induction fuel with
  | zero => intro kpos kw _ p a h; cases h
  | succ n ih =>
    intro kpos kw hk p a h
    have hocc : keywordOccurrences kws data (n + 1) (some (kpos, kw))
        = (kpos, kw) :: keywordOccurrences kws data n
          (findNextKeyword data (kpos + kw.token.length) kws) := rfl
    rw [hocc] at h
    rcases List.mem_cons.1 h with h | h
    · injection h with h1 h2
      subst h1 h2
      exact ⟨le_refl _, hk⟩
    · cases hn : findNextKeyword data (kpos + kw.token.length) kws with
      | none => rw [hn] at h; cases n <;> cases h
      | some r =>
        obtain ⟨q, kw'⟩ := r
        rw [hn] at h
        obtain ⟨hq, hat, _⟩ := findNextKeyword_leftmost hU hn
        obtain ⟨h1, h2⟩ := ih q kw' hat p a h
        exact ⟨by omega, h2⟩

/-- A keyword that occurs in the text behind the start of the pass is an occurrence of the
pass, or starts inside the token of one. -/
theorem visited_or_overlapped {kws : List KeywordDescriptor} (hU : UpperTokens kws)
    (data : QString) :
    ∀ (fuel kpos : Nat) (kw : KeywordDescriptor),
      keywordAt kws (data.drop kpos) = some kw →
      ∀ i b, kpos ≤ i → keywordAt kws (data.drop i) = some b → i - kpos < fuel →
        (i, b) ∈ keywordOccurrences kws data fuel (some (kpos, kw)) ∨
        ∃ p a, (p, a) ∈ keywordOccurrences kws data fuel (some (kpos, kw)) ∧
          p < i ∧ i < p + a.token.length := by
  intro fuel
  induction fuel with
  | zero => intro kpos kw _ i b _ _ h; omega
  | succ n ih =>
    intro kpos kw hk i b hle hb hfuel
    have hocc : keywordOccurrences kws data (n + 1) (some (kpos, kw))
        = (kpos, kw) :: keywordOccurrences kws data n
          (findNextKeyword data (kpos + kw.token.length) kws) := rfl
    rw [hocc]
    have hpos := token_length_pos hU (keywordAt_some hk).1
    by_cases h1 : i = kpos
    · subst h1
      rw [hk] at hb
      injection hb with hb
      subst hb
      exact Or.inl (List.mem_cons_self _ _)
    · by_cases h2 : i < kpos + kw.token.length
      · exact Or.inr ⟨kpos, kw, List.mem_cons_self _ _, by omega, h2⟩
      · cases hn : findNextKeyword data (kpos + kw.token.length) kws with
        | none =>
          have := (findNextKeyword_none hU data _).1 hn i (by omega)
          rw [hb] at this
          cases this
        | some r =>
          obtain ⟨q, kw'⟩ := r
          obtain ⟨hq, hat, hleft⟩ := findNextKeyword_leftmost hU hn
          have hqi : q ≤ i := by
            by_contra hlt
            have := hleft i (by omega) (by omega)
            rw [hb] at this
            cases this
          rcases ih q kw' hat i b hqi hb (by omega) with h | ⟨p, a, h, hp1, hp2⟩
          · exact Or.inl (List.mem_cons_of_mem _ h)
          · exact Or.inr ⟨p, a, List.mem_cons_of_mem _ h, hp1, hp2⟩

/-- The tokens that stand at two overlapping occurrences agree where they overlap. -/
theorem overlap_of_occurrences {data a b : QString} {p i : Nat} (ha : a <+: data.drop p)
    (hb : b <+: data.drop i) (h1 : p < i) (h2 : i < p + a.length) :
    a.drop (i - p) <+: b ∨ b <+: a.drop (i - p) := by
  have hd : data.drop i = (data.drop p).drop (i - p) := by
    rw [List.drop_drop]
    congr 1
    omega
  have ha' : a.drop (i - p) <+: data.drop i := by
    obtain ⟨s, hs⟩ := ha
    rw [hd, ← hs, List.drop_append_of_le_length (by omega)]
    exact List.prefix_append _ _
  exact List.prefix_or_prefix_of_prefix ha' hb

theorem class_tokens_apart :
    ∀ a ∈ ClassKeywords, ∀ b ∈ ClassKeywords, ∀ k ∈ List.range a.token.length, 0 < k →
      ¬ (a.token.drop k <+: b.token ∨ b.token <+: a.token.drop k) := by
  decide

theorem property_tokens_apart :
    ∀ a ∈ PropertyKeywords, ∀ b ∈ PropertyKeywords, ∀ k ∈ List.range a.token.length, 0 < k →
      (a.token.drop k <+: b.token ∨ b.token <+: a.token.drop k) →
      a.id = Keyword.Transient ∧ b.id = Keyword.Transient ∧ k = 8 := by
  decide

theorem recordAll_none_of_invalid (kws : List KeywordDescriptor) (data : QString)
    {occs : List (Nat × KeywordDescriptor)} (info : QOrmUserMetadata)
    {occ : Nat × KeywordDescriptor} (hocc : occ ∈ occs)
    (h : recordedValue occ.2.id (valueText kws data occ.1 occ.2) = none) :
    recordAll kws data occs info = none := by
  cases hr : recordAll kws data occs info with
  | none => rfl
  | some info' => exact absurd h ((recordAll_some kws data occs info info' hr).1 occ hocc)

/-- The result of `extractClassInfo` on a declaration that begins with a keyword, by the
pass over its keyword occurrences. -/
theorem extractClassInfo_pass (mo : QMetaObject) (data : QString) {kw : KeywordDescriptor}
    (h0 : findNextKeyword data 0 ClassKeywords = some (0, kw)) :
    (∀ i, recordAll ClassKeywords data
        (keywordOccurrences ClassKeywords data (data.length + 1) (some (0, kw))) {} = some i →
      extractClassInfo mo data = .ok i) ∧
    (recordAll ClassKeywords data
        (keywordOccurrences ClassKeywords data (data.length + 1) (some (0, kw))) {} = none →
      ∃ e, extractClassInfo mo data = .fatal e) := by
  obtain ⟨_, hlt, hmem⟩ := findNextKeyword_some h0
  have hpass := extractClassInfoLoop_pass data (data.length + 1) (some (0, kw)) {}
    (fun p kw' h => by injection h with h; injection h with h1 h2; subst h2; exact hmem)
    (extractClassInfoLoop_fuel data (data.length + 1) 0 kw {} hmem hlt (by omega))
  unfold extractClassInfo
  dsimp only
  rw [h0]
  exact hpass

/-- A successful `extractClassInfo` returns what the pass over the keyword occurrences
records. -/
theorem extractClassInfo_recorded {mo : QMetaObject} {data : QString}
    {info : QOrmUserMetadata} (h : extractClassInfo mo data = .ok info) :
    ∃ kw, findNextKeyword data 0 ClassKeywords = some (0, kw) ∧
      recordAll ClassKeywords data
        (keywordOccurrences ClassKeywords data (data.length + 1) (some (0, kw))) {}
          = some info := by
  have h' := h
  unfold extractClassInfo at h'
  dsimp only at h'
  split at h'
  · rename_i kw h0
    refine ⟨kw, h0, ?_⟩
    obtain ⟨p1, p2⟩ := extractClassInfo_pass mo data h0
    cases hr : recordAll ClassKeywords data
        (keywordOccurrences ClassKeywords data (data.length + 1) (some (0, kw))) {} with
    | none =>
      obtain ⟨e, he⟩ := p2 hr
      rw [he] at h; cases h
    | some i =>
      have := p1 i hr
      rw [this] at h
      injection h with h
      rw [h]
  · cases h'

/-- The result of `extractPropertyInfo` on a declaration with a keyword. -/
theorem extractPropertyInfo_pass (mo : QMetaObject) (data : QString) {kpos : Nat}
    {kw : KeywordDescriptor} (h0 : findNextKeyword data 0 PropertyKeywords = some (kpos, kw)) :
    ((∃ p ∈ mo.properties, p.name = mid data 0 kpos) →
      ∀ i, recordAll PropertyKeywords data
        (keywordOccurrences PropertyKeywords data (data.length + 1) (some (kpos, kw)))
        (({} : QOrmUserMetadata).insert .Property (.string (mid data 0 kpos))) = some i →
      extractPropertyInfo mo data = .ok i) ∧
    (recordAll PropertyKeywords data
        (keywordOccurrences PropertyKeywords data (data.length + 1) (some (kpos, kw)))
        (({} : QOrmUserMetadata).insert .Property (.string (mid data 0 kpos))) = none →
      ∃ e, extractPropertyInfo mo data = .fatal e) ∧
    (∀ info, extractPropertyInfo mo data = .ok info →
      (∃ p ∈ mo.properties, p.name = mid data 0 kpos) ∧
      recordAll PropertyKeywords data
        (keywordOccurrences PropertyKeywords data (data.length + 1) (some (kpos, kw)))
        (({} : QOrmUserMetadata).insert .Property (.string (mid data 0 kpos))) = some info) := by
  obtain ⟨_, hlt, hmem⟩ := findNextKeyword_some h0
  obtain ⟨p1, p2⟩ := extractPropertyInfoLoop_pass data (data.length + 1) (some (kpos, kw))
    (({} : QOrmUserMetadata).insert .Property (.string (mid data 0 kpos)))
    (fun p kw' h => by injection h with h; injection h with h1 h2; subst h2; exact hmem)
    (extractPropertyInfoLoop_fuel data (data.length + 1) kpos kw _ hmem hlt (by omega))
  unfold extractPropertyInfo
  rw [h0]
  dsimp only
  by_cases hall : (mo.properties.all (fun p => decide (p.name ≠ mid data 0 kpos))) = true
  · rw [if_pos hall]
    refine ⟨?_, fun _ => ⟨_, rfl⟩, fun info h => by cases h⟩
    rintro ⟨p, hp, hn⟩
    exfalso
    simp only [List.all_eq_true, decide_eq_true_eq] at hall
    exact hall p hp hn
  · rw [if_neg hall]
    have hex : ∃ p ∈ mo.properties, p.name = mid data 0 kpos := by
      simp only [List.all_eq_true, decide_eq_true_eq, not_forall] at hall
      obtain ⟨p, hp, hn⟩ := hall
      exact ⟨p, hp, not_not.1 hn⟩
    refine ⟨fun _ => p1, p2, ?_⟩
    intro info h
    refine ⟨hex, ?_⟩
    cases hr : recordAll PropertyKeywords data
        (keywordOccurrences PropertyKeywords data (data.length + 1) (some (kpos, kw)))
        (({} : QOrmUserMetadata).insert .Property (.string (mid data 0 kpos))) with
    | none =>
      obtain ⟨e, he⟩ := p2 hr
      rw [he] at h; cases h
    | some i =>
      have := p1 i hr
      rw [this] at h
      injection h with h
      rw [h]

theorem occurrence_lt_length {kws : List KeywordDescriptor} (hU : UpperTokens kws)
    {kw : KeywordDescriptor} (hkw : kw ∈ kws) {data : QString} {i : Nat}
    (hp : kw.token <+: data.drop i) : i < data.length := by
  have h1 := token_length_pos hU hkw
  have h2 := hp.length_le
  rw [List.length_drop] at h2
  omega

/-- In a class-level declaration that begins with a keyword, every occurrence of a token in
the text is an occurrence of the pass. -/
theorem class_occurrence_visited {data : QString} {kw0 kw : KeywordDescriptor} {i : Nat}
    (h0 : findNextKeyword data 0 ClassKeywords = some (0, kw0)) (hkw : kw ∈ ClassKeywords)
    (hp : kw.token <+: data.drop i) :
    (i, kw) ∈ keywordOccurrences ClassKeywords data (data.length + 1) (some (0, kw0)) := by
  have hU := upperTokens_class
  obtain ⟨_, hat0, _⟩ := findNextKeyword_leftmost hU h0
  have hat := keywordAt_of_token (Or.inl rfl) hkw hp
  have hlt := occurrence_lt_length hU hkw hp
  rcases visited_or_overlapped hU data (data.length + 1) 0 kw0 hat0 i kw (Nat.zero_le _) hat
    (by omega) with h | ⟨p, a, h, hp1, hp2⟩
  · exact h
  · exfalso
    obtain ⟨_, hata⟩ := keywordOccurrences_mem hU data _ _ _ hat0 p a h
    obtain ⟨hma, hpa⟩ := keywordAt_some hata
    exact class_tokens_apart a hma kw hkw (i - p) (List.mem_range.2 (by omega)) (by omega)
      (overlap_of_occurrences hpa hp hp1 hp2)

/-- In a property-level declaration, every occurrence of a token in the text is an
occurrence of the pass, unless it is a `TRANSIENT` that starts at the last letter of an
occurrence of `TRANSIENT` of the pass. -/
theorem property_occurrence_visited {data : QString} {kpos0 : Nat}
    {kw0 kw : KeywordDescriptor} {i : Nat}
    (h0 : findNextKeyword data 0 PropertyKeywords = some (kpos0, kw0))
    (hkw : kw ∈ PropertyKeywords) (hp : kw.token <+: data.drop i) :
    (i, kw) ∈ keywordOccurrences PropertyKeywords data (data.length + 1) (some (kpos0, kw0)) ∨
    (kw.id = Keyword.Transient ∧ ∃ p a, a.id = Keyword.Transient ∧ i = p + 8 ∧
      a.token <+: data.drop p ∧ a ∈ PropertyKeywords ∧
      (p, a) ∈ keywordOccurrences PropertyKeywords data (data.length + 1)
        (some (kpos0, kw0))) := by
  have hU := upperTokens_property
  obtain ⟨_, hat0, hleft⟩ := findNextKeyword_leftmost hU h0
  have hat := keywordAt_of_token (Or.inr rfl) hkw hp
  have hlt := occurrence_lt_length hU hkw hp
  have hle : kpos0 ≤ i := by
    by_contra hc
    have := hleft i (Nat.zero_le _) (by omega)
    rw [hat] at this
    cases this
  rcases visited_or_overlapped hU data (data.length + 1) kpos0 kw0 hat0 i kw hle hat
    (by omega) with h | ⟨p, a, h, hp1, hp2⟩
  · exact Or.inl h
  · right
    obtain ⟨_, hata⟩ := keywordOccurrences_mem hU data _ _ _ hat0 p a h
    obtain ⟨hma, hpa⟩ := keywordAt_some hata
    obtain ⟨e1, e2, e3⟩ := property_tokens_apart a hma kw hkw (i - p)
      (List.mem_range.2 (by omega)) (by omega) (overlap_of_occurrences hpa hp hp1 hp2)
    exact ⟨e2, p, a, e1, by omega, hpa, hma, h⟩

/-- The text behind a keyword is empty when the string ends there or a keyword follows. -/
theorem extractString_empty {kws : List KeywordDescriptor}
    (hK : kws = ClassKeywords ∨ kws = PropertyKeywords) {data : QString} {pos : Nat}
    (h : data.drop pos = [] ∨ ∃ kw ∈ kws, kw.token <+: data.drop pos) :
    (extractString data pos kws).value = [] := by
  have hU := upperTokens_of_table hK
  rcases h with h | ⟨kw, hkw, hp⟩
  · have hn : findNextKeyword data pos kws = none := by
      unfold findNextKeyword
      rw [h]
      rfl
    rw [(extractString_none hn).2]
    unfold mid
    rw [h]
    exact List.take_nil
  · have hn : findNextKeyword data pos kws = some (pos, kw) := by
      unfold findNextKeyword
      exact findNextKeywordFrom_head hU pos (keywordAt_of_token hK hkw hp)
    rw [(extractString_some hn).2]
    unfold mid
    rw [Nat.sub_self]
    rfl

theorem recordedValue_string {k : Keyword} {t : QString} {v : QVariant}
    (hk : k = .Table ∨ k = .Schema ∨ k = .Column) (h : recordedValue k t = some v) :
    v = .string t ∧ t ≠ [] := by
  rcases hk with rfl | rfl | rfl <;>
  · unfold recordedValue at h
    dsimp only at h
    cases t with
    | nil => simp at h
    | cons c t =>
      simp only [List.isEmpty_cons, Bool.false_eq_true, if_false] at h
      injection h with h
      exact ⟨h.symm, by simp⟩

theorem recordedValue_empty {k : Keyword} (hk : k = .Table ∨ k = .Schema ∨ k = .Column) :
    recordedValue k [] = none := by
  rcases hk with rfl | rfl | rfl <;> rfl

/-- The keyword occurrences of the pass are in strictly increasing position. -/
theorem keywordOccurrences_pairwise {kws : List KeywordDescriptor} (hU : UpperTokens kws)
    (data : QString) :
    ∀ (fuel kpos : Nat) (kw : KeywordDescriptor),
      keywordAt kws (data.drop kpos) = some kw →
      List.Pairwise (fun a b : Nat × KeywordDescriptor => a.1 < b.1)
        (keywordOccurrences kws data fuel (some (kpos, kw))) := by
  intro fuel
  induction fuel with
  | zero => intro kpos kw _; exact List.Pairwise.nil
  | succ n ih =>
    intro kpos kw hk
    have hocc : keywordOccurrences kws data (n + 1) (some (kpos, kw))
        = (kpos, kw) :: keywordOccurrences kws data n
            (findNextKeyword data (kpos + kw.token.length) kws) := rfl
    rw [hocc]
    have hpos := token_length_pos hU (keywordAt_some hk).1
    cases hn : findNextKeyword data (kpos + kw.token.length) kws with
    | none =>
      have : keywordOccurrences kws data n none = [] := by cases n <;> rfl
      rw [this]
      exact List.pairwise_singleton _ _
    | some qb =>
      obtain ⟨q, b⟩ := qb
      obtain ⟨hq, hat, _⟩ := findNextKeyword_leftmost hU hn
      refine List.Pairwise.cons ?_ (ih q b hat)
      intro y hy
      obtain ⟨h1, _⟩ := keywordOccurrences_mem hU data n q b hat y.1 y.2 hy
      show kpos < y.1
      omega

theorem getLast?_of_greatest {α : Type} (f : α → Nat) :
    ∀ (l : List α) (x : α), List.Pairwise (fun a b => f a < f b) l → x ∈ l →
      (∀ y ∈ l, f y ≤ f x) → l.getLast? = some x := by
  intro l
  induction l with
  | nil => intro x _ hx; cases hx
  | cons a l ih =>
    intro x hp hx hmax
    cases l with
    | nil =>
      rcases List.mem_singleton.1 hx with rfl
      rfl
    | cons b l =>
      rw [List.getLast?_cons_cons]
      have hp' := List.pairwise_cons.1 hp
      rcases List.mem_cons.1 hx with rfl | hx'
      · exfalso
        have h1 := hp'.1 b (List.mem_cons_self _ _)
        have h2 := hmax b (List.mem_cons_of_mem _ (List.mem_cons_self _ _))
        omega
      · exact ih x hp'.2 hx' (fun y hy => hmax y (List.mem_cons_of_mem _ hy))

theorem descriptor_of_id {kws : List KeywordDescriptor}
    (hK : kws = ClassKeywords ∨ kws = PropertyKeywords) :
    ∀ a ∈ kws, ∀ b ∈ kws, a.id = b.id → a = b := by
  rcases hK with rfl | rfl <;> decide

/-- Among the keyword occurrences of the pass, the last one of a keyword is the one at the
last position where its token stands in the text. -/
theorem keywordOccurrences_last {kws : List KeywordDescriptor}
    (hK : kws = ClassKeywords ∨ kws = PropertyKeywords) (data : QString) (fuel kpos : Nat)
    (kw0 : KeywordDescriptor) (h0 : keywordAt kws (data.drop kpos) = some kw0)
    {i : Nat} {kw : KeywordDescriptor} (hkw : kw ∈ kws)
    (hv : (i, kw) ∈ keywordOccurrences kws data fuel (some (kpos, kw0)))
    (hlast : ∀ j, i < j → ¬ kw.token <+: data.drop j) :
    ((keywordOccurrences kws data fuel (some (kpos, kw0))).filter
      (fun o => decide (o.2.id = kw.id))).getLast? = some (i, kw) := by
  have hU := upperTokens_of_table hK
  apply getLast?_of_greatest (fun o : Nat × KeywordDescriptor => o.1)
  · exact List.Pairwise.filter _ (keywordOccurrences_pairwise hU data fuel kpos kw0 h0)
  · exact List.mem_filter.2 ⟨hv, by simp⟩
  · intro y hy
    obtain ⟨hy1, hy2⟩ := List.mem_filter.1 hy
    have hy2 : y.2.id = kw.id := by simpa using hy2
    obtain ⟨_, hat⟩ := keywordOccurrences_mem hU data fuel kpos kw0 h0 y.1 y.2 hy1
    obtain ⟨hm, hp⟩ := keywordAt_some hat
    have he : y.2 = kw := descriptor_of_id hK y.2 hm kw hkw hy2
    rw [he] at hp
    by_contra hc
    exact hlast y.1 (by omega) hp

/-- The entry that the pass leaves for a keyword is the value of the last occurrence of its
token in the text, when the pass goes through that occurrence. -/
theorem recordAll_last {kws : List KeywordDescriptor}
    (hK : kws = ClassKeywords ∨ kws = PropertyKeywords) (data : QString) (fuel kpos : Nat)
    (kw0 : KeywordDescriptor) (h0 : keywordAt kws (data.drop kpos) = some kw0)
    {i : Nat} {kw : KeywordDescriptor} (hkw : kw ∈ kws)
    (hv : (i, kw) ∈ keywordOccurrences kws data fuel (some (kpos, kw0)))
    (hlast : ∀ j, i < j → ¬ kw.token <+: data.drop j)
    {info info' : QOrmUserMetadata}
    (hr : recordAll kws data (keywordOccurrences kws data fuel (some (kpos, kw0))) info
      = some info') :
    info'.find kw.id = recordedValue kw.id (valueText kws data i kw) := by
  rw [(recordAll_some kws data _ info info' hr).2 kw.id,
    keywordOccurrences_last hK data fuel kpos kw0 h0 hkw hv hlast]

/-- The text behind a keyword begins with the character that stands there, when no keyword
begins at that character. -/
theorem extractString_head {kws : List KeywordDescriptor} (hU : UpperTokens kws)
    {data : QString} {pos : Nat} {c : Char} {rest : QString}
    (hd : data.drop pos = c :: rest) (hk : keywordAt kws (c :: rest) = none) :
    ∃ t, (extractString data pos kws).value = c :: t := by
  cases hn : findNextKeyword data pos kws with
  | none =>
    rw [(extractString_none hn).2]
    unfold mid
    rw [hd]
    have hl : data.length - pos = rest.length + 1 := by
      have := congrArg List.length hd
      rw [List.length_drop] at this
      simpa using this
    rw [hl]
    exact ⟨_, rfl⟩
  | some qb =>
    obtain ⟨q, b⟩ := qb
    rw [(extractString_some hn).2]
    obtain ⟨hq, hat, _⟩ := findNextKeyword_leftmost hU hn
    have hne : q ≠ pos := by
      rintro rfl
      rw [hd, hk] at hat
      cases hat
    unfold mid
    rw [hd]
    obtain ⟨m, hm⟩ : ∃ m, q - pos = m + 1 := ⟨q - pos - 1, by omega⟩
    rw [hm]
    exact ⟨_, rfl⟩

theorem decodeBoolean_head {c : Char} {t : QString} (h1 : c ≠ 't') (h2 : c ≠ 'f') :
    decodeBoolean (c :: t) = none := by
  unfold decodeBoolean
  have e1 : c :: t ≠ "true".toList := by
    intro h
    injection h with h _
    exact h1 h
  have e2 : c :: t ≠ "false".toList := by
    intro h
    injection h with h _
    exact h2 h
  rw [if_neg e1, if_neg e2]
  rfl

theorem decodeBoolean_eq (v : QString) :
    (v = [] ∨ v = "true".toList → decodeBoolean v = some true) ∧
    (v = "false".toList → decodeBoolean v = some false) ∧
    (v ≠ [] → v ≠ "true".toList → v ≠ "false".toList → decodeBoolean v = none) := by
  refine ⟨?_, ?_, ?_⟩
  · rintro (rfl | rfl) <;> rfl
  · rintro rfl; rfl
  · intro h1 h2 h3
    unfold decodeBoolean
    rw [if_neg h2, if_neg h3]
    cases v with
    | nil => exact absurd rfl h1
    | cons c t => rfl

theorem recordedValue_boolean {k : Keyword}
    (hk : k = .Identity ∨ k = .Transient ∨ k = .Autogenerated) (v : QString) :
    recordedValue k v = (decodeBoolean v).map QVariant.bool := by
  rcases hk with rfl | rfl | rfl <;> rfl

theorem keywordAt_property_R (rest : QString) :
    keywordAt PropertyKeywords ('R' :: rest) = none := by
  rw [keywordAt_none]
  intro it hit hpre
  obtain ⟨s, hs⟩ := hpre
  simp only [PropertyKeywords, List.mem_cons, List.mem_singleton, List.not_mem_nil,
    or_false] at hit
  rcases hit with rfl | rfl | rfl | rfl <;>
  · injection hs with h1 _
    exact absurd h1 (by decide)

/-- An occurrence of `TRANSIENT` whose last letter begins another `TRANSIENT` has no valid
value: the text behind it begins with the letter `R`. -/
theorem transient_overlap_invalid {d : QString} {p : Nat} {a kw : KeywordDescriptor}
    (ha : a ∈ PropertyKeywords) (hat : a.id = Keyword.Transient)
    (hkw : kw ∈ PropertyKeywords) (hkt : kw.id = Keyword.Transient)
    (hp : kw.token <+: d.drop (p + 8)) :
    recordedValue a.id (valueText PropertyKeywords d p a) = none := by
  have hT : (⟨.Transient, "TRANSIENT".toList⟩ : KeywordDescriptor) ∈ PropertyKeywords := by
    decide
  have ea : a = ⟨.Transient, "TRANSIENT".toList⟩ :=
    descriptor_of_id (Or.inr rfl) a ha _ hT hat
  have ek : kw = ⟨.Transient, "TRANSIENT".toList⟩ :=
    descriptor_of_id (Or.inr rfl) kw hkw _ hT hkt
  subst ea
  subst ek
  obtain ⟨s, hs⟩ := hp
  have hd : d.drop (p + 9) = 'R' :: ("ANSIENT".toList ++ s) := by
    have : d.drop (p + 9) = (d.drop (p + 8)).drop 1 := by
      rw [List.drop_drop]
    rw [this, ← hs]
    rfl
  obtain ⟨t, ht⟩ := extractString_head upperTokens_property hd (keywordAt_property_R _)
  show recordedValue Keyword.Transient
    (extractString d (p + 9) PropertyKeywords).value = none
  rw [ht, recordedValue_boolean (Or.inr (Or.inl rfl)),
    decodeBoolean_head (by decide) (by decide)]
  rfl

theorem recordedValue_of_nonempty {k : Keyword} {v : QString}
    (hk : k = .Table ∨ k = .Schema ∨ k = .Column) (hv : v ≠ []) :
    recordedValue k v = some (.string v) := by
  cases v with
  | nil => exact absurd rfl hv
  | cons c t => rcases hk with rfl | rfl | rfl <;> rfl

theorem class_ids {kw : KeywordDescriptor} (hkw : kw ∈ ClassKeywords) :
    kw.id = .Table ∨ kw.id = .Schema ∨ kw.id = .Column := by
  simp only [ClassKeywords, List.mem_cons, List.mem_singleton, List.not_mem_nil,
    or_false] at hkw
  rcases hkw with rfl | rfl
  · exact Or.inl rfl
  · exact Or.inr (Or.inl rfl)

theorem property_ids {kw : KeywordDescriptor} (hkw : kw ∈ PropertyKeywords) :
    kw.id = .Column ∨
      (kw.id ≠ .Column ∧
        (kw.id = .Identity ∨ kw.id = .Transient ∨ kw.id = .Autogenerated)) := by
  simp only [PropertyKeywords, List.mem_cons, List.mem_singleton, List.not_mem_nil,
    or_false] at hkw
  rcases hkw with rfl | rfl | rfl | rfl
  · exact Or.inl rfl
  · exact Or.inr ⟨by decide, Or.inl rfl⟩
  · exact Or.inr ⟨by decide, Or.inr (Or.inl rfl)⟩
  · exact Or.inr ⟨by decide, Or.inr (Or.inr rfl)⟩

/-- The value recorded for a property-level keyword whose text is valid. -/
theorem recordedValue_property {kw : KeywordDescriptor} (hkw : kw ∈ PropertyKeywords)
    {v : QString}
    (hv : (kw.id = Keyword.Column → v ≠ []) ∧
      (kw.id ≠ Keyword.Column → v = [] ∨ v = "true".toList ∨ v = "false".toList)) :
    recordedValue kw.id v ≠ none ∧
    (kw.id = Keyword.Column → recordedValue kw.id v = some (.string v)) ∧
    (kw.id ≠ Keyword.Column →
      (v = [] ∨ v = "true".toList → recordedValue kw.id v = some (.bool true)) ∧
      (v = "false".toList → recordedValue kw.id v = some (.bool false))) := by
  rcases property_ids hkw with hc | ⟨hn, hb⟩
  · have := recordedValue_of_nonempty (Or.inr (Or.inr hc)) (hv.1 hc)
    refine ⟨by rw [this]; simp, fun _ => this, fun h => absurd hc h⟩
  · have e := recordedValue_boolean hb v
    refine ⟨?_, fun h => absurd h hn, fun _ => ⟨fun h => ?_, fun h => ?_⟩⟩
    · rw [e]
      rcases hv.2 hn with h | h | h
      · rw [(decodeBoolean_eq v).1 (Or.inl h)]; simp
      · rw [(decodeBoolean_eq v).1 (Or.inr h)]; simp
      · rw [(decodeBoolean_eq v).2.1 h]; simp
    · rw [e, (decodeBoolean_eq v).1 h]; rfl
    · rw [e, (decodeBoolean_eq v).2.1 h]; rfl

/-! ## Every cached record belongs to a constructed entity -/

theorem keysCovered_mappingAppended {st : QOrmMetadataCachePrivate} (c : QByteArray)
    (p : QMetaProperty) (d : MappingDescriptor) (umd : QOrmUserMetadata)
    (h : KeysCovered st) : KeysCovered (mappingAppended st c p d umd) := by
  intro T hT
  dsimp only [mappingAppended] at hT ⊢
  rw [QHash.contains_modify] at hT
  exact h T hT

theorem mappingDescriptor_covers {reg : MetaTypeRegistry} {g : Getter} (hc : GetterCovers g)
    {st st1 : QOrmMetadataCachePrivate} {mo : QMetaObject} {p : QMetaProperty}
    {umd : QOrmUserMetadata} {d : MappingDescriptor}
    (h : QOrmMetadataCachePrivate.mappingDescriptor reg g st mo p umd = .ok (d, st1))
    (hs : StateInv st) (hk : KeysCovered st) : KeysCovered st1 := by
  rcases mappingDescriptor_state h with h1 | ⟨refMeta, k, h1⟩
  · subst h1; exact hk
  · exact hc _ _ _ _ h1 hs hk

theorem initializeProperties_covers {reg : MetaTypeRegistry} {g : Getter} (hg : GetterSpec g)
    (hi : GetterKeepsInv g) (hc : GetterCovers g) (c : QByteArray) (mo : QMetaObject)
    (pi : QHash QString QOrmUserMetadata) :
    ∀ (ps : List QMetaProperty) (st st' : QOrmMetadataCachePrivate),
      initializeProperties reg g c mo pi ps st = .ok st' →
      StateInv st → KeysCovered st → KeysCovered st' := by
  intro ps
  induction ps with
  | nil =>
    intro st st' h _ hk
    unfold initializeProperties at h
    cases h
    exact hk
  | cons p rest ih =>
    intro st st' h hs hk
    rcases initializeProperties_cons h with ⟨_, h1⟩ | ⟨_, d, st1, hm, _, _, _, _, h1⟩
    · exact ih st st' h1 hs hk
    · have hs1 : StateInv st1 :=
        stateInv_of_ext (mappingDescriptor_ext hg c hm) (mappingDescriptor_conFresh hi hm).1 hs
      have hs2 : StateInv (mappingAppended st1 c p d (QHash.value pi p.name {})) :=
        stateInv_of_ext (ext_appendMapping c st1 p d _) (conFresh_mappingAppended _ _ _ _ _) hs1
      exact ih _ _ h1 hs2
        (keysCovered_mappingAppended c p d _ (mappingDescriptor_covers hc hm hs hk))

theorem keysCovered_placeholder {st : QOrmMetadataCachePrivate} (h : KeysCovered st)
    (c : QByteArray) (mo : QMetaObject) (ci : QOrmUserMetadata)
    (hc : QHash.find c st.m_cache = none) :
    KeysCovered (classDataSet (placeholderCached st c mo) c mo ci) := by
  obtain ⟨hne, _⟩ := classDataSet_placeholderCached_find st c mo ci hc
  intro T hT
  show T ∈ QSet.insert c st.m_underConstruction ∨ T ∈ st.m_constructed
  by_cases hTc : T = c
  · exact Or.inl ((QSet.mem_insert_iff T c _).2 (Or.inl hTc))
  · obtain ⟨v, hv⟩ := (QHash.contains_iff _ _).1 hT
    rw [hne T hTc] at hv
    rcases h T ((QHash.contains_iff _ _).2 ⟨v, hv⟩) with h1 | h1
    · exact Or.inl ((QSet.mem_insert_iff T c _).2 (Or.inr h1))
    · exact Or.inr h1

theorem keysCovered_markConstructed {st : QOrmMetadataCachePrivate} (h : KeysCovered st)
    (c : QByteArray) : KeysCovered (markConstructed st c) := by
  intro T hT
  show T ∈ QSet.remove c st.m_underConstruction ∨ T ∈ QSet.insert c st.m_constructed
  have hT' : QHash.contains st.m_cache T = true := hT
  by_cases hTc : T = c
  · exact Or.inr ((QSet.mem_insert_iff T c _).2 (Or.inl hTc))
  · rcases h T hT' with h1 | h1
    · exact Or.inl ((QSet.mem_remove_iff T c _).2 ⟨h1, hTc⟩)
    · exact Or.inr ((QSet.mem_insert_iff T c _).2 (Or.inr h1))

theorem initialize_covers {reg : MetaTypeRegistry} {g : Getter} (hg : GetterSpec g)
    (hi : GetterKeepsInv g) (hcv : GetterCovers g) {st st' : QOrmMetadataCachePrivate}
    {c : QByteArray} {mo : QMetaObject} (hc : QHash.find c st.m_cache = none)
    (h : QOrmMetadataCachePrivate.initialize reg g st c mo = .ok st')
    (hs : StateInv st) (hk : KeysCovered st) : KeysCovered st' := by
  obtain ⟨_, ci, pi, st4, _, hp, hst', _⟩ := initialize_ok h
  subst hst'
  exact keysCovered_markConstructed
    (initializeProperties_covers hg hi hcv c mo pi _ _ _ hp
      (stateInv_placeholder hs c mo ci hc) (keysCovered_placeholder hk c mo ci hc)) c

theorem get_covers (reg : MetaTypeRegistry) :
    ∀ fuel, GetterCovers (QOrmMetadataCachePrivate.get reg fuel) := by
  intro fuel
  induction fuel with
  | zero =>
    intro st mo k st' h _ hk
    obtain ⟨_, ⟨_, h1⟩ | ⟨_, n, hn, _⟩⟩ := get_ok h
    · subst h1; exact hk
    · cases hn
  | succ n ih =>
    intro st mo k st' h hs hk
    obtain ⟨_, ⟨_, h1⟩ | ⟨hc, m, hm, hi⟩⟩ := get_ok h
    · subst h1; exact hk
    · have hnm : n = m := Nat.succ.inj hm
      subst hnm
      exact initialize_covers (get_spec reg n) (get_keepsInv reg n) ih hc hi hs hk

/-- On a cache reached from the empty cache by top-level calls, every record of the cache
belongs to a constructed entity. -/
theorem reachable_constructed {reg : MetaTypeRegistry} {st : QOrmMetadataCachePrivate}
    (h : Reachable reg st) :
    ∀ T, QHash.contains st.m_cache T = true → T ∈ st.m_constructed := by
  have hk : KeysCovered st := by
    induction h with
    | empty => intro T hT; cases hT
    | resolve hr hget ih =>
      exact get_covers reg _ _ _ _ _ hget (reachable_wellFormed hr).1 ih
  intro T hT
  rcases hk T hT with h1 | h1
  · rw [(reachable_inv h).1] at h1
    cases h1
  · exact h1

/-- The transient flag of a descriptor that `mappingDescriptor` returns: for a property that
is not of a user type it is the declared or default one, for a property of a user type it
tells whether the type name ends with `*>`. -/
theorem mappingDescriptor_transient {reg : MetaTypeRegistry} {g : Getter}
    {st st1 : QOrmMetadataCachePrivate} {mo : QMetaObject} {p : QMetaProperty}
    {umd : QOrmUserMetadata} {d : MappingDescriptor}
    (h : QOrmMetadataCachePrivate.mappingDescriptor reg g st mo p umd = .ok (d, st1)) :
    (p.type ≠ QVariantType.UserType → d.isTransient = (baseDescriptor p umd).isTransient) ∧
    (p.type = QVariantType.UserType → d.isTransient = endsWithPointerBracket p) := by
  rcases mappingDescriptor_ok h with ⟨hT, hd, _⟩ | ⟨hT, _, _, _, hd, _⟩ |
    ⟨hT, _, _, _, hd, _⟩ | ⟨hT, _, _, refMeta, k, _, _, hd⟩
  · subst hd; exact ⟨fun _ => rfl, fun hT' => absurd hT' hT⟩
  · subst hd
    exact ⟨fun hT' => absurd hT hT', fun _ => (containerDescriptor_flags _ _).1⟩
  · subst hd
    exact ⟨fun hT' => absurd hT hT', fun _ => (containerDescriptor_flags _ _).1⟩
  · subst hd
    refine ⟨fun hT' => absurd hT hT', fun _ => ?_⟩
    exact (withIdSuffix_flags _ _).1.trans (containerDescriptor_flags _ _).1

/-- A descriptor that `mappingDescriptor` returns for a property declared with IDENTITY and
TRANSIENT is transient and the identity, unless the property is of a user type whose name
does not end with `*>`. -/
theorem mappingDescriptor_both {reg : MetaTypeRegistry} {g : Getter}
    {st st1 : QOrmMetadataCachePrivate} {mo : QMetaObject} {p : QMetaProperty}
    {umd : QOrmUserMetadata} {d : MappingDescriptor}
    (h : QOrmMetadataCachePrivate.mappingDescriptor reg g st mo p umd = .ok (d, st1))
    (hT : p.type ≠ QVariantType.UserType ∨ endsWithPointerBracket p = true)
    (hI : umd.find .Identity = some (.bool true))
    (hTr : umd.find .Transient = some (.bool true)) :
    d.isTransient = true ∧ d.isObjectId = true := by
  obtain ⟨t1, t2⟩ := mappingDescriptor_transient h
  obtain ⟨_, f2, _⟩ := mappingDescriptor_flags h
  refine ⟨?_, ?_⟩
  · by_cases hU : p.type = QVariantType.UserType
    · rcases hT with hT | hT
      · exact absurd hU hT
      · rw [t2 hU]; exact hT
    · rw [t1 hU, baseDescriptor_isTransient, (value_of_find_some hTr).1,
        (value_of_find_some hTr).2]
      rfl
  · rw [f2, baseDescriptor_isObjectId, (value_of_find_some hI).1, (value_of_find_some hI).2]
    rfl

theorem MappingFor.rejected {reg : MetaTypeRegistry} {c : QByteArray} {mo : QMetaObject}
    {pi : QHash QString QOrmUserMetadata} {st' : QOrmMetadataCachePrivate}
    {p : QMetaProperty} {m : QOrmPropertyMapping} (h : MappingFor reg c mo pi st' p m)
    (hT : p.type ≠ QVariantType.UserType ∨ endsWithPointerBracket p = true)
    (hI : (QHash.value pi p.name {}).find .Identity = some (.bool true))
    (hTr : (QHash.value pi p.name {}).find .Transient = some (.bool true)) : False := by
  obtain ⟨g, st, st1, d, _, hm, _, h2, _⟩ := h
  exact h2 (mappingDescriptor_both hm hT hI hTr)

/-! ## Claims -/

/-- C1 (idempotence of resolve).  For every cache state (in particular every state reached
from the empty cache) and every entity type `mo`: if `get` returns the record with key `k`
in the state `st'`, then a second call on `st'`, whatever its fuel, returns the same key and
the same state: the cache with the contents of every record, the under-construction set and
the constructed set are unchanged, and the key denotes a record of the cache. -/
theorem resolve_idempotent (reg : MetaTypeRegistry) {fuel : Nat}
    {st st' : QOrmMetadataCachePrivate} {mo : QMetaObject} {k : QByteArray}
    (h : QOrmMetadataCachePrivate.get reg fuel st mo = .ok (k, st')) (fuel' : Nat) :
    QOrmMetadataCachePrivate.get reg fuel' st' mo = .ok (k, st') ∧
      ∃ d, QHash.find k st'.m_cache = some d := by
  have hp := get_spec reg fuel st mo k st' h
  have hk := hp.key
  subst hk
  exact ⟨get_hit reg fuel' st' mo hp.present, (QHash.contains_iff _ _).1 hp.present⟩

theorem resolve_idempotent_witness :
    QOrmMetadataCachePrivate.get sampleRegistry 2 {} sampleA = .ok ("A".toList, sampleCache) ∧
    QOrmMetadataCachePrivate.get sampleRegistry 0 sampleCache sampleA
      = .ok ("A".toList, sampleCache) ∧
    ∃ d, QHash.find "A".toList sampleCache.m_cache = some d :=
  ⟨rfl, resolve_idempotent sampleRegistry
    (show QOrmMetadataCachePrivate.get sampleRegistry 2 {} sampleA
      = .ok ("A".toList, sampleCache) from rfl) 0⟩

/-- C4 (no unvalidated record is returned).  On a cache reached from the empty cache by
top-level calls, whenever a top-level `get` returns successfully: the under-construction set
of the returned state is empty; the returned key is in the constructed set, and so is the
key of every other record of the cache, so that the record handed out (and every record a
later call can hand out) is one of a fully constructed entity; and every reference mapping
of every fully constructed entity satisfies the cross-reference rules of `CrossRefsOk`. -/
theorem resolve_validated (reg : MetaTypeRegistry) {fuel : Nat}
    {st st' : QOrmMetadataCachePrivate} {mo : QMetaObject} {k : QByteArray}
    (hr : Reachable reg st)
    (h : QOrmMetadataCachePrivate.get reg fuel st mo = .ok (k, st')) :
    st'.m_underConstruction = [] ∧
    k ∈ st'.m_constructed ∧
    (∀ T, QHash.contains st'.m_cache T = true → T ∈ st'.m_constructed) ∧
    CrossRefsOk st' := by
  have hr' := Reachable.resolve hr h
  obtain ⟨hu, hinv, hv⟩ := reachable_inv hr'
  exact ⟨hu, reachable_constructed hr' k (get_spec reg fuel st mo k st' h).present,
    reachable_constructed hr', crossRefsOk_of_validate hinv hv⟩

theorem resolve_validated_witness :
    Reachable sampleRegistry {} ∧
    QOrmMetadataCachePrivate.get sampleRegistry 2 {} sampleA = .ok ("A".toList, sampleCache) ∧
    sampleCache.m_underConstruction = [] ∧
    "A".toList ∈ sampleCache.m_constructed ∧
    (∀ T, QHash.contains sampleCache.m_cache T = true → T ∈ sampleCache.m_constructed) ∧
    CrossRefsOk sampleCache :=
  ⟨Reachable.empty, rfl, resolve_validated sampleRegistry Reachable.empty
    (show QOrmMetadataCachePrivate.get sampleRegistry 2 {} sampleA
      = .ok ("A".toList, sampleCache) from rfl)⟩

/-- C5 (immutability after construction).  For every cache state and entity types `T` and
`U`, with `T` in the constructed set and `d` the record of `T`: after a successful `get` of
`U` the record of `T` is still `d` (class name, table name, ordered property mappings, the
two indices and the identity index are the same), and `T` is still in the constructed set. -/
theorem resolve_frame (reg : MetaTypeRegistry) {fuel : Nat}
    {st st' : QOrmMetadataCachePrivate} {T : QByteArray} {d : QOrmMetadataPrivate}
    {U : QMetaObject} {k : QByteArray}
    (hT : T ∈ st.m_constructed) (hd : QHash.find T st.m_cache = some d)
    (h : QOrmMetadataCachePrivate.get reg fuel st U = .ok (k, st')) :
    QHash.find T st'.m_cache = some d ∧ T ∈ st'.m_constructed :=
  ⟨(get_spec reg fuel st U k st' h).frame T d hd, (get_spec reg fuel st U k st' h).con T hT⟩

theorem resolve_frame_witness :
    "B".toList ∈ sampleCache.m_constructed ∧
    QHash.find "B".toList sampleCache.m_cache = some sampleRecordB ∧
    QOrmMetadataCachePrivate.get sampleRegistry 2 sampleCache Town
      = .ok ("Town".toList,
          resultState (QOrmMetadataCachePrivate.get sampleRegistry 2 sampleCache Town)) ∧
    QHash.find "B".toList
        (resultState (QOrmMetadataCachePrivate.get sampleRegistry 2 sampleCache Town)).m_cache
      = some sampleRecordB ∧
    "B".toList ∈
      (resultState (QOrmMetadataCachePrivate.get sampleRegistry 2 sampleCache Town)).m_constructed :=
  ⟨by decide, rfl, rfl,
    resolve_frame sampleRegistry (by decide)
      (show QHash.find "B".toList sampleCache.m_cache = some sampleRecordB from rfl)
      (show QOrmMetadataCachePrivate.get sampleRegistry 2 sampleCache Town
        = .ok ("Town".toList,
            resultState (QOrmMetadataCachePrivate.get sampleRegistry 2 sampleCache Town))
        from rfl)⟩

/-- C3 (termination).  For every finite registry of entity descriptions, every cache state
and every entity type, `get` is total: with one unit of fuel more than there are registered
types it never runs out of fuel, and every larger amount of fuel gives the same result.  The
declaration parsers never run out of fuel on any string, because each keyword found by their
loops lies strictly after the previous one and inside the string; and the property loop of
`initialize` starts in a state where the record of the entity is already cached, so that
construction is entered at most once per entity type. -/
theorem resolve_total (reg : MetaTypeRegistry) (st : QOrmMetadataCachePrivate)
    (mo : QMetaObject) (fuel : Nat) (hf : reg.length + 1 ≤ fuel) :
    QOrmMetadataCachePrivate.get reg fuel st mo ≠ .outOfFuel ∧
    QOrmMetadataCachePrivate.get reg fuel st mo =
      QOrmMetadataCachePrivate.get reg (reg.length + 1) st mo ∧
    (∀ (mo' : QMetaObject) (data : QString),
      extractClassInfo mo' data ≠ .outOfFuel ∧ extractPropertyInfo mo' data ≠ .outOfFuel) ∧
    (∀ (data : QString) (K : List KeywordDescriptor) (kpos : Nat) (kw : KeywordDescriptor)
        (p : Nat) (kw' : KeywordDescriptor), 0 < kw.token.length →
      (extractString data (kpos + kw.token.length) K).nextKeyword = some (p, kw') →
      kpos < p ∧ p < data.length) ∧
    (∀ (c : QByteArray) (ci : QOrmUserMetadata),
      QHash.contains (classDataSet (placeholderCached st c mo) c mo ci).m_cache c = true) := by
  have h0 : QOrmMetadataCachePrivate.get reg (reg.length + 1) st mo ≠ .outOfFuel :=
    get_toplevel_total reg _ st mo (by have := pending_le_length reg st; omega)
  have h1 := get_fuel_mono reg st mo _ h0 fuel hf
  refine ⟨by rw [h1]; exact h0, h1, ?_, ?_, ?_⟩
  · exact fun mo' data => ⟨extractClassInfo_fuel mo' data, extractPropertyInfo_fuel mo' data⟩
  · intro data K kpos kw p kw' hlen hnext
    have hn : findNextKeyword data (kpos + kw.token.length) K = some (p, kw') := hnext
    obtain ⟨h2, h3, _⟩ := findNextKeyword_some hn
    exact ⟨by omega, h3⟩
  · exact fun c ci => (placeholderCached_keeps st c mo ci).2

theorem resolve_total_witness :
    sampleRegistry.length + 1 ≤ 7 ∧
    QOrmMetadataCachePrivate.get sampleRegistry 7 {} sampleA ≠ .outOfFuel ∧
    QOrmMetadataCachePrivate.get sampleRegistry 7 {} sampleA =
      QOrmMetadataCachePrivate.get sampleRegistry (sampleRegistry.length + 1) {} sampleA :=
  ⟨by decide, (resolve_total sampleRegistry {} sampleA 7 (by decide)).1,
    (resolve_total sampleRegistry {} sampleA 7 (by decide)).2.1⟩

/-- C6 (identity inference).  Whenever `get` constructs an entity, its record holds one
mapping per own property, in order, and the mapping of a property literally named `id` that
has no property-level declaration has `isObjectId = true` and `isAutogenerated = true`. -/
theorem identity_inferred (reg : MetaTypeRegistry) {fuel : Nat}
    {st st' : QOrmMetadataCachePrivate} {mo : QMetaObject} {k : QByteArray}
    {ci : QOrmUserMetadata} {pi : QHash QString QOrmUserMetadata}
    (h : QOrmMetadataCachePrivate.get reg fuel st mo = .ok (k, st'))
    (hfresh : QHash.find mo.className st.m_cache = none)
    (hci : initializeClassInfos mo mo.classInfos {} [] = .ok (ci, pi)) :
    ∃ data, QHash.find k st'.m_cache = some data ∧
      List.Forall₂
        (fun p m => m.qMetaProperty = p ∧ m.classPropertyName = p.name ∧
          (p.name = "id".toList → QHash.find p.name pi = none →
            m.isObjectId = true ∧ m.isAutogenerated = true))
        (ownProperties mo) data.m_propertyMappings := by
  obtain ⟨ci', pi', data, hci', hf, _, _, _, _, hall⟩ := get_record h hfresh
  rw [hci] at hci'
  injection hci' with hci'
  injection hci' with e1 e2
  subst e1 e2
  refine ⟨data, hf, hall.imp ?_⟩
  intro p m hm
  obtain ⟨f1, f2, f3, f4, _⟩ := hm.flags
  refine ⟨f1, f2, ?_⟩
  intro hn hno
  rw [f3, f4, value_of_find_none pi p.name hno, baseDescriptor_isObjectId,
    baseDescriptor_isAutogenerated, hn]
  exact ⟨rfl, rfl⟩

theorem identity_inferred_witness :
    ∃ data,
      QHash.find "Province".toList
        (resultState (QOrmMetadataCachePrivate.get sampleRegistry 1 {} Province)).m_cache
          = some data ∧
      List.Forall₂
        (fun p m => m.qMetaProperty = p ∧ m.classPropertyName = p.name ∧
          (p.name = "id".toList → QHash.find p.name ([] : QHash QString QOrmUserMetadata) = none →
            m.isObjectId = true ∧ m.isAutogenerated = true))
        (ownProperties Province) data.m_propertyMappings :=
  identity_inferred sampleRegistry
    (show QOrmMetadataCachePrivate.get sampleRegistry 1 {} Province
      = .ok ("Province".toList,
          resultState (QOrmMetadataCachePrivate.get sampleRegistry 1 {} Province)) from rfl)
    rfl
    (show initializeClassInfos Province Province.classInfos {} [] = .ok ({}, []) from rfl)

/-- C7, as stated, fails: resolving `Tag`, whose property `id` carries the declaration
`IDENTITY false`, does not yield a mapping but stops with the fatal error
"cannot be marked AUTOGENERATED without IDENTITY". -/
theorem identity_override_counterexample :
    initializeClassInfos Tag Tag.classInfos {} []
      = .ok ({}, [("id".toList,
          { identity := some (.bool false), property := some (.string "id".toList) })]) ∧
    QOrmMetadataCachePrivate.get sampleRegistry 7 {} Tag
      = .fatal .autogeneratedWithoutIdentity := by
  decide

/-- C7 (identity override), amended.  Whenever `get` constructs an entity, the mapping of a
property whose property-level declaration sets `IDENTITY false` has `isObjectId = false` and
`isAutogenerated = false`; for a property named `id` this requires that the declaration
sets `AUTOGENERATED` as well. -/
theorem identity_override (reg : MetaTypeRegistry) {fuel : Nat}
    {st st' : QOrmMetadataCachePrivate} {mo : QMetaObject} {k : QByteArray}
    {ci : QOrmUserMetadata} {pi : QHash QString QOrmUserMetadata}
    (h : QOrmMetadataCachePrivate.get reg fuel st mo = .ok (k, st'))
    (hfresh : QHash.find mo.className st.m_cache = none)
    (hci : initializeClassInfos mo mo.classInfos {} [] = .ok (ci, pi)) :
    ∃ data, QHash.find k st'.m_cache = some data ∧
      List.Forall₂
        (fun p m => m.qMetaProperty = p ∧ m.classPropertyName = p.name ∧
          ((QHash.value pi p.name {}).find .Identity = some (.bool false) →
            m.isObjectId = false ∧ m.isAutogenerated = false ∧
            (p.name = "id".toList →
              (QHash.value pi p.name {}).contains .Autogenerated = true)))
        (ownProperties mo) data.m_propertyMappings := by
  obtain ⟨ci', pi', data, hci', hf, _, _, _, _, hall⟩ := get_record h hfresh
  rw [hci] at hci'
  injection hci' with hci'
  injection hci' with e1 e2
  subst e1 e2
  refine ⟨data, hf, hall.imp ?_⟩
  intro p m hm
  exact ⟨hm.flags.1, hm.flags.2.1, hm.identityFalse⟩

theorem identity_override_witness :
    ∃ data,
      QHash.find "Label".toList
        (resultState (QOrmMetadataCachePrivate.get sampleRegistry 1 {} Label)).m_cache
          = some data ∧
      List.Forall₂
        (fun p m => m.qMetaProperty = p ∧ m.classPropertyName = p.name ∧
          ((QHash.value labelPropertyInfo p.name {}).find .Identity = some (.bool false) →
            m.isObjectId = false ∧ m.isAutogenerated = false ∧
            (p.name = "id".toList →
              (QHash.value labelPropertyInfo p.name {}).contains .Autogenerated = true)))
        (ownProperties Label) data.m_propertyMappings :=
  identity_override sampleRegistry
    (show QOrmMetadataCachePrivate.get sampleRegistry 1 {} Label
      = .ok ("Label".toList,
          resultState (QOrmMetadataCachePrivate.get sampleRegistry 1 {} Label)) from rfl)
    rfl
    (show initializeClassInfos Label Label.classInfos {} [] = .ok ({}, labelPropertyInfo)
      from by decide)

/-- C8, as stated, fails: the property `ID` of `Account` is not literally named `id` and has
no property-level declaration, and its mapping has `isObjectId = true` and
`isAutogenerated = true`. -/
theorem default_identity_counterexample :
    "ID".toList ≠ "id".toList ∧
    initializeClassInfos Account Account.classInfos {} [] = .ok ({}, []) ∧
    (QHash.find "Account".toList
        (resultState (QOrmMetadataCachePrivate.get sampleRegistry 1 {} Account)).m_cache).map
      (fun d => d.m_propertyMappings.map
        (fun m => (m.classPropertyName, m.isObjectId, m.isAutogenerated)))
      = some [("ID".toList, true, true), ("name".toList, false, false)] := by
  decide

/-- C8 (default identity policy), amended.  Whenever `get` constructs an entity, the mapping
of a property that has no property-level declaration has `isObjectId = false` and
`isAutogenerated = false` if its name differs from `id` under the case-insensitive
comparison of `qstricmp`, and `isObjectId = true` and `isAutogenerated = true` if its name
equals `id` under that comparison; the names `ID`, `Id` and `iD` equal `id` under it. -/
theorem default_identity (reg : MetaTypeRegistry) {fuel : Nat}
    {st st' : QOrmMetadataCachePrivate} {mo : QMetaObject} {k : QByteArray}
    {ci : QOrmUserMetadata} {pi : QHash QString QOrmUserMetadata}
    (h : QOrmMetadataCachePrivate.get reg fuel st mo = .ok (k, st'))
    (hfresh : QHash.find mo.className st.m_cache = none)
    (hci : initializeClassInfos mo mo.classInfos {} [] = .ok (ci, pi)) :
    (qstricmpEq "ID".toList "id".toList = true ∧ qstricmpEq "Id".toList "id".toList = true ∧
      qstricmpEq "iD".toList "id".toList = true) ∧
    ∃ data, QHash.find k st'.m_cache = some data ∧
      List.Forall₂
        (fun p m => m.qMetaProperty = p ∧ m.classPropertyName = p.name ∧
          (qstricmpEq p.name "id".toList = false → QHash.find p.name pi = none →
            m.isObjectId = false ∧ m.isAutogenerated = false) ∧
          (qstricmpEq p.name "id".toList = true → QHash.find p.name pi = none →
            m.isObjectId = true ∧ m.isAutogenerated = true))
        (ownProperties mo) data.m_propertyMappings := by
  obtain ⟨ci', pi', data, hci', hf, _, _, _, _, hall⟩ := get_record h hfresh
  rw [hci] at hci'
  injection hci' with hci'
  injection hci' with e1 e2
  subst e1 e2
  refine ⟨⟨rfl, rfl, rfl⟩, data, hf, hall.imp ?_⟩
  intro p m hm
  obtain ⟨f1, f2, f3, f4, _⟩ := hm.flags
  refine ⟨f1, f2, ?_, ?_⟩
  · intro hn hno
    rw [f3, f4, value_of_find_none pi p.name hno, baseDescriptor_isObjectId,
      baseDescriptor_isAutogenerated, hn]
    exact ⟨rfl, rfl⟩
  · intro hn hno
    rw [f3, f4, value_of_find_none pi p.name hno, baseDescriptor_isObjectId,
      baseDescriptor_isAutogenerated, hn]
    exact ⟨rfl, rfl⟩

theorem default_identity_witness :
    ((qstricmpEq "ID".toList "id".toList = true ∧ qstricmpEq "Id".toList "id".toList = true ∧
      qstricmpEq "iD".toList "id".toList = true) ∧
    ∃ data,
      QHash.find "Account".toList
        (resultState (QOrmMetadataCachePrivate.get sampleRegistry 1 {} Account)).m_cache
          = some data ∧
      List.Forall₂
        (fun p m => m.qMetaProperty = p ∧ m.classPropertyName = p.name ∧
          (qstricmpEq p.name "id".toList = false →
            QHash.find p.name ([] : QHash QString QOrmUserMetadata) = none →
            m.isObjectId = false ∧ m.isAutogenerated = false) ∧
          (qstricmpEq p.name "id".toList = true →
            QHash.find p.name ([] : QHash QString QOrmUserMetadata) = none →
            m.isObjectId = true ∧ m.isAutogenerated = true))
        (ownProperties Account) data.m_propertyMappings) ∧
    (ownProperties Account).map (fun p => (p.name, qstricmpEq p.name "id".toList))
      = [("ID".toList, true), ("name".toList, false)] :=
  ⟨default_identity sampleRegistry
    (show QOrmMetadataCachePrivate.get sampleRegistry 1 {} Account
      = .ok ("Account".toList,
          resultState (QOrmMetadataCachePrivate.get sampleRegistry 1 {} Account)) from rfl)
    rfl
    (show initializeClassInfos Account Account.classInfos {} [] = .ok ({}, []) from rfl),
    rfl⟩

/-- C9, as stated, fails: the properties `tags` and `marks` of `Gallery` have the type
`QVector<int*>`, which is neither a reference to an entity nor a container of entity
references (their mappings reference no entity), and the table-field name of their
mappings is empty: neither the declared COLUMN value `tag_list` nor the lower-cased
property name `marks`. -/
theorem default_field_name_counterexample :
    initializeClassInfos Gallery Gallery.classInfos {} [] = .ok ({}, galleryPropertyInfo) ∧
    (QHash.find "Gallery".toList
        (resultState (QOrmMetadataCachePrivate.get sampleRegistry 1 {} Gallery)).m_cache).map
      (fun d => d.m_propertyMappings.map
        (fun m => (m.classPropertyName, m.tableFieldName, m.referencedEntity)))
      = some [("id".toList, "id".toList, none), ("tags".toList, [], none),
          ("marks".toList, [], none)] := by
  decide

/-- C9 (default table-field naming), amended.  Whenever `get` constructs an entity, for
every property that is not of a user type, or is of a user type whose name (after a leading
`QVector<` or `QSet<` is stripped) does not end in `*>` and is not a pointer to a `QObject`,
the table-field name of the mapping is the lower-cased property name when the declaration of
the property has no COLUMN entry, and the COLUMN value when it has one. -/
theorem default_field_name (reg : MetaTypeRegistry) {fuel : Nat}
    {st st' : QOrmMetadataCachePrivate} {mo : QMetaObject} {k : QByteArray}
    {ci : QOrmUserMetadata} {pi : QHash QString QOrmUserMetadata}
    (h : QOrmMetadataCachePrivate.get reg fuel st mo = .ok (k, st'))
    (hfresh : QHash.find mo.className st.m_cache = none)
    (hci : initializeClassInfos mo mo.classInfos {} [] = .ok (ci, pi)) :
    ∃ data, QHash.find k st'.m_cache = some data ∧
      List.Forall₂
        (fun p m => m.qMetaProperty = p ∧ m.classPropertyName = p.name ∧
          ((p.type ≠ QVariantType.UserType ∨
            (endsWithPointerBracket p = false ∧
              (QMetaType.typeFlags reg
                (QMetaType.type reg (referencedTypeName p))).pointerToQObject = false)) →
            ((QHash.value pi p.name {}).find .Column = none →
              m.tableFieldName = toLower p.name) ∧
            (∀ v, (QHash.value pi p.name {}).find .Column = some v →
              m.tableFieldName = v.toString)))
        (ownProperties mo) data.m_propertyMappings := by
  obtain ⟨ci', pi', data, hci', hf, _, _, _, _, hall⟩ := get_record h hfresh
  rw [hci] at hci'
  injection hci' with hci'
  injection hci' with e1 e2
  subst e1 e2
  refine ⟨data, hf, hall.imp ?_⟩
  intro p m hm
  obtain ⟨f1, f2, _⟩ := hm.flags
  refine ⟨f1, f2, ?_⟩
  intro hkind
  have hbase : m.tableFieldName = (baseDescriptor p (QHash.value pi p.name {})).tableFieldName := by
    rcases hm.field with ⟨_, hf1, _⟩ | ⟨hT, hP, hf1, _⟩ | ⟨hT, hP, _⟩
    · exact hf1
    · rcases hkind with hk | ⟨hk, _⟩
      · exact absurd hT hk
      · rw [hf1]; unfold containerDescriptor; rw [hk]; rfl
    · rcases hkind with hk | ⟨_, hk⟩
      · exact absurd hT hk
      · rw [hk] at hP; cases hP
  rw [hbase, baseDescriptor_tableFieldName]
  constructor
  · intro hnone
    rw [find_of_contains_false hnone]; rfl
  · intro v hv
    obtain ⟨h1, h2⟩ := value_of_find_some hv
    rw [h1, h2]; rfl

theorem default_field_name_witness :
    (∃ data,
      QHash.find "Person".toList
        (resultState (QOrmMetadataCachePrivate.get sampleRegistry 1 {} Person)).m_cache
          = some data ∧
      List.Forall₂
        (fun p m => m.qMetaProperty = p ∧ m.classPropertyName = p.name ∧
          ((p.type ≠ QVariantType.UserType ∨
            (endsWithPointerBracket p = false ∧
              (QMetaType.typeFlags sampleRegistry
                (QMetaType.type sampleRegistry (referencedTypeName p))).pointerToQObject
                  = false)) →
            ((QHash.value personPropertyInfo p.name {}).find .Column = none →
              m.tableFieldName = toLower p.name) ∧
            (∀ v, (QHash.value personPropertyInfo p.name {}).find .Column = some v →
              m.tableFieldName = v.toString)))
        (ownProperties Person) data.m_propertyMappings) ∧
    (QHash.find "Person".toList
        (resultState (QOrmMetadataCachePrivate.get sampleRegistry 1 {} Person)).m_cache).map
      (fun d => d.m_propertyMappings.map (fun m => (m.classPropertyName, m.tableFieldName)))
      = some [("id".toList, "id".toList), ("firstName".toList, "given_name".toList),
          ("lastName".toList, "lastname".toList)] :=
  ⟨default_field_name sampleRegistry
    (show QOrmMetadataCachePrivate.get sampleRegistry 1 {} Person
      = .ok ("Person".toList,
          resultState (QOrmMetadataCachePrivate.get sampleRegistry 1 {} Person)) from rfl)
    rfl
    (show initializeClassInfos Person Person.classInfos {} [] = .ok ({}, personPropertyInfo)
      from by decide), by decide⟩

/-- C10 (many-to-one relationship).  Whenever `get` constructs an entity, for every property
whose type is a direct pointer (a user type whose name has no angle brackets, registered as
a pointer to a `QObject`) to a registered entity type with meta object `E`, the mapping is
not transient, references the record of `E`, which is in the cache, and its table-field name
is the lower-cased property name followed by `_id` when the declaration of the property has
no COLUMN entry, and the COLUMN value when it has one. -/
theorem many_to_one (reg : MetaTypeRegistry) {fuel : Nat}
    {st st' : QOrmMetadataCachePrivate} {mo : QMetaObject} {k : QByteArray}
    {ci : QOrmUserMetadata} {pi : QHash QString QOrmUserMetadata}
    (h : QOrmMetadataCachePrivate.get reg fuel st mo = .ok (k, st'))
    (hfresh : QHash.find mo.className st.m_cache = none)
    (hci : initializeClassInfos mo mo.classInfos {} [] = .ok (ci, pi)) :
    ∃ data, QHash.find k st'.m_cache = some data ∧
      List.Forall₂
        (fun p m => m.qMetaProperty = p ∧ m.classPropertyName = p.name ∧
          ∀ E : QMetaObject, p.type = QVariantType.UserType →
            '<' ∉ p.typeName → '>' ∉ p.typeName →
            (QMetaType.typeFlags reg (QMetaType.type reg p.typeName)).pointerToQObject = true →
            QMetaType.metaObjectForType reg (QMetaType.type reg p.typeName) = some E →
            m.isTransient = false ∧ m.referencedEntity = some E.className ∧
            (∃ dE, QHash.find E.className st'.m_cache = some dE) ∧
            ((QHash.value pi p.name {}).find .Column = none →
              m.tableFieldName = toLower p.name ++ "_id".toList) ∧
            (∀ v, (QHash.value pi p.name {}).find .Column = some v →
              m.tableFieldName = v.toString))
        (ownProperties mo) data.m_propertyMappings := by
  obtain ⟨ci', pi', data, hci', hf, _, _, _, _, hall⟩ := get_record h hfresh
  rw [hci] at hci'
  injection hci' with hci'
  injection hci' with e1 e2
  subst e1 e2
  refine ⟨data, hf, hall.imp ?_⟩
  intro p m hm
  obtain ⟨f1, f2, _⟩ := hm.flags
  refine ⟨f1, f2, ?_⟩
  intro E hT h1 h2 hP hE
  obtain ⟨hend, hname⟩ := referencedTypeName_plain h1 h2
  rcases hm.field with ⟨hT', _⟩ | ⟨_, hP', _⟩ | ⟨_, _, hfield, htrans, refMeta, hM, href, hpres⟩
  · exact absurd hT hT'
  · rw [hname, hP] at hP'; cases hP'
  · rw [hname, hE] at hM
    injection hM with hM
    subst hM
    have hct : (containerDescriptor p (baseDescriptor p (QHash.value pi p.name {}))).isTransient
        = false := by
      unfold containerDescriptor; rw [hend]; rfl
    have hcf : (containerDescriptor p (baseDescriptor p (QHash.value pi p.name {}))).tableFieldName
        = (baseDescriptor p (QHash.value pi p.name {})).tableFieldName := by
      unfold containerDescriptor; rw [hend]; rfl
    refine ⟨?_, href, (QHash.contains_iff _ _).1 hpres, ?_, ?_⟩
    · rw [htrans]; unfold withIdSuffix; split
      · exact hct
      · exact hct
    · intro hnone
      rw [hfield]
      unfold withIdSuffix
      rw [find_of_contains_false hnone, hct]
      simp only [Bool.not_false, Bool.and_self, if_true]
      rw [hcf, baseDescriptor_tableFieldName, find_of_contains_false hnone]
      rfl
    · intro v hv
      obtain ⟨hc1, hc2⟩ := value_of_find_some hv
      rw [hfield]
      unfold withIdSuffix
      rw [hc1]
      simp only [Bool.not_true, Bool.false_and, Bool.false_eq_true, if_false]
      rw [hcf, baseDescriptor_tableFieldName, hc1, hc2]
      rfl

theorem many_to_one_witness :
    (∃ data,
      QHash.find "Town".toList
        (resultState (QOrmMetadataCachePrivate.get sampleRegistry 2 {} Town)).m_cache
          = some data ∧
      List.Forall₂
        (fun p m => m.qMetaProperty = p ∧ m.classPropertyName = p.name ∧
          ∀ E : QMetaObject, p.type = QVariantType.UserType →
            '<' ∉ p.typeName → '>' ∉ p.typeName →
            (QMetaType.typeFlags sampleRegistry
              (QMetaType.type sampleRegistry p.typeName)).pointerToQObject = true →
            QMetaType.metaObjectForType sampleRegistry
              (QMetaType.type sampleRegistry p.typeName) = some E →
            m.isTransient = false ∧ m.referencedEntity = some E.className ∧
            (∃ dE, QHash.find E.className
              (resultState (QOrmMetadataCachePrivate.get sampleRegistry 2 {} Town)).m_cache
                = some dE) ∧
            ((QHash.value ([] : QHash QString QOrmUserMetadata) p.name {}).find .Column = none →
              m.tableFieldName = toLower p.name ++ "_id".toList) ∧
            (∀ v, (QHash.value ([] : QHash QString QOrmUserMetadata) p.name {}).find .Column
                = some v →
              m.tableFieldName = v.toString))
        (ownProperties Town) data.m_propertyMappings) ∧
    (QHash.find "Town".toList
        (resultState (QOrmMetadataCachePrivate.get sampleRegistry 2 {} Town)).m_cache).map
      (fun d => d.m_propertyMappings.map
        (fun m => (m.classPropertyName, m.tableFieldName, m.isTransient, m.referencedEntity)))
      = some [("id".toList, "id".toList, false, none),
          ("firstName".toList, "firstname".toList, false, none),
          ("province".toList, "province_id".toList, false, some "Province".toList)] :=
  ⟨many_to_one sampleRegistry
    (show QOrmMetadataCachePrivate.get sampleRegistry 2 {} Town
      = .ok ("Town".toList,
          resultState (QOrmMetadataCachePrivate.get sampleRegistry 2 {} Town)) from rfl)
    rfl
    (show initializeClassInfos Town Town.classInfos {} [] = .ok ({}, []) from rfl), rfl⟩

/-- C2 (cycle safety).  For two otherwise valid entity types `A` and `B` (a `CyclicPair`:
usable constructors, full property capability, an identity property in `A`) where `A` has a
property `coll` of type `QVector<B*>` and `B` has a property `ptr` of type `A*`, `get` of `A`
on the empty cache succeeds with any fuel of at least two units; afterwards `A` and `B` are
in the constructed set, the mapping of `coll` in the record of `A` references the record of
`B`, the mapping of `ptr` in the record of `B` references the record of `A`, and each of the
two records holds one mapping per own (non-base) property. -/
theorem cycle_safe (reg : MetaTypeRegistry) {A B : QMetaObject} {coll ptr : QMetaProperty}
    {tA sB : QByteArray} (hp : CyclicPair reg A B coll ptr tA sB) (fuel : Nat)
    (hf : 2 ≤ fuel) :
    ∃ st' dA dB mA mB,
      QOrmMetadataCachePrivate.get reg fuel {} A = .ok (A.className, st') ∧
      A.className ∈ st'.m_constructed ∧ B.className ∈ st'.m_constructed ∧
      QHash.find A.className st'.m_cache = some dA ∧
      QHash.find B.className st'.m_cache = some dB ∧
      mA ∈ dA.m_propertyMappings ∧ mA.qMetaProperty = coll ∧
      mA.referencedEntity = some B.className ∧
      mB ∈ dB.m_propertyMappings ∧ mB.qMetaProperty = ptr ∧
      mB.referencedEntity = some A.className ∧
      dA.m_propertyMappings.length = (ownProperties A).length ∧
      dB.m_propertyMappings.length = (ownProperties B).length := by
  obtain ⟨n, rfl⟩ : ∃ n, fuel = n + 2 := ⟨fuel - 2, by omega⟩
  obtain ⟨st', dA, dB, hget, _, hcon, hfA, hfB, hallA, sB', hallB⟩ := get_cyclicPair hp n
  obtain ⟨_, _, hcollOwn, hptrOwn⟩ := hp.cases
  obtain ⟨mA, hmA1, hmA2⟩ := forall₂_mem_left hallA coll hcollOwn
  obtain ⟨mB, hmB1, hmB2⟩ := forall₂_mem_left hallB ptr hptrOwn
  have hnameC := referencedTypeName_vector (p := coll) sB hp.collName
  have hnameP := referencedTypeName_plain (p := ptr) (by rw [hp.ptrName]; exact hp.ptrDirect.1)
    (by rw [hp.ptrName]; exact hp.ptrDirect.2)
  have hrA := (hmA2.reference hp.collType (by rw [hnameC.2]; exact hp.registeredB.1)
    (by rw [hnameC.2]; exact hp.registeredB.2)).1
  have hrB := (hmB2.reference hp.ptrType (by rw [hnameP.2, hp.ptrName]; exact hp.registeredA.1)
    (by rw [hnameP.2, hp.ptrName]; exact hp.registeredA.2)).1
  refine ⟨st', dA, dB, mA, mB, hget, ?_, ?_, hfA, hfB, hmA1, hmA2.flags.1, hrA, hmB1,
    hmB2.flags.1, hrB, hallA.length_eq.symm, hallB.length_eq.symm⟩
  · rw [hcon]; simp
  · rw [hcon]; simp

/-- The sample entities `A` and `B` form a cyclic pair. -/
theorem sampleCyclicPair :
    CyclicPair sampleRegistry sampleA sampleB (userProperty "bs".toList "QVector<B*>".toList)
      (userProperty "a".toList "A*".toList) "A*".toList "B".toList where
  distinct := by decide
  ctorA := rfl
  ctorB := rfl
  infoA := ⟨{}, rfl⟩
  infoB := ⟨{}, rfl⟩
  propsA := ⟨[objectNameProperty, intProperty "id".toList], [], rfl, by
    intro p h
    rcases h with h | h
    · rcases List.mem_cons.1 h with rfl | h
      · exact Or.inl rfl
      · rcases List.mem_cons.1 h with rfl | h
        · exact Or.inr (by unfold PlainProperty; decide)
        · cases h
    · cases h⟩
  propsB := ⟨[objectNameProperty, intProperty "id".toList], [], rfl, by
    intro p h
    rcases h with h | h
    · rcases List.mem_cons.1 h with rfl | h
      · exact Or.inl rfl
      · rcases List.mem_cons.1 h with rfl | h
        · exact Or.inr (by unfold PlainProperty; decide)
        · cases h
    · cases h⟩
  identityA := ⟨intProperty "id".toList, by decide, by unfold PlainProperty; decide, by decide⟩
  collOwn := rfl
  collType := rfl
  collRegistered := by decide
  collName := by decide
  collNotId := by decide
  ptrOwn := rfl
  ptrType := rfl
  ptrRegistered := by decide
  ptrName := rfl
  ptrDirect := by decide
  ptrCapable := by decide
  registeredA := by decide
  registeredB := by decide

theorem cycle_safe_witness :
    2 ≤ 2 ∧
    ∃ st' dA dB mA mB,
      QOrmMetadataCachePrivate.get sampleRegistry 2 {} sampleA = .ok (sampleA.className, st') ∧
      sampleA.className ∈ st'.m_constructed ∧ sampleB.className ∈ st'.m_constructed ∧
      QHash.find sampleA.className st'.m_cache = some dA ∧
      QHash.find sampleB.className st'.m_cache = some dB ∧
      mA ∈ dA.m_propertyMappings ∧
      mA.qMetaProperty = userProperty "bs".toList "QVector<B*>".toList ∧
      mA.referencedEntity = some sampleB.className ∧
      mB ∈ dB.m_propertyMappings ∧
      mB.qMetaProperty = userProperty "a".toList "A*".toList ∧
      mB.referencedEntity = some sampleA.className ∧
      dA.m_propertyMappings.length = (ownProperties sampleA).length ∧
      dB.m_propertyMappings.length = (ownProperties sampleB).length :=
  ⟨by decide, cycle_safe sampleRegistry sampleCyclicPair 2 (by decide)⟩

/-- C11 (one-to-many relationship).  Whenever `get` constructs an entity, for every property
whose type is a container `QVector<T*>` or `QSet<T*>` of pointers to a registered entity
type with meta object `E` (the pointer type `T*` is registered as a pointer to a `QObject`
with the meta object `E`), whatever the declaration of the property, the mapping is
transient, has an empty table-field name and references the record of `E`, which is in the
cache. -/
theorem one_to_many (reg : MetaTypeRegistry) {fuel : Nat}
    {st st' : QOrmMetadataCachePrivate} {mo : QMetaObject} {k : QByteArray}
    (h : QOrmMetadataCachePrivate.get reg fuel st mo = .ok (k, st'))
    (hfresh : QHash.find mo.className st.m_cache = none) :
    ∃ data, QHash.find k st'.m_cache = some data ∧
      List.Forall₂
        (fun p m => m.qMetaProperty = p ∧ m.classPropertyName = p.name ∧
          ∀ (E : QMetaObject) (pre s : QByteArray), p.type = QVariantType.UserType →
            pre ∈ aggregatePrefixes → p.typeName = pre ++ (s ++ ['*']) ++ ">".toList →
            (QMetaType.typeFlags reg (QMetaType.type reg (s ++ ['*']))).pointerToQObject = true →
            QMetaType.metaObjectForType reg (QMetaType.type reg (s ++ ['*'])) = some E →
            m.isTransient = true ∧ m.tableFieldName = [] ∧
            m.referencedEntity = some E.className ∧
            ∃ dE, QHash.find E.className st'.m_cache = some dE)
        (ownProperties mo) data.m_propertyMappings := by
  obtain ⟨ci, pi, data, _, hf, _, _, _, _, hall⟩ := get_record h hfresh
  refine ⟨data, hf, hall.imp ?_⟩
  intro p m hm
  refine ⟨hm.flags.1, hm.flags.2.1, ?_⟩
  intro E pre s hT hpre hname hP hE
  obtain ⟨hend, hrn⟩ := referencedTypeName_container s hpre hname
  obtain ⟨h1, h2, h3, h4⟩ := hm.container hT hend (by rw [hrn]; exact hP) (by rw [hrn]; exact hE)
  exact ⟨h1, h2, h3, (QHash.contains_iff _ _).1 h4⟩

theorem one_to_many_witness :
    (∃ data,
      QHash.find "A".toList sampleCache.m_cache = some data ∧
      List.Forall₂
        (fun p m => m.qMetaProperty = p ∧ m.classPropertyName = p.name ∧
          ∀ (E : QMetaObject) (pre s : QByteArray), p.type = QVariantType.UserType →
            pre ∈ aggregatePrefixes → p.typeName = pre ++ (s ++ ['*']) ++ ">".toList →
            (QMetaType.typeFlags sampleRegistry
              (QMetaType.type sampleRegistry (s ++ ['*']))).pointerToQObject = true →
            QMetaType.metaObjectForType sampleRegistry
              (QMetaType.type sampleRegistry (s ++ ['*'])) = some E →
            m.isTransient = true ∧ m.tableFieldName = [] ∧
            m.referencedEntity = some E.className ∧
            ∃ dE, QHash.find E.className sampleCache.m_cache = some dE)
        (ownProperties sampleA) data.m_propertyMappings) ∧
    (QHash.find "A".toList sampleCache.m_cache).map
      (fun d => d.m_propertyMappings.map
        (fun m => (m.classPropertyName, m.tableFieldName, m.isTransient, m.referencedEntity)))
      = some [("id".toList, "id".toList, false, none),
          ("bs".toList, [], true, some "B".toList)] :=
  ⟨one_to_many sampleRegistry
    (show QOrmMetadataCachePrivate.get sampleRegistry 2 {} sampleA
      = .ok ("A".toList, sampleCache) from rfl)
    rfl, rfl⟩

/-- C15 (flag invariants).  In every cache state reached from the empty cache by successful
calls of `get`, every property mapping of every record satisfies: `isAutogenerated` implies
`isObjectId`, and `isTransient` and `isObjectId` are not both true. -/
theorem flag_invariants {reg : MetaTypeRegistry} {st : QOrmMetadataCachePrivate}
    (h : Reachable reg st) {T : QByteArray} {d : QOrmMetadataPrivate}
    (hf : QHash.find T st.m_cache = some d) :
    ∀ m ∈ d.m_propertyMappings,
      (m.isAutogenerated = true → m.isObjectId = true) ∧
      ¬ (m.isTransient = true ∧ m.isObjectId = true) :=
  reachable_records flagsOk_invariant h T d hf

theorem flag_invariants_witness :
    (∀ m ∈ sampleRecordB.m_propertyMappings,
      (m.isAutogenerated = true → m.isObjectId = true) ∧
      ¬ (m.isTransient = true ∧ m.isObjectId = true)) ∧
    sampleRecordB.m_propertyMappings.map
        (fun m => (m.classPropertyName, m.isObjectId, m.isAutogenerated, m.isTransient))
      = [("id".toList, true, true, false), ("a".toList, false, false, false)] :=
  ⟨flag_invariants
    (Reachable.resolve Reachable.empty
      (show QOrmMetadataCachePrivate.get sampleRegistry 2 {} sampleA
        = .ok ("A".toList, sampleCache) from rfl))
    (show QHash.find "B".toList sampleCache.m_cache = some sampleRecordB from rfl), rfl⟩

/-- C14, as stated, fails: `Ledger`, whose properties `code` and `year` are both declared
`IDENTITY`, is resolved successfully, and two of the mappings of its record are marked as
the identity. -/
theorem single_identity_counterexample :
    QOrmMetadataCachePrivate.get sampleRegistry 1 {} Ledger
      = .ok ("Ledger".toList, ledgerCache) ∧
    QHash.find "Ledger".toList ledgerCache.m_cache = some ledgerRecord ∧
    ledgerRecord.m_propertyMappings.map (fun m => (m.classPropertyName, m.isObjectId))
      = [("code".toList, true), ("year".toList, true), ("title".toList, false)] :=
  ⟨rfl, rfl, rfl⟩

/-- C14 (single identity), amended.  In every cache state reached from the empty cache by
successful calls of `get`, every record designates at most one identity mapping:
`objectIdMapping` is the last mapping of the list that is marked as the identity, and it is
absent exactly when no mapping is marked. -/
theorem single_identity {reg : MetaTypeRegistry} {st : QOrmMetadataCachePrivate}
    (h : Reachable reg st) {T : QByteArray} {d : QOrmMetadataPrivate}
    (hf : QHash.find T st.m_cache = some d) :
    d.objectIdMapping = (d.m_propertyMappings.filter (fun m => m.isObjectId)).getLast? ∧
    (d.objectIdMapping = none ↔ ∀ m ∈ d.m_propertyMappings, m.isObjectId = false) := by
  have h1 := (reachable_records lastIdentity_invariant h T d hf).designates
  refine ⟨h1, ?_⟩
  rw [h1]
  unfold identityMappings
  rw [List.getLast?_eq_none_iff, List.filter_eq_nil_iff]
  simp

theorem single_identity_witness :
    (ledgerRecord.objectIdMapping
      = (ledgerRecord.m_propertyMappings.filter (fun m => m.isObjectId)).getLast? ∧
    (ledgerRecord.objectIdMapping = none ↔
      ∀ m ∈ ledgerRecord.m_propertyMappings, m.isObjectId = false)) ∧
    ledgerRecord.objectIdMapping.map (fun m => m.classPropertyName) = some "year".toList :=
  ⟨single_identity
    (Reachable.resolve Reachable.empty
      (show QOrmMetadataCachePrivate.get sampleRegistry 1 {} Ledger
        = .ok ("Ledger".toList, ledgerCache) from rfl))
    (show QHash.find "Ledger".toList ledgerCache.m_cache = some ledgerRecord from rfl), rfl⟩

/-- C12, as stated, fails: the property `kind` of `Shape` has a registered enumeration
type, so it is no relationship (its mapping references no entity), and its declaration sets
`TRANSIENT`; the mapping of `kind` is not transient. -/
theorem transient_policy_counterexample :
    initializeClassInfos Shape Shape.classInfos {} [] = .ok ({}, shapePropertyInfo) ∧
    (QHash.value shapePropertyInfo "kind".toList {}).find .Transient = some (.bool true) ∧
    QMetaType.typeFlags shapeRegistry
        (QMetaType.type shapeRegistry (referencedTypeName kindProperty))
      = { pointerToQObject := false, isEnumeration := true } ∧
    QOrmMetadataCachePrivate.get shapeRegistry 1 {} Shape = .ok ("Shape".toList, shapeCache) ∧
    (QHash.find "Shape".toList shapeCache.m_cache).map
      (fun d => d.m_propertyMappings.map
        (fun m => (m.classPropertyName, m.isTransient, m.referencedEntity)))
      = some [("id".toList, false, none), ("kind".toList, false, none)] :=
  ⟨by decide, rfl, rfl, rfl, rfl⟩

/-- C12 (transient policy), amended.  Whenever `get` constructs an entity, for every
property that is not of a user type the transient flag of the mapping is the value of the
TRANSIENT entry of the declaration of the property when there is one, and otherwise true
exactly when the property is not stored; for every property of a user type the flag is
decided by the type name alone: it is true exactly when the name (after a leading
`QVector<` or `QSet<` is stripped) ends in `*>`. -/
theorem transient_policy (reg : MetaTypeRegistry) {fuel : Nat}
    {st st' : QOrmMetadataCachePrivate} {mo : QMetaObject} {k : QByteArray}
    {ci : QOrmUserMetadata} {pi : QHash QString QOrmUserMetadata}
    (h : QOrmMetadataCachePrivate.get reg fuel st mo = .ok (k, st'))
    (hfresh : QHash.find mo.className st.m_cache = none)
    (hci : initializeClassInfos mo mo.classInfos {} [] = .ok (ci, pi)) :
    ∃ data, QHash.find k st'.m_cache = some data ∧
      List.Forall₂
        (fun p m => m.qMetaProperty = p ∧ m.classPropertyName = p.name ∧
          (p.type ≠ QVariantType.UserType →
            ((QHash.value pi p.name {}).find .Transient = none →
              m.isTransient = !p.isStored) ∧
            (∀ v, (QHash.value pi p.name {}).find .Transient = some v →
              m.isTransient = v.toBool)) ∧
          (p.type = QVariantType.UserType → m.isTransient = endsWithPointerBracket p))
        (ownProperties mo) data.m_propertyMappings := by
  obtain ⟨ci', pi', data, hci', hf, _, _, _, _, hall⟩ := get_record h hfresh
  rw [hci] at hci'
  injection hci' with hci'
  injection hci' with e1 e2
  subst e1 e2
  refine ⟨data, hf, hall.imp ?_⟩
  intro p m hm
  refine ⟨hm.flags.1, hm.flags.2.1, ?_, hm.transient.2⟩
  intro hT
  rw [hm.transient.1 hT, baseDescriptor_isTransient]
  constructor
  · intro hnone
    rw [find_of_contains_false hnone]; rfl
  · intro v hv
    obtain ⟨h1, h2⟩ := value_of_find_some hv
    rw [h1, h2]; rfl

theorem transient_policy_witness :
    (∃ data, QHash.find "Shape".toList shapeCache.m_cache = some data ∧
      List.Forall₂
        (fun p m => m.qMetaProperty = p ∧ m.classPropertyName = p.name ∧
          (p.type ≠ QVariantType.UserType →
            ((QHash.value shapePropertyInfo p.name {}).find .Transient = none →
              m.isTransient = !p.isStored) ∧
            (∀ v, (QHash.value shapePropertyInfo p.name {}).find .Transient = some v →
              m.isTransient = v.toBool)) ∧
          (p.type = QVariantType.UserType → m.isTransient = endsWithPointerBracket p))
        (ownProperties Shape) data.m_propertyMappings) ∧
    (ownProperties Shape).map (fun p => (p.name, decide (p.type = QVariantType.UserType)))
      = [("id".toList, false), ("kind".toList, true)] :=
  ⟨transient_policy shapeRegistry
    (show QOrmMetadataCachePrivate.get shapeRegistry 1 {} Shape
      = .ok ("Shape".toList, shapeCache) from rfl)
    rfl
    (show initializeClassInfos Shape Shape.classInfos {} [] = .ok ({}, shapePropertyInfo)
      from by decide), rfl⟩

/-- C13, as stated, fails: `Gauge` has the property `level` of the type `int` and the
property `kind` of the registered enumeration `Shape::Kind`.  When `Gauge` is resolved,
`mappingDescriptor` marks the descriptor of `kind`, and not that of `level`, as an
enumeration; the mapping that is stored for `kind` is the record of ten members shown
below, which are all the members a stored mapping has: none of them is an enumeration
mark, and its flags and its data-type tag are those of the mapping stored for `level`. -/
theorem enumeration_mapping_counterexample :
    QMetaType.typeFlags shapeRegistry
        (QMetaType.type shapeRegistry (referencedTypeName kindProperty))
      = { pointerToQObject := false, isEnumeration := true } ∧
    QOrmMetadataCachePrivate.get shapeRegistry 1 {} Gauge = .ok ("Gauge".toList, gaugeCache) ∧
    ((QOrmMetadataCachePrivate.mappingDescriptor shapeRegistry
        ( QOrmMetadataCachePrivate.get shapeRegistry 0)
        (classDataSet (placeholderCached {} "Gauge".toList Gauge) "Gauge".toList Gauge {})
        Gauge (intProperty "level".toList) {}).toOption.map
      (fun r => (r.1.isEnumeration, r.1.dataType))) = some (false, QVariantType.Int) ∧
    ((QOrmMetadataCachePrivate.mappingDescriptor shapeRegistry
        ( QOrmMetadataCachePrivate.get shapeRegistry 0)
        (mappingAppended
          (classDataSet (placeholderCached {} "Gauge".toList Gauge) "Gauge".toList Gauge {})
          "Gauge".toList (intProperty "level".toList)
          (baseDescriptor (intProperty "level".toList) {}) {})
        Gauge kindProperty {}).toOption.map
      (fun r => (r.1.isEnumeration, r.1.dataType))) = some (true, QVariantType.Int) ∧
    (QHash.find "Gauge".toList gaugeCache.m_cache).map (fun d => d.m_propertyMappings)
      = some
        [{ enclosingEntity := "Gauge".toList
           qMetaProperty := intProperty "level".toList
           classPropertyName := "level".toList
           tableFieldName := "level".toList
           isObjectId := false
           isAutogenerated := false
           dataType := QVariantType.Int
           referencedEntity := none
           isTransient := false
           userMetadata := {} },
         { enclosingEntity := "Gauge".toList
           qMetaProperty := kindProperty
           classPropertyName := "kind".toList
           tableFieldName := "kind".toList
           isObjectId := false
           isAutogenerated := false
           dataType := QVariantType.Int
           referencedEntity := none
           isTransient := false
           userMetadata := {} }] :=
  ⟨rfl, rfl, rfl, rfl, rfl⟩

/-- C13 (enumeration properties), amended.  Whenever `get` constructs an entity, for every
property whose type is a registered enumeration (a user type that the engine looks up
under a name whose type flags have `IsEnumeration` and not `PointerToQObject`), the mapping
stored in the record has the data type `Int`, and the descriptor that `mappingDescriptor`
returns for the property is marked `isEnumeration` and has the data type `Int`. -/
theorem enumeration_mapping (reg : MetaTypeRegistry) {fuel : Nat}
    {st st' : QOrmMetadataCachePrivate} {mo : QMetaObject} {k : QByteArray}
    (h : QOrmMetadataCachePrivate.get reg fuel st mo = .ok (k, st'))
    (hfresh : QHash.find mo.className st.m_cache = none) :
    ∃ data, QHash.find k st'.m_cache = some data ∧
      List.Forall₂
        (fun p m => m.qMetaProperty = p ∧ m.classPropertyName = p.name ∧
          (p.type = QVariantType.UserType →
            (QMetaType.typeFlags reg
              (QMetaType.type reg (referencedTypeName p))).pointerToQObject = false →
            (QMetaType.typeFlags reg
              (QMetaType.type reg (referencedTypeName p))).isEnumeration = true →
            m.dataType = QVariantType.Int ∧
            ∀ (g : Getter) (s : QOrmMetadataCachePrivate) (umd : QOrmUserMetadata),
              ∃ d, QOrmMetadataCachePrivate.mappingDescriptor reg g s mo p umd = .ok (d, s) ∧
                d.isEnumeration = true ∧ d.dataType = QVariantType.Int))
        (ownProperties mo) data.m_propertyMappings := by
  obtain ⟨ci, pi, data, _, hf, _, _, _, _, hall⟩ := get_record h hfresh
  refine ⟨data, hf, hall.imp ?_⟩
  intro p m hm
  refine ⟨hm.flags.1, hm.flags.2.1, ?_⟩
  intro hT hP hE
  obtain ⟨hU, hd⟩ := hm.enumeration hT hP hE
  refine ⟨hd, ?_⟩
  intro g s umd
  exact ⟨_, mappingDescriptor_enumeration reg g s mo umd hT hU hP hE, rfl, rfl⟩

theorem enumeration_mapping_witness :
    (∃ data, QHash.find "Shape".toList shapeCache.m_cache = some data ∧
      List.Forall₂
        (fun p m => m.qMetaProperty = p ∧ m.classPropertyName = p.name ∧
          (p.type = QVariantType.UserType →
            (QMetaType.typeFlags shapeRegistry
              (QMetaType.type shapeRegistry (referencedTypeName p))).pointerToQObject = false →
            (QMetaType.typeFlags shapeRegistry
              (QMetaType.type shapeRegistry (referencedTypeName p))).isEnumeration = true →
            m.dataType = QVariantType.Int ∧
            ∀ (g : Getter) (s : QOrmMetadataCachePrivate) (umd : QOrmUserMetadata),
              ∃ d, QOrmMetadataCachePrivate.mappingDescriptor shapeRegistry g s Shape p umd
                  = .ok (d, s) ∧
                d.isEnumeration = true ∧ d.dataType = QVariantType.Int))
        (ownProperties Shape) data.m_propertyMappings) ∧
    (QHash.find "Shape".toList shapeCache.m_cache).map
      (fun d => d.m_propertyMappings.map (fun m => (m.classPropertyName, m.dataType)))
      = some [("id".toList, QVariantType.Int), ("kind".toList, QVariantType.Int)] :=
  ⟨enumeration_mapping shapeRegistry
    (show QOrmMetadataCachePrivate.get shapeRegistry 1 {} Shape
      = .ok ("Shape".toList, shapeCache) from rfl)
    rfl, rfl⟩

/-- C16, as stated, fails: the declaration of the property `kind` of `Badge` sets both
IDENTITY and TRANSIENT, and `Badge` is resolved successfully: the type of `kind` is a user
type whose name does not end with `*>`, for which the transient flag is set to false
whatever the declaration says, so the mapping is the identity and not transient. -/
theorem identity_transient_counterexample :
    kindProperty.type = QVariantType.UserType ∧ endsWithPointerBracket kindProperty = false ∧
    initializeClassInfos Badge Badge.classInfos {} [] = .ok ({}, badgePropertyInfo) ∧
    (QHash.value badgePropertyInfo "kind".toList {}).find .Identity = some (.bool true) ∧
    (QHash.value badgePropertyInfo "kind".toList {}).find .Transient = some (.bool true) ∧
    QOrmMetadataCachePrivate.get shapeRegistry 1 {} Badge = .ok ("Badge".toList, badgeCache) ∧
    (QHash.find "Badge".toList badgeCache.m_cache).map
      (fun d => d.m_propertyMappings.map
        (fun m => (m.classPropertyName, m.isObjectId, m.isTransient)))
      = some [("kind".toList, true, false), ("title".toList, false, false)] :=
  ⟨rfl, rfl, by decide, rfl, rfl, rfl, rfl⟩

/-- C16 (IDENTITY with TRANSIENT is rejected), amended.  For every entity that is not in
the cache and has a property whose property-level declaration sets both IDENTITY and
TRANSIENT, and that is not of a user type or is of a user type whose name (after an
aggregate prefix is stripped) ends with `*>`: `get` never returns a record; and when the
constructor check passes, the property loop passes the properties before that one and, for
a user type, `mappingDescriptor` returns a descriptor for the property, `get` stops with the
error "cannot be marked TRANSIENT and IDENTITY at the same time". -/
theorem identity_transient (reg : MetaTypeRegistry) (fuel : Nat)
    (st : QOrmMetadataCachePrivate) (mo : QMetaObject) {ci : QOrmUserMetadata}
    {pi : QHash QString QOrmUserMetadata} (p : QMetaProperty)
    (hfresh : QHash.find mo.className st.m_cache = none)
    (hci : initializeClassInfos mo mo.classInfos {} [] = .ok (ci, pi))
    (hp : p ∈ ownProperties mo)
    (hT : p.type ≠ QVariantType.UserType ∨ endsWithPointerBracket p = true)
    (hI : (QHash.value pi p.name {}).find .Identity = some (.bool true))
    (hTr : (QHash.value pi p.name {}).find .Transient = some (.bool true)) :
    (∀ k st', QOrmMetadataCachePrivate.get reg fuel st mo ≠ .ok (k, st')) ∧
    (∀ (before after : List QMetaProperty) (st3 : QOrmMetadataCachePrivate),
      QOrmMetadataCachePrivate.validateConstructor mo = .ok () →
      mo.properties = before ++ p :: after →
      initializeProperties reg ( QOrmMetadataCachePrivate.get reg fuel) mo.className mo pi before
        (classDataSet (placeholderCached st mo.className mo) mo.className mo ci) = .ok st3 →
      (p.type = QVariantType.UserType →
        ∃ d st4, QOrmMetadataCachePrivate.mappingDescriptor reg
          ( QOrmMetadataCachePrivate.get reg fuel) st3 mo p (QHash.value pi p.name {})
            = .ok (d, st4)) →
      QOrmMetadataCachePrivate.get reg (fuel + 1) st mo = .fatal .transientAndIdentity) := by
  constructor
  · intro k st' h
    obtain ⟨ci', pi', data, hci', _, _, _, _, _, hall⟩ := get_record h hfresh
    rw [hci] at hci'
    injection hci' with hci'
    injection hci' with e1 e2
    subst e1 e2
    obtain ⟨m, _, hm⟩ := forall₂_mem_left hall p hp
    exact hm.rejected hT hI hTr
  · intro before after st3 hv hps hbefore hdesc
    apply get_fatal reg fuel hfresh
    apply initialize_fatal reg _ st mo.className mo hv hci
    rw [hps, initializeProperties_append reg _ mo.className mo pi before (p :: after) _ st3 hbefore]
    have hb : p.enclosedByQObject = false := by
      have := (List.mem_filter.1 hp).2
      simpa using this
    obtain ⟨d, st4, hm⟩ : ∃ d st4, QOrmMetadataCachePrivate.mappingDescriptor reg
        ( QOrmMetadataCachePrivate.get reg fuel) st3 mo p (QHash.value pi p.name {})
          = .ok (d, st4) := by
      by_cases hU : p.type = QVariantType.UserType
      · exact hdesc hU
      · exact ⟨_, _, mappingDescriptor_plain reg _ st3 mo _ hU⟩
    obtain ⟨ht, hi⟩ := mappingDescriptor_both hm hT hI hTr
    exact initializeProperties_reject reg _ mo.className mo pi after hb hm ht hi

theorem identity_transient_witness :
    (∀ k st', QOrmMetadataCachePrivate.get sampleRegistry 4 {} Ticket ≠ .ok (k, st')) ∧
    QOrmMetadataCachePrivate.get sampleRegistry 5 {} Ticket = .fatal .transientAndIdentity ∧
    QOrmMetadataCachePrivate.get sampleRegistry 5 {} Crate = .fatal .transientAndIdentity :=
  ⟨(identity_transient sampleRegistry 4 {} Ticket (intProperty "serial".toList) rfl
      (show initializeClassInfos Ticket Ticket.classInfos {} [] = .ok ({}, ticketPropertyInfo)
        from by decide)
      (by decide) (Or.inl (by decide)) rfl rfl).1,
    (identity_transient sampleRegistry 4 {} Ticket (intProperty "serial".toList) rfl
      (show initializeClassInfos Ticket Ticket.classInfos {} [] = .ok ({}, ticketPropertyInfo)
        from by decide)
      (by decide) (Or.inl (by decide)) rfl rfl).2
      [objectNameProperty, stringProperty "title".toList] []
      (mappingAppended
        (classDataSet (placeholderCached {} "Ticket".toList Ticket) "Ticket".toList Ticket {})
        "Ticket".toList (stringProperty "title".toList)
        (baseDescriptor (stringProperty "title".toList) {}) {})
      rfl rfl rfl (fun hU => absurd hU (by decide)),
    (identity_transient sampleRegistry 4 {} Crate
      (userProperty "items".toList "QVector<int*>".toList) rfl
      (show initializeClassInfos Crate Crate.classInfos {} [] = .ok ({}, cratePropertyInfo)
        from by decide)
      (by decide) (Or.inr (by decide)) rfl rfl).2
      [objectNameProperty, stringProperty "title".toList] []
      (mappingAppended
        (classDataSet (placeholderCached {} "Crate".toList Crate) "Crate".toList Crate {})
        "Crate".toList (stringProperty "title".toList)
        (baseDescriptor (stringProperty "title".toList) {}) {})
      rfl rfl rfl (fun _ => ⟨_, _, rfl⟩)⟩

/-- C17, as stated, fails: `SCHEMA` is a class-level keyword, it is found at index 0 of
`SCHEMAupdate`, and `extractClassInfo` does not stop with "must begin with a keyword" but
returns the declaration with its Schema entry. -/
theorem schema_only_counterexample :
    findNextKeyword "SCHEMAupdate".toList 0 ClassKeywords
      = some (0, ⟨.Schema, "SCHEMA".toList⟩) ∧
    extractClassInfo Province "SCHEMAupdate".toList ≠ .fatal .classMustBeginWithKeyword ∧
    (extractClassInfo Province "SCHEMAupdate".toList).toOption.map
        (fun info => (info.find .Table, info.find .Schema))
      = some (none, some (.string "update".toList)) := by
  decide

/-- C17 (declaration `SCHEMAupdate`), amended.  For every entity, parsing the class-level
declaration string `SCHEMAupdate` succeeds; the result has the Schema entry `update` and no
other entry. -/
theorem schema_only (mo : QMetaObject) :
    extractClassInfo mo "SCHEMAupdate".toList
      = .ok { schema := some (.string "update".toList) } :=
  rfl

/-- C18 (class-level declarations must begin with a keyword).  For every entity and every
class-level declaration string, the empty string included, `extractClassInfo` stops with
the error "must begin with a keyword" exactly when the string starts neither with the token
`TABLE` nor with the token `SCHEMA`. -/
theorem class_keyword_first (mo : QMetaObject) (data : QString) :
    extractClassInfo mo data = .fatal .classMustBeginWithKeyword ↔
      ¬ ("TABLE".toList <+: data ∨ "SCHEMA".toList <+: data) := by
  have hpre : ∀ kw, keywordAt ClassKeywords data = some kw →
      ("TABLE".toList <+: data ∨ "SCHEMA".toList <+: data) := by
    intro kw hk
    obtain ⟨hmem, hp⟩ := keywordAt_some hk
    simp only [ClassKeywords, List.mem_cons, List.mem_singleton, List.not_mem_nil,
      or_false] at hmem
    rcases hmem with rfl | rfl
    · exact Or.inl hp
    · exact Or.inr hp
  unfold extractClassInfo
  dsimp only
  split
  · rename_i kw hk
    obtain ⟨_, h2, _⟩ := findNextKeyword_leftmost upperTokens_class hk
    rw [List.drop_zero] at h2
    constructor
    · intro h
      exact absurd h (extractClassInfoLoop_error data _ _ _)
    · intro h
      exact absurd (hpre kw h2) h
  · rename_i hne
    constructor
    · intro _ hp
      cases hk : keywordAt ClassKeywords data with
      | none =>
        rw [keywordAt_none] at hk
        rcases hp with hp | hp
        · exact hk ⟨.Table, "TABLE".toList⟩ (by simp [ClassKeywords]) hp
        · exact hk ⟨.Schema, "SCHEMA".toList⟩ (by simp [ClassKeywords]) hp
      | some kw => exact hne kw (findNextKeyword_zero upperTokens_class hk)
    · intro _; rfl

/-- C20 (property-level parse).  Whenever `extractPropertyInfo` succeeds on a declaration
string `d` and an entity, `d` splits into a part before and a part from the leftmost index
at which a token of a property keyword (COLUMN, IDENTITY, TRANSIENT, AUTOGENERATED) occurs,
the Property entry of the result is the part before, and a property of the entity has that
name.  On every entity with a property `id`, the declaration
`idCOLUMNprovince_idAUTOGENERATEDIDENTITY` yields Property = `id`, Column = `province_id`,
Autogenerated = true, Identity = true and no other entry. -/
theorem property_name_parsed (mo : QMetaObject) (d : QString) :
    (∀ info, extractPropertyInfo mo d = .ok info →
      ∃ pre suf kw, d = pre ++ suf ∧ kw ∈ PropertyKeywords ∧ kw.token <+: suf ∧
        (∀ j, j < pre.length → ∀ kw' ∈ PropertyKeywords, ¬ kw'.token <+: d.drop j) ∧
        info.find .Property = some (.string pre) ∧
        ∃ p ∈ mo.properties, p.name = pre) ∧
    ((∃ p ∈ mo.properties, p.name = "id".toList) →
      extractPropertyInfo mo "idCOLUMNprovince_idAUTOGENERATEDIDENTITY".toList
        = .ok { property := some (.string "id".toList)
                column := some (.string "province_id".toList)
                autogenerated := some (.bool true)
                identity := some (.bool true) }) := by
  constructor
  · intro info h
    unfold extractPropertyInfo at h
    cases hk : findNextKeyword d 0 PropertyKeywords with
    | none => rw [hk] at h; cases h
    | some r =>
      obtain ⟨kpos, kw⟩ := r
      rw [hk] at h
      dsimp only at h
      obtain ⟨_, hlt, hmem⟩ := findNextKeyword_some hk
      obtain ⟨_, hat, hleft⟩ := findNextKeyword_leftmost upperTokens_property hk
      have hmid : mid d 0 kpos = d.take kpos := by
        unfold mid; rw [List.drop_zero]
      rw [hmid] at h
      have hlen : (d.take kpos).length = kpos := by
        rw [List.length_take]; omega
      split at h
      · cases h
      · rename_i hall
        refine ⟨d.take kpos, d.drop kpos, kw, (List.take_append_drop kpos d).symm, hmem,
          (keywordAt_some hat).2, ?_, ?_, ?_⟩
        · intro j hj kw' hkw'
          rw [hlen] at hj
          exact keywordAt_none.1 (hleft j (Nat.zero_le j) hj) kw' hkw'
        · rw [extractPropertyInfoLoop_property d _ _ _ _ h]
          rfl
        · simp only [List.all_eq_true, decide_eq_true_eq, not_forall] at hall
          obtain ⟨p, hp, hn⟩ := hall
          exact ⟨p, hp, not_not.1 hn⟩
  · rintro ⟨p, hp, hn⟩
    unfold extractPropertyInfo
    have hk : findNextKeyword "idCOLUMNprovince_idAUTOGENERATEDIDENTITY".toList 0
        PropertyKeywords = some (2, ⟨.Column, "COLUMN".toList⟩) := by decide
    rw [hk]
    dsimp only
    have hall : ¬ (mo.properties.all (fun p =>
        decide (p.name ≠ mid "idCOLUMNprovince_idAUTOGENERATEDIDENTITY".toList 0 2)) = true) := by
      simp only [List.all_eq_true, decide_eq_true_eq, not_forall]
      exact ⟨p, hp, fun hne => hne hn⟩
    rw [if_neg hall]
    decide

theorem property_name_parsed_witness :
    (∃ pre suf kw, "idCOLUMNprovince_idAUTOGENERATEDIDENTITY".toList = pre ++ suf ∧
        kw ∈ PropertyKeywords ∧ kw.token <+: suf ∧
        (∀ j, j < pre.length → ∀ kw' ∈ PropertyKeywords,
          ¬ kw'.token <+: "idCOLUMNprovince_idAUTOGENERATEDIDENTITY".toList.drop j) ∧
        QOrmUserMetadata.find
            { property := some (.string "id".toList)
              column := some (.string "province_id".toList)
              autogenerated := some (.bool true)
              identity := some (.bool true) } .Property = some (.string pre) ∧
        ∃ p ∈ Province.properties, p.name = pre) ∧
    extractPropertyInfo Province "idCOLUMNprovince_idAUTOGENERATEDIDENTITY".toList
      = .ok { property := some (.string "id".toList)
              column := some (.string "province_id".toList)
              autogenerated := some (.bool true)
              identity := some (.bool true) } :=
  ⟨(property_name_parsed Province "idCOLUMNprovince_idAUTOGENERATEDIDENTITY".toList).1 _
      (by decide),
    (property_name_parsed Province "idCOLUMNprovince_idAUTOGENERATEDIDENTITY".toList).2
      ⟨intProperty "id".toList, by decide, rfl⟩⟩

/-- C19 (class-level parse round trip).  For every entity and all non-empty strings `t` and
`s` in which neither the token `TABLE` nor the token `SCHEMA` occurs, `extractClassInfo`
applied to `"TABLE" + t + "SCHEMA" + s` and to `"SCHEMA" + s + "TABLE" + t` succeeds and
returns the declaration with Table = `t`, Schema = `s` and no other entry; the declaration
`TABLEProvinceSCHEMAupdate` yields Table = `Province` and Schema = `update`. -/
theorem class_round_trip (mo : QMetaObject) (t s : QString) (ht : t ≠ []) (hs : s ≠ [])
    (ht1 : ¬ "TABLE".toList <:+: t) (ht2 : ¬ "SCHEMA".toList <:+: t)
    (hs1 : ¬ "TABLE".toList <:+: s) (hs2 : ¬ "SCHEMA".toList <:+: s) :
    extractClassInfo mo ("TABLE".toList ++ t ++ "SCHEMA".toList ++ s)
      = .ok { table := some (.string t), schema := some (.string s) } ∧
    extractClassInfo mo ("SCHEMA".toList ++ s ++ "TABLE".toList ++ t)
      = .ok { table := some (.string t), schema := some (.string s) } ∧
    extractClassInfo mo "TABLEProvinceSCHEMAupdate".toList
      = .ok { table := some (.string "Province".toList),
              schema := some (.string "update".toList) } := by
  have hT : (⟨.Table, "TABLE".toList⟩ : KeywordDescriptor) ∈ ClassKeywords := by
    simp [ClassKeywords]
  have hS : (⟨.Schema, "SCHEMA".toList⟩ : KeywordDescriptor) ∈ ClassKeywords := by
    simp [ClassKeywords]
  have hnot : ∀ it ∈ ClassKeywords, ¬ it.token <:+: t := by
    intro it hit
    simp only [ClassKeywords, List.mem_cons, List.mem_singleton, List.not_mem_nil,
      or_false] at hit
    rcases hit with rfl | rfl
    · exact ht1
    · exact ht2
  have hnos : ∀ it ∈ ClassKeywords, ¬ it.token <:+: s := by
    intro it hit
    simp only [ClassKeywords, List.mem_cons, List.mem_singleton, List.not_mem_nil,
      or_false] at hit
    rcases hit with rfl | rfl
    · exact hs1
    · exact hs2
  have htail : ∀ b : Char, b = 'S' ∨ b = 'T' → ∀ it ∈ ClassKeywords, b ∉ it.token.tail := by
    intro b hb it hit
    simp only [ClassKeywords, List.mem_cons, List.mem_singleton, List.not_mem_nil,
      or_false] at hit
    rcases hit with rfl | rfl <;> rcases hb with rfl | rfl <;> decide
  have hend : ∀ b ∈ ([] : QString).head?, ∀ it ∈ ClassKeywords, b ∉ it.token.tail := by
    intro b hb
    cases hb
  have hbS : ∀ x : QString, ∀ b ∈ ("SCHEMA".toList ++ x).head?,
      ∀ it ∈ ClassKeywords, b ∉ it.token.tail := by
    intro x b hb
    have : b = 'S' := by
      have h' : some 'S' = some b := hb
      injection h' with h'
      exact h'.symm
    exact htail b (Or.inl this)
  have hbT : ∀ x : QString, ∀ b ∈ ("TABLE".toList ++ x).head?,
      ∀ it ∈ ClassKeywords, b ∉ it.token.tail := by
    intro x b hb
    have : b = 'T' := by
      have h' : some 'T' = some b := hb
      injection h' with h'
      exact h'.symm
    exact htail b (Or.inr this)
  refine ⟨?_, ?_, rfl⟩
  · have h := extractClassInfo_pair mo hT hS ht hs rfl rfl
      (fun j hj => keywordAt_straddle hj hnot (hbS s))
      (fun j hj => keywordAt_straddle hj hnos hend)
    simp only [List.append_assoc]
    exact h
  · have h := extractClassInfo_pair mo hS hT hs ht rfl rfl
      (fun j hj => keywordAt_straddle hj hnos (hbT t))
      (fun j hj => keywordAt_straddle hj hnot hend)
    simp only [List.append_assoc]
    exact h

theorem class_round_trip_witness :
    extractClassInfo Province "TABLEProvinceSCHEMAupdate".toList
      = .ok { table := some (.string "Province".toList),
              schema := some (.string "update".toList) } ∧
    extractClassInfo Province "SCHEMAupdateTABLEProvince".toList
      = .ok { table := some (.string "Province".toList),
              schema := some (.string "update".toList) } ∧
    extractClassInfo Province "TABLEProvinceSCHEMAupdate".toList
      = .ok { table := some (.string "Province".toList),
              schema := some (.string "update".toList) } :=
  class_round_trip Province "Province".toList "update".toList (by decide) (by decide)
    (by decide) (by decide) (by decide) (by decide)

/-- C28 (leftmost keyword search).  For every string `data`, start index `s` and keyword
table `K` (`ClassKeywords` or `PropertyKeywords`): when `findNextKeyword data s K` returns an
index `i` with a keyword, `i` is the least index from `s` on at which a token of `K` occurs
in `data`, and the keyword is the entry of `K` whose token occurs there; whenever a token
occurs at an index from `s` on, an index is returned; the result is `none` (the pair of `-1`
and the null pointer) exactly when no token of `K` occurs at any index from `s` on; and the
search without the upper-case pre-check returns the same result. -/
theorem leftmost_search (data : QString) (s : Nat) (K : List KeywordDescriptor)
    (hK : K = ClassKeywords ∨ K = PropertyKeywords) :
    (∀ i kw, findNextKeyword data s K = some (i, kw) →
      s ≤ i ∧ kw ∈ K ∧ kw.token <+: data.drop i ∧
      (∀ kw' ∈ K, kw'.token <+: data.drop i → kw' = kw) ∧
      ∀ j, s ≤ j → j < i → ∀ kw' ∈ K, ¬ kw'.token <+: data.drop j) ∧
    (∀ j kw', s ≤ j → kw' ∈ K → kw'.token <+: data.drop j →
      ∃ i kw, findNextKeyword data s K = some (i, kw) ∧ i ≤ j) ∧
    (findNextKeyword data s K = none ↔
      ∀ j, s ≤ j → ∀ kw' ∈ K, ¬ kw'.token <+: data.drop j) ∧
    findNextKeywordUnchecked data s K = findNextKeyword data s K := by
  have hU := upperTokens_of_table hK
  have hleft : ∀ i kw, findNextKeyword data s K = some (i, kw) →
      s ≤ i ∧ kw ∈ K ∧ kw.token <+: data.drop i ∧
      (∀ kw' ∈ K, kw'.token <+: data.drop i → kw' = kw) ∧
      ∀ j, s ≤ j → j < i → ∀ kw' ∈ K, ¬ kw'.token <+: data.drop j := by
    intro i kw h
    obtain ⟨h1, h2, h3⟩ := findNextKeyword_leftmost hU h
    obtain ⟨hmem, hpre⟩ := keywordAt_some h2
    exact ⟨h1, hmem, hpre, fun kw' hkw' hp => token_unique hK hkw' hmem hp hpre,
      fun j hs hj => keywordAt_none.1 (h3 j hs hj)⟩
  have hnone : findNextKeyword data s K = none ↔
      ∀ j, s ≤ j → ∀ kw' ∈ K, ¬ kw'.token <+: data.drop j := by
    rw [findNextKeyword_none hU]
    constructor
    · intro h j hj
      exact keywordAt_none.1 (h j hj)
    · intro h j hj
      exact keywordAt_none.2 (h j hj)
  refine ⟨hleft, ?_, hnone, ?_⟩
  · intro j kw' hj hkw' hp
    cases hf : findNextKeyword data s K with
    | none => exact absurd hp (hnone.1 hf j hj kw' hkw')
    | some r =>
      obtain ⟨i, kw⟩ := r
      refine ⟨i, kw, rfl, ?_⟩
      by_contra hlt
      exact (hleft i kw hf).2.2.2.2 j hj (by omega) kw' hkw' hp
  · unfold findNextKeywordUnchecked findNextKeyword
    exact findNextKeywordUncheckedFrom_eq hU _ _

theorem leftmost_search_witness :
    findNextKeyword "idCOLUMNprovince_idAUTOGENERATEDIDENTITY".toList 3 PropertyKeywords
      = some (19, ⟨.Autogenerated, "AUTOGENERATED".toList⟩) ∧
    findNextKeyword "TABLEProvince".toList 1 ClassKeywords = none ∧
    findNextKeywordUnchecked "idCOLUMNprovince_idAUTOGENERATEDIDENTITY".toList 3 PropertyKeywords
      = findNextKeyword "idCOLUMNprovince_idAUTOGENERATEDIDENTITY".toList 3 PropertyKeywords :=
  ⟨by decide, by decide,
    (leftmost_search "idCOLUMNprovince_idAUTOGENERATEDIDENTITY".toList 3 PropertyKeywords
      (Or.inr rfl)).2.2.2⟩

/-- C25, as stated, fails: `Counter` exposes a public invokable constructor with one
argument, and `validateConstructor` rejects it, because the argument is not a `QObject*`. -/
theorem constructor_validation_counterexample :
    Counter.constructors.map (fun ctor => (ctor.access, ctor.parameterCount))
      = [(Access.Public, 1)] ∧
    QOrmMetadataCachePrivate.validateConstructor Counter = .fatal .invalidConstructor ∧
    QOrmMetadataCachePrivate.get sampleRegistry 7 {} Counter = .fatal .invalidConstructor := by
  decide

/-- C25 (constructor validation), amended.  An entity passes `validateConstructor` when it
exposes at least one invokable constructor and each of them is public and takes no argument
or the one argument `QObject*`; when none of its invokable constructors is of that kind,
`validateConstructor` fails and `get`, for an entity that is not in the cache, stops with
the constructor-shape error. -/
theorem constructor_validation (mo : QMetaObject) :
    (mo.constructors ≠ [] → (∀ ctor ∈ mo.constructors, UsableConstructor ctor) →
      QOrmMetadataCachePrivate.validateConstructor mo = .ok ()) ∧
    ((∀ ctor ∈ mo.constructors, ¬ UsableConstructor ctor) →
      QOrmMetadataCachePrivate.validateConstructor mo = .fatal .invalidConstructor ∧
      ∀ (reg : MetaTypeRegistry) (n : Nat) (st : QOrmMetadataCachePrivate),
        QHash.find mo.className st.m_cache = none →
        QOrmMetadataCachePrivate.get reg (n + 1) st mo = .fatal .invalidConstructor) := by
  constructor
  · intro hne hall
    unfold QOrmMetadataCachePrivate.validateConstructor
    dsimp only
    have hlen : ¬ (mo.constructors.length = 0) := by
      intro h0
      exact hne (List.length_eq_zero.1 h0)
    rw [if_neg hlen, validateConstructorLoop_false _ hall]
    rfl
  · intro hnone
    have hv : QOrmMetadataCachePrivate.validateConstructor mo = .fatal .invalidConstructor := by
      unfold QOrmMetadataCachePrivate.validateConstructor
      dsimp only
      by_cases hlen : mo.constructors.length = 0
      · rw [if_pos hlen]; rfl
      · rw [if_neg hlen,
          validateConstructorLoop_true _ (fun h0 => hlen (by rw [h0]; rfl)) hnone]
        rfl
    refine ⟨hv, ?_⟩
    intro reg n st hfresh
    exact get_fatal reg n hfresh (initialize_fatal_constructor reg _ st _ mo hv)

theorem constructor_validation_witness :
    QOrmMetadataCachePrivate.validateConstructor Province = .ok () ∧
    (QOrmMetadataCachePrivate.validateConstructor Counter = .fatal .invalidConstructor ∧
      ∀ (reg : MetaTypeRegistry) (n : Nat) (st : QOrmMetadataCachePrivate),
        QHash.find Counter.className st.m_cache = none →
        QOrmMetadataCachePrivate.get reg (n + 1) st Counter = .fatal .invalidConstructor) :=
  ⟨(constructor_validation Province).1 (by decide)
      (by
        intro ctor hc
        have : ctor = invokableConstructor := by simpa [Province] using hc
        subst this
        exact ⟨rfl, Or.inr rfl⟩),
    (constructor_validation Counter).2
      (by
        intro ctor hc
        have : ctor = { access := .Public, parameterTypes := ["int".toList] } := by
          simpa [Counter] using hc
        subst this
        rintro ⟨_, h | h⟩
        · cases h
        · exact absurd h (by decide))⟩

/-- C26 (capability validation).  Whenever `get` constructs an entity, every property whose
mapping is not transient is readable, writable and has a valid notify signal.  When the
property loop of an entity that is not in the cache reaches a property whose descriptor is
not transient and that lacks one of these capabilities, `get` stops with the error "must
have READ, WRITE, and NOTIFY declarations".  For a property whose descriptor is transient
the loop does not stop with that error, whatever the capabilities: if an iteration that
starts at such a property yields the error, a later iteration does. -/
theorem capability_validation (reg : MetaTypeRegistry) :
    (∀ (fuel : Nat) (st st' : QOrmMetadataCachePrivate) (mo : QMetaObject) (k : QByteArray),
      QOrmMetadataCachePrivate.get reg fuel st mo = .ok (k, st') →
      QHash.find mo.className st.m_cache = none →
      ∃ data, QHash.find k st'.m_cache = some data ∧
        List.Forall₂
          (fun p m => m.qMetaProperty = p ∧
            (m.isTransient = false →
              p.isReadable = true ∧ p.isWritable = true ∧ p.hasNotifySignal = true ∧
                p.notifySignalIsValid = true))
          (ownProperties mo) data.m_propertyMappings) ∧
    (∀ (fuel : Nat) (st st3 st1 : QOrmMetadataCachePrivate) (mo : QMetaObject)
      (ci : QOrmUserMetadata) (pi : QHash QString QOrmUserMetadata) (p : QMetaProperty)
      (before after : List QMetaProperty) (d : MappingDescriptor),
      QHash.find mo.className st.m_cache = none →
      QOrmMetadataCachePrivate.validateConstructor mo = .ok () →
      initializeClassInfos mo mo.classInfos {} [] = .ok (ci, pi) →
      mo.properties = before ++ p :: after →
      initializeProperties reg ( QOrmMetadataCachePrivate.get reg fuel) mo.className mo pi before
        (classDataSet (placeholderCached st mo.className mo) mo.className mo ci) = .ok st3 →
      p.enclosedByQObject = false →
      QOrmMetadataCachePrivate.mappingDescriptor reg ( QOrmMetadataCachePrivate.get reg fuel) st3
        mo p (QHash.value pi p.name {}) = .ok (d, st1) →
      d.isTransient = false →
      ¬ (p.isReadable = true ∧ p.isWritable = true ∧ p.hasNotifySignal = true ∧
        p.notifySignalIsValid = true) →
      QOrmMetadataCachePrivate.get reg (fuel + 1) st mo = .fatal .missingReadWriteNotify) ∧
    (∀ (g : Getter) (c : QByteArray) (mo : QMetaObject) (pi : QHash QString QOrmUserMetadata)
      (p : QMetaProperty) (rest : List QMetaProperty) (st st1 : QOrmMetadataCachePrivate)
      (d : MappingDescriptor),
      p.enclosedByQObject = false →
      QOrmMetadataCachePrivate.mappingDescriptor reg g st mo p (QHash.value pi p.name {})
        = .ok (d, st1) →
      d.isTransient = true →
      initializeProperties reg g c mo pi (p :: rest) st = .fatal .missingReadWriteNotify →
      initializeProperties reg g c mo pi rest
        (mappingAppended st1 c p d (QHash.value pi p.name {})) = .fatal .missingReadWriteNotify) := by
  refine ⟨?_, ?_, ?_⟩
  · intro fuel st st' mo k h hfresh
    obtain ⟨ci, pi, data, _, hf, _, _, _, _, hall⟩ := get_record h hfresh
    refine ⟨data, hf, hall.imp ?_⟩
    intro p m hm
    exact ⟨hm.flags.1, hm.capable⟩
  · intro fuel st st3 st1 mo ci pi p before after d hfresh hv hci hps hbefore hb hm ht hcap
    apply get_fatal reg fuel hfresh
    apply initialize_fatal reg _ st mo.className mo hv hci
    rw [hps, initializeProperties_append reg _ mo.className mo pi before (p :: after) _ st3 hbefore]
    exact initializeProperties_incapable reg _ mo.className mo pi after hb hm ht hcap
  · intro g c mo pi p rest st st1 d hb hm ht h
    rw [initializeProperties_transient reg g c mo pi rest hb hm ht] at h
    split at h
    · cases h
    · split at h
      · cases h
      · split at h
        · cases h
        · exact h

theorem capability_validation_witness :
    (QOrmMetadataCachePrivate.get sampleRegistry 1 {} Note).toOption.map
        (fun r => (QHash.find "Note".toList r.2.m_cache).map
          (fun d => d.m_propertyMappings.map
            (fun m => (m.classPropertyName, m.isTransient, m.qMetaProperty.isWritable))))
      = some (some [("id".toList, false, true), ("summary".toList, true, false)]) ∧
    QOrmMetadataCachePrivate.get sampleRegistry 1 {} Invoice = .fatal .missingReadWriteNotify :=
  ⟨rfl, (capability_validation sampleRegistry).2.1 0 {}
    (mappingAppended
      (classDataSet (placeholderCached {} "Invoice".toList Invoice) "Invoice".toList Invoice {})
      "Invoice".toList (intProperty "id".toList)
      (baseDescriptor (intProperty "id".toList) {}) {})
    _ Invoice {} [] _ [objectNameProperty, intProperty "id".toList] [] _
    rfl rfl rfl rfl rfl rfl rfl rfl (by decide)⟩

/-- C23 (duplicate declarations are rejected).  For every entity that is not in the cache,
`get` fails when two of the class-info entries of the entity are class-level declarations,
and when two of its property-level declaration entries parse to the same property name. -/
theorem duplicates_rejected (reg : MetaTypeRegistry) (n : Nat) (st : QOrmMetadataCachePrivate)
    (mo : QMetaObject) (hfresh : QHash.find mo.className st.m_cache = none) :
    (2 ≤ (mo.classInfos.filter (fun x => decide (x.name = "QtOrmClassInfo".toList))).length →
      ∃ e, QOrmMetadataCachePrivate.get reg (n + 1) st mo = .fatal e) ∧
    (∀ (pre middle post : List QMetaClassInfo) (a b : QMetaClassInfo)
      (ia ib : QOrmUserMetadata),
      mo.classInfos = pre ++ a :: (middle ++ b :: post) →
      a.name = "QtOrmPropertyInfo".toList → b.name = "QtOrmPropertyInfo".toList →
      extractPropertyInfo mo a.value = .ok ia → extractPropertyInfo mo b.value = .ok ib →
      (ia.value .Property (.string [])).toString = (ib.value .Property (.string [])).toString →
      ∃ e, QOrmMetadataCachePrivate.get reg (n + 1) st mo = .fatal e) := by
  constructor
  · intro h
    exact get_fatal_classInfos reg n hfresh (initializeClassInfos_twice mo _ _ _ h)
  · intro pre middle post a b ia ib hcis han hbn hap hbp hsame
    apply get_fatal_classInfos reg n hfresh
    rw [hcis]
    exact initializeClassInfos_same mo middle post han hbn hap hbp hsame pre _ _

theorem duplicates_rejected_witness :
    ((∃ e, QOrmMetadataCachePrivate.get sampleRegistry 1 {} Depot = .fatal e) ∧
      QOrmMetadataCachePrivate.get sampleRegistry 1 {} Depot = .fatal .duplicateClassInfo) ∧
    ((∃ e, QOrmMetadataCachePrivate.get sampleRegistry 1 {} Shelf = .fatal e) ∧
      QOrmMetadataCachePrivate.get sampleRegistry 1 {} Shelf = .fatal .duplicatePropertyInfo) :=
  ⟨⟨(duplicates_rejected sampleRegistry 0 {} Depot rfl).1 (by decide), by decide⟩,
    ⟨(duplicates_rejected sampleRegistry 0 {} Shelf rfl).2 []
      [{ name := "QtOrmClassInfo".toList, value := "TABLEshelf".toList }] []
      { name := "QtOrmPropertyInfo".toList, value := "nameCOLUMNtitle".toList }
      { name := "QtOrmPropertyInfo".toList, value := "nameTRANSIENT".toList }
      { column := some (.string "title".toList), property := some (.string "name".toList) }
      { transient := some (.bool true), property := some (.string "name".toList) }
      rfl rfl rfl (by decide) (by decide) rfl, by decide⟩⟩

/-- C27 (read API soundness).  For every record of a cache state reached from the empty
cache by successful calls of `get`: `classPropertyMapping n`, `tableFieldMapping f` and
`objectIdMapping` return `none` (the null pointer) exactly when no mapping of the list has
the class-property name `n`, the table-field name `f`, or is marked as the identity, and
what they return otherwise is a mapping of the list with that name, that field name, or
that mark; every index stored in the record is a position of the list. -/
theorem read_api_sound {reg : MetaTypeRegistry} {st : QOrmMetadataCachePrivate}
    (h : Reachable reg st) {T : QByteArray} {d : QOrmMetadataPrivate}
    (hf : QHash.find T st.m_cache = some d) :
    (∀ n, (d.classPropertyMapping n = none ↔
        ∀ m ∈ d.m_propertyMappings, m.classPropertyName ≠ n) ∧
      ∀ m, d.classPropertyMapping n = some m →
        m ∈ d.m_propertyMappings ∧ m.classPropertyName = n) ∧
    (∀ f, (d.tableFieldMapping f = none ↔
        ∀ m ∈ d.m_propertyMappings, m.tableFieldName ≠ f) ∧
      ∀ m, d.tableFieldMapping f = some m →
        m ∈ d.m_propertyMappings ∧ m.tableFieldName = f) ∧
    ((d.objectIdMapping = none ↔ ∀ m ∈ d.m_propertyMappings, m.isObjectId = false) ∧
      ∀ m, d.objectIdMapping = some m → m ∈ d.m_propertyMappings ∧ m.isObjectId = true) ∧
    (∀ n i, QHash.find n d.m_classPropertyMappingIndex = some i →
      0 ≤ i ∧ i.toNat < d.m_propertyMappings.length) ∧
    (∀ f i, QHash.find f d.m_tableFieldMappingIndex = some i →
      0 ≤ i ∧ i.toNat < d.m_propertyMappings.length) ∧
    (d.m_objectIdPropertyMappingIdx = -1 ∨
      (0 ≤ d.m_objectIdPropertyMappingIdx ∧
        d.m_objectIdPropertyMappingIdx.toNat < d.m_propertyMappings.length)) := by
  obtain ⟨hc, ht⟩ := reachable_records indexesSound_invariant h T d hf
  have hl := reachable_records lastIdentity_invariant h T d hf
  have hid := hl.designates
  refine ⟨fun n => hc.lookup n, fun f => ht.lookup f, ⟨?_, ?_⟩, ?_, ?_, ?_⟩
  · rw [hid]
    unfold identityMappings
    rw [List.getLast?_eq_none_iff, List.filter_eq_nil_iff]
    simp
  · intro m hm
    rw [hid] at hm
    have hmem : m ∈ identityMappings d := List.mem_of_getLast?_eq_some hm
    unfold identityMappings at hmem
    obtain ⟨h1, h2⟩ := List.mem_filter.1 hmem
    exact ⟨h1, h2⟩
  · intro n i hi
    obtain ⟨h0, hlt, _⟩ := (hc n).2 i hi
    exact ⟨h0, hlt⟩
  · intro f i hi
    obtain ⟨h0, hlt, _⟩ := (ht f).2 i hi
    exact ⟨h0, hlt⟩
  · rcases hl with ⟨h1, _⟩ | ⟨h0, hlt, _⟩
    · exact Or.inl h1
    · exact Or.inr ⟨h0, hlt⟩

theorem read_api_sound_witness :
    (∀ n, (sampleRecordB.classPropertyMapping n = none ↔
        ∀ m ∈ sampleRecordB.m_propertyMappings, m.classPropertyName ≠ n) ∧
      ∀ m, sampleRecordB.classPropertyMapping n = some m →
        m ∈ sampleRecordB.m_propertyMappings ∧ m.classPropertyName = n) ∧
    (sampleRecordB.classPropertyMapping "a".toList).map (fun m => m.tableFieldName)
      = some "a_id".toList ∧
    (sampleRecordB.tableFieldMapping "a_id".toList).map (fun m => m.classPropertyName)
      = some "a".toList ∧
    sampleRecordB.tableFieldMapping "a".toList = none ∧
    sampleRecordB.objectIdMapping.map (fun m => m.classPropertyName) = some "id".toList :=
  ⟨(read_api_sound
      (Reachable.resolve Reachable.empty
        (show QOrmMetadataCachePrivate.get sampleRegistry 2 {} sampleA
          = .ok ("A".toList, sampleCache) from rfl))
      (show QHash.find "B".toList sampleCache.m_cache = some sampleRecordB from rfl)).1,
    rfl, rfl, rfl, rfl⟩

/-- C29 (resolution-state invariant).  Whenever `get` is entered, by a top-level call on a
state reached from the empty cache or by a recursive call from `mappingDescriptor`, the
under-construction set and the constructed set are disjoint and every name in either set
is a key of the cache; the same holds of the state that a successful call returns, in which
the requested record is present; and no call misses a lookup: `get` never stops with
`outOfRange`, the result of `m_cache.at` on a missing key and of the failed assertion of
`validateCrossReferences`. -/
theorem resolution_state_invariant {reg : MetaTypeRegistry} {st : QOrmMetadataCachePrivate}
    {mo : QMetaObject} (h : Entered reg st mo) :
    ((∀ x ∈ st.m_underConstruction, x ∉ st.m_constructed) ∧
      (∀ x ∈ st.m_underConstruction, QHash.contains st.m_cache x = true) ∧
      (∀ x ∈ st.m_constructed, QHash.contains st.m_cache x = true)) ∧
    (∀ fuel k st', QOrmMetadataCachePrivate.get reg fuel st mo = .ok (k, st') →
      (∀ x ∈ st'.m_underConstruction, x ∉ st'.m_constructed) ∧
      (∀ x ∈ st'.m_underConstruction, QHash.contains st'.m_cache x = true) ∧
      (∀ x ∈ st'.m_constructed, QHash.contains st'.m_cache x = true) ∧
      QHash.contains st'.m_cache mo.className = true) ∧
    (∀ fuel, QOrmMetadataCachePrivate.get reg fuel st mo ≠ .fatal .outOfRange) := by
  obtain ⟨hs, hr⟩ := entered_wellFormed h
  refine ⟨⟨hs.disjoint, hs.ucCached, hs.conCached⟩, ?_, ?_⟩
  · intro fuel k st' hget
    have hs' := get_stateInv hget hs
    have hpost := get_spec reg fuel _ _ _ _ hget
    have hp := hpost.present
    rw [hpost.key] at hp
    exact ⟨hs'.disjoint, hs'.ucCached, hs'.conCached, hp⟩
  · intro fuel
    exact get_safe reg fuel st mo hs hr

theorem resolution_state_invariant_witness :
    (nestedEntryState.m_underConstruction = ["A".toList] ∧
      nestedEntryState.m_constructed = [] ∧
      nestedEntryState.m_cache.map Prod.fst = ["A".toList]) ∧
    (((∀ x ∈ nestedEntryState.m_underConstruction, x ∉ nestedEntryState.m_constructed) ∧
      (∀ x ∈ nestedEntryState.m_underConstruction,
        QHash.contains nestedEntryState.m_cache x = true) ∧
      (∀ x ∈ nestedEntryState.m_constructed,
        QHash.contains nestedEntryState.m_cache x = true)) ∧
    (∀ fuel k st',
      QOrmMetadataCachePrivate.get sampleRegistry fuel nestedEntryState sampleB = .ok (k, st') →
      (∀ x ∈ st'.m_underConstruction, x ∉ st'.m_constructed) ∧
      (∀ x ∈ st'.m_underConstruction, QHash.contains st'.m_cache x = true) ∧
      (∀ x ∈ st'.m_constructed, QHash.contains st'.m_cache x = true) ∧
      QHash.contains st'.m_cache sampleB.className = true) ∧
    (∀ fuel, QOrmMetadataCachePrivate.get sampleRegistry fuel nestedEntryState sampleB
      ≠ .fatal .outOfRange)) ∧
    ((resultState (QOrmMetadataCachePrivate.get sampleRegistry 1 nestedEntryState sampleB)
        ).m_underConstruction = ["A".toList] ∧
      (resultState (QOrmMetadataCachePrivate.get sampleRegistry 1 nestedEntryState sampleB)
        ).m_constructed = ["B".toList]) :=
  ⟨⟨rfl, rfl, rfl⟩,
    resolution_state_invariant
      (Entered.nested (Entered.top sampleA Reachable.empty)
        (show QHash.find sampleA.className ({} : QOrmMetadataCachePrivate).m_cache = none
          from rfl)
        (show QOrmMetadataCachePrivate.validateConstructor sampleA = .ok () from rfl)
        (show initializeClassInfos sampleA sampleA.classInfos {} [] = .ok ({}, []) from rfl)
        (show sampleA.properties = [objectNameProperty, intProperty "id".toList]
          ++ userProperty "bs".toList "QVector<B*>".toList :: [] from rfl)
        (show initializeProperties sampleRegistry
            ( QOrmMetadataCachePrivate.get sampleRegistry 0) sampleA.className sampleA []
            [objectNameProperty, intProperty "id".toList]
            (classDataSet (placeholderCached {} sampleA.className sampleA) sampleA.className
              sampleA {}) = .ok nestedEntryState from rfl)
        rfl rfl (by decide) rfl
        (show QMetaType.metaObjectForType sampleRegistry
            (QMetaType.type sampleRegistry
              (referencedTypeName (userProperty "bs".toList "QVector<B*>".toList)))
          = some sampleB from rfl)),
    ⟨rfl, rfl⟩⟩

/-- C24 (cross-reference validation rejects every violation).  Let a top-level call of
`get`, on a state reached from the empty cache, construct an entity: the constructor check,
the class-info loop and the property loop succeed.  If in the state that is then reached
some constructed entity has a transient reference mapping whose target has no reference
mapping back to the owner, or a reference mapping that is not transient whose target has no
identity mapping, the call stops with the missing-back-reference error or with the
missing-identity error. -/
theorem cross_references_enforced {reg : MetaTypeRegistry} {st : QOrmMetadataCachePrivate}
    (hr : Reachable reg st) (n : Nat) (mo : QMetaObject) {ci : QOrmUserMetadata}
    {pi : QHash QString QOrmUserMetadata} {st4 : QOrmMetadataCachePrivate}
    (hfresh : QHash.find mo.className st.m_cache = none)
    (hv : QOrmMetadataCachePrivate.validateConstructor mo = .ok ())
    (hci : initializeClassInfos mo mo.classInfos {} [] = .ok (ci, pi))
    (hp : initializeProperties reg ( QOrmMetadataCachePrivate.get reg n) mo.className mo pi
      mo.properties (classDataSet (placeholderCached st mo.className mo) mo.className mo ci)
        = .ok st4)
    (hviol : CrossRefViolation (markConstructed st4 mo.className)) :
    QOrmMetadataCachePrivate.get reg (n + 1) st mo = .fatal .missingBackReference ∨
      QOrmMetadataCachePrivate.get reg (n + 1) st mo = .fatal .missingObjectId := by
  obtain ⟨hs, hrc⟩ := reachable_wellFormed hr
  have hl := reachable_records lastIdentity_invariant hr
  have hu := (reachable_inv hr).1
  have h2 := stateInv_placeholder hs mo.className mo ci hfresh
  have r2 := refsCached_placeholder hrc mo.className mo ci hfresh
  have l2 := recordInvariant_placeholder lastIdentity_invariant mo.className mo ci hfresh hl
  obtain ⟨f, r⟩ := initializeProperties_keepsInv (get_spec reg n) (get_keepsInv reg n)
    mo.className mo pi _ _ _ hp
  have hext := initializeProperties_ext (get_spec reg n) mo.className mo pi _ _ _ hp
  have h4 := stateInv_of_ext hext f h2
  have l4 : AllRecords LastIdentity st4 :=
    initializeProperties_keeps lastIdentity_invariant (get_keeps lastIdentity_invariant reg n)
      mo.className mo pi _ _ _ hp l2
  have hu4 : st4.m_underConstruction = QSet.insert mo.className st.m_underConstruction :=
    hext.uc h2.ucCached
  have hc4 : mo.className ∈ st4.m_underConstruction := by
    rw [hu4]
    exact (QSet.mem_insert_iff _ _ _).2 (Or.inl rfl)
  have h5 := stateInv_markConstructed h4 hc4
  have r5 : RefsCached (markConstructed st4 mo.className) := r r2
  have l5 : AllRecords LastIdentity (markConstructed st4 mo.className) := l4
  have hu5 : QSet.empty (markConstructed st4 mo.className).m_underConstruction = true := by
    show QSet.empty (QSet.remove mo.className st4.m_underConstruction) = true
    rw [hu4, hu, QSet.remove_insert_of_not_mem _ _ (List.not_mem_nil _)]
    rfl
  have hrun := initialize_run reg ( QOrmMetadataCachePrivate.get reg n) st mo.className mo
    hv hci hp
  rw [if_pos hu5] at hrun
  rcases validateCrossReferences_violation h5 r5 l5 hviol with hx | hx
  · rw [hx] at hrun
    exact Or.inl (get_fatal reg n hfresh hrun)
  · rw [hx] at hrun
    exact Or.inr (get_fatal reg n hfresh hrun)

theorem cross_references_enforced_witness :
    (QOrmMetadataCachePrivate.get relationRegistry 3 {} Village = .fatal .missingBackReference ∨
      QOrmMetadataCachePrivate.get relationRegistry 3 {} Village = .fatal .missingObjectId) ∧
    QOrmMetadataCachePrivate.get relationRegistry 3 {} Village = .fatal .missingObjectId ∧
    QOrmMetadataCachePrivate.get relationRegistry 3 {} Album = .fatal .missingBackReference :=
  ⟨cross_references_enforced Reachable.empty 2 Village
    (show QHash.find Village.className ({} : QOrmMetadataCachePrivate).m_cache = none from rfl)
    (show QOrmMetadataCachePrivate.validateConstructor Village = .ok () from rfl)
    (show initializeClassInfos Village Village.classInfos {} [] = .ok ({}, []) from rfl)
    (show initializeProperties relationRegistry
        ( QOrmMetadataCachePrivate.get relationRegistry 2) Village.className Village []
        Village.properties
        (classDataSet (placeholderCached {} Village.className Village) Village.className
          Village {}) = .ok (constructionEnd relationRegistry 2 Village) from rfl)
    ⟨"Village".toList, by decide, _, rfl, _,
      List.mem_cons_of_mem _ (List.mem_cons_self _ _), "Region".toList, _, rfl, rfl,
      Or.inr ⟨rfl, by decide⟩⟩,
    rfl, rfl⟩

/-- C22: string keyword values are mandatory. Parsing fails whenever the token of `TABLE` or
`SCHEMA` in a class-level declaration, or the token of `COLUMN` in a property-level
declaration, is followed immediately by the end of the string or by the token of a keyword
of the same level; and in the result of a successful parse every entry for Table, Schema
and Column is a non-empty string. -/
theorem string_values_mandatory (mo : QMetaObject) (d : QString) :
    (∀ i kw, kw ∈ ClassKeywords → kw.token <+: d.drop i →
      (d.drop (i + kw.token.length) = [] ∨
        ∃ kw' ∈ ClassKeywords, kw'.token <+: d.drop (i + kw.token.length)) →
      ∃ e, extractClassInfo mo d = .fatal e) ∧
    (∀ i kw, kw ∈ PropertyKeywords → kw.id = Keyword.Column → kw.token <+: d.drop i →
      (d.drop (i + kw.token.length) = [] ∨
        ∃ kw' ∈ PropertyKeywords, kw'.token <+: d.drop (i + kw.token.length)) →
      ∃ e, extractPropertyInfo mo d = .fatal e) ∧
    (∀ info, extractClassInfo mo d = .ok info →
      ∀ k v, k = Keyword.Table ∨ k = Keyword.Schema ∨ k = Keyword.Column →
        info.find k = some v → ∃ s, v = .string s ∧ s ≠ []) ∧
    (∀ info, extractPropertyInfo mo d = .ok info →
      ∀ k v, k = Keyword.Table ∨ k = Keyword.Schema ∨ k = Keyword.Column →
        info.find k = some v → ∃ s, v = .string s ∧ s ≠ []) := by
  refine ⟨?_, ?_, ?_, ?_⟩
  · intro i kw hkw hp hfol
    have hid : kw.id = .Table ∨ kw.id = .Schema ∨ kw.id = .Column := by
      simp only [ClassKeywords, List.mem_cons, List.mem_singleton, List.not_mem_nil,
        or_false] at hkw
      rcases hkw with rfl | rfl
      · exact Or.inl rfl
      · exact Or.inr (Or.inl rfl)
    have hbad : recordedValue kw.id (valueText ClassKeywords d i kw) = none := by
      unfold valueText
      rw [extractString_empty (Or.inl rfl) hfol]
      exact recordedValue_empty hid
    cases h0 : findNextKeyword d 0 ClassKeywords with
    | none =>
      unfold extractClassInfo
      dsimp only
      rw [h0]
      exact ⟨_, rfl⟩
    | some pk =>
      obtain ⟨p, kw0⟩ := pk
      cases p with
      | zero =>
        exact (extractClassInfo_pass mo d h0).2
          (recordAll_none_of_invalid ClassKeywords d {} (class_occurrence_visited h0 hkw hp)
            hbad)
      | succ p =>
        unfold extractClassInfo
        dsimp only
        rw [h0]
        exact ⟨_, rfl⟩
  · intro i kw hkw hid hp hfol
    have hbad : recordedValue kw.id (valueText PropertyKeywords d i kw) = none := by
      unfold valueText
      rw [extractString_empty (Or.inr rfl) hfol]
      exact recordedValue_empty (Or.inr (Or.inr hid))
    cases h0 : findNextKeyword d 0 PropertyKeywords with
    | none =>
      unfold extractPropertyInfo
      rw [h0]
      exact ⟨_, rfl⟩
    | some pk =>
      obtain ⟨p, kw0⟩ := pk
      rcases property_occurrence_visited h0 hkw hp with hv | ⟨ht, _⟩
      · exact (extractPropertyInfo_pass mo d h0).2.1
          (recordAll_none_of_invalid PropertyKeywords d _ hv hbad)
      · rw [hid] at ht
        cases ht
  · intro info h k v hk hf
    obtain ⟨kw0, h0, hr⟩ := extractClassInfo_recorded h
    rw [(recordAll_some ClassKeywords d _ _ info hr).2 k] at hf
    split at hf
    · exact ⟨_, recordedValue_string hk hf⟩
    · rcases hk with rfl | rfl | rfl <;> cases hf
  · intro info h k v hk hf
    cases h0 : findNextKeyword d 0 PropertyKeywords with
    | none =>
      unfold extractPropertyInfo at h
      rw [h0] at h
      cases h
    | some pk =>
      obtain ⟨p, kw0⟩ := pk
      obtain ⟨_, hr⟩ := (extractPropertyInfo_pass mo d h0).2.2 info h
      rw [(recordAll_some PropertyKeywords d _ _ info hr).2 k] at hf
      split at hf
      · exact ⟨_, recordedValue_string hk hf⟩
      · rw [find_insert] at hf
        rcases hk with rfl | rfl | rfl <;> cases hf

theorem string_values_mandatory_witness :
    (∃ e, extractClassInfo Shelf "TABLEshelfSCHEMA".toList = .fatal e) ∧
    (∃ e, extractClassInfo Shelf "TABLESCHEMAmain".toList = .fatal e) ∧
    (∃ e, extractPropertyInfo Shelf "nameCOLUMNIDENTITY".toList = .fatal e) ∧
    (∀ k v, k = Keyword.Table ∨ k = Keyword.Schema ∨ k = Keyword.Column →
      QOrmUserMetadata.find
        (({} : QOrmUserMetadata).insert .Table (.string "shelf".toList)) k = some v →
      ∃ s, v = .string s ∧ s ≠ []) :=
  ⟨(string_values_mandatory Shelf "TABLEshelfSCHEMA".toList).1 10
      ⟨.Schema, "SCHEMA".toList⟩ (by decide) (by decide) (Or.inl rfl),
   (string_values_mandatory Shelf "TABLESCHEMAmain".toList).1 0
      ⟨.Table, "TABLE".toList⟩ (by decide) (by decide)
      (Or.inr ⟨⟨.Schema, "SCHEMA".toList⟩, by decide, by decide⟩),
   (string_values_mandatory Shelf "nameCOLUMNIDENTITY".toList).2.1 4
      ⟨.Column, "COLUMN".toList⟩ (by decide) rfl (by decide)
      (Or.inr ⟨⟨.Identity, "IDENTITY".toList⟩, by decide, by decide⟩),
   (string_values_mandatory Shelf "TABLEshelf".toList).2.2.1 _ rfl⟩

/-- C21: boolean keyword values. For an occurrence of the token of `IDENTITY`, `TRANSIENT` or
`AUTOGENERATED` in a property-level declaration, with `v` the text between the token and the
next keyword or the end of the string: parsing fails when `v` is neither empty nor `true`
nor `false`; and when parsing succeeds and the occurrence is the last one of its keyword,
the recorded value is `true` if `v` is empty or `true`, and `false` if `v` is `false`. -/
theorem boolean_values (mo : QMetaObject) (d : QString) (i : Nat) (kw : KeywordDescriptor)
    (hkw : kw ∈ PropertyKeywords)
    (hid : kw.id = Keyword.Identity ∨ kw.id = Keyword.Transient ∨
      kw.id = Keyword.Autogenerated)
    (hp : kw.token <+: d.drop i) :
    (valueText PropertyKeywords d i kw ≠ [] →
      valueText PropertyKeywords d i kw ≠ "true".toList →
      valueText PropertyKeywords d i kw ≠ "false".toList →
      ∃ e, extractPropertyInfo mo d = .fatal e) ∧
    (∀ info, extractPropertyInfo mo d = .ok info →
      (∀ j, i < j → ¬ kw.token <+: d.drop j) →
      (valueText PropertyKeywords d i kw = [] ∨
          valueText PropertyKeywords d i kw = "true".toList →
        info.find kw.id = some (.bool true)) ∧
      (valueText PropertyKeywords d i kw = "false".toList →
        info.find kw.id = some (.bool false))) := by
  cases h0 : findNextKeyword d 0 PropertyKeywords with
  | none =>
    have hf : extractPropertyInfo mo d = .fatal .noKeywordInProperty := by
      unfold extractPropertyInfo
      rw [h0]
    refine ⟨fun _ _ _ => ⟨_, hf⟩, fun info h => ?_⟩
    rw [hf] at h
    cases h
  | some pk =>
    obtain ⟨p0, kw0⟩ := pk
    obtain ⟨_, hat0, _⟩ := findNextKeyword_leftmost upperTokens_property h0
    rcases property_occurrence_visited h0 hkw hp with hv | ⟨ht, p, a, ha, hi, hpa, hma, hva⟩
    · refine ⟨fun h1 h2 h3 => ?_, fun info h hlast => ?_⟩
      · refine (extractPropertyInfo_pass mo d h0).2.1
          (recordAll_none_of_invalid PropertyKeywords d _ hv ?_)
        show recordedValue kw.id (valueText PropertyKeywords d i kw) = none
        rw [recordedValue_boolean hid, (decodeBoolean_eq _).2.2 h1 h2 h3]
        rfl
      · obtain ⟨_, hr⟩ := (extractPropertyInfo_pass mo d h0).2.2 info h
        have hf := recordAll_last (Or.inr rfl) d (d.length + 1) p0 kw0 hat0 hkw hv hlast hr
        rw [recordedValue_boolean hid] at hf
        refine ⟨fun hv1 => ?_, fun hv2 => ?_⟩
        · rw [(decodeBoolean_eq _).1 hv1] at hf
          exact hf
        · rw [(decodeBoolean_eq _).2.1 hv2] at hf
          exact hf
    · subst hi
      obtain ⟨e, he⟩ := (extractPropertyInfo_pass mo d h0).2.1
        (recordAll_none_of_invalid PropertyKeywords d _ hva
          (transient_overlap_invalid hma ha hkw ht hp))
      refine ⟨fun _ _ _ => ⟨e, he⟩, fun info h => ?_⟩
      rw [he] at h
      cases h

theorem boolean_values_witness :
    (∃ e, extractPropertyInfo Shelf "idIDENTITYyes".toList = .fatal e) ∧
    QOrmUserMetadata.find ((({} : QOrmUserMetadata).insert .Property
        (.string "id".toList)).insert .Identity (.bool true)) Keyword.Identity
      = some (.bool true) ∧
    QOrmUserMetadata.find (((({} : QOrmUserMetadata).insert .Property
        (.string "name".toList)).insert .Transient (.bool true)).insert .Transient
          (.bool false)) Keyword.Transient
      = some (.bool false) :=
  ⟨(boolean_values Shelf "idIDENTITYyes".toList 2 ⟨.Identity, "IDENTITY".toList⟩
      (by decide) (Or.inl rfl) (by decide)).1 (by decide) (by decide) (by decide),
   ((boolean_values Shelf "idIDENTITY".toList 2 ⟨.Identity, "IDENTITY".toList⟩
      (by decide) (Or.inl rfl) (by decide)).2 _ rfl
      (fun j hj hpre => by
        have h := hpre.length_le
        rw [List.length_drop] at h
        have e1 : ("IDENTITY".toList).length = 8 := rfl
        have e2 : ("idIDENTITY".toList).length = 10 := rfl
        rw [e2] at h
        change 8 ≤ 10 - j at h
        omega)).1 (Or.inl rfl),
   ((boolean_values Shelf "nameTRANSIENTtrueTRANSIENTfalse".toList 17
      ⟨.Transient, "TRANSIENT".toList⟩
      (by decide) (Or.inr (Or.inl rfl)) (by decide)).2 _ rfl
      (fun j hj hpre => by
        have h := hpre.length_le
        rw [List.length_drop] at h
        have e2 : ("nameTRANSIENTtrueTRANSIENTfalse".toList).length = 31 := rfl
        rw [e2] at h
        change 9 ≤ 31 - j at h
        have hj2 : j ≤ 22 := by omega
        revert hpre
        interval_cases j <;> decide)).2 rfl⟩

/-- C30: repeated keywords are last-wins. In a class-level declaration that begins with a
keyword, and in a property-level declaration whose text before the first keyword names a
property of the entity: when every occurrence of a keyword token has a valid value, parsing
succeeds and the entry recorded for a keyword is the value of the last occurrence of its
token. In particular `TABLEaTABLEb` records Table = `b`, and `idIDENTITYIDENTITYfalse`
records Identity = false on an entity with a property `id`. -/
theorem repeated_keywords_last_wins (mo : QMetaObject) (d : QString) :
    (∀ kw0, findNextKeyword d 0 ClassKeywords = some (0, kw0) →
      (∀ i kw, kw ∈ ClassKeywords → kw.token <+: d.drop i →
        valueText ClassKeywords d i kw ≠ []) →
      ∃ info, extractClassInfo mo d = .ok info ∧
        ∀ i kw, kw ∈ ClassKeywords → kw.token <+: d.drop i →
          (∀ j, i < j → ¬ kw.token <+: d.drop j) →
          info.find kw.id = some (.string (valueText ClassKeywords d i kw))) ∧
    (∀ p0 kw0, findNextKeyword d 0 PropertyKeywords = some (p0, kw0) →
      (∃ p ∈ mo.properties, p.name = mid d 0 p0) →
      (∀ i kw, kw ∈ PropertyKeywords → kw.token <+: d.drop i →
        (kw.id = Keyword.Column → valueText PropertyKeywords d i kw ≠ []) ∧
        (kw.id ≠ Keyword.Column →
          valueText PropertyKeywords d i kw = [] ∨
          valueText PropertyKeywords d i kw = "true".toList ∨
          valueText PropertyKeywords d i kw = "false".toList)) →
      ∃ info, extractPropertyInfo mo d = .ok info ∧
        ∀ i kw, kw ∈ PropertyKeywords → kw.token <+: d.drop i →
          (∀ j, i < j → ¬ kw.token <+: d.drop j) →
          (kw.id = Keyword.Column →
            info.find kw.id = some (.string (valueText PropertyKeywords d i kw))) ∧
          (kw.id ≠ Keyword.Column →
            (valueText PropertyKeywords d i kw = [] ∨
                valueText PropertyKeywords d i kw = "true".toList →
              info.find kw.id = some (.bool true)) ∧
            (valueText PropertyKeywords d i kw = "false".toList →
              info.find kw.id = some (.bool false)))) ∧
    (∃ info, extractClassInfo mo "TABLEaTABLEb".toList = .ok info ∧
      info.find Keyword.Table = some (.string "b".toList)) ∧
    ((∃ p ∈ mo.properties, p.name = "id".toList) →
      ∃ info, extractPropertyInfo mo "idIDENTITYIDENTITYfalse".toList = .ok info ∧
        info.find Keyword.Identity = some (.bool false)) := by
  refine ⟨?_, ?_, ⟨_, rfl, rfl⟩, ?_⟩
  · intro kw0 h0 hvalid
    obtain ⟨_, hat0, _⟩ := findNextKeyword_leftmost upperTokens_class h0
    obtain ⟨info, hr⟩ := recordAll_of_valid ClassKeywords d
      (keywordOccurrences ClassKeywords d (d.length + 1) (some (0, kw0))) {}
      (fun occ hocc => by
        obtain ⟨_, hat⟩ := keywordOccurrences_mem upperTokens_class d _ _ _ hat0
          occ.1 occ.2 hocc
        obtain ⟨hm, hp⟩ := keywordAt_some hat
        rw [recordedValue_of_nonempty (class_ids hm) (hvalid occ.1 occ.2 hm hp)]
        simp)
    refine ⟨info, (extractClassInfo_pass mo d h0).1 info hr, ?_⟩
    intro i kw hkw hp hlast
    rw [recordAll_last (Or.inl rfl) d (d.length + 1) 0 kw0 hat0 hkw
      (class_occurrence_visited h0 hkw hp) hlast hr]
    exact recordedValue_of_nonempty (class_ids hkw) (hvalid i kw hkw hp)
  · intro p0 kw0 h0 hex hvalid
    obtain ⟨_, hat0, _⟩ := findNextKeyword_leftmost upperTokens_property h0
    obtain ⟨info, hr⟩ := recordAll_of_valid PropertyKeywords d
      (keywordOccurrences PropertyKeywords d (d.length + 1) (some (p0, kw0)))
      (({} : QOrmUserMetadata).insert .Property (.string (mid d 0 p0)))
      (fun occ hocc => by
        obtain ⟨_, hat⟩ := keywordOccurrences_mem upperTokens_property d _ _ _ hat0
          occ.1 occ.2 hocc
        obtain ⟨hm, hp⟩ := keywordAt_some hat
        exact (recordedValue_property hm (hvalid occ.1 occ.2 hm hp)).1)
    refine ⟨info, (extractPropertyInfo_pass mo d h0).1 hex info hr, ?_⟩
    intro i kw hkw hp hlast
    have hvis : (i, kw) ∈ keywordOccurrences PropertyKeywords d (d.length + 1)
        (some (p0, kw0)) := by
      rcases property_occurrence_visited h0 hkw hp with hv | ⟨ht, p, a, ha, hi, hpa, hma, hva⟩
      · exact hv
      · subst hi
        exact absurd (transient_overlap_invalid hma ha hkw ht hp)
          (recordedValue_property hma (hvalid p a hma hpa)).1
    have hf := recordAll_last (Or.inr rfl) d (d.length + 1) p0 kw0 hat0 hkw hvis hlast hr
    obtain ⟨_, h2, h3⟩ := recordedValue_property hkw (hvalid i kw hkw hp)
    refine ⟨fun hc => ?_, fun hn => ⟨fun hv => ?_, fun hv => ?_⟩⟩
    · rw [hf]; exact h2 hc
    · rw [hf]; exact (h3 hn).1 hv
    · rw [hf]; exact (h3 hn).2 hv
  · intro hex
    have h0 : findNextKeyword "idIDENTITYIDENTITYfalse".toList 0 PropertyKeywords
        = some (2, ⟨.Identity, "IDENTITY".toList⟩) := rfl
    exact ⟨_, (extractPropertyInfo_pass mo _ h0).1 hex _ rfl, rfl⟩

theorem repeated_keywords_last_wins_witness :
    (∃ info, extractClassInfo Shelf "TABLEaTABLEb".toList = .ok info ∧
      info.find Keyword.Table = some (.string "b".toList)) ∧
    (∃ info, extractPropertyInfo Shelf "idIDENTITYIDENTITYfalse".toList = .ok info ∧
      info.find Keyword.Identity = some (.bool false)) := by
  constructor
  · obtain ⟨info, h1, h2⟩ := (repeated_keywords_last_wins Shelf "TABLEaTABLEb".toList).1
      ⟨.Table, "TABLE".toList⟩ rfl
      (fun i kw hkw hp => by
        have hlt := occurrence_lt_length upperTokens_class hkw hp
        have e : ("TABLEaTABLEb".toList).length = 12 := rfl
        rw [e] at hlt
        simp only [ClassKeywords, List.mem_cons, List.mem_singleton, List.not_mem_nil,
          or_false] at hkw
        rcases hkw with rfl | rfl <;> (revert hp; interval_cases i <;> decide))
    refine ⟨info, h1, h2 6 ⟨.Table, "TABLE".toList⟩ (by decide) (by decide) ?_⟩
    intro j hj hpre
    have h := hpre.length_le
    rw [List.length_drop] at h
    have e : ("TABLEaTABLEb".toList).length = 12 := rfl
    rw [e] at h
    change 5 ≤ 12 - j at h
    have hj2 : j = 7 := by omega
    subst hj2
    revert hpre
    decide
  · obtain ⟨info, h1, h2⟩ :=
      (repeated_keywords_last_wins Shelf "idIDENTITYIDENTITYfalse".toList).2.1
        2 ⟨.Identity, "IDENTITY".toList⟩ rfl ⟨intProperty "id".toList, by decide, rfl⟩
      (fun i kw hkw hp => by
        have hlt := occurrence_lt_length upperTokens_property hkw hp
        have e : ("idIDENTITYIDENTITYfalse".toList).length = 23 := rfl
        rw [e] at hlt
        simp only [PropertyKeywords, List.mem_cons, List.mem_singleton, List.not_mem_nil,
          or_false] at hkw
        rcases hkw with rfl | rfl | rfl | rfl <;> (revert hp; interval_cases i <;> decide))
    refine ⟨info, h1, ((h2 10 ⟨.Identity, "IDENTITY".toList⟩ (by decide) (by decide) ?_).2
      (by decide)).2 rfl⟩
    intro j hj hpre
    have h := hpre.length_le
    rw [List.length_drop] at h
    have e : ("idIDENTITYIDENTITYfalse".toList).length = 23 := rfl
    rw [e] at h
    change 8 ≤ 23 - j at h
    have hj2 : j ≤ 15 := by omega
    revert hpre
    interval_cases j <;> decide

end QtOrm
